import Mathlib

/-!
# B+ tree index over integer keys (`src/src/btree.cpp`)

A shallow embedding of `BTreeIndex` together with the facts proved about it.

Modelling conventions.

* The index file seen through the buffer manager is a map from page ids to page
  contents (`BufMgr.file`) with an allocation counter (`numPages`); page ids are
  handed out sequentially from 1.  The buffer pool is taken to be large enough, so
  `readPage`/`allocPage` never fail for lack of a free frame; pin counts are kept
  in `pinCnt`.
* A page is read through one of three views (`reinterpret_cast` in the source).  A
  node's arrays are represented by the list of their first `keySize` entries (for the
  child array of an internal node: the first `keySize + 1` entries), so `keySize` is
  the length of `keyArray`.  Slots beyond `keySize` are never read by the source.
* The compile-time constants `INTARRAYLEAFSIZE` and `INTARRAYNONLEAFSIZE` are declared
  in a header that is not part of the sources at hand; they are parameters (`Consts`).
* The member array `page_nums`, in which a scan records the pages it keeps pinned, is
  declared in the same missing header; its capacity is taken to be large enough, so it
  is a function on the natural numbers.
* Keys and scan bounds are the mathematical values of C `int`s; the only arithmetic
  the source does on them is `low + 1` and `high - 1` in `startScan`, which wraps to
  32 bits (`wrapInt`).
* Loops of the form `while(1)` are modelled with a fuel argument.  A result `none`
  (`Res.stuck` for the scan interface) stands for every outcome outside the model:
  reading a page that was never allocated, reading a page through the wrong view,
  indexing outside the filled part of an array, unpinning an unpinned page, or a
  loop that does not come to an end.
-/

namespace BTree

abbrev PageId := Nat

/-- The constant `Page::INVALID_NUMBER`. -/
def INVALID_NUMBER : PageId := 0

/-- Record locator of the base relation: page number and slot number. -/
structure RecordId where
  page_number : Nat
  slot_number : Nat
  deriving DecidableEq, Repr

inductive Datatype where
  | INTEGER
  | DOUBLE
  | STRING
  deriving DecidableEq, Repr

inductive Operator where
  | LT
  | LTE
  | GTE
  | GT
  deriving DecidableEq, Repr

/-- The node capacities, fixed at compile time in the source. -/
structure Consts where
  INTARRAYLEAFSIZE : Nat
  INTARRAYNONLEAFSIZE : Nat
  deriving DecidableEq, Repr

/-- Modelled from the spec: the macro `MIDDLELEAF` is declared in the missing header;
the spec gives `M_L = ⌊L/2⌋` (and `main.cpp` uses `INTARRAYLEAFSIZE / 2 + 1` for the
size of the left half of a split leaf). -/
def Consts.MIDDLELEAF (c : Consts) : Nat := c.INTARRAYLEAFSIZE / 2

/-- Modelled from the spec: the macro `MIDDLENONLEAF` is declared in the missing
header; the spec gives `M_N = ⌊N/2⌋`. -/
def Consts.MIDDLENONLEAF (c : Consts) : Nat := c.INTARRAYNONLEAFSIZE / 2

structure IndexMetaInfo where
  relationName : String
  attrByteOffset : Int
  attrType : Datatype
  rootPageNo : PageId
  deriving DecidableEq, Repr

/-- Leaf node; `keySize` is `keyArray.length`. -/
structure LeafNodeInt where
  keyArray : List Int
  ridArray : List RecordId
  rightSibPageNo : PageId
  deriving DecidableEq, Repr

/-- Internal node; `keySize` is `keyArray.length`, the child array holds
`keySize + 1` page ids. -/
structure NonLeafNodeInt where
  level : Nat
  keyArray : List Int
  pageNoArray : List PageId
  deriving DecidableEq, Repr

/-- Content of a page of the index file. `blank` is a page that was allocated and
not yet written. -/
inductive Page where
  | blank
  | header (h : IndexMetaInfo)
  | leaf (n : LeafNodeInt)
  | nonLeaf (n : NonLeafNodeInt)
  deriving DecidableEq, Repr

def Page.asMeta : Page → Option IndexMetaInfo
  | Page.header h => some h
  | _ => none

def Page.asLeaf : Page → Option LeafNodeInt
  | Page.leaf n => some n
  | _ => none

def Page.asNonLeaf : Page → Option NonLeafNodeInt
  | Page.nonLeaf n => some n
  | _ => none

/-- The index file as seen through the buffer manager: page contents, number of
pages allocated so far, and pin counts. Every method of `BTreeIndex` reaches the
file through the members `bufMgr` and `file` only; this is their state. -/
structure BufMgr where
  file : PageId → Option Page
  numPages : Nat
  pinCnt : PageId → Nat

/-- State of a `BTreeIndex` object: the file behind `bufMgr`/`file` and the scan
members. The member `rootPageNum` is re-read from the header page at the start of
every operation and is a local value here; `currentPageData` is the id of the page
whose buffer frame the pointer of that name addresses. -/
structure BTreeIndex where
  bufMgr : BufMgr
  scanExecuting : Bool
  nextEntry : Int
  currentPageNum : PageId
  currentPageData : PageId
  lowValInt : Int
  highValInt : Int
  lowOp : Operator
  highOp : Operator
  num_pinned_page : Nat
  page_nums : Nat → PageId

/-- The member `headerPageNum`. -/
def headerPageNum : PageId := 1

/-- Value of a C `int` after an arithmetic step: wrap-around to 32 bits. -/
def wrapInt (x : Int) : Int := (x + 2147483648) % 4294967296 - 2147483648

/-! ## Buffer manager -/

/-- `bufMgr->readPage`: look the page up and pin it. -/
def readPage (s : BufMgr) (p : PageId) : Option (Page × BufMgr) :=
  match s.file p with
  | none => none
  | some pg => some (pg, { s with pinCnt := Function.update s.pinCnt p (s.pinCnt p + 1) })

/-- `bufMgr->unPinPage`: fails on a page that is not pinned. -/
def unPinPage (s : BufMgr) (p : PageId) (_dirty : Bool) : Option BufMgr :=
  if s.pinCnt p = 0 then none
  else some { s with pinCnt := Function.update s.pinCnt p (s.pinCnt p - 1) }

/-- `bufMgr->allocPage`: the next page id of the file, pinned, content not yet
written. -/
def allocPage (s : BufMgr) : PageId × BufMgr :=
  (s.numPages + 1,
   { s with
     numPages := s.numPages + 1
     file := Function.update s.file (s.numPages + 1) (some Page.blank)
     pinCnt := Function.update s.pinCnt (s.numPages + 1) (s.pinCnt (s.numPages + 1) + 1) })

/-- A store through the pointer to a pinned frame. -/
def writePage (s : BufMgr) (p : PageId) (pg : Page) : BufMgr :=
  { s with file := Function.update s.file p (some pg) }

/-! ## Array helpers -/

/-- The loop `for(i = 0; i < keySize; i++) if(keyArray[i] >= key) break;`:
the value of `i` after the loop. -/
def searchGE : List Int → Int → Nat
  | [], _ => 0
  | k :: ks, key => if k ≥ key then 0 else searchGE ks key + 1

/-- The loop `for(i = 0; i < keySize; i++) if(keyArray[i] > key) break;`. -/
def searchGT : List Int → Int → Nat
  | [], _ => 0
  | k :: ks, key => if k > key then 0 else searchGT ks key + 1

/-- Shift the entries from `position` on one slot to the right and store `x` at
`position`. -/
def insertAt {α : Type} (xs : List α) (position : Nat) (x : α) : List α :=
  xs.take position ++ x :: xs.drop position

/-- Child array after a separator was inserted at `position`: the entries right of
`position` move one slot to the right, `position` and `position + 1` receive the two
children. -/
def insertChildren (xs : List PageId) (position : Nat) (left right : PageId) : List PageId :=
  xs.take position ++ left :: right :: xs.drop (position + 1)

/-! ## Navigation -/

/-- The `while(1)` loop of `findLeafNode`. -/
def findLeafNodeLoop : Nat → BufMgr → PageId → Int → Option ((PageId × Nat × Nat) × BufMgr)
  | 0, _, _, _ => none
  | fuel + 1, s, temp_num, key =>
    match readPage s temp_num with
    | none => none
    | some (temp_page, s1) =>
      match unPinPage s1 temp_num false with
      | none => none
      | some s2 =>
        match temp_page.asNonLeaf with
        | none => none
        | some non_leaf_node =>
          match non_leaf_node.pageNoArray[searchGE non_leaf_node.keyArray key]? with
          | none => none
          | some child =>
            if non_leaf_node.level = 1 then
              match readPage s2 child with
              | none => none
              | some (leaf_page, s3) =>
                match unPinPage s3 child false with
                | none => none
                | some s4 =>
                  match leaf_page.asLeaf with
                  | none => none
                  | some leaf_node =>
                    some ((child, searchGE leaf_node.keyArray key, leaf_node.keyArray.length), s4)
            else findLeafNodeLoop fuel s2 child key

/-- `BTreeIndex::findLeafNode`: result `(page_num, position, total_key)`. The descent
only reads, so it cannot take more steps than there are pages unless it runs
forever; the fuel is `numPages + 1`. -/
def findLeafNode (s : BufMgr) (key : Int) : Option ((PageId × Nat × Nat) × BufMgr) :=
  match readPage s headerPageNum with
  | none => none
  | some (header_page, s1) =>
    match unPinPage s1 headerPageNum false with
    | none => none
    | some s2 =>
      match header_page.asMeta with
      | none => none
      | some treeHeader =>
        if treeHeader.rootPageNo = 2 then
          match readPage s2 treeHeader.rootPageNo with
          | none => none
          | some (root_page, s3) =>
            match unPinPage s3 treeHeader.rootPageNo false with
            | none => none
            | some s4 =>
              match root_page.asLeaf with
              | none => none
              | some leaf_node =>
                some ((treeHeader.rootPageNo, searchGE leaf_node.keyArray key,
                  leaf_node.keyArray.length), s4)
        else findLeafNodeLoop (s2.numPages + 1) s2 treeHeader.rootPageNo key

/-- The `while(1)` loop of `findParentNode`. -/
def findParentNodeLoop : Nat → BufMgr → PageId → PageId → Int →
    Option ((PageId × Nat × Nat) × BufMgr)
  | 0, _, _, _, _ => none
  | fuel + 1, s, temp_num, child_page_num, key =>
    match readPage s temp_num with
    | none => none
    | some (temp_page, s1) =>
      match unPinPage s1 temp_num false with
      | none => none
      | some s2 =>
        match temp_page.asNonLeaf with
        | none => none
        | some non_leaf_node =>
          match non_leaf_node.pageNoArray[searchGT non_leaf_node.keyArray key]? with
          | none => none
          | some child =>
            if child = child_page_num then
              some ((temp_num, searchGT non_leaf_node.keyArray key,
                non_leaf_node.keyArray.length), s2)
            else findParentNodeLoop fuel s2 child child_page_num key

/-- `BTreeIndex::findParentNode`: result `(parent_page_num, position, total_key)`. -/
def findParentNode (s : BufMgr) (child_page_num : PageId) (key : Int) :
    Option ((PageId × Nat × Nat) × BufMgr) :=
  match readPage s headerPageNum with
  | none => none
  | some (header_page, s1) =>
    match unPinPage s1 headerPageNum false with
    | none => none
    | some s2 =>
      match header_page.asMeta with
      | none => none
      | some treeHeader =>
        if child_page_num = treeHeader.rootPageNo then
          some ((INVALID_NUMBER, 0, 0), s2)
        else findParentNodeLoop (s2.numPages + 1) s2 treeHeader.rootPageNo child_page_num key

/-! ## Insertion -/

/-- `BTreeIndex::modifyLeafNode`: result `(left_node_num, right_node_num, push_up_key)`.
The callers pass `total_key = keySize` of the page and `position ≤ keySize`. -/
def modifyLeafNode (c : Consts) (s : BufMgr) (page_num : PageId) (key : Int) (rid : RecordId)
    (position total_key : Nat) : Option ((PageId × PageId × Int) × BufMgr) :=
  if total_key < c.INTARRAYLEAFSIZE then
    match readPage s page_num with
    | none => none
    | some (leaf_page, s1) =>
      match leaf_page.asLeaf with
      | none => none
      | some leaf_node =>
        match unPinPage
            (writePage s1 page_num (Page.leaf
              { keyArray := insertAt leaf_node.keyArray position key
                ridArray := insertAt leaf_node.ridArray position rid
                rightSibPageNo := leaf_node.rightSibPageNo }))
            page_num true with
        | none => none
        | some s2 => some ((page_num, INVALID_NUMBER, -1), s2)
  else
    match readPage s page_num with
    | none => none
    | some (left_page, s1) =>
      match allocPage s1 with
      | (temp_right_num, s2) =>
        match left_page.asLeaf with
        | none => none
        | some left_node =>
          let temp_key_array :=
            (insertAt left_node.keyArray position key).take (c.INTARRAYLEAFSIZE + 1)
          let temp_rid_array :=
            (insertAt left_node.ridArray position rid).take (c.INTARRAYLEAFSIZE + 1)
          match temp_key_array[c.MIDDLELEAF]? with
          | none => none
          | some push_up_key =>
            let s3 := writePage s2 page_num (Page.leaf
              { keyArray := temp_key_array.take (c.MIDDLELEAF + 1)
                ridArray := temp_rid_array.take (c.MIDDLELEAF + 1)
                rightSibPageNo := temp_right_num })
            let s4 := writePage s3 temp_right_num (Page.leaf
              { keyArray :=
                  (temp_key_array.drop (c.MIDDLELEAF + 1)).take (c.INTARRAYLEAFSIZE - c.MIDDLELEAF)
                ridArray :=
                  (temp_rid_array.drop (c.MIDDLELEAF + 1)).take (c.INTARRAYLEAFSIZE - c.MIDDLELEAF)
                rightSibPageNo := left_node.rightSibPageNo })
            match unPinPage s4 page_num true with
            | none => none
            | some s5 =>
              match unPinPage s5 temp_right_num true with
              | none => none
              | some s6 => some ((page_num, temp_right_num, push_up_key), s6)

/-- `BTreeIndex::modifyNonLeafNode`: result `(left_node_num, right_node_num, push_up_key)`.
The callers pass `total_key = keySize` of the page and `position ≤ keySize`. -/
def modifyNonLeafNode (c : Consts) (s : BufMgr) (page_num : PageId) (key : Int)
    (left_child_num right_child_num : PageId) (position total_key : Nat) :
    Option ((PageId × PageId × Int) × BufMgr) :=
  if total_key < c.INTARRAYNONLEAFSIZE then
    match readPage s page_num with
    | none => none
    | some (non_leaf_page, s1) =>
      match non_leaf_page.asNonLeaf with
      | none => none
      | some non_leaf_node =>
        match unPinPage
            (writePage s1 page_num (Page.nonLeaf
              { level := non_leaf_node.level
                keyArray := insertAt non_leaf_node.keyArray position key
                pageNoArray :=
                  insertChildren non_leaf_node.pageNoArray position left_child_num right_child_num }))
            page_num true with
        | none => none
        | some s2 => some ((page_num, INVALID_NUMBER, -1), s2)
  else
    match readPage s page_num with
    | none => none
    | some (left_non_leaf_page, s1) =>
      match allocPage s1 with
      | (temp_right_num, s2) =>
        match left_non_leaf_page.asNonLeaf with
        | none => none
        | some left_non_leaf_node =>
          let temp_key_array :=
            (insertAt left_non_leaf_node.keyArray position key).take (c.INTARRAYNONLEAFSIZE + 1)
          let temp_pageid_array :=
            (insertChildren left_non_leaf_node.pageNoArray position left_child_num
              right_child_num).take (c.INTARRAYNONLEAFSIZE + 2)
          match temp_key_array[c.MIDDLENONLEAF]? with
          | none => none
          | some push_up_key =>
            let s3 := writePage s2 page_num (Page.nonLeaf
              { level := left_non_leaf_node.level
                keyArray := temp_key_array.take c.MIDDLENONLEAF
                pageNoArray := temp_pageid_array.take (c.MIDDLENONLEAF + 1) })
            let s4 := writePage s3 temp_right_num (Page.nonLeaf
              { level := left_non_leaf_node.level
                keyArray := (temp_key_array.drop (c.MIDDLENONLEAF + 1)).take
                  (c.INTARRAYNONLEAFSIZE - c.MIDDLENONLEAF)
                pageNoArray := (temp_pageid_array.drop (c.MIDDLENONLEAF + 1)).take
                  (c.INTARRAYNONLEAFSIZE - c.MIDDLENONLEAF + 1) })
            match unPinPage s4 page_num true with
            | none => none
            | some s5 =>
              match unPinPage s5 temp_right_num true with
              | none => none
              | some s6 => some ((page_num, temp_right_num, push_up_key), s6)

/-- The `while(1)` loop of `insertEntry` that carries a pushed-up key to the
ancestors. -/
def insertEntryLoop (c : Consts) : Nat → BufMgr → PageId → PageId → PageId → Int →
    Option BufMgr
  | 0, _, _, _, _, _ => none
  | fuel + 1, s, leaf_num, left_child_num, right_child_num, push_up_key =>
    match findParentNode s left_child_num push_up_key with
    | none => none
    | some ((parent_num, position, total_key), s1) =>
      if parent_num = INVALID_NUMBER then
        match allocPage s1 with
        | (rootPageNum, s2) =>
          match readPage s2 headerPageNum with
          | none => none
          | some (header_page, s3) =>
            match header_page.asMeta with
            | none => none
            | some tree_header =>
              let s4 := writePage s3 headerPageNum
                (Page.header { tree_header with rootPageNo := rootPageNum })
              let s5 := writePage s4 rootPageNum (Page.nonLeaf
                { level := if left_child_num = leaf_num then 1 else 0
                  keyArray := [push_up_key]
                  pageNoArray := [left_child_num, right_child_num] })
              match unPinPage s5 headerPageNum true with
              | none => none
              | some s6 => unPinPage s6 rootPageNum true
      else
        match modifyNonLeafNode c s1 parent_num push_up_key left_child_num right_child_num
            position total_key with
        | none => none
        | some ((left_node_num, right_node_num, push_up_key2), s2) =>
          if right_node_num = INVALID_NUMBER then some s2
          else insertEntryLoop c fuel s2 leaf_num left_node_num right_node_num push_up_key2

/-- `BTreeIndex::insertEntry`. Every round of the push-up loop handles a node one
level higher, so the loop is given `numPages + 1` rounds. -/
def insertEntry (c : Consts) (s : BufMgr) (key : Int) (rid : RecordId) : Option BufMgr :=
  match findLeafNode s key with
  | none => none
  | some ((leaf_num, position, total_key), s1) =>
    match modifyLeafNode c s1 leaf_num key rid position total_key with
    | none => none
    | some ((left_child_num, right_child_num, push_up_key), s2) =>
      if right_child_num = INVALID_NUMBER then some s2
      else insertEntryLoop c (s2.numPages + 1) s2 leaf_num left_child_num right_child_num
        push_up_key

/-- The file when the constructor starts on an index file that does not exist
yet: no page, nothing pinned. -/
def emptyFile : BufMgr :=
  { file := fun _ => none
    numPages := 0
    pinCnt := fun _ => 0 }

/-- The characters of the C string at the start of a character sequence: those before
the first NUL. It is what `c_str()`, `strcpy` and `strcmp` see of a `std::string`. -/
def cstr (s : String) : String :=
  String.mk (s.toList.takeWhile (fun ch => decide (ch ≠ Char.ofNat 0)))

/-- The constructor on a new file, up to the relation scan: allocate the header
page and the root page, initialise the root as an empty leaf, fill in the header
(`strcpy` stores the relation name as a C string; it is taken to fit the array,
whose size is declared in the missing header), unpin both. -/
def createIndex (relationName : String) (attrByteOffset : Int) (attrType : Datatype) :
    Option BufMgr :=
  match allocPage emptyFile with
  | (hdrNum, s1) =>
    match allocPage s1 with
    | (rootPageNum, s2) =>
      let s3 := writePage s2 rootPageNum (Page.leaf
        { keyArray := [], ridArray := [], rightSibPageNo := INVALID_NUMBER })
      let s4 := writePage s3 hdrNum (Page.header
        { relationName := cstr relationName, attrByteOffset := attrByteOffset
          attrType := attrType, rootPageNo := rootPageNum })
      match unPinPage s4 hdrNum true with
      | none => none
      | some s5 => unPinPage s5 rootPageNum true

/-- The relation scan of the constructor: `insertEntry` for every record of the
relation, in file order. -/
def insertAll (c : Consts) : BufMgr → List (Int × RecordId) → Option BufMgr
  | s, [] => some s
  | s, (key, rid) :: rest =>
    match insertEntry c s key rid with
    | none => none
    | some s1 => insertAll c s1 rest

/-- An index object on the file `b` with no scan in progress. The constructor sets
`scanExecuting = false` and leaves the other scan members unset; they are given the
value zero. -/
def mkIndex (b : BufMgr) : BTreeIndex :=
  { bufMgr := b
    scanExecuting := false
    nextEntry := 0
    currentPageNum := 0
    currentPageData := 0
    lowValInt := 0
    highValInt := 0
    lowOp := Operator.GTE
    highOp := Operator.LTE
    num_pinned_page := 0
    page_nums := fun _ => 0 }

/-- `BTreeIndex::BTreeIndex` on a relation whose index file does not exist yet; the
relation is given as the list of `(key, rid)` pairs its scan produces. -/
def buildIndex (c : Consts) (relationName : String) (attrByteOffset : Int) (attrType : Datatype)
    (relation : List (Int × RecordId)) : Option BTreeIndex :=
  match createIndex relationName attrByteOffset attrType with
  | none => none
  | some s =>
    match insertAll c s relation with
    | none => none
    | some s1 => some (mkIndex s1)

/-- Outcome of the constructor: the index object together with the value of its
member `rootPageNum`, the exception `BadIndexInfoException` (with the state of the
file at the throw), or an outcome outside the model. -/
inductive Opened where
  | ok (index : BTreeIndex) (rootPageNum : PageId)
  | BadIndexInfo (file : BufMgr)
  | stuck

/-- The branch of `BTreeIndex::BTreeIndex` for an index file that exists: read the
header page, take over `rootPageNo`, compare the stored parameters with the
arguments. -/
def openIndex (s : BufMgr) (relationName : String) (attrByteOffset : Int) (attrType : Datatype) :
    Opened :=
  match readPage s headerPageNum with
  | none => Opened.stuck
  | some (header_page, s1) =>
    match unPinPage s1 headerPageNum false with
    | none => Opened.stuck
    | some s2 =>
      match header_page.asMeta with
      | none => Opened.stuck
      | some treeHeader =>
        if treeHeader.attrByteOffset ≠ attrByteOffset ∨ treeHeader.attrType ≠ attrType ∨
            cstr treeHeader.relationName ≠ cstr relationName then
          Opened.BadIndexInfo s2
        else Opened.ok (mkIndex s2) treeHeader.rootPageNo

/-- The name the constructor gives the index file:
`idxStr << relationName << '.' << attrByteOffset`. -/
def indexFileName (relationName : String) (attrByteOffset : Int) : String :=
  relationName ++ "." ++ toString attrByteOffset

/-- `BTreeIndex::BTreeIndex`: the value of the out parameter `outIndexName` and the
outcome. `disk` tells for every file name whether the file exists (`BlobFile::exists`)
and what it holds; `relation` is what the scan of the relation file produces. After a
build the member `rootPageNum` has the value that the header page holds, because
`insertEntry` reads it from there and stores it there. -/
def constructIndex (c : Consts) (disk : String → Option BufMgr) (relation : List (Int × RecordId))
    (relationName : String) (attrByteOffset : Int) (attrType : Datatype) : String × Opened :=
  let outIndexName := indexFileName relationName attrByteOffset
  match disk outIndexName with
  | some s => (outIndexName, openIndex s relationName attrByteOffset attrType)
  | none =>
    match buildIndex c relationName attrByteOffset attrType relation with
    | none => (outIndexName, Opened.stuck)
    | some index =>
      match index.bufMgr.file headerPageNum with
      | some (Page.header treeHeader) => (outIndexName, Opened.ok index treeHeader.rootPageNo)
      | _ => (outIndexName, Opened.stuck)

/-! ## Scanning -/

inductive Exn where
  | BadOpcodes
  | BadScanrange
  | NoSuchKeyFound
  | ScanNotInitialized
  | IndexScanCompleted
  deriving DecidableEq, Repr

/-- Outcome of a call of the scan interface: normal return, one of the index
exceptions (the state at the throw is kept), or an outcome outside the model. -/
inductive Res (α : Type) where
  | ok (a : α) (s : BTreeIndex)
  | throw (e : Exn) (s : BTreeIndex)
  | stuck

/-- The `while(1)` loop of `findScanPage`. Result `(page_num, entry)`. -/
def findScanPageLoop : Nat → BufMgr → PageId → Int → Int →
    Option ((PageId × Int) × BufMgr)
  | 0, _, _, _, _ => none
  | fuel + 1, s, temp_num, low_value, high_value =>
    match readPage s temp_num with
    | none => none
    | some (temp_page, s1) =>
      match unPinPage s1 temp_num false with
      | none => none
      | some s2 =>
        match temp_page.asNonLeaf with
        | none => none
        | some non_leaf_node =>
          match non_leaf_node.pageNoArray[searchGE non_leaf_node.keyArray low_value]? with
          | none => none
          | some child =>
            if non_leaf_node.level = 1 then
              match readPage s2 child with
              | none => none
              | some (leaf_page, s3) =>
                match unPinPage s3 child false with
                | none => none
                | some s4 =>
                  match leaf_page.asLeaf with
                  | none => none
                  | some leaf_node =>
                    let entry := searchGE leaf_node.keyArray low_value
                    if entry = leaf_node.keyArray.length then
                      some ((INVALID_NUMBER, (entry : Int)), s4)
                    else
                      match leaf_node.keyArray[entry]? with
                      | none => none
                      | some k =>
                        if k > high_value then some ((INVALID_NUMBER, (entry : Int)), s4)
                        else some ((child, (entry : Int)), s4)
            else findScanPageLoop fuel s2 child low_value high_value

/-- `BTreeIndex::findScanPage`: result `(page_num, entry)`. -/
def findScanPage (s : BufMgr) (low_value high_value : Int) :
    Option ((PageId × Int) × BufMgr) :=
  if low_value > high_value then some ((INVALID_NUMBER, -1), s)
  else
    match readPage s headerPageNum with
    | none => none
    | some (header_page, s1) =>
      match unPinPage s1 headerPageNum false with
      | none => none
      | some s2 =>
        match header_page.asMeta with
        | none => none
        | some treeHeader =>
          if treeHeader.rootPageNo = 2 then
            match readPage s2 treeHeader.rootPageNo with
            | none => none
            | some (root_page, s3) =>
              match unPinPage s3 treeHeader.rootPageNo false with
              | none => none
              | some s4 =>
                match root_page.asLeaf with
                | none => none
                | some leaf_node =>
                  let entry := searchGE leaf_node.keyArray low_value
                  if entry = leaf_node.keyArray.length then
                    some ((INVALID_NUMBER, (entry : Int)), s4)
                  else some ((treeHeader.rootPageNo, (entry : Int)), s4)
          else findScanPageLoop (s2.numPages + 1) s2 treeHeader.rootPageNo low_value high_value

/-- The loop of `endScan` that unpins `page_nums[0 .. num_pinned_page - 1]`. -/
def unpinAll : BufMgr → List PageId → Option BufMgr
  | s, [] => some s
  | s, p :: ps =>
    match unPinPage s p false with
    | none => none
    | some s1 => unpinAll s1 ps

/-- `BTreeIndex::endScan`. -/
def endScan (s : BTreeIndex) : Res Unit :=
  if s.scanExecuting = false then Res.throw Exn.ScanNotInitialized s
  else
    match unpinAll s.bufMgr ((List.range s.num_pinned_page).map s.page_nums) with
    | none => Res.stuck
    | some b => Res.ok () { s with scanExecuting := false, bufMgr := b }

/-- The part of `startScan` after a scan in progress has been ended. -/
def startScanBody (s : BTreeIndex) (lowValParm : Int) (lowOpParm : Operator) (highValParm : Int)
    (highOpParm : Operator) : Res Unit :=
  let s1 := { s with num_pinned_page := 0 }
  if ¬ (lowOpParm = Operator.GT ∨ lowOpParm = Operator.GTE) then Res.throw Exn.BadOpcodes s1
  else if ¬ (highOpParm = Operator.LT ∨ highOpParm = Operator.LTE) then
    Res.throw Exn.BadOpcodes s1
  else if lowValParm > highValParm then Res.throw Exn.BadScanrange s1
  else
    let s2 := { s1 with
      lowValInt := if lowOpParm = Operator.GT then wrapInt (lowValParm + 1) else lowValParm
      highValInt := if highOpParm = Operator.LT then wrapInt (highValParm - 1) else highValParm
      lowOp := lowOpParm
      highOp := highOpParm }
    match findScanPage s2.bufMgr s2.lowValInt s2.highValInt with
    | none => Res.stuck
    | some ((page_num, entry), b3) =>
      let s4 := { s2 with bufMgr := b3, currentPageNum := page_num, nextEntry := entry }
      if s4.currentPageNum ≠ INVALID_NUMBER then
        match readPage s4.bufMgr s4.currentPageNum with
        | none => Res.stuck
        | some (_, b5) =>
          Res.ok ()
            { s4 with
              bufMgr := b5
              currentPageData := s4.currentPageNum
              page_nums := Function.update s4.page_nums s4.num_pinned_page s4.currentPageNum
              num_pinned_page := s4.num_pinned_page + 1
              scanExecuting := true }
      else Res.throw Exn.NoSuchKeyFound s4

/-- `BTreeIndex::startScan`; the bounds are the integers the two pointers address. -/
def startScan (s : BTreeIndex) (lowValParm : Int) (lowOpParm : Operator) (highValParm : Int)
    (highOpParm : Operator) : Res Unit :=
  if s.scanExecuting = true then
    match endScan s with
    | Res.ok _ s1 => startScanBody s1 lowValParm lowOpParm highValParm highOpParm
    | Res.throw e s1 => Res.throw e s1
    | Res.stuck => Res.stuck
  else startScanBody s lowValParm lowOpParm highValParm highOpParm

/-- Read `xs[i]` for a C `int` index; outside the filled part there is no value. -/
def getAt {α : Type} (xs : List α) (i : Int) : Option α :=
  if i < 0 then none else xs[i.toNat]?

/-- `BTreeIndex::scanNext`. -/
def scanNext (s : BTreeIndex) : Res RecordId :=
  if s.scanExecuting = false then Res.throw Exn.ScanNotInitialized s
  else if s.currentPageNum = INVALID_NUMBER then Res.throw Exn.IndexScanCompleted s
  else
    match s.bufMgr.file s.currentPageData with
    | none => Res.stuck
    | some pg =>
      match pg.asLeaf with
      | none => Res.stuck
      | some leaf_node =>
        match getAt leaf_node.keyArray s.nextEntry with
        | none => Res.stuck
        | some k =>
          if k > s.highValInt then Res.throw Exn.IndexScanCompleted s
          else
            match getAt leaf_node.ridArray s.nextEntry with
            | none => Res.stuck
            | some outRid =>
              if (leaf_node.keyArray.length : Int) - 1 > s.nextEntry then
                Res.ok outRid { s with nextEntry := s.nextEntry + 1 }
              else if (leaf_node.keyArray.length : Int) - 1 = s.nextEntry ∧
                  leaf_node.rightSibPageNo ≠ INVALID_NUMBER then
                match readPage s.bufMgr leaf_node.rightSibPageNo with
                | none => Res.stuck
                | some (_, b1) =>
                  Res.ok outRid
                    { s with
                      bufMgr := b1
                      nextEntry := 0
                      currentPageNum := leaf_node.rightSibPageNo
                      currentPageData := leaf_node.rightSibPageNo
                      page_nums :=
                        Function.update s.page_nums s.num_pinned_page leaf_node.rightSibPageNo
                      num_pinned_page := s.num_pinned_page + 1 }
              else Res.ok outRid { s with currentPageNum := INVALID_NUMBER }

/-! ## Observers used in the statements -/

/-- The exception a call raised, if it raised one. -/
def Res.raised {α : Type} : Res α → Option Exn
  | Res.throw e _ => some e
  | _ => none

/-- The state a call left behind (on normal return or on an exception). -/
def Res.state {α : Type} : Res α → Option BTreeIndex
  | Res.ok _ s => some s
  | Res.throw _ s => some s
  | Res.stuck => none

/-- Whether a call returned normally. -/
def Res.returned {α : Type} : Res α → Bool
  | Res.ok _ _ => true
  | _ => false

/-- The pages recorded in `page_nums[0 .. num_pinned_page - 1]`. -/
def recordedPages (s : BTreeIndex) : List PageId :=
  (List.range s.num_pinned_page).map s.page_nums

/-- Pin accounting of a scan: every page is pinned at least as often as it is
recorded in `page_nums`. -/
def PinsHeld (s : BTreeIndex) : Prop :=
  ∀ p, (recordedPages s).count p ≤ s.bufMgr.pinCnt p

/-- A run of `n` calls of `scanNext` that all return normally: the rids they return
and the state after the last one. -/
def scanNextN : Nat → BTreeIndex → Option (List RecordId × BTreeIndex)
  | 0, s => some ([], s)
  | n + 1, s =>
    match scanNext s with
    | Res.ok r s1 =>
      match scanNextN n s1 with
      | some (rs, s2) => some (r :: rs, s2)
      | none => none
    | _ => none

/-- A relation with the keys 0..9, as in the error tests of `main.cpp`. -/
def sampleRelation : List (Int × RecordId) :=
  (List.range 10).map fun (i : Nat) => ((i : Int), { page_number := 1, slot_number := i })

/-- Small capacities, so that ten keys already give a tree with internal nodes. -/
def sampleConsts : Consts := { INTARRAYLEAFSIZE := 4, INTARRAYNONLEAFSIZE := 4 }

/-- The index built over `sampleRelation`. -/
def sampleIndex : BTreeIndex :=
  (buildIndex sampleConsts "relA" 0 Datatype.INTEGER sampleRelation).getD (mkIndex emptyFile)

/-- The state of `sampleIndex` after `startScan(2, GTE, 5, LTE)`. -/
def sampleScan : BTreeIndex :=
  ((startScan sampleIndex 2 Operator.GTE 5 Operator.LTE).state).getD sampleIndex

/-! ## The shape of a reachable index

The tree is described level by level, leaves first. An entry of a level is a page
id together with the upper bound of the keys below that page; the node that is last
on its level has no bound (`none`). -/

abbrev Entry := Nat × Option Int

/-- `k ≤ U`, where `none` is the missing bound of the last node of a level. -/
def leB (k : Int) : Option Int → Prop
  | none => True
  | some u => k ≤ u

/-- Strict order of the bounds along a level: `none` only at the end. -/
def ltBB : Option Int → Option Int → Prop
  | none, _ => False
  | some _, none => True
  | some a, some b => a < b

/-- The bounds along a level increase strictly. -/
def LevelSorted (lv : List Entry) : Prop := (lv.map Prod.snd).Pairwise ltBB

/-- A bound that lies on the low side of a search: `blw` holds for it. -/
def belowB (blw : Int → Bool) : Option Int → Prop
  | none => False
  | some u => blw u = true

/-- The number of leading keys for which `blw` holds. -/
def searchP (blw : Int → Bool) : List Int → Nat
  | [] => 0
  | k :: ks => if blw k then searchP blw ks + 1 else 0

/-- The `(key, rid)` pairs of a leaf. -/
def LeafNodeInt.entries (l : LeafNodeInt) : List (Int × RecordId) :=
  l.keyArray.zip l.ridArray

/-- What a leaf with bound `U` has to satisfy. -/
def LeafOK (c : Consts) (l : LeafNodeInt) (U : Option Int) : Prop :=
  l.ridArray.length = l.keyArray.length ∧
  l.keyArray.length ≤ c.INTARRAYLEAFSIZE ∧
  (∀ k ∈ l.keyArray, leB k U) ∧
  (∀ u, U = some u → u ∈ l.keyArray)

/-- The page id of the first entry of `es`, or `nxt` when there is none. -/
def headPage (es : List Entry) (nxt : Nat) : Nat :=
  match es with
  | [] => nxt
  | e :: _ => e.1

/-- The leaves `es` are chained through `rightSibPageNo`, the last one pointing to
`nxt`, and hold the pairs `kvs` in this order. With `ne` the first leaf must not be
empty; the leaves after the first never are. -/
def Chain (c : Consts) (b : BufMgr) : Bool → List Entry → Nat → List (Int × RecordId) → Prop
  | _, [], _, kvs => kvs = []
  | ne, e :: es, nxt, kvs =>
    ∃ l, b.file e.1 = some (Page.leaf l) ∧ LeafOK c l e.2 ∧
      l.rightSibPageNo = headPage es nxt ∧ (ne = true → l.keyArray ≠ []) ∧
      ∃ rest, kvs = l.entries ++ rest ∧ Chain c b true es nxt rest

/-- The internal node on page `e.1` has the level flag `lvl`, and its children with
their bounds are `seg`: the bounds are its keys, followed by its own bound. -/
def NodeOK (c : Consts) (b : BufMgr) (lvl : Nat) (e : Entry) (seg : List Entry) : Prop :=
  ∃ n, b.file e.1 = some (Page.nonLeaf n) ∧ n.level = lvl ∧
    n.keyArray.length ≤ c.INTARRAYNONLEAFSIZE ∧
    seg.map Prod.fst = n.pageNoArray ∧
    seg.map Prod.snd = n.keyArray.map some ++ [e.2]

/-- The nodes of `upper` have, in order, exactly the entries of `lower` as
children. -/
def Link (c : Consts) (b : BufMgr) (lvl : Nat) : List Entry → List Entry → Prop
  | [], lower => lower = []
  | e :: es, lower =>
    ∃ seg rest, lower = seg ++ rest ∧ NodeOK c b lvl e seg ∧ Link c b lvl es rest

/-- Every level is linked to the level below it; the nodes right above the leaves
carry the level flag 1, all others 0. -/
def Links (c : Consts) (b : BufMgr) : Bool → List (List Entry) → Prop
  | _, [] => True
  | _, [_] => True
  | bottom, lo :: up :: rest =>
    Link c b (if bottom then 1 else 0) up lo ∧ Links c b false (up :: rest)

/-- The page ids of all levels. -/
def pagesOf (G : List (List Entry)) : List Nat := G.flatten.map Prod.fst

/-- The shape of the file while a split is being carried upwards: `lows` are the
levels below the level at hand, `cur` is that level as it is now, `curC` is that
level as the level above still sees it, `ups` are the levels above. Between two
calls of `insertEntry`, `cur = curC`. -/
structure Shape (c : Consts) (b : BufMgr) (lows : List (List Entry)) (cur curC : List Entry)
    (ups : List (List Entry)) (kvs : List (Int × RecordId)) : Prop where
  hdr : ∃ h, b.file headerPageNum = some (Page.header h) ∧
    (curC :: ups).getLast? = some [(h.rootPageNo, none)] ∧
    (h.rootPageNo = 2 ↔ lows = [] ∧ ups = [])
  chain : Chain c b false ((lows ++ [cur]).headD []) INVALID_NUMBER kvs
  sorted : (kvs.map Prod.fst).Pairwise (· < ·)
  linksLow : Links c b true (lows ++ [cur])
  linksUp : Links c b (decide (lows = [])) (curC :: ups)
  levels : ∀ lv ∈ lows ++ cur :: ups, LevelSorted lv ∧ lv ≠ []
  nodup : (pagesOf (lows ++ cur :: ups)).Nodup
  range : ∀ p ∈ pagesOf (lows ++ cur :: ups), 2 ≤ p ∧ p ≤ b.numPages

/-- The file holds a well-formed tree with the levels `G` (leaves first) and the
pairs `kvs`. -/
def Inv (c : Consts) (b : BufMgr) (G : List (List Entry)) (kvs : List (Int × RecordId)) : Prop :=
  ∃ lv0 ups, G = lv0 :: ups ∧ Shape c b [] lv0 lv0 ups kvs

/-- The state of `sampleScan` after the four calls of `scanNext` that return the
rids of the keys 2, 3, 4, 5. -/
def sampleDrained : BTreeIndex :=
  ((scanNextN 4 sampleScan).map Prod.snd).getD sampleScan

/-- The descent of `findLeafNode` and `findScanPage` from the internal node `p`
reaches the leaf `q` after reading the given number of internal nodes: all of them
but the last have a level flag other than 1, the last has the flag 1. -/
inductive LeafPath (b : BufMgr) (key : Int) : Nat → Nat → Nat → Prop
  | last {p : Nat} {n : NonLeafNodeInt} {q : Nat} :
      b.file p = some (Page.nonLeaf n) → n.level = 1 →
      n.pageNoArray[searchGE n.keyArray key]? = some q → LeafPath b key 1 p q
  | step {k : Nat} {p : Nat} {n : NonLeafNodeInt} {ch q : Nat} :
      b.file p = some (Page.nonLeaf n) → n.level ≠ 1 →
      n.pageNoArray[searchGE n.keyArray key]? = some ch → LeafPath b key k ch q →
      LeafPath b key (k + 1) p q

/-- The entry `(q, Uq)` is the first of the level `lv` whose bound is not below. -/
def Target (blw : Int → Bool) (lv pre : List Entry) (q : Nat) (Uq : Option Int)
    (post : List Entry) : Prop :=
  lv = pre ++ (q, Uq) :: post ∧ (∀ e ∈ pre, belowB blw e.2) ∧ ¬ belowB blw Uq

/-- What is known at the leaf where a descent for `key` ends, and about the arrays of
that leaf with `key` inserted at the position the descent found. -/
structure LeafSite (c : Consts) (b : BufMgr) (pre : List Entry) (q : Nat) (Uq : Option Int)
    (post : List Entry) (l : LeafNodeInt) (key : Int) (rid : RecordId)
    (kvs k1 rest : List (Int × RecordId)) : Prop where
  hk : kvs = k1 ++ l.entries ++ rest
  chainPre : Chain c b false pre q k1
  ok : LeafOK c l Uq
  sib : l.rightSibPageNo = headPage post INVALID_NUMBER
  chainPost : Chain c b true post INVALID_NUMBER rest
  ne : pre ≠ [] → l.keyArray ≠ []
  sortedT : (insertAt l.keyArray (searchGE l.keyArray key) key).Pairwise (· < ·)
  sortedAll : ((k1 ++ insertAt l.entries (searchGE l.keyArray key) (key, rid) ++ rest).map
    Prod.fst).Pairwise (· < ·)
  perm : (k1 ++ insertAt l.entries (searchGE l.keyArray key) (key, rid) ++ rest).Perm
    ((key, rid) :: kvs)
  boundT : ∀ k ∈ insertAt l.keyArray (searchGE l.keyArray key) key, leB k Uq
  preLt : ∀ e ∈ pre, ∀ t ∈ insertAt l.keyArray (searchGE l.keyArray key) key, ltBB e.2 (some t)

/-- The descent of `findParentNode` from the internal node `p` stops at the node
`par` after reading the given number of nodes: `par` is the first node on the way
whose chosen child is `child`. -/
inductive ParentPath (b : BufMgr) (key : Int) (child : Nat) : Nat → Nat → Nat → Prop
  | here {p : Nat} {n : NonLeafNodeInt} :
      b.file p = some (Page.nonLeaf n) →
      n.pageNoArray[searchGT n.keyArray key]? = some child → ParentPath b key child 1 p p
  | step {k : Nat} {p : Nat} {n : NonLeafNodeInt} {ch par : Nat} :
      b.file p = some (Page.nonLeaf n) →
      n.pageNoArray[searchGT n.keyArray key]? = some ch → ch ≠ child →
      ParentPath b key child k ch par → ParentPath b key child (k + 1) p par

/-- The children of a node, with their bounds, after the child at `i` was split. -/
def segInsert (seg : List Entry) (i : Nat) (left : Nat) (push : Int) (right : Nat)
    (U : Option Int) : List Entry :=
  seg.take i ++ (left, some push) :: (right, U) :: seg.drop (i + 1)


/-- What is known at the parent of a node that was just split into `left` and
`right` with the separator `push`: the parent `P` with bound `UP` on the level
`lvP = preP ++ (P, UP) :: postP`, its node `n`, and the place `i` of `left` among
its children `seg`. -/
structure ParentSite (c : Consts) (b : BufMgr) (lvl : Nat) (pre : List Entry) (left : Nat)
    (push : Int) (U : Option Int) (post lvP : List Entry)
    (P : Nat) (UP : Option Int) (preP postP : List Entry) (n : NonLeafNodeInt)
    (lpre seg lpost : List Entry) : Prop where
  hlvP : lvP = preP ++ (P, UP) :: postP
  file : b.file P = some (Page.nonLeaf n)
  level : n.level = lvl
  size : n.keyArray.length ≤ c.INTARRAYNONLEAFSIZE
  fst : seg.map Prod.fst = n.pageNoArray
  snd : seg.map Prod.snd = n.keyArray.map some ++ [UP]
  hpre : pre = lpre ++ seg.take (searchGT n.keyArray push)
  hpost : post = seg.drop (searchGT n.keyArray push + 1) ++ lpost
  place : seg[searchGT n.keyArray push]? = some (left, U)
  linkPre : Link c b lvl preP lpre
  linkPost : Link c b lvl postP lpost
  found : findParentNode b left push =
    some ((P, searchGT n.keyArray push, n.keyArray.length), b)

/-- Walk along the leaf chain: starting at the leaf `p`, follow `rightSibPageNo`
until the sentinel `Page::INVALID_NUMBER` and collect the `(key, rid)` pairs of the
leaves in the order met (the walk of `checkLeafNodesSequence` in `main.cpp`, ended
by the sentinel). The fuel bounds the number of pages visited. -/
def leafWalk : Nat → BufMgr → PageId → Option (List (Int × RecordId))
  | 0, _, _ => none
  | fuel + 1, b, p =>
    if p = INVALID_NUMBER then some []
    else
      match b.file p with
      | some (Page.leaf leaf_node) =>
        match leafWalk fuel b leaf_node.rightSibPageNo with
        | some rest => some (leaf_node.entries ++ rest)
        | none => none
      | _ => none

/-- Capacities for the worked examples: two entries per leaf, two keys per internal
node. -/
def exampleConsts : Consts := { INTARRAYLEAFSIZE := 2, INTARRAYNONLEAFSIZE := 2 }

/-- A relation with the keys 1..7 in an order that is neither ascending nor
descending; the record with key `k` sits in slot `k` of page 1. -/
def exampleRelation : List (Int × RecordId) :=
  [(3, { page_number := 1, slot_number := 3 }), (1, { page_number := 1, slot_number := 1 }),
   (4, { page_number := 1, slot_number := 4 }), (7, { page_number := 1, slot_number := 7 }),
   (5, { page_number := 1, slot_number := 5 }), (2, { page_number := 1, slot_number := 2 }),
   (6, { page_number := 1, slot_number := 6 })]

/-- The records of `exampleRelation` in descending key order. -/
def exampleRelationDesc : List (Int × RecordId) :=
  [(7, { page_number := 1, slot_number := 7 }), (6, { page_number := 1, slot_number := 6 }),
   (5, { page_number := 1, slot_number := 5 }), (4, { page_number := 1, slot_number := 4 }),
   (3, { page_number := 1, slot_number := 3 }), (2, { page_number := 1, slot_number := 2 }),
   (1, { page_number := 1, slot_number := 1 })]

/-- The loop of `intScan` in `main.cpp`: call `scanNext` until it raises
`IndexScanCompleted`; the rids returned, in order, and the state at the end. The fuel
bounds the number of calls. -/
def scanDrain : Nat → BTreeIndex → Option (List RecordId × BTreeIndex)
  | 0, _ => none
  | fuel + 1, s =>
    match scanNext s with
    | Res.ok outRid s1 =>
      match scanDrain fuel s1 with
      | some (rids, s2) => some (outRid :: rids, s2)
      | none => none
    | Res.throw Exn.IndexScanCompleted s1 => some ([], s1)
    | _ => none

/-- The scan of `intScan` in `main.cpp` up to the end of its loop: `startScan`, where
`NoSuchKeyFound` counts as the empty result, then `scanNext` until
`IndexScanCompleted`; the rids in the order returned. -/
def scanRids (fuel : Nat) (s : BTreeIndex) (lowVal : Int) (lowOp : Operator) (highVal : Int)
    (highOp : Operator) : Option (List RecordId) :=
  match startScan s lowVal lowOp highVal highOp with
  | Res.ok _ s1 =>
    match scanDrain fuel s1 with
    | some (rids, _) => some rids
    | none => none
  | Res.throw Exn.NoSuchKeyFound _ => some []
  | _ => none

/-- The scan predicate for admissible operators: `key > low` for `GT`, `key ≥ low`
otherwise, and `key < high` for `LT`, `key ≤ high` otherwise. -/
def inScan (lowVal : Int) (lowOp : Operator) (highVal : Int) (highOp : Operator) (key : Int) :
    Bool :=
  (if lowOp = Operator.GT then decide (key > lowVal) else decide (key ≥ lowVal)) &&
  (if highOp = Operator.LT then decide (key < highVal) else decide (key ≤ highVal))

/-- The position of an active scan: either the cursor is exhausted and nothing
remains, or it stands at entry `i` of a leaf of the chain and `rem` is what the chain
holds from there on. -/
def Cursor (c : Consts) (s : BTreeIndex) (rem : List (Int × RecordId)) : Prop :=
  s.scanExecuting = true ∧
  ((s.currentPageNum = INVALID_NUMBER ∧ rem = []) ∨
    ∃ (l : LeafNodeInt) (es : List Entry) (rest : List (Int × RecordId)) (i : Nat),
      s.currentPageNum ≠ INVALID_NUMBER ∧ s.currentPageData = s.currentPageNum ∧
      s.bufMgr.file s.currentPageNum = some (Page.leaf l) ∧
      l.ridArray.length = l.keyArray.length ∧
      s.nextEntry = (i : Int) ∧ i < l.keyArray.length ∧
      l.rightSibPageNo = headPage es INVALID_NUMBER ∧
      Chain c s.bufMgr true es INVALID_NUMBER rest ∧
      (∀ e ∈ es, e.1 ≠ INVALID_NUMBER) ∧
      rem = l.entries.drop i ++ rest)

/-- The page `q` belongs to the subtree below the page `p`: it is `p` itself, or it
is reached from `p` through the child arrays of internal nodes. -/
inductive Reach (b : BufMgr) : Nat → Nat → Prop
  | here (p : Nat) : Reach b p p
  | down {p ch q : Nat} {n : NonLeafNodeInt} :
      b.file p = some (Page.nonLeaf n) → ch ∈ n.pageNoArray → Reach b ch q → Reach b p q

/-- The page `p` is a node of the tree: it is reached from the root that the header
page names. -/
def InTree (b : BufMgr) (p : Nat) : Prop :=
  ∃ h, b.file headerPageNum = some (Page.header h) ∧ Reach b h.rootPageNo p

/-- The node on page `p`, leaf or internal, holds at least half of the keys that fit:
`MIDDLELEAF` for a leaf, `MIDDLENONLEAF` for an internal node. -/
def MinFill (c : Consts) (b : BufMgr) (p : Nat) : Prop :=
  (∀ l, b.file p = some (Page.leaf l) → c.MIDDLELEAF ≤ l.keyArray.length) ∧
  (∀ n, b.file p = some (Page.nonLeaf n) → c.MIDDLENONLEAF ≤ n.keyArray.length)

/-- The invariant of a reachable index together with two facts about how it grew:
once there is more than one level, more than `INTARRAYLEAFSIZE` pairs are stored, and
every node other than the root is at least half full. -/
structure Grown (c : Consts) (b : BufMgr) (G : List (List Entry))
    (kvs : List (Int × RecordId)) : Prop where
  inv : Inv c b G kvs
  tall : G.length ≠ 1 → c.INTARRAYLEAFSIZE < kvs.length
  fill : ∀ h, b.file headerPageNum = some (Page.header h) →
    ∀ p, p ≠ h.rootPageNo → MinFill c b p

/-- Walk along the leaf chain as `leafWalk` does, collecting for every leaf met its
page id and its node. -/
def leafWalkNodes : Nat → BufMgr → PageId → Option (List (PageId × LeafNodeInt))
  | 0, _, _ => none
  | fuel + 1, b, p =>
    if p = INVALID_NUMBER then some []
    else
      match b.file p with
      | some (Page.leaf leaf_node) =>
        match leafWalkNodes fuel b leaf_node.rightSibPageNo with
        | some rest => some ((p, leaf_node) :: rest)
        | none => none
      | _ => none

/-- The relation of `myCreateRelationForward` in `main.cpp`: the keys `0 .. n - 1` in
ascending order; `rids i` is the locator of the record with key `i`. -/
def ascendingRelation (n : Nat) (rids : Nat → RecordId) : List (Int × RecordId) :=
  (List.range n).map fun (i : Nat) => ((i : Int), rids i)

/-- The keys `start, start + 1, ..., start + count - 1`. -/
def keyRun (start count : Nat) : List Int :=
  (List.range count).map fun (i : Nat) => ((start + i : Nat) : Int)

/-- The leaves that the loop of `test7` in `main.cpp` expects when it has reached the
key `start` and `remaining` keys are left: while more than `L` keys are left, a leaf
with the next `L / 2 + 1` keys; then one leaf with all keys that are left. The first
argument bounds the number of leaves before the last one. -/
def expectedLeaves (L : Nat) : Nat → Nat → Nat → List (List Int)
  | 0, start, remaining => [keyRun start remaining]
  | fuel + 1, start, remaining =>
    if remaining ≤ L then [keyRun start remaining]
    else
      keyRun start (L / 2 + 1) ::
        expectedLeaves L fuel (start + (L / 2 + 1)) (remaining - (L / 2 + 1))

/-- The layout with `m` leaves of `M + 1` consecutive keys each, starting at key 0,
followed by one leaf with the next `r` keys. -/
def ascLayout (M m r : Nat) : List (List Int) :=
  ((List.range m).map fun (i : Nat) => keyRun (i * (M + 1)) (M + 1)) ++
    [keyRun (m * (M + 1)) r]

/-- The key arrays of the leaves on the pages of a level, in order. -/
def leafKeysOf (b : BufMgr) (lv : List Entry) : List (Option (List Int)) :=
  lv.map fun e =>
    match b.file e.1 with
    | some (Page.leaf l) => some l.keyArray
    | _ => none

/-- The index built with the capacities 2 and 2 over the keys 0..5 in ascending
order: its root, on page 4, is full (keys 1 and 3, children 2, 3, 5) and so is its
last leaf (keys 4 and 5, page 5). -/
def fullIndex : BTreeIndex :=
  (buildIndex exampleConsts "relA" 0 Datatype.INTEGER
    (ascendingRelation 6 fun i => { page_number := 1, slot_number := i })).getD (mkIndex emptyFile)

/-- The file of `fullIndex` after `modifyLeafNode` has split the last leaf for the key
6 (pages 5 and 6, push-up key 5) and before the parent is told. -/
def fullIndexSplit : BufMgr :=
  ((modifyLeafNode exampleConsts fullIndex.bufMgr 5 6 { page_number := 1, slot_number := 6 }
    2 2).map Prod.snd).getD fullIndex.bufMgr

/-- The file of `sampleIndex` after `modifyLeafNode` has split the last leaf for the
key 10 (pages 5 and 6, push-up key 8) and before the parent is told. -/
def sampleSplit : BufMgr :=
  ((modifyLeafNode sampleConsts sampleIndex.bufMgr 5 10 { page_number := 1, slot_number := 10 }
    4 4).map Prod.snd).getD sampleIndex.bufMgr

/-- A run of `n` calls of `scanNext` on an active scan, each of which returns a rid
or raises `IndexScanCompleted`: the state after the last call. -/
def scanCalls : Nat → BTreeIndex → Option BTreeIndex
  | 0, s => some s
  | n + 1, s =>
    match scanNext s with
    | Res.ok _ s1 => scanCalls n s1
    | Res.throw Exn.IndexScanCompleted s1 => scanCalls n s1
    | _ => none

/-- The state `startScan(INT_MAX, GT, INT_MAX, LTE)` leaves on `sampleIndex`. -/
def overflowScan : BTreeIndex :=
  (startScan sampleIndex 2147483647 Operator.GT 2147483647 Operator.LTE).state.getD sampleIndex

/-- Pin accounting of a scan that was started on the file `b0`: the file is as it
was, and every page is pinned once more than it was in `b0` for each time it is
recorded in `page_nums`. -/
def PinsExact (b0 : BufMgr) (s : BTreeIndex) : Prop :=
  s.bufMgr.file = b0.file ∧ s.bufMgr.numPages = b0.numPages ∧
  ∀ p, s.bufMgr.pinCnt p = b0.pinCnt p + (recordedPages s).count p

/-- Every separator of every internal node of the tree is the largest key stored in
the leaves below the child to its left, and is smaller than every key stored in the
leaves below the child to its right. -/
def SeparatorsAreMax (b : BufMgr) : Prop :=
  ∀ (p : Nat) (n : NonLeafNodeInt) (i : Nat) (k : Int) (chL chR : Nat),
    InTree b p → b.file p = some (Page.nonLeaf n) →
    n.keyArray[i]? = some k → n.pageNoArray[i]? = some chL →
    n.pageNoArray[i + 1]? = some chR →
    (∃ q l, Reach b chL q ∧ b.file q = some (Page.leaf l) ∧ k ∈ l.keyArray) ∧
    (∀ q l, Reach b chL q → b.file q = some (Page.leaf l) → ∀ x ∈ l.keyArray, x ≤ k) ∧
    (∀ q l, Reach b chR q → b.file q = some (Page.leaf l) → ∀ x ∈ l.keyArray, k < x)

/-- The calls of `findParentNode` that the push-up loop of `insertEntry` makes: for
every round of the loop, the file at the call and the arguments `left_child_num` and
`push_up_key` of the call. The rounds are those of `insertEntryLoop`. -/
def pushUpCalls (c : Consts) : Nat → BufMgr → PageId → PageId → Int →
    List (BufMgr × PageId × Int)
  | 0, _, _, _, _ => []
  | fuel + 1, s, left_child_num, right_child_num, push_up_key =>
    (s, left_child_num, push_up_key) ::
      match findParentNode s left_child_num push_up_key with
      | none => []
      | some ((parent_num, position, total_key), s1) =>
        if parent_num = INVALID_NUMBER then []
        else
          match modifyNonLeafNode c s1 parent_num push_up_key left_child_num right_child_num
              position total_key with
          | none => []
          | some ((left_node_num, right_node_num, push_up_key2), s2) =>
            if right_node_num = INVALID_NUMBER then []
            else pushUpCalls c fuel s2 left_node_num right_node_num push_up_key2

/-- The calls of `findParentNode` that `insertEntry(key, rid)` makes on the file `s`,
in order; none when the leaf has room. -/
def findParentCalls (c : Consts) (s : BufMgr) (key : Int) (rid : RecordId) :
    List (BufMgr × PageId × Int) :=
  match findLeafNode s key with
  | none => []
  | some ((leaf_num, position, total_key), s1) =>
    match modifyLeafNode c s1 leaf_num key rid position total_key with
    | none => []
    | some ((left_child_num, right_child_num, push_up_key), s2) =>
      if right_child_num = INVALID_NUMBER then []
      else pushUpCalls c (s2.numPages + 1) s2 left_child_num right_child_num push_up_key

/-- Modelled from the spec: the loop of `findParentNode` with the comparison
`keyArray[i] >= key` in place of `keyArray[i] > key`. -/
def findParentNodeLoopGE : Nat → BufMgr → PageId → PageId → Int →
    Option ((PageId × Nat × Nat) × BufMgr)
  | 0, _, _, _, _ => none
  | fuel + 1, s, temp_num, child_page_num, key =>
    match readPage s temp_num with
    | none => none
    | some (temp_page, s1) =>
      match unPinPage s1 temp_num false with
      | none => none
      | some s2 =>
        match temp_page.asNonLeaf with
        | none => none
        | some non_leaf_node =>
          match non_leaf_node.pageNoArray[searchGE non_leaf_node.keyArray key]? with
          | none => none
          | some child =>
            if child = child_page_num then
              some ((temp_num, searchGE non_leaf_node.keyArray key,
                non_leaf_node.keyArray.length), s2)
            else findParentNodeLoopGE fuel s2 child child_page_num key

/-- Modelled from the spec: `findParentNode` with the comparison `keyArray[i] >= key`
in place of `keyArray[i] > key`. -/
def findParentNodeGE (s : BufMgr) (child_page_num : PageId) (key : Int) :
    Option ((PageId × Nat × Nat) × BufMgr) :=
  match readPage s headerPageNum with
  | none => none
  | some (header_page, s1) =>
    match unPinPage s1 headerPageNum false with
    | none => none
    | some s2 =>
      match header_page.asMeta with
      | none => none
      | some treeHeader =>
        if child_page_num = treeHeader.rootPageNo then
          some ((INVALID_NUMBER, 0, 0), s2)
        else findParentNodeLoopGE (s2.numPages + 1) s2 treeHeader.rootPageNo child_page_num key

/-- What the call `findParentNode(left, push)` on the file `s` returns, and that the
search with `>=` returns the same: the sentinel when `left` is the root that the
header page names; otherwise the page `P` of an internal node of the tree, the
position at which `left` stands in the child array of that node, and the number of
its keys, none of which is `push`. -/
def ParentCall (s : BufMgr) (left : Nat) (push : Int) : Prop :=
  ∃ hd, s.file headerPageNum = some (Page.header hd) ∧
    ((left = hd.rootPageNo ∧
        findParentNode s left push = some ((INVALID_NUMBER, 0, 0), s) ∧
        findParentNodeGE s left push = some ((INVALID_NUMBER, 0, 0), s)) ∨
      (left ≠ hd.rootPageNo ∧
        ∃ P n, P ≠ INVALID_NUMBER ∧ InTree s P ∧ s.file P = some (Page.nonLeaf n) ∧
          n.pageNoArray[searchGT n.keyArray push]? = some left ∧ push ∉ n.keyArray ∧
          findParentNode s left push =
            some ((P, searchGT n.keyArray push, n.keyArray.length), s) ∧
          findParentNodeGE s left push =
            some ((P, searchGT n.keyArray push, n.keyArray.length), s)))

/-- The page `q` lies `d` levels below the page `p`: it is reached from `p` by `d`
steps through the child arrays of internal nodes. -/
inductive ReachIn (b : BufMgr) : Nat → Nat → Nat → Prop
  | here (p : Nat) : ReachIn b 0 p p
  | down {d p ch q : Nat} {n : NonLeafNodeInt} :
      b.file p = some (Page.nonLeaf n) → ch ∈ n.pageNoArray → ReachIn b d ch q →
      ReachIn b (d + 1) p q

/-- The tree has the height `H`: there is a leaf `H` levels below the root that the
header page names, and every leaf below the root lies `H` levels below it. -/
def Height (b : BufMgr) (H : Nat) : Prop :=
  ∃ hd, b.file headerPageNum = some (Page.header hd) ∧
    (∃ q l, ReachIn b H hd.rootPageNo q ∧ b.file q = some (Page.leaf l)) ∧
    ∀ d q l, ReachIn b d hd.rootPageNo q → b.file q = some (Page.leaf l) → d = H

/-! ## The scan interface: error conditions -/

theorem unpinAll_of_count (ps : List Nat) :
    ∀ b : BufMgr, (∀ p, ps.count p ≤ b.pinCnt p) → ∃ b', unpinAll b ps = some b' := by
  induction ps with
  | nil => intro b _; exact ⟨b, rfl⟩
  | cons q qs ih =>
    intro b h
    have hq : b.pinCnt q ≠ 0 := by
      have := h q
      simp at this
      omega
    simp only [unpinAll, unPinPage, hq, if_false]
    apply ih
    intro p
    have hp := h p
    by_cases hpq : p = q
    · subst hpq
      simp at hp ⊢
      omega
    · have hqp : q ≠ p := fun e => hpq e.symm
      simp [List.count_cons, Function.update, hpq, hqp] at hp ⊢
      exact hp

theorem endScan_ok_of_pins (s : BTreeIndex) (hx : s.scanExecuting = true) (hp : PinsHeld s) :
    ∃ b, endScan s = Res.ok () { s with scanExecuting := false, bufMgr := b } := by
  obtain ⟨b, hb⟩ := unpinAll_of_count (recordedPages s) s.bufMgr hp
  refine ⟨b, ?_⟩
  unfold endScan
  unfold recordedPages at hb
  simp [hx, hb]

theorem startScan_eq_body (s : BTreeIndex) (lo : Int) (lop : Operator) (hi : Int) (hop : Operator)
    (hp : s.scanExecuting = true → PinsHeld s) :
    ∃ s1, startScan s lo lop hi hop = startScanBody s1 lo lop hi hop := by
  unfold startScan
  by_cases hx : s.scanExecuting = true
  · obtain ⟨b, hb⟩ := endScan_ok_of_pins s hx (hp hx)
    rw [if_pos hx, hb]
    exact ⟨_, rfl⟩
  · rw [if_neg hx]
    exact ⟨_, rfl⟩

theorem startScanBody_raised (s : BTreeIndex) (lo : Int) (lop : Operator) (hi : Int)
    (hop : Operator) :
    (¬ (lop = Operator.GT ∨ lop = Operator.GTE) ∨ ¬ (hop = Operator.LT ∨ hop = Operator.LTE) →
      (startScanBody s lo lop hi hop).raised = some Exn.BadOpcodes) ∧
    ((lop = Operator.GT ∨ lop = Operator.GTE) → (hop = Operator.LT ∨ hop = Operator.LTE) →
      lo > hi → (startScanBody s lo lop hi hop).raised = some Exn.BadScanrange) ∧
    ((lop = Operator.GT ∨ lop = Operator.GTE) → (hop = Operator.LT ∨ hop = Operator.LTE) →
      ¬ lo > hi → (startScanBody s lo lop hi hop).raised ≠ some Exn.BadOpcodes ∧
        (startScanBody s lo lop hi hop).raised ≠ some Exn.BadScanrange) := by
  refine ⟨?_, ?_, ?_⟩
  · intro h
    unfold startScanBody
    by_cases h1 : (lop = Operator.GT ∨ lop = Operator.GTE)
    · have h2 : ¬ (hop = Operator.LT ∨ hop = Operator.LTE) := by tauto
      simp only [h1, not_true_eq_false, if_false, h2, not_false_eq_true, if_true, Res.raised]
    · simp only [h1, not_false_eq_true, if_true, Res.raised]
  · intro h1 h2 h3
    unfold startScanBody
    simp only [h1, h2, h3, not_true_eq_false, if_false, if_true, Res.raised]
  · intro h1 h2 h3
    unfold startScanBody
    simp only [h1, h2, h3, not_true_eq_false, if_false]
    split
    · simp [Res.raised]
    · split
      · split <;> simp [Res.raised]
      · simp [Res.raised]

theorem readPage_spec {b : BufMgr} {p : Nat} {pg : Page} {b1 : BufMgr}
    (h : readPage b p = some (pg, b1)) :
    b.file p = some pg ∧
      b1 = { b with pinCnt := Function.update b.pinCnt p (b.pinCnt p + 1) } := by
  unfold readPage at h
  split at h
  · cases h
  · rename_i pg' hf
    simp only [Option.some.injEq, Prod.mk.injEq] at h
    obtain ⟨rfl, rfl⟩ := h
    exact ⟨hf, rfl⟩

theorem pins_record (pn : Nat → Nat) (n : Nat) (q : Nat) (cnt : Nat → Nat)
    (h : ∀ p, ((List.range n).map pn).count p ≤ cnt p) :
    ∀ p, ((List.range (n + 1)).map (Function.update pn n q)).count p ≤
      Function.update cnt q (cnt q + 1) p := by
  intro p
  have hmap : List.map (Function.update pn n q) (List.range n) = List.map pn (List.range n) := by
    apply List.map_congr_left
    intro i hi
    have : i ≠ n := by
      have := List.mem_range.mp hi
      omega
    simp [Function.update, this]
  have hp := h p
  simp only [List.range_succ, List.map_append, List.map_cons, List.map_nil,
    Function.update_same, List.count_append, hmap]
  by_cases hq : p = q
  · subst hq
    simp
    exact hp
  · have : q ≠ p := fun e => hq e.symm
    simp [List.count_cons, this, Function.update, hq]
    exact hp

theorem startScan_ok_state (s : BTreeIndex) (lo : Int) (lop : Operator) (hi : Int) (hop : Operator)
    (s1 : BTreeIndex) (h : startScan s lo lop hi hop = Res.ok () s1) :
    s1.scanExecuting = true ∧ PinsHeld s1 := by
  have body : ∀ t : BTreeIndex, startScanBody t lo lop hi hop = Res.ok () s1 →
      s1.scanExecuting = true ∧ PinsHeld s1 := by
    intro t ht
    unfold startScanBody at ht
    simp only [] at ht
    split at ht
    · cases ht
    · split at ht
      · cases ht
      · split at ht
        · cases ht
        · split at ht
          · cases ht
          · split at ht
            · split at ht
              · cases ht
              · rename_i hr
                obtain ⟨-, hb⟩ := readPage_spec hr
                injection ht with _ ht
                subst ht
                refine ⟨rfl, ?_⟩
                unfold PinsHeld recordedPages
                simp only [hb]
                exact pins_record _ 0 _ _ (by intro p; simp)
            · cases ht
  unfold startScan at h
  split at h
  · split at h
    · exact body _ h
    · cases h
    · cases h
  · exact body _ h

theorem scanNext_ok_state (s : BTreeIndex) (r : RecordId) (s1 : BTreeIndex)
    (h : scanNext s = Res.ok r s1) (hp : PinsHeld s) :
    s1.scanExecuting = true ∧ PinsHeld s1 := by
  unfold scanNext at h
  split at h
  · cases h
  · rename_i hx
    have hx' : s.scanExecuting = true := by simpa using hx
    split at h
    · cases h
    · split at h
      · cases h
      · split at h
        · cases h
        · split at h
          · cases h
          · split at h
            · cases h
            · split at h
              · cases h
              · split at h
                · injection h with _ h
                  subst h
                  exact ⟨hx', hp⟩
                · split at h
                  · split at h
                    · cases h
                    · rename_i hr
                      obtain ⟨-, hb⟩ := readPage_spec hr
                      injection h with _ h
                      subst h
                      refine ⟨hx', ?_⟩
                      unfold PinsHeld recordedPages
                      simp only [hb]
                      exact pins_record _ _ _ _ hp
                  · injection h with _ h
                    subst h
                    exact ⟨hx', hp⟩

theorem scanNextN_state (n : Nat) : ∀ (s : BTreeIndex) (rs : List RecordId) (s2 : BTreeIndex),
    scanNextN n s = some (rs, s2) → s.scanExecuting = true → PinsHeld s →
    s2.scanExecuting = true ∧ PinsHeld s2 := by
  induction n with
  | zero =>
    intro s rs s2 h hx hp
    simp only [scanNextN, Option.some.injEq, Prod.mk.injEq] at h
    obtain ⟨_, rfl⟩ := h
    exact ⟨hx, hp⟩
  | succ n ih =>
    intro s rs s2 h hx hp
    simp only [scanNextN] at h
    split at h
    · rename_i r s1 hr
      split at h
      · rename_i rs' s2' hn
        simp only [Option.some.injEq, Prod.mk.injEq] at h
        obtain ⟨_, rfl⟩ := h
        obtain ⟨hx1, hp1⟩ := scanNext_ok_state s r s1 hr hp
        exact ih s1 rs' s2' hn hx1 hp1
      · cases h
    · cases h

theorem scanNext_completed_state (s s1 : BTreeIndex)
    (h : scanNext s = Res.throw Exn.IndexScanCompleted s1) :
    s1 = s ∧ s.scanExecuting = true := by
  unfold scanNext at h
  split at h
  · cases h
  · rename_i hx
    have hx' : s.scanExecuting = true := by simpa using hx
    split at h
    · injection h with _ h
      exact ⟨h.symm, hx'⟩
    · split at h
      · cases h
      · split at h
        · cases h
        · split at h
          · cases h
          · split at h
            · injection h with _ h
              exact ⟨h.symm, hx'⟩
            · split at h
              · cases h
              · split at h
                · cases h
                · split at h
                  · split at h <;> cases h
                  · cases h

/-! ## Buffer manager: reading and writing a page leaves the pin counts alone -/

theorem update_pin_restore (f : Nat → Nat) (p : Nat) :
    Function.update (Function.update f p (f p + 1)) p
      (Function.update f p (f p + 1) p - 1) = f := by
  funext q
  by_cases h : q = p
  · subst h; simp
  · simp [Function.update, h]

/-- Reading a page and unpinning it right away gives the state back. -/
theorem read_unpin {b : BufMgr} {p : Nat} {pg : Page} (h : b.file p = some pg) :
    ∃ b1, readPage b p = some (pg, b1) ∧ ∀ d, unPinPage b1 p d = some b := by
  refine ⟨{ b with pinCnt := Function.update b.pinCnt p (b.pinCnt p + 1) }, ?_, ?_⟩
  · simp [readPage, h]
  · intro d
    simp only [unPinPage, Function.update_same, Nat.add_one_ne_zero, if_false, Option.some.injEq]
    have := update_pin_restore b.pinCnt p
    simp only [Function.update_same] at this
    cases b
    simp only [BufMgr.mk.injEq, true_and]
    simp

/-- Pin a page, store a new content, unpin it. -/
theorem read_write_unpin {b : BufMgr} {p : Nat} {pg : Page} (h : b.file p = some pg)
    (pg' : Page) :
    ∃ b1, readPage b p = some (pg, b1) ∧
      ∀ d, unPinPage (writePage b1 p pg') p d =
        some { b with file := Function.update b.file p (some pg') } := by
  refine ⟨{ b with pinCnt := Function.update b.pinCnt p (b.pinCnt p + 1) }, ?_, ?_⟩
  · simp [readPage, h]
  · intro d
    simp only [unPinPage, writePage, Function.update_same, Nat.add_one_ne_zero, if_false,
      Option.some.injEq]
    have := update_pin_restore b.pinCnt p
    simp only [Function.update_same] at this
    cases b
    simp only [BufMgr.mk.injEq, true_and]
    simp

/-! ## Searching a key array -/

theorem searchGE_eq (ks : List Int) (key : Int) :
    searchGE ks key = searchP (fun k => decide (k < key)) ks := by
  induction ks with
  | nil => rfl
  | cons k ks ih =>
    simp only [searchGE, searchP, ih, decide_eq_true_eq]
    by_cases h : k ≥ key
    · have : ¬ k < key := by omega
      simp [h, this]
    · have : k < key := by omega
      simp [h, this]

theorem searchGT_eq (ks : List Int) (key : Int) :
    searchGT ks key = searchP (fun k => decide (k ≤ key)) ks := by
  induction ks with
  | nil => rfl
  | cons k ks ih =>
    simp only [searchGT, searchP, ih, decide_eq_true_eq]
    by_cases h : k > key
    · have : ¬ k ≤ key := by omega
      simp [h, this]
    · have : k ≤ key := by omega
      simp [h, this]

theorem searchP_le (blw : Int → Bool) (ks : List Int) : searchP blw ks ≤ ks.length := by
  induction ks with
  | nil => simp [searchP]
  | cons k ks ih =>
    simp only [searchP, List.length_cons]
    split <;> omega

theorem searchP_take (blw : Int → Bool) (ks : List Int) :
    ∀ k ∈ ks.take (searchP blw ks), blw k = true := by
  induction ks with
  | nil => simp [searchP]
  | cons k ks ih =>
    simp only [searchP]
    split
    · rename_i h
      intro x hx
      simp only [List.take_succ_cons, List.mem_cons] at hx
      rcases hx with rfl | hx
      · exact h
      · exact ih x hx
    · simp

theorem searchP_get (blw : Int → Bool) (ks : List Int) (k : Int)
    (h : ks[searchP blw ks]? = some k) : blw k = false := by
  induction ks with
  | nil => simp [searchP] at h
  | cons a ks ih =>
    simp only [searchP] at h
    split at h
    · simp only [List.getElem?_cons_succ] at h
      exact ih h
    · rename_i hb
      simp only [List.getElem?_cons_zero, Option.some.injEq] at h
      subst h
      simpa using hb

/-- The bounds of the children of a node, looked at by a search: the entries before
the position found are below, the entry at the position is not. -/
theorem search_bounds (blw : Int → Bool) (ks : List Int) (U : Option Int)
    (hU : ¬ belowB blw U) :
    (∀ x ∈ (ks.map some ++ [U]).take (searchP blw ks), belowB blw x) ∧
    ∃ Uc, (ks.map some ++ [U])[searchP blw ks]? = some Uc ∧
      ¬ belowB blw Uc := by
  have hle := searchP_le blw ks
  constructor
  · intro x hx
    rw [List.take_append_of_le_length (by simpa using hle)] at hx
    rw [← List.map_take] at hx
    obtain ⟨k, hk, rfl⟩ := List.mem_map.mp hx
    exact searchP_take blw ks k hk
  · by_cases hlt : searchP blw ks < ks.length
    · have hg : ks[searchP blw ks]? = some (ks[searchP blw ks]) := List.getElem?_eq_getElem hlt
      refine ⟨some (ks[searchP blw ks]), ?_, ?_⟩
      · rw [List.getElem?_append_left (by simpa using hlt)]
        simp [hg]
      · have := searchP_get blw ks _ hg
        simp [belowB, this]
    · have heq : searchP blw ks = ks.length := by omega
      refine ⟨U, ?_, hU⟩
      rw [heq]
      have : (List.map some ks).length ≤ ks.length := by simp
      rw [List.getElem?_append_right this]
      simp

/-! ## Links between two levels -/

theorem Link_append (c : Consts) (b : BufMgr) (lvl : Nat) (u1 u2 : List Entry) :
    ∀ lower, Link c b lvl (u1 ++ u2) lower ↔
      ∃ l1 l2, lower = l1 ++ l2 ∧ Link c b lvl u1 l1 ∧ Link c b lvl u2 l2 := by
  induction u1 with
  | nil =>
    intro lower
    constructor
    · intro h
      exact ⟨[], lower, rfl, rfl, h⟩
    · rintro ⟨l1, l2, rfl, h1, h2⟩
      simp only [Link] at h1
      subst h1
      simpa using h2
  | cons e es ih =>
    intro lower
    constructor
    · intro h
      simp only [List.cons_append, Link] at h
      obtain ⟨seg, rest, rfl, hn, hr⟩ := h
      obtain ⟨r1, r2, rfl, h1, h2⟩ := (ih rest).mp hr
      exact ⟨seg ++ r1, r2, by simp, ⟨seg, r1, rfl, hn, h1⟩, h2⟩
    · rintro ⟨l1, l2, rfl, h1, h2⟩
      simp only [Link] at h1
      obtain ⟨seg, r1, rfl, hn, hr1⟩ := h1
      simp only [List.cons_append, Link]
      exact ⟨seg, r1 ++ l2, by simp, hn, (ih _).mpr ⟨r1, l2, rfl, hr1, h2⟩⟩

theorem Link_single (c : Consts) (b : BufMgr) (lvl : Nat) (e : Entry) (lower : List Entry) :
    Link c b lvl [e] lower ↔ NodeOK c b lvl e lower := by
  constructor
  · intro h
    simp only [Link] at h
    obtain ⟨seg, rest, rfl, hn, rfl⟩ := h
    simpa using hn
  · intro h
    exact ⟨lower, [], by simp, h, rfl⟩

theorem NodeOK_frame {c : Consts} {b b2 : BufMgr} {lvl : Nat} {e : Entry} {seg : List Entry}
    (hf : b2.file e.1 = b.file e.1) (h : NodeOK c b lvl e seg) : NodeOK c b2 lvl e seg := by
  obtain ⟨n, h1, h2⟩ := h
  exact ⟨n, by rw [hf]; exact h1, h2⟩

theorem Link_frame {c : Consts} {b b2 : BufMgr} {lvl : Nat} :
    ∀ {upper lower : List Entry}, (∀ e ∈ upper, b2.file e.1 = b.file e.1) →
      Link c b lvl upper lower → Link c b2 lvl upper lower := by
  intro upper
  induction upper with
  | nil => intro lower _ h; exact h
  | cons e es ih =>
    intro lower hf h
    obtain ⟨seg, rest, rfl, hn, hr⟩ := h
    exact ⟨seg, rest, rfl, NodeOK_frame (hf e (List.mem_cons_self _ _)) hn,
      ih (fun x hx => hf x (List.mem_cons_of_mem _ hx)) hr⟩

theorem LevelSorted_append {l1 l2 : List Entry} (h : LevelSorted (l1 ++ l2)) :
    LevelSorted l1 ∧ LevelSorted l2 ∧ ∀ a ∈ l1, ∀ x ∈ l2, ltBB a.2 x.2 := by
  unfold LevelSorted at *
  rw [List.map_append, List.pairwise_append] at h
  refine ⟨h.1, h.2.1, ?_⟩
  intro a ha x hx
  exact h.2.2 _ (List.mem_map_of_mem _ ha) _ (List.mem_map_of_mem _ hx)

/-- The entries under nodes whose bounds are below are below themselves. -/
theorem Link_below {c : Consts} {b : BufMgr} {lvl : Nat} (blw : Int → Bool)
    (hmono : ∀ x y : Int, x < y → blw y = true → blw x = true) :
    ∀ {pre lpre : List Entry}, Link c b lvl pre lpre → LevelSorted lpre →
      (∀ e ∈ pre, belowB blw e.2) → ∀ x ∈ lpre, belowB blw x.2 := by
  intro pre
  induction pre with
  | nil =>
    intro lpre h _ _ x hx
    simp only [Link] at h
    subst h
    cases hx
  | cons e es ih =>
    intro lpre h hs hb x hx
    obtain ⟨seg, rest, rfl, hn, hr⟩ := h
    obtain ⟨hs1, hs2, -⟩ := LevelSorted_append hs
    rcases List.mem_append.mp hx with hx | hx
    · obtain ⟨n, -, -, -, -, hsnd⟩ := hn
      have he := hb e (List.mem_cons_self _ _)
      have hx2 : x.2 ∈ n.keyArray.map some ++ [e.2] := by
        rw [← hsnd]
        exact List.mem_map_of_mem _ hx
      rcases List.mem_append.mp hx2 with hk | hk
      · unfold LevelSorted at hs1
        rw [hsnd, List.pairwise_append] at hs1
        have hlt := hs1.2.2 _ hk e.2 (by simp)
        obtain ⟨k, -, hk2⟩ := List.mem_map.mp hk
        rw [← hk2] at hlt ⊢
        cases hu : e.2 with
        | none => rw [hu] at he; exact he.elim
        | some u =>
          rw [hu] at he hlt
          exact hmono k u hlt he
      · simp only [List.mem_singleton] at hk
        rw [hk]
        exact he
    · exact ih hr hs2 (fun y hy => hb y (List.mem_cons_of_mem _ hy)) x hx

/-- One step of a descent: the node that is first on its level with a bound that is
not below hands the search to the child that is first on the level underneath with
a bound that is not below. -/
theorem descent_step {c : Consts} {b : BufMgr} {lvl : Nat} {up lo pre post : List Entry}
    {p : Nat} {U : Option Int} (blw : Int → Bool)
    (hmono : ∀ x y : Int, x < y → blw y = true → blw x = true)
    (hlink : Link c b lvl up lo) (hsorted : LevelSorted lo)
    (hup : up = pre ++ (p, U) :: post)
    (hpre : ∀ e ∈ pre, belowB blw e.2) (hU : ¬ belowB blw U) :
    ∃ n lpre seg lpost child Uc,
      b.file p = some (Page.nonLeaf n) ∧ n.level = lvl ∧
      n.keyArray.length ≤ c.INTARRAYNONLEAFSIZE ∧
      seg.map Prod.fst = n.pageNoArray ∧ seg.map Prod.snd = n.keyArray.map some ++ [U] ∧
      lo = lpre ++ seg ++ lpost ∧ Link c b lvl pre lpre ∧ Link c b lvl post lpost ∧
      n.pageNoArray[searchP blw n.keyArray]? = some child ∧
      seg[searchP blw n.keyArray]? = some (child, Uc) ∧
      (∀ e ∈ lpre ++ seg.take (searchP blw n.keyArray), belowB blw e.2) ∧
      ¬ belowB blw Uc := by
  subst hup
  obtain ⟨lpre, l2, rfl, hlpre, h2⟩ := (Link_append c b lvl pre ((p, U) :: post) lo).mp hlink
  obtain ⟨seg, lpost, rfl, hn, hlpost⟩ := h2
  obtain ⟨n, hfile, hlvl, hsize, hfst, hsnd⟩ := hn
  obtain ⟨hbel, Uc, hget, hUc⟩ := search_bounds blw n.keyArray U hU
  have hlen : seg.length = n.keyArray.length + 1 := by
    have := congrArg List.length hsnd
    simpa using this
  have hi : searchP blw n.keyArray < seg.length := by
    have := searchP_le blw n.keyArray
    omega
  have hsegget : seg[searchP blw n.keyArray]? = some (seg[searchP blw n.keyArray]) :=
    List.getElem?_eq_getElem hi
  have h1 : (seg[searchP blw n.keyArray]).2 = Uc := by
    have := congrArg (fun l => l[searchP blw n.keyArray]?) hsnd
    simp only [List.getElem?_map, hsegget, Option.map_some', hget] at this
    simpa using this
  have h0 : n.pageNoArray[searchP blw n.keyArray]? = some (seg[searchP blw n.keyArray]).1 := by
    rw [← hfst]
    simp [hsegget]
  refine ⟨n, lpre, seg, lpost, (seg[searchP blw n.keyArray]).1, Uc, hfile, hlvl, hsize, hfst, hsnd,
    by simp, hlpre, hlpost, h0, ?_, ?_, hUc⟩
  · rw [hsegget, ← h1]
  · intro e he
    rcases List.mem_append.mp he with he | he
    · have hs1 := (LevelSorted_append hsorted).1
      exact Link_below blw hmono hlpre hs1 hpre e he
    · apply hbel
      rw [← hsnd, ← List.map_take]
      exact List.mem_map_of_mem _ he

/-! ## Levels -/

theorem Links_mid (c : Consts) (b : BufMgr) (m : List Entry) (ys : List (List Entry)) :
    ∀ (xs : List (List Entry)) (bot : Bool),
      Links c b bot (xs ++ m :: ys) ↔
        Links c b bot (xs ++ [m]) ∧ Links c b (bot && decide (xs = [])) (m :: ys) := by
  intro xs
  induction xs with
  | nil =>
    intro bot
    simp [Links]
  | cons x xs ih =>
    intro bot
    cases xs with
    | nil =>
      simp [Links]
    | cons y zs =>
      have := ih false
      show (Link c b (if bot = true then 1 else 0) y x ∧
          Links c b false (y :: zs ++ m :: ys)) ↔
        (Link c b (if bot = true then 1 else 0) y x ∧ Links c b false (y :: zs ++ [m])) ∧
          Links c b (bot && decide (x :: y :: zs = [])) (m :: ys)
      rw [this]
      simp [and_assoc]

theorem Links_snoc (c : Consts) (b : BufMgr) (xs : List (List Entry)) (lv cur : List Entry)
    (bot : Bool) :
    Links c b bot (xs ++ [lv, cur]) ↔
      Links c b bot (xs ++ [lv]) ∧
        Link c b (if (bot && decide (xs = [])) = true then 1 else 0) cur lv := by
  rw [Links_mid c b lv [cur] xs bot]
  simp [Links]

theorem Links_frame {c : Consts} {b b2 : BufMgr} :
    ∀ {G : List (List Entry)} {bot : Bool},
      (∀ lv ∈ G.tail, ∀ e ∈ lv, b2.file e.1 = b.file e.1) →
      Links c b bot G → Links c b2 bot G := by
  intro G
  induction G with
  | nil => intro _ _ h; exact h
  | cons x xs ih =>
    intro bot hf h
    cases xs with
    | nil => exact trivial
    | cons y zs =>
      simp only [Links] at h ⊢
      refine ⟨Link_frame (hf y (by simp)) h.1, ih ?_ h.2⟩
      intro lv hlv
      exact hf lv (by simp only [List.tail_cons] at hlv ⊢; exact List.mem_cons_of_mem _ hlv)

/-! ## The leaf chain -/

theorem Chain_append (c : Consts) (b : BufMgr) (u2 : List Entry) (nxt : Nat) :
    ∀ (u1 : List Entry) (ne : Bool) (kvs : List (Int × RecordId)),
      Chain c b ne (u1 ++ u2) nxt kvs ↔
        ∃ k1 k2, kvs = k1 ++ k2 ∧ Chain c b ne u1 (headPage u2 nxt) k1 ∧
          Chain c b (ne || decide (u1 ≠ [])) u2 nxt k2 := by
  intro u1
  induction u1 with
  | nil =>
    intro ne kvs
    constructor
    · intro h
      exact ⟨[], kvs, rfl, rfl, by simpa using h⟩
    · rintro ⟨k1, k2, rfl, h1, h2⟩
      simp only [Chain] at h1
      subst h1
      simpa using h2
  | cons e es ih =>
    intro ne kvs
    have hp : headPage (es ++ u2) nxt = headPage es (headPage u2 nxt) := by
      cases es <;> rfl
    constructor
    · intro h
      simp only [List.cons_append, Chain] at h
      obtain ⟨l, hf, hok, hsib, hne, rest, rfl, hr⟩ := h
      obtain ⟨r1, r2, rfl, h1, h2⟩ := (ih true rest).mp hr
      refine ⟨l.entries ++ r1, r2, by simp, ?_, by simpa using h2⟩
      exact ⟨l, hf, hok, hsib.trans hp, hne, r1, rfl, h1⟩
    · rintro ⟨k1, k2, rfl, h1, h2⟩
      simp only [Chain] at h1
      obtain ⟨l, hf, hok, hsib, hne, r1, rfl, hr1⟩ := h1
      simp only [List.cons_append, Chain]
      refine ⟨l, hf, hok, hsib.trans hp.symm, hne, r1 ++ k2, by simp, ?_⟩
      exact (ih true _).mpr ⟨r1, k2, rfl, hr1, by simpa using h2⟩

theorem Chain_frame {c : Consts} {b b2 : BufMgr} {nxt : Nat} :
    ∀ {es : List Entry} {ne : Bool} {kvs : List (Int × RecordId)},
      (∀ e ∈ es, b2.file e.1 = b.file e.1) → Chain c b ne es nxt kvs →
      Chain c b2 ne es nxt kvs := by
  intro es
  induction es with
  | nil => intro _ _ _ h; exact h
  | cons e es ih =>
    intro ne kvs hf h
    obtain ⟨l, hfl, hok, hsib, hne, rest, rfl, hr⟩ := h
    exact ⟨l, by rw [hf e (List.mem_cons_self _ _)]; exact hfl, hok, hsib, hne, rest, rfl,
      ih (fun x hx => hf x (List.mem_cons_of_mem _ hx)) hr⟩

theorem Chain_leaf {c : Consts} {b : BufMgr} {nxt : Nat} :
    ∀ {es : List Entry} {ne : Bool} {kvs : List (Int × RecordId)},
      Chain c b ne es nxt kvs → ∀ e ∈ es, ∃ l, b.file e.1 = some (Page.leaf l) := by
  intro es
  induction es with
  | nil => intro _ _ _ e he; cases he
  | cons x xs ih =>
    intro ne kvs h e he
    obtain ⟨l, hfl, -, -, -, rest, -, hr⟩ := h
    rcases List.mem_cons.mp he with rfl | he
    · exact ⟨l, hfl⟩
    · exact ih hr e he

/-! ## Descents -/

theorem findLeafNodeLoop_of_path {b : BufMgr} {key : Int} {k : Nat} {p q : Nat}
    (hpath : LeafPath b key k p q) {l : LeafNodeInt} (hq : b.file q = some (Page.leaf l)) :
    ∀ fuel, k ≤ fuel →
      findLeafNodeLoop fuel b p key =
        some ((q, searchGE l.keyArray key, l.keyArray.length), b) := by
  induction hpath with
  | last hp hl hc =>
    intro fuel hfuel
    obtain ⟨f, rfl⟩ : ∃ f, fuel = f + 1 := ⟨fuel - 1, by omega⟩
    obtain ⟨b1, hr, hu⟩ := read_unpin hp
    obtain ⟨b3, hr3, hu3⟩ := read_unpin hq
    simp only [findLeafNodeLoop, hr, hu, Page.asNonLeaf, hc, hl, if_true, hr3, hu3, Page.asLeaf]
  | step hp hl hc _ ih =>
    intro fuel hfuel
    obtain ⟨f, rfl⟩ : ∃ f, fuel = f + 1 := ⟨fuel - 1, by omega⟩
    obtain ⟨b1, hr, hu⟩ := read_unpin hp
    simp only [findLeafNodeLoop, hr, hu, Page.asNonLeaf, hc, hl, if_false]
    exact ih hq f (by omega)

theorem findScanPageLoop_of_path {b : BufMgr} {key : Int} {k : Nat} {p q : Nat}
    (hpath : LeafPath b key k p q) {l : LeafNodeInt} (hq : b.file q = some (Page.leaf l))
    (high : Int) :
    ∀ fuel, k ≤ fuel →
      findScanPageLoop fuel b p key high =
        if searchGE l.keyArray key = l.keyArray.length then
          some ((INVALID_NUMBER, (searchGE l.keyArray key : Int)), b)
        else
          match l.keyArray[searchGE l.keyArray key]? with
          | none => none
          | some k2 =>
            if k2 > high then some ((INVALID_NUMBER, (searchGE l.keyArray key : Int)), b)
            else some ((q, (searchGE l.keyArray key : Int)), b) := by
  induction hpath with
  | last hp hl hc =>
    intro fuel hfuel
    obtain ⟨f, rfl⟩ : ∃ f, fuel = f + 1 := ⟨fuel - 1, by omega⟩
    obtain ⟨b1, hr, hu⟩ := read_unpin hp
    obtain ⟨b3, hr3, hu3⟩ := read_unpin hq
    simp only [findScanPageLoop, hr, hu, Page.asNonLeaf, hc, hl, if_true, hr3, hu3, Page.asLeaf]
  | step hp hl hc _ ih =>
    intro fuel hfuel
    obtain ⟨f, rfl⟩ : ∃ f, fuel = f + 1 := ⟨fuel - 1, by omega⟩
    obtain ⟨b1, hr, hu⟩ := read_unpin hp
    simp only [findScanPageLoop, hr, hu, Page.asNonLeaf, hc, hl, if_false]
    exact ih hq f (by omega)

theorem mono_lt (key : Int) :
    ∀ x y : Int, x < y → (fun k => decide (k < key)) y = true →
      (fun k => decide (k < key)) x = true := by
  intro x y hxy hy
  simp only [decide_eq_true_eq] at hy ⊢
  omega

theorem mono_le (key : Int) :
    ∀ x y : Int, x < y → (fun k => decide (k ≤ key)) y = true →
      (fun k => decide (k ≤ key)) x = true := by
  intro x y hxy hy
  simp only [decide_eq_true_eq] at hy ⊢
  omega

/-- From the node that is first on its level with a bound `≥ key`, the descent
reaches the leaf that is first on the leaf level with a bound `≥ key`. -/
theorem leafPath_exists (c : Consts) (b : BufMgr) (key : Int) :
    ∀ (lows : List (List Entry)) (cur pre post : List Entry) (p : Nat) (U : Option Int),
      lows ≠ [] → Links c b true (lows ++ [cur]) → (∀ lv ∈ lows, LevelSorted lv) →
      cur = pre ++ (p, U) :: post →
      (∀ e ∈ pre, belowB (fun k => decide (k < key)) e.2) →
      ¬ belowB (fun k => decide (k < key)) U →
      ∃ q Uq pre0 post0, lows.headD [] = pre0 ++ (q, Uq) :: post0 ∧
        (∀ e ∈ pre0, belowB (fun k => decide (k < key)) e.2) ∧
        ¬ belowB (fun k => decide (k < key)) Uq ∧
        LeafPath b key lows.length p q := by
  intro lows
  induction lows using List.reverseRecOn with
  | nil => intro _ _ _ _ _ h; exact absurd rfl h
  | append_singleton xs lv ih =>
    intro cur pre post p U _ hlinks hsort hcur hpre hU
    have hl : Links c b true (xs ++ [lv, cur]) := by simpa using hlinks
    obtain ⟨hlow, hlink⟩ := (Links_snoc c b xs lv cur true).mp hl
    have hslv : LevelSorted lv := hsort lv (by simp)
    obtain ⟨n, lpre, seg, lpost, child, Uc, hfile, hlvl, -, -, -, hlo, -, -, hchild, hseg, hbel,
      hUc⟩ := descent_step (fun k => decide (k < key)) (mono_lt key) hlink hslv hcur hpre hU
    have hchild2 : n.pageNoArray[searchGE n.keyArray key]? = some child := by
      rw [searchGE_eq]; exact hchild
    have hdecomp : lv = (lpre ++ seg.take (searchP (fun k => decide (k < key)) n.keyArray)) ++
        (child, Uc) :: (seg.drop (searchP (fun k => decide (k < key)) n.keyArray + 1) ++ lpost) := by
      rw [hlo]
      have hi : searchP (fun k => decide (k < key)) n.keyArray < seg.length := by
        by_contra hcon
        rw [List.getElem?_eq_none (by omega)] at hseg
        cases hseg
      have : seg = seg.take (searchP (fun k => decide (k < key)) n.keyArray) ++
          (child, Uc) :: seg.drop (searchP (fun k => decide (k < key)) n.keyArray + 1) := by
        have h1 := List.getElem?_eq_getElem hi
        rw [hseg] at h1
        injection h1 with h1
        rw [h1]
        simp
      conv_lhs => rw [this]
      simp
    cases xs with
    | nil =>
      simp only [List.nil_append, List.headD_cons, List.length_singleton]
      simp only [Bool.true_and, decide_True, if_true] at hlvl
      exact ⟨child, Uc, _, _, hdecomp, hbel, hUc, LeafPath.last hfile hlvl hchild2⟩
    | cons x xs2 =>
      have hlvl0 : n.level ≠ 1 := by
        simp at hlvl
        omega
      obtain ⟨q, Uq, pre0, post0, h0, hb0, hU0, hpath⟩ :=
        ih lv _ _ child Uc (by simp) hlow (fun l hl => hsort l (by simp; simp at hl; tauto))
          hdecomp hbel hUc
      refine ⟨q, Uq, pre0, post0, by simpa using h0, hb0, hU0, ?_⟩
      have := LeafPath.step hfile hlvl0 hchild2 hpath
      simpa using this

theorem length_le_flatten (G : List (List Entry)) (h : ∀ lv ∈ G, lv ≠ []) :
    G.length ≤ G.flatten.length := by
  induction G with
  | nil => simp
  | cons x xs ih =>
    have hx : x ≠ [] := h x (by simp)
    have hpos : 0 < x.length := List.length_pos.mpr hx
    have := ih (fun lv hlv => h lv (by simp [hlv]))
    simp only [List.flatten_cons, List.length_append, List.length_cons]
    omega

theorem nodup_length_le (l : List Nat) (n : Nat) (hn : l.Nodup) (hr : ∀ p ∈ l, p < n) :
    l.length ≤ n := by
  have hsub : l ⊆ List.range n := fun p hp => List.mem_range.mpr (hr p hp)
  have := (List.subperm_of_subset hn hsub).length_le
  simpa using this

/-- The number of levels is bounded by the number of pages. -/
theorem Shape.height_le {c : Consts} {b : BufMgr} {lows : List (List Entry)}
    {cur curC : List Entry} {ups : List (List Entry)} {kvs : List (Int × RecordId)}
    (h : Shape c b lows cur curC ups kvs) :
    (lows ++ cur :: ups).length ≤ b.numPages + 1 := by
  have h1 := length_le_flatten (lows ++ cur :: ups) (fun lv hlv => (h.levels lv hlv).2)
  have h2 := nodup_length_le (pagesOf (lows ++ cur :: ups)) (b.numPages + 1) h.nodup
    (fun p hp => Nat.lt_succ_of_le (h.range p hp).2)
  unfold pagesOf at h2
  rw [List.length_map] at h2
  omega

/-- Where a descent for `key` ends on a well-formed tree. -/
theorem Inv.descend {c : Consts} {b : BufMgr} {lv0 : List Entry} {ups : List (List Entry)}
    {kvs : List (Int × RecordId)} (hinv : Inv c b (lv0 :: ups) kvs) (key : Int) :
    ∃ h pre q Uq post l, b.file headerPageNum = some (Page.header h) ∧
      Target (fun k => decide (k < key)) lv0 pre q Uq post ∧
      b.file q = some (Page.leaf l) ∧
      ((ups = [] ∧ h.rootPageNo = 2 ∧ q = 2) ∨
        (h.rootPageNo ≠ 2 ∧ ∃ k, k ≤ b.numPages + 1 ∧ LeafPath b key k h.rootPageNo q)) := by
  obtain ⟨lv0', ups', hG, hs⟩ := hinv
  injection hG with h1 h2
  subst h1 h2
  obtain ⟨h, hfile, hlast, hroot⟩ := hs.hdr
  have hchain : Chain c b false lv0 INVALID_NUMBER kvs := by simpa using hs.chain
  by_cases hups : ups = []
  · subst hups
    have hr2 : h.rootPageNo = 2 := hroot.mpr ⟨rfl, rfl⟩
    simp only [List.getLast?_singleton, Option.some.injEq] at hlast
    obtain ⟨l, hl⟩ := Chain_leaf hchain (h.rootPageNo, none) (by rw [hlast]; simp)
    refine ⟨h, [], h.rootPageNo, none, [], l, hfile, ⟨by simpa using hlast, by simp, by simp [belowB]⟩,
      hl, Or.inl ⟨rfl, hr2, hr2⟩⟩
  · have hr2 : h.rootPageNo ≠ 2 := fun e => hups (hroot.mp e).2
    obtain ⟨ys, hys⟩ := List.getLast?_eq_some_iff.mp hlast
    have hlinks : Links c b true (lv0 :: ups) := by simpa using hs.linksUp
    cases ys with
    | nil =>
      exfalso
      simp only [List.nil_append] at hys
      injection hys with _ h2
      exact hups h2
    | cons y ys2 =>
      simp only [List.cons_append] at hys
      injection hys with h1 h2
      subst h1
      have hlinks2 : Links c b true ((lv0 :: ys2) ++ [[(h.rootPageNo, none)]]) := by
        rw [h2] at hlinks
        simpa using hlinks
      have hsort : ∀ lv ∈ lv0 :: ys2, LevelSorted lv := by
        intro lv hlv
        apply (hs.levels lv _).1
        rw [h2]
        simp only [List.nil_append, List.mem_cons, List.mem_append] at hlv ⊢
        tauto
      obtain ⟨q, Uq, pre0, post0, h0, hb0, hU0, hpath⟩ :=
        leafPath_exists c b key (lv0 :: ys2) [(h.rootPageNo, none)] [] [] h.rootPageNo none
          (by simp) hlinks2 hsort rfl (by simp) (by simp [belowB])
      simp only [List.headD_cons] at h0
      obtain ⟨l, hl⟩ := Chain_leaf hchain (q, Uq) (by rw [h0]; simp)
      refine ⟨h, pre0, q, Uq, post0, l, hfile, ⟨h0, hb0, hU0⟩, hl, Or.inr ⟨hr2, _, ?_, hpath⟩⟩
      have := hs.height_le
      rw [h2] at this
      simp only [List.nil_append, List.length_cons, List.length_append, List.length_nil] at this ⊢
      omega

theorem findLeafNode_spec {b : BufMgr} {key : Int} {h : IndexMetaInfo} {q : Nat}
    {l : LeafNodeInt} {ups : List (List Entry)}
    (hfile : b.file headerPageNum = some (Page.header h))
    (hq : b.file q = some (Page.leaf l))
    (hcase : (ups = [] ∧ h.rootPageNo = 2 ∧ q = 2) ∨
      (h.rootPageNo ≠ 2 ∧ ∃ k, k ≤ b.numPages + 1 ∧ LeafPath b key k h.rootPageNo q)) :
    findLeafNode b key = some ((q, searchGE l.keyArray key, l.keyArray.length), b) := by
  obtain ⟨b1, hr, hu⟩ := read_unpin hfile
  rcases hcase with ⟨-, hr2, rfl⟩ | ⟨hr2, k, hk, hpath⟩
  · have hq2 : b.file h.rootPageNo = some (Page.leaf l) := by rw [hr2]; exact hq
    obtain ⟨b3, hr3, hu3⟩ := read_unpin hq2
    simp only [findLeafNode, hr, hu, Page.asMeta, hr2, if_true, Page.asLeaf]
    rw [hr2] at hr3 hu3
    simp only [hr3, hu3, Page.asLeaf]
  · simp only [findLeafNode, hr, hu, Page.asMeta, hr2, if_false]
    exact findLeafNodeLoop_of_path hpath hq _ hk

/-! ## Inserting into an array -/

theorem insertAt_length {α : Type} (xs : List α) (pos : Nat) (x : α) :
    (insertAt xs pos x).length = xs.length + 1 := by
  simp only [insertAt, List.length_append, List.length_cons, List.length_take, List.length_drop]
  omega

theorem mem_insertAt {α : Type} (xs : List α) (pos : Nat) (x y : α) :
    y ∈ insertAt xs pos x ↔ y = x ∨ y ∈ xs := by
  simp only [insertAt, List.mem_append, List.mem_cons]
  constructor
  · rintro (h | h | h)
    · exact Or.inr (List.mem_of_mem_take h)
    · exact Or.inl h
    · exact Or.inr (List.mem_of_mem_drop h)
  · rintro (h | h)
    · exact Or.inr (Or.inl h)
    · rw [← List.take_append_drop pos xs] at h
      rcases List.mem_append.mp h with h | h
      · exact Or.inl h
      · exact Or.inr (Or.inr h)

theorem insertAt_perm {α : Type} (xs : List α) (pos : Nat) (x : α) :
    (insertAt xs pos x).Perm (x :: xs) := by
  unfold insertAt
  have h : (xs.take pos ++ x :: xs.drop pos).Perm (x :: (xs.take pos ++ xs.drop pos)) :=
    List.perm_middle
  rw [List.take_append_drop] at h
  exact h

theorem insertAt_map {α β : Type} (f : α → β) (xs : List α) (pos : Nat) (x : α) :
    (insertAt xs pos x).map f = insertAt (xs.map f) pos (f x) := by
  simp [insertAt, List.map_take, List.map_drop]

theorem insertAt_zip {α β : Type} (xs : List α) (ys : List β) (pos : Nat) (x : α) (y : β)
    (h : ys.length = xs.length) :
    (insertAt xs pos x).zip (insertAt ys pos y) = insertAt (xs.zip ys) pos (x, y) := by
  unfold insertAt
  rw [List.zip_append (by simp [h])]
  simp [List.zip_eq_zipWith, List.take_zipWith, List.drop_zipWith]

theorem insertAt_sorted (key : Int) :
    ∀ ks : List Int, ks.Pairwise (· < ·) → key ∉ ks →
      (insertAt ks (searchP (fun k => decide (k < key)) ks) key).Pairwise (· < ·) := by
  intro ks
  induction ks with
  | nil => intro _ _; simp [insertAt, searchP]
  | cons k ks ih =>
    intro hs hn
    have hk : key ≠ k := fun e => hn (by simp [e])
    have hn2 : key ∉ ks := fun e => hn (by simp [e])
    rw [List.pairwise_cons] at hs
    by_cases hlt : k < key
    · have : searchP (fun k => decide (k < key)) (k :: ks) =
          searchP (fun k => decide (k < key)) ks + 1 := by simp [searchP, hlt]
      rw [this]
      have hcons : insertAt (k :: ks) (searchP (fun k => decide (k < key)) ks + 1) key =
          k :: insertAt ks (searchP (fun k => decide (k < key)) ks) key := by
        simp [insertAt]
      rw [hcons, List.pairwise_cons]
      refine ⟨?_, ih hs.2 hn2⟩
      intro y hy
      rcases (mem_insertAt _ _ _ _).mp hy with rfl | hy
      · exact hlt
      · exact hs.1 y hy
    · have : searchP (fun k => decide (k < key)) (k :: ks) = 0 := by simp [searchP, hlt]
      rw [this]
      have hcons : insertAt (k :: ks) 0 key = key :: k :: ks := by simp [insertAt]
      rw [hcons, List.pairwise_cons, List.pairwise_cons]
      have hkk : key < k := by omega
      refine ⟨?_, hs⟩
      intro y hy
      rcases List.mem_cons.mp hy with rfl | hy
      · exact hkk
      · have := hs.1 y hy
        omega

/-- In a strictly increasing list an element of a front part is smaller than an
element of the rest. -/
theorem sorted_take_lt_drop (T : List Int) (hs : T.Pairwise (· < ·)) (m : Nat) :
    ∀ x ∈ T.take m, ∀ y ∈ T.drop m, x < y := by
  rw [← List.take_append_drop m T, List.pairwise_append] at hs
  intro x hx y hy
  exact hs.2.2 x hx y hy

theorem sorted_take_le_get (T : List Int) (hs : T.Pairwise (· < ·)) (m : Nat) (t : Int)
    (ht : T[m]? = some t) : ∀ x ∈ T.take (m + 1), x ≤ t := by
  intro x hx
  have hm : m < T.length := by
    by_contra hcon
    rw [List.getElem?_eq_none (by omega)] at ht
    cases ht
  have htk : T.take (m + 1) = T.take m ++ [t] := by
    rw [List.take_succ, ht]
    rfl
  rw [htk] at hx
  rcases List.mem_append.mp hx with hx | hx
  · have hd : t ∈ T.drop m := by
      rw [List.drop_eq_getElem_cons hm]
      have := List.getElem?_eq_getElem hm
      rw [ht] at this
      injection this with this
      rw [← this]
      simp
    exact le_of_lt (sorted_take_lt_drop T hs m x hx t hd)
  · simp only [List.mem_singleton] at hx
    omega

/-! ## The leaf level -/

theorem LeafOK.entries_fst {c : Consts} {l : LeafNodeInt} {U : Option Int} (h : LeafOK c l U) :
    l.entries.map Prod.fst = l.keyArray := by
  unfold LeafNodeInt.entries
  exact List.map_fst_zip _ _ (le_of_eq h.1.symm)

theorem Chain_keys_le {c : Consts} {b : BufMgr} {nxt : Nat} :
    ∀ {es : List Entry} {ne : Bool} {kvs : List (Int × RecordId)},
      Chain c b ne es nxt kvs → ∀ k ∈ kvs.map Prod.fst, ∃ e ∈ es, leB k e.2 := by
  intro es
  induction es with
  | nil =>
    intro ne kvs h k hk
    simp only [Chain] at h
    subst h
    cases hk
  | cons x xs ih =>
    intro ne kvs h k hk
    obtain ⟨l, -, hok, -, -, rest, rfl, hr⟩ := h
    rw [List.map_append, hok.entries_fst] at hk
    rcases List.mem_append.mp hk with hk | hk
    · exact ⟨x, List.mem_cons_self _ _, hok.2.2.1 k hk⟩
    · obtain ⟨e, he, hle⟩ := ih hr k hk
      exact ⟨e, List.mem_cons_of_mem _ he, hle⟩

theorem Chain_bound_mem {c : Consts} {b : BufMgr} {nxt : Nat} :
    ∀ {es : List Entry} {ne : Bool} {kvs : List (Int × RecordId)},
      Chain c b ne es nxt kvs → ∀ e ∈ es, ∀ u, e.2 = some u → u ∈ kvs.map Prod.fst := by
  intro es
  induction es with
  | nil => intro _ _ _ e he; cases he
  | cons x xs ih =>
    intro ne kvs h e he u hu
    obtain ⟨l, -, hok, -, -, rest, rfl, hr⟩ := h
    rw [List.map_append, hok.entries_fst]
    rcases List.mem_cons.mp he with rfl | he
    · exact List.mem_append_left _ (hok.2.2.2 u hu)
    · exact List.mem_append_right _ (ih hr e he u hu)

theorem Chain_nil {c : Consts} {b : BufMgr} {ne : Bool} {nxt : Nat}
    {kvs : List (Int × RecordId)} (h : Chain c b ne [] nxt kvs) : kvs = [] := h

/-- An entry without a bound is the last of its level. -/
theorem LevelSorted.none_last {pre post : List Entry} {q : Nat}
    (h : LevelSorted (pre ++ (q, none) :: post)) : post = [] := by
  obtain ⟨-, h2, -⟩ := LevelSorted_append h
  unfold LevelSorted at h2
  rw [List.map_cons, List.pairwise_cons] at h2
  cases post with
  | nil => rfl
  | cons x xs =>
    exfalso
    have := h2.1 x.2 (by simp)
    exact this

theorem leafSite {c : Consts} {b : BufMgr} {lv0 pre post : List Entry} {q : Nat}
    {Uq : Option Int} {l : LeafNodeInt} {key : Int} (rid : RecordId)
    {kvs : List (Int × RecordId)}
    (hchain : Chain c b false lv0 INVALID_NUMBER kvs)
    (hsorted : (kvs.map Prod.fst).Pairwise (· < ·))
    (hlevel : LevelSorted lv0)
    (ht : Target (fun k => decide (k < key)) lv0 pre q Uq post)
    (hq : b.file q = some (Page.leaf l))
    (hkey : key ∉ kvs.map Prod.fst) :
    ∃ k1 rest, LeafSite c b pre q Uq post l key rid kvs k1 rest := by
  obtain ⟨hlv, hpre, hUq⟩ := ht
  subst hlv
  obtain ⟨k1, k2, rfl, hc1, hc2⟩ := (Chain_append c b ((q, Uq) :: post) INVALID_NUMBER pre false
    kvs).mp hchain
  obtain ⟨l2, hf2, hok, hsib, hne, rest, rfl, hrest⟩ := hc2
  have hl : l2 = l := by
    have : some (Page.leaf l2) = some (Page.leaf l) := by rw [← hf2]; exact hq
    injection this with this
    injection this
  subst hl
  have hfst := hok.entries_fst
  simp only [List.map_append, hfst] at hsorted hkey
  rw [List.pairwise_append] at hsorted
  obtain ⟨hs1, hs23, hcross1⟩ := hsorted
  rw [List.pairwise_append] at hs23
  obtain ⟨hs2, hs3, hcross2⟩ := hs23
  have hkl : key ∉ l2.keyArray := fun e => hkey (by simp [e])
  have hT := insertAt_sorted key l2.keyArray hs2 hkl
  rw [← searchGE_eq] at hT
  -- keys of the leaves before are below `key`
  have hk1 : ∀ k ∈ k1.map Prod.fst, k < key := by
    intro k hk
    obtain ⟨e, he, hle⟩ := Chain_keys_le hc1 k hk
    have hb := hpre e he
    cases hu : e.2 with
    | none => rw [hu] at hb; exact hb.elim
    | some u =>
      rw [hu] at hb hle
      simp only [belowB, decide_eq_true_eq] at hb
      simp only [leB] at hle
      omega
  -- keys of the leaves after are above `key`
  have hk3 : ∀ k ∈ rest.map Prod.fst, key < k := by
    intro k hk
    cases hu : Uq with
    | none =>
      rw [hu] at hlevel
      have hp := hlevel.none_last
      subst hp
      have := Chain_nil hrest
      subst this
      cases hk
    | some u =>
      have hmem := hok.2.2.2 u hu
      have h1 := hcross2 u hmem k hk
      rw [hu] at hUq
      simp only [belowB, decide_eq_true_eq] at hUq
      have : key ≠ u := fun e => hkl (e ▸ hmem)
      omega
  have hbT : ∀ k ∈ insertAt l2.keyArray (searchGE l2.keyArray key) key, leB k Uq := by
    intro k hk
    rcases (mem_insertAt _ _ _ _).mp hk with rfl | hk
    · cases hu : Uq with
      | none => trivial
      | some u =>
        rw [hu] at hUq
        simp only [belowB, decide_eq_true_eq] at hUq
        simp only [leB]
        omega
    · exact hok.2.2.1 k hk
  refine ⟨k1, rest, ⟨by simp, hc1, hok, hsib, hrest, ?_, hT, ?_, ?_, hbT, ?_⟩⟩
  · intro hp
    apply hne
    simp [hp]
  · simp only [List.map_append, insertAt_map, hfst]
    rw [List.pairwise_append]
    refine ⟨?_, hs3, ?_⟩
    · rw [List.pairwise_append]
      refine ⟨hs1, hT, ?_⟩
      intro a ha x hx
      rcases (mem_insertAt _ _ _ _).mp hx with rfl | hx
      · exact hk1 a ha
      · exact hcross1 a ha x (List.mem_append_left _ hx)
    · intro a ha x hx
      rcases List.mem_append.mp ha with ha | ha
      · exact hcross1 a ha x (List.mem_append_right _ hx)
      · rcases (mem_insertAt _ _ _ _).mp ha with rfl | ha
        · exact hk3 x hx
        · exact hcross2 a ha x hx
  · have h1 := insertAt_perm l2.entries (searchGE l2.keyArray key) (key, rid)
    have h2 : (k1 ++ insertAt l2.entries (searchGE l2.keyArray key) (key, rid) ++ rest).Perm
        (k1 ++ (key, rid) :: l2.entries ++ rest) :=
      List.Perm.append_right _ (List.Perm.append_left _ h1)
    refine h2.trans ?_
    simp only [List.append_assoc, List.cons_append]
    exact List.perm_middle
  · intro e he t ht
    have hb := hpre e he
    cases hu : e.2 with
    | none => rw [hu] at hb; exact hb.elim
    | some x =>
      rw [hu] at hb
      simp only [belowB, decide_eq_true_eq] at hb
      simp only [ltBB]
      rcases (mem_insertAt _ _ _ _).mp ht with rfl | ht
      · exact hb
      · have hx := Chain_bound_mem hc1 e he x hu
        exact hcross1 x hx t (List.mem_append_left _ ht)

/-! ## Page ids of a shape -/

theorem pagesOf_site (lows : List (List Entry)) (pre : List Entry) (q : Nat) (U : Option Int)
    (post : List Entry) (ups : List (List Entry)) :
    pagesOf (lows ++ (pre ++ (q, U) :: post) :: ups) =
      (pagesOf lows ++ pre.map Prod.fst) ++ q :: (post.map Prod.fst ++ pagesOf ups) := by
  simp [pagesOf]

theorem mem_pagesOf {G : List (List Entry)} {lv : List Entry} {e : Entry} (hlv : lv ∈ G)
    (he : e ∈ lv) : e.1 ∈ pagesOf G := by
  unfold pagesOf
  apply List.mem_map_of_mem
  exact List.mem_flatten.mpr ⟨lv, hlv, he⟩

theorem nodup_site {lows : List (List Entry)} {pre : List Entry} {q : Nat} {U : Option Int}
    {post : List Entry} {ups : List (List Entry)}
    (h : (pagesOf (lows ++ (pre ++ (q, U) :: post) :: ups)).Nodup) :
    (∀ lv ∈ lows, ∀ e ∈ lv, e.1 ≠ q) ∧ (∀ e ∈ pre, e.1 ≠ q) ∧ (∀ e ∈ post, e.1 ≠ q) ∧
      (∀ lv ∈ ups, ∀ e ∈ lv, e.1 ≠ q) := by
  rw [pagesOf_site, List.nodup_middle, List.nodup_cons] at h
  have hq := h.1
  simp only [List.mem_append, not_or] at hq
  obtain ⟨⟨h1, h2⟩, h3, h4⟩ := hq
  refine ⟨?_, ?_, ?_, ?_⟩
  · intro lv hlv e he heq
    exact h1 (heq ▸ mem_pagesOf hlv he)
  · intro e he heq
    exact h2 (heq ▸ List.mem_map_of_mem _ he)
  · intro e he heq
    exact h3 (heq ▸ List.mem_map_of_mem _ he)
  · intro lv hlv e he heq
    exact h4 (heq ▸ mem_pagesOf hlv he)

/-! ## `modifyLeafNode`: the state it leaves -/

theorem modifyLeafNode_nosplit {c : Consts} {b : BufMgr} {q : Nat} {l : LeafNodeInt}
    (key : Int) (rid : RecordId) (pos : Nat) {total : Nat}
    (hq : b.file q = some (Page.leaf l)) (ht : total < c.INTARRAYLEAFSIZE) :
    modifyLeafNode c b q key rid pos total =
      some ((q, INVALID_NUMBER, -1),
        { b with file := Function.update b.file q (some (Page.leaf
            { keyArray := insertAt l.keyArray pos key
              ridArray := insertAt l.ridArray pos rid
              rightSibPageNo := l.rightSibPageNo })) }) := by
  obtain ⟨b1, hr, hu⟩ := read_write_unpin hq (Page.leaf
    { keyArray := insertAt l.keyArray pos key
      ridArray := insertAt l.ridArray pos rid
      rightSibPageNo := l.rightSibPageNo })
  simp only [modifyLeafNode, ht, if_true, hr, Page.asLeaf, hu]

theorem pin_restore_two (f : Nat → Nat) (q r : Nat) (hqr : q ≠ r) :
    Function.update (Function.update f q (f q + 1)) r
        (Function.update f q (f q + 1) r + 1) q ≠ 0 ∧
    Function.update (Function.update (Function.update f q (f q + 1)) r
        (Function.update f q (f q + 1) r + 1)) q
        (Function.update (Function.update f q (f q + 1)) r
          (Function.update f q (f q + 1) r + 1) q - 1) r ≠ 0 ∧
    Function.update (Function.update (Function.update (Function.update f q (f q + 1)) r
        (Function.update f q (f q + 1) r + 1)) q
        (Function.update (Function.update f q (f q + 1)) r
          (Function.update f q (f q + 1) r + 1) q - 1)) r
      (Function.update (Function.update (Function.update f q (f q + 1)) r
        (Function.update f q (f q + 1) r + 1)) q
        (Function.update (Function.update f q (f q + 1)) r
          (Function.update f q (f q + 1) r + 1) q - 1) r - 1) = f := by
  have hrq : r ≠ q := fun e => hqr e.symm
  refine ⟨?_, ?_, ?_⟩
  · simp [Function.update_apply, hqr, hrq]
  · simp [Function.update_apply, hqr, hrq]
  · funext x
    simp only [Function.update_apply, hqr, hrq, if_false, if_true]
    by_cases hx : x = r
    · subst hx
      simp [hrq]
    · by_cases hxq : x = q
      · subst hxq
        simp [hx]
      · simp [hx, hxq]

theorem modifyLeafNode_split {c : Consts} {b : BufMgr} {q : Nat} {l : LeafNodeInt}
    (key : Int) (rid : RecordId) (pos : Nat) {total : Nat} {push : Int}
    (hq : b.file q = some (Page.leaf l)) (ht : ¬ total < c.INTARRAYLEAFSIZE)
    (hqr : q ≠ b.numPages + 1)
    (hpush : ((insertAt l.keyArray pos key).take (c.INTARRAYLEAFSIZE + 1))[c.MIDDLELEAF]? =
      some push) :
    modifyLeafNode c b q key rid pos total =
      some ((q, b.numPages + 1, push),
        { file := Function.update (Function.update b.file q (some (Page.leaf
              { keyArray := ((insertAt l.keyArray pos key).take (c.INTARRAYLEAFSIZE + 1)).take
                  (c.MIDDLELEAF + 1)
                ridArray := ((insertAt l.ridArray pos rid).take (c.INTARRAYLEAFSIZE + 1)).take
                  (c.MIDDLELEAF + 1)
                rightSibPageNo := b.numPages + 1 })))
            (b.numPages + 1) (some (Page.leaf
              { keyArray := (((insertAt l.keyArray pos key).take (c.INTARRAYLEAFSIZE + 1)).drop
                  (c.MIDDLELEAF + 1)).take (c.INTARRAYLEAFSIZE - c.MIDDLELEAF)
                ridArray := (((insertAt l.ridArray pos rid).take (c.INTARRAYLEAFSIZE + 1)).drop
                  (c.MIDDLELEAF + 1)).take (c.INTARRAYLEAFSIZE - c.MIDDLELEAF)
                rightSibPageNo := l.rightSibPageNo }))
          numPages := b.numPages + 1
          pinCnt := b.pinCnt }) := by
  obtain ⟨hfile, hb1⟩ : b.file q = some (Page.leaf l) ∧ True := ⟨hq, trivial⟩
  obtain ⟨h1, h2, h3⟩ := pin_restore_two b.pinCnt q (b.numPages + 1) hqr
  simp only [modifyLeafNode, ht, if_false, readPage, hfile, allocPage, Page.asLeaf, hpush,
    unPinPage, writePage]
  simp only [h1, h2, if_false, Option.some.injEq, Prod.mk.injEq, true_and, BufMgr.mk.injEq,
    and_true]
  refine ⟨?_, h3⟩
  funext x
  simp only [Function.update]
  by_cases hx : x = b.numPages + 1
  · simp [hx]
  · by_cases hxq : x = q
    · simp [hx, hxq, hqr]
    · simp [hx, hxq]

/-! ## Insertion into a leaf that has room -/

theorem header_ne_of_two_le {q : Nat} (h : 2 ≤ q) : headerPageNum ≠ q := by
  intro e
  rw [← e] at h
  exact absurd h (by decide)

theorem leaf_insert_nosplit {c : Consts} {b : BufMgr} {lv0 : List Entry}
    {ups : List (List Entry)} {kvs : List (Int × RecordId)}
    (hs : Shape c b [] lv0 lv0 ups kvs) {pre post : List Entry} {q : Nat} {Uq : Option Int}
    {l : LeafNodeInt} {key : Int} (rid : RecordId)
    (ht : Target (fun k => decide (k < key)) lv0 pre q Uq post)
    (hq : b.file q = some (Page.leaf l)) (hkey : key ∉ kvs.map Prod.fst)
    (hlen : l.keyArray.length < c.INTARRAYLEAFSIZE) :
    ∃ kvs2, kvs2.Perm ((key, rid) :: kvs) ∧
      Shape c { b with file := Function.update b.file q (some (Page.leaf
        { keyArray := insertAt l.keyArray (searchGE l.keyArray key) key
          ridArray := insertAt l.ridArray (searchGE l.keyArray key) rid
          rightSibPageNo := l.rightSibPageNo })) } [] lv0 lv0 ups kvs2 := by
  have hchain : Chain c b false lv0 INVALID_NUMBER kvs := by simpa using hs.chain
  have hlv0 : LevelSorted lv0 := (hs.levels lv0 (by simp)).1
  obtain ⟨k1, rest, site⟩ := leafSite rid hchain hs.sorted hlv0 ht hq hkey
  obtain ⟨hlv, -, -⟩ := ht
  subst hlv
  obtain ⟨-, hpreq, hpostq, hupsq⟩ := nodup_site hs.nodup
  have hq2 : 2 ≤ q := (hs.range q (by rw [pagesOf_site]; simp)).1
  have hfile : ∀ x, x ≠ q → Function.update b.file q (some (Page.leaf
        { keyArray := insertAt l.keyArray (searchGE l.keyArray key) key
          ridArray := insertAt l.ridArray (searchGE l.keyArray key) rid
          rightSibPageNo := l.rightSibPageNo })) x = b.file x :=
    fun x hx => Function.update_noteq hx _ _
  refine ⟨k1 ++ insertAt l.entries (searchGE l.keyArray key) (key, rid) ++ rest, site.perm, ?_⟩
  constructor
  · obtain ⟨h, hf, hlast, hroot⟩ := hs.hdr
    refine ⟨h, ?_, hlast, hroot⟩
    show Function.update b.file q _ headerPageNum = _
    rw [hfile _ (header_ne_of_two_le hq2)]
    exact hf
  · show Chain c _ false (pre ++ (q, Uq) :: post) INVALID_NUMBER _
    rw [List.append_assoc]
    refine (Chain_append c _ ((q, Uq) :: post) INVALID_NUMBER pre false _).mpr
      ⟨k1, _, rfl, Chain_frame (fun e he => hfile _ (hpreq e he)) site.chainPre, ?_⟩
    refine ⟨_, Function.update_same _ _ _, ?_, site.sib, ?_, rest, ?_,
      Chain_frame (fun e he => hfile _ (hpostq e he)) site.chainPost⟩
    · refine ⟨?_, ?_, site.boundT, ?_⟩
      · simp only [insertAt_length, site.ok.1]
      · simp only [insertAt_length]
        omega
      · intro u hu
        exact (mem_insertAt _ _ _ _).mpr (Or.inr (site.ok.2.2.2 u hu))
    · intro _ hnil
      have := congrArg List.length hnil
      simp [insertAt_length] at this
    · simp only [LeafNodeInt.entries]
      rw [insertAt_zip _ _ _ _ _ site.ok.1]
  · exact site.sortedAll
  · exact trivial
  · exact Links_frame (fun lv hlv e he => hfile _ (hupsq lv hlv e he)) hs.linksUp
  · exact hs.levels
  · exact hs.nodup
  · exact hs.range

/-! ## Insertion into a full leaf -/

theorem ltBB_trans {a b c : Option Int} (h1 : ltBB a b) (h2 : ltBB b c) : ltBB a c := by
  cases a <;> cases b <;> cases c <;> simp_all [ltBB]
  omega

theorem LevelSorted_split {pre post : List Entry} {q r : Nat} {U : Option Int} {push : Int}
    (h : LevelSorted (pre ++ (q, U) :: post))
    (hpre : ∀ e ∈ pre, ltBB e.2 (some push)) (hU : ltBB (some push) U) :
    LevelSorted (pre ++ (q, some push) :: (r, U) :: post) := by
  unfold LevelSorted at *
  simp only [List.map_append, List.map_cons, List.pairwise_append, List.pairwise_cons,
    List.mem_cons, List.mem_map] at h ⊢
  obtain ⟨h1, ⟨h2, h3⟩, h4⟩ := h
  refine ⟨h1, ⟨?_, h2, h3⟩, ?_⟩
  · rintro x (rfl | ⟨e, he, rfl⟩)
    · exact hU
    · exact ltBB_trans hU (h2 _ ⟨e, he, rfl⟩)
  · rintro a ⟨e, he, rfl⟩ x (rfl | rfl | ⟨e2, he2, rfl⟩)
    · exact hpre e he
    · exact h4 _ ⟨e, he, rfl⟩ _ (Or.inl rfl)
    · exact h4 _ ⟨e, he, rfl⟩ _ (Or.inr ⟨e2, he2, rfl⟩)

theorem modifyLeafNode_split_full {c : Consts} {b : BufMgr} {q : Nat} {l : LeafNodeInt}
    (key : Int) (rid : RecordId) (pos : Nat) {total : Nat} {push : Int}
    (hq : b.file q = some (Page.leaf l)) (ht : ¬ total < c.INTARRAYLEAFSIZE)
    (hqr : q ≠ b.numPages + 1)
    (hk : l.keyArray.length = c.INTARRAYLEAFSIZE) (hr : l.ridArray.length = c.INTARRAYLEAFSIZE)
    (hpush : (insertAt l.keyArray pos key)[c.MIDDLELEAF]? = some push) :
    modifyLeafNode c b q key rid pos total =
      some ((q, b.numPages + 1, push),
        { file := Function.update (Function.update b.file q (some (Page.leaf
              { keyArray := (insertAt l.keyArray pos key).take (c.MIDDLELEAF + 1)
                ridArray := (insertAt l.ridArray pos rid).take (c.MIDDLELEAF + 1)
                rightSibPageNo := b.numPages + 1 })))
            (b.numPages + 1) (some (Page.leaf
              { keyArray := (insertAt l.keyArray pos key).drop (c.MIDDLELEAF + 1)
                ridArray := (insertAt l.ridArray pos rid).drop (c.MIDDLELEAF + 1)
                rightSibPageNo := l.rightSibPageNo }))
          numPages := b.numPages + 1
          pinCnt := b.pinCnt }) := by
  have hT : (insertAt l.keyArray pos key).take (c.INTARRAYLEAFSIZE + 1) =
      insertAt l.keyArray pos key :=
    List.take_of_length_le (by rw [insertAt_length]; omega)
  have hR : (insertAt l.ridArray pos rid).take (c.INTARRAYLEAFSIZE + 1) =
      insertAt l.ridArray pos rid :=
    List.take_of_length_le (by rw [insertAt_length]; omega)
  have hT2 : ((insertAt l.keyArray pos key).drop (c.MIDDLELEAF + 1)).take
      (c.INTARRAYLEAFSIZE - c.MIDDLELEAF) = (insertAt l.keyArray pos key).drop (c.MIDDLELEAF + 1) :=
    List.take_of_length_le (by rw [List.length_drop, insertAt_length]; omega)
  have hR2 : ((insertAt l.ridArray pos rid).drop (c.MIDDLELEAF + 1)).take
      (c.INTARRAYLEAFSIZE - c.MIDDLELEAF) = (insertAt l.ridArray pos rid).drop (c.MIDDLELEAF + 1) :=
    List.take_of_length_le (by rw [List.length_drop, insertAt_length]; omega)
  have := @modifyLeafNode_split c _ _ _ key rid pos _ push hq ht hqr
    (by rw [hT]; exact hpush)
  rw [this, hT, hR, hT2, hR2]

theorem leaf_insert_split {c : Consts} {b : BufMgr} {lv0 : List Entry}
    {ups : List (List Entry)} {kvs : List (Int × RecordId)} (hL : 1 ≤ c.INTARRAYLEAFSIZE)
    (hs : Shape c b [] lv0 lv0 ups kvs) {pre post : List Entry} {q : Nat} {Uq : Option Int}
    {l : LeafNodeInt} {key : Int} (rid : RecordId)
    (ht : Target (fun k => decide (k < key)) lv0 pre q Uq post)
    (hq : b.file q = some (Page.leaf l)) (hkey : key ∉ kvs.map Prod.fst)
    (hlen : ¬ l.keyArray.length < c.INTARRAYLEAFSIZE) :
    ∃ push kvs2, (insertAt l.keyArray (searchGE l.keyArray key) key)[c.MIDDLELEAF]? = some push ∧
      q ≠ b.numPages + 1 ∧ l.keyArray.length = c.INTARRAYLEAFSIZE ∧
      l.ridArray.length = c.INTARRAYLEAFSIZE ∧
      kvs2.Perm ((key, rid) :: kvs) ∧
      Shape c
        { file := Function.update (Function.update b.file q (some (Page.leaf
              { keyArray := (insertAt l.keyArray (searchGE l.keyArray key) key).take
                  (c.MIDDLELEAF + 1)
                ridArray := (insertAt l.ridArray (searchGE l.keyArray key) rid).take
                  (c.MIDDLELEAF + 1)
                rightSibPageNo := b.numPages + 1 })))
            (b.numPages + 1) (some (Page.leaf
              { keyArray := (insertAt l.keyArray (searchGE l.keyArray key) key).drop
                  (c.MIDDLELEAF + 1)
                ridArray := (insertAt l.ridArray (searchGE l.keyArray key) rid).drop
                  (c.MIDDLELEAF + 1)
                rightSibPageNo := l.rightSibPageNo }))
          numPages := b.numPages + 1
          pinCnt := b.pinCnt }
        [] (pre ++ (q, some push) :: (b.numPages + 1, Uq) :: post) lv0 ups kvs2 := by
  have hchain : Chain c b false lv0 INVALID_NUMBER kvs := by simpa using hs.chain
  have hlv0 : LevelSorted lv0 := (hs.levels lv0 (by simp)).1
  obtain ⟨k1, rest, site⟩ := leafSite rid hchain hs.sorted hlv0 ht hq hkey
  obtain ⟨hlv, -, -⟩ := ht
  subst hlv
  obtain ⟨-, hpreq, hpostq, hupsq⟩ := nodup_site hs.nodup
  have hqr := hs.range q (by rw [pagesOf_site]; simp)
  have hq2 : 2 ≤ q := hqr.1
  have hqn : q ≠ b.numPages + 1 := by omega
  have hklen : l.keyArray.length = c.INTARRAYLEAFSIZE := by
    have := site.ok.2.1
    omega
  have hrlen : l.ridArray.length = c.INTARRAYLEAFSIZE := by rw [site.ok.1, hklen]
  -- abbreviations
  have hTlen : (insertAt l.keyArray (searchGE l.keyArray key) key).length = c.INTARRAYLEAFSIZE + 1 := by
    rw [insertAt_length, hklen]
  have hRlen : (insertAt l.ridArray (searchGE l.keyArray key) rid).length = c.INTARRAYLEAFSIZE + 1 := by
    rw [insertAt_length, hrlen]
  have hM : c.MIDDLELEAF < c.INTARRAYLEAFSIZE + 1 := by
    unfold Consts.MIDDLELEAF; omega
  have hM1 : c.MIDDLELEAF + 1 ≤ c.INTARRAYLEAFSIZE := by
    unfold Consts.MIDDLELEAF; omega
  obtain ⟨push, hget⟩ : ∃ push,
      (insertAt l.keyArray (searchGE l.keyArray key) key)[c.MIDDLELEAF]? = some push :=
    ⟨_, List.getElem?_eq_getElem (by rw [hTlen]; exact hM)⟩
  have hsT := site.sortedT
  have hleft_le := sorted_take_le_get _ hsT _ _ hget
  have hpush_take : push ∈ (insertAt l.keyArray (searchGE l.keyArray key) key).take (c.MIDDLELEAF + 1) := by
    rw [List.take_succ, hget]
    simp
  have hpush_mem : push ∈ insertAt l.keyArray (searchGE l.keyArray key) key := List.mem_of_mem_take hpush_take
  have hdrop_ne : (insertAt l.keyArray (searchGE l.keyArray key) key).drop (c.MIDDLELEAF + 1) ≠ [] := by
    intro h
    have := congrArg List.length h
    rw [List.length_drop, hTlen] at this
    simp at this
    omega
  have hpushU : ltBB (some push) Uq := by
    cases hu : Uq with
    | none => trivial
    | some u =>
      obtain ⟨y, hy⟩ := List.exists_mem_of_ne_nil _ hdrop_ne
      have h1 := sorted_take_lt_drop _ hsT (c.MIDDLELEAF + 1) push hpush_take y hy
      have h2 := site.boundT y (List.mem_of_mem_drop hy)
      rw [hu] at h2
      simp only [leB] at h2
      simp only [ltBB]
      omega
  have hfile : ∀ x, x ≠ q → x ≠ b.numPages + 1 →
      Function.update (Function.update b.file q (some (Page.leaf
              { keyArray := (insertAt l.keyArray (searchGE l.keyArray key) key).take (c.MIDDLELEAF + 1)
                ridArray := (insertAt l.ridArray (searchGE l.keyArray key) rid).take (c.MIDDLELEAF + 1)
                rightSibPageNo := b.numPages + 1 })))
            (b.numPages + 1) (some (Page.leaf
              { keyArray := (insertAt l.keyArray (searchGE l.keyArray key) key).drop (c.MIDDLELEAF + 1)
                ridArray := (insertAt l.ridArray (searchGE l.keyArray key) rid).drop (c.MIDDLELEAF + 1)
                rightSibPageNo := l.rightSibPageNo })) x = b.file x := by
    intro x h1 h2
    rw [Function.update_noteq h2, Function.update_noteq h1]
  have hold : ∀ p ∈ pagesOf ([] ++ (pre ++ (q, Uq) :: post) :: ups), p ≠ b.numPages + 1 := by
    intro p hp
    have := (hs.range p hp).2
    omega
  have hpre_r : ∀ e ∈ pre, e.1 ≠ b.numPages + 1 := fun e he =>
    hold _ (by
      rw [pagesOf_site]
      exact List.mem_append_left _ (List.mem_append_right _ (List.mem_map_of_mem _ he)))
  have hpost_r : ∀ e ∈ post, e.1 ≠ b.numPages + 1 := fun e he =>
    hold _ (by
      rw [pagesOf_site]
      exact List.mem_append_right _ (List.mem_cons_of_mem _
        (List.mem_append_left _ (List.mem_map_of_mem _ he))))
  have hups_r : ∀ lv ∈ ups, ∀ e ∈ lv, e.1 ≠ b.numPages + 1 := fun lv hlv e he =>
    hold _ (mem_pagesOf (List.mem_append_right _ (List.mem_cons_of_mem _ hlv)) he)
  have hE : insertAt l.entries (searchGE l.keyArray key) (key, rid) =
      ((insertAt l.keyArray (searchGE l.keyArray key) key).take (c.MIDDLELEAF + 1)).zip
        ((insertAt l.ridArray (searchGE l.keyArray key) rid).take (c.MIDDLELEAF + 1)) ++
      ((insertAt l.keyArray (searchGE l.keyArray key) key).drop (c.MIDDLELEAF + 1)).zip
        ((insertAt l.ridArray (searchGE l.keyArray key) rid).drop (c.MIDDLELEAF + 1)) := by
    unfold LeafNodeInt.entries
    rw [← insertAt_zip _ _ _ _ _ site.ok.1]
    simp only [List.zip_eq_zipWith, ← List.take_zipWith, ← List.drop_zipWith,
      List.take_append_drop]
  refine ⟨push, k1 ++ insertAt l.entries (searchGE l.keyArray key) (key, rid) ++ rest, hget, hqn, hklen, hrlen,
    site.perm, ?_⟩
  constructor
  · obtain ⟨h, hf, hlast, hroot⟩ := hs.hdr
    refine ⟨h, ?_, hlast, hroot⟩
    show Function.update (Function.update b.file q _) _ _ headerPageNum = _
    rw [hfile _ (header_ne_of_two_le hq2) (header_ne_of_two_le (by omega))]
    exact hf
  · show Chain c _ false (pre ++ (q, some push) :: (b.numPages + 1, Uq) :: post) INVALID_NUMBER _
    rw [List.append_assoc]
    refine (Chain_append c _ _ INVALID_NUMBER pre false _).mpr
      ⟨k1, _, rfl, Chain_frame (fun e he => hfile _ (hpreq e he) (hpre_r e he)) site.chainPre, ?_⟩
    refine ⟨{ keyArray := (insertAt l.keyArray (searchGE l.keyArray key) key).take
                  (c.MIDDLELEAF + 1)
              ridArray := (insertAt l.ridArray (searchGE l.keyArray key) rid).take
                  (c.MIDDLELEAF + 1)
              rightSibPageNo := b.numPages + 1 }, ?_, ?_, rfl, ?_,
            ((insertAt l.keyArray (searchGE l.keyArray key) key).drop (c.MIDDLELEAF + 1)).zip
              ((insertAt l.ridArray (searchGE l.keyArray key) rid).drop (c.MIDDLELEAF + 1)) ++ rest,
            ?_, ?_⟩
    · show Function.update (Function.update b.file q _) _ _ q = _
      rw [Function.update_noteq hqn, Function.update_same]
    · refine ⟨?_, ?_, ?_, ?_⟩
      · simp only [List.length_take, hTlen, hRlen]
      · simp only [List.length_take, hTlen]
        omega
      · intro k hk
        exact hleft_le k hk
      · intro u hu
        injection hu with hu
        rw [← hu]
        exact hpush_take
    · intro _ hnil
      have h0 : (insertAt l.keyArray (searchGE l.keyArray key) key).take (c.MIDDLELEAF + 1) = [] :=
        hnil
      rw [h0] at hpush_take
      cases hpush_take
    · show insertAt l.entries (searchGE l.keyArray key) (key, rid) ++ rest = _ ++ (_ ++ rest)
      rw [hE, List.append_assoc]
      rfl
    · refine ⟨_, Function.update_same _ _ _, ?_, site.sib, ?_, rest, rfl,
        Chain_frame (fun e he => hfile _ (hpostq e he) (hpost_r e he)) site.chainPost⟩
      · refine ⟨?_, ?_, ?_, ?_⟩
        · simp only [List.length_drop, hTlen, hRlen]
        · simp only [List.length_drop, hTlen]
          omega
        · intro k hk
          exact site.boundT k (List.mem_of_mem_drop hk)
        · intro u hu
          have hu : Uq = some u := hu
          have hmem : u ∈ insertAt l.keyArray (searchGE l.keyArray key) key :=
            (mem_insertAt _ _ _ _).mpr (Or.inr (site.ok.2.2.2 u hu))
          rw [← List.take_append_drop (c.MIDDLELEAF + 1) (insertAt l.keyArray (searchGE l.keyArray key) key)] at hmem
          rcases List.mem_append.mp hmem with hm | hm
          · exfalso
            have h1 := hleft_le u hm
            rw [hu] at hpushU
            simp only [ltBB] at hpushU
            omega
          · exact hm
      · intro _
        exact hdrop_ne
  · exact site.sortedAll
  · exact trivial
  · exact Links_frame (fun lv hlv e he => hfile _ (hupsq lv hlv e he) (hups_r lv hlv e he))
      hs.linksUp
  · intro lv hlv
    simp only [List.nil_append, List.mem_cons] at hlv
    rcases hlv with rfl | hlv
    · refine ⟨LevelSorted_split hlv0 (fun e he => site.preLt e he push hpush_mem) hpushU, by simp⟩
    · exact hs.levels lv (by simp [hlv])
  · have hnd := hs.nodup
    have hnew := hold
    rw [pagesOf_site] at hnd hnew
    have : pagesOf ([] ++ (pre ++ (q, some push) :: (b.numPages + 1, Uq) :: post) :: ups) =
        (pagesOf [] ++ pre.map Prod.fst) ++ q :: (b.numPages + 1) ::
          (post.map Prod.fst ++ pagesOf ups) := by
      simp [pagesOf]
    rw [this]
    rw [List.nodup_middle] at hnd ⊢
    rw [List.nodup_cons] at hnd ⊢
    refine ⟨?_, ?_⟩
    · intro hmem
      rcases List.mem_append.mp hmem with hm | hm
      · exact hnd.1 (List.mem_append_left _ hm)
      · rcases List.mem_cons.mp hm with hm | hm
        · exact hqn hm
        · exact hnd.1 (List.mem_append_right _ hm)
    · rw [← List.cons_append] at *
      have h2 : ((pagesOf [] ++ pre.map Prod.fst) ++ (b.numPages + 1) ::
          (post.map Prod.fst ++ pagesOf ups)).Nodup := by
        rw [List.nodup_middle, List.nodup_cons]
        refine ⟨?_, hnd.2⟩
        intro hmem
        apply hnew (b.numPages + 1) _ rfl
        rcases List.mem_append.mp hmem with hm | hm
        · exact List.mem_append_left _ hm
        · exact List.mem_append_right _ (List.mem_cons_of_mem _ hm)
      exact h2
  · intro p hp
    have : pagesOf ([] ++ (pre ++ (q, some push) :: (b.numPages + 1, Uq) :: post) :: ups) =
        (pagesOf [] ++ pre.map Prod.fst) ++ q :: (b.numPages + 1) ::
          (post.map Prod.fst ++ pagesOf ups) := by
      simp [pagesOf]
    rw [this] at hp
    show 2 ≤ p ∧ p ≤ b.numPages + 1
    have hr := hs.range
    rw [pagesOf_site] at hr
    rcases List.mem_append.mp hp with hm | hm
    · have := hr p (List.mem_append_left _ hm)
      omega
    · rcases List.mem_cons.mp hm with rfl | hm
      · omega
      · rcases List.mem_cons.mp hm with rfl | hm
        · omega
        · have := hr p (List.mem_append_right _ (List.mem_cons_of_mem _ hm))
          omega

/-! ## Finding the parent -/

theorem findParentNodeLoop_of_path {b : BufMgr} {key : Int} {child : Nat} {k p par : Nat}
    (hpath : ParentPath b key child k p par) {n : NonLeafNodeInt}
    (hpar : b.file par = some (Page.nonLeaf n)) :
    ∀ fuel, k ≤ fuel →
      findParentNodeLoop fuel b p child key =
        some ((par, searchGT n.keyArray key, n.keyArray.length), b) := by
  induction hpath with
  | @here p n2 hp hc =>
    intro fuel hfuel
    obtain ⟨f, rfl⟩ : ∃ f, fuel = f + 1 := ⟨fuel - 1, by omega⟩
    obtain ⟨b1, hr, hu⟩ := read_unpin hp
    have hn : n2 = n := by
      have : some (Page.nonLeaf n2) = some (Page.nonLeaf n) := by rw [← hp]; exact hpar
      injection this with this
      injection this
    subst hn
    simp only [findParentNodeLoop, hr, hu, Page.asNonLeaf, hc, if_true]
  | step hp hc hne _ ih =>
    intro fuel hfuel
    obtain ⟨f, rfl⟩ : ∃ f, fuel = f + 1 := ⟨fuel - 1, by omega⟩
    obtain ⟨b1, hr, hu⟩ := read_unpin hp
    simp only [findParentNodeLoop, hr, hu, Page.asNonLeaf, hc, hne, if_false]
    exact ih hpar f (by omega)

theorem Target_unique {blw : Int → Bool} {lv : List Entry} :
    ∀ {pre pre2 post post2 : List Entry} {q q2 : Nat} {U U2 : Option Int},
      Target blw lv pre q U post → Target blw lv pre2 q2 U2 post2 →
      pre = pre2 ∧ q = q2 ∧ U = U2 ∧ post = post2 := by
  intro pre
  induction pre generalizing lv with
  | nil =>
    intro pre2 post post2 q q2 U U2 h1 h2
    obtain ⟨rfl, -, hU⟩ := h1
    obtain ⟨heq, hp2, hU2⟩ := h2
    cases pre2 with
    | nil =>
      simp only [List.nil_append, List.cons.injEq, Prod.mk.injEq] at heq
      obtain ⟨⟨rfl, rfl⟩, rfl⟩ := heq
      exact ⟨rfl, rfl, rfl, rfl⟩
    | cons x xs =>
      exfalso
      simp only [List.nil_append, List.cons_append, List.cons.injEq] at heq
      have := hp2 x (by simp)
      rw [← heq.1] at this
      exact hU this
  | cons e es ih =>
    intro pre2 post post2 q q2 U U2 h1 h2
    obtain ⟨rfl, hp1, hU⟩ := h1
    obtain ⟨heq, hp2, hU2⟩ := h2
    cases pre2 with
    | nil =>
      exfalso
      simp only [List.nil_append, List.cons_append, List.cons.injEq] at heq
      have := hp1 e (by simp)
      rw [heq.1] at this
      exact hU2 this
    | cons x xs =>
      simp only [List.cons_append, List.cons.injEq] at heq
      obtain ⟨rfl, heq⟩ := heq
      have := ih
        (show Target blw (es ++ (q, U) :: post) es q U post from
          ⟨rfl, fun y hy => hp1 y (List.mem_cons_of_mem _ hy), hU⟩)
        ⟨heq, fun y hy => hp2 y (List.mem_cons_of_mem _ hy), hU2⟩
      obtain ⟨rfl, rfl, rfl, rfl⟩ := this
      exact ⟨rfl, rfl, rfl, rfl⟩

/-- The decomposition of the level under a node at the child that a search
selects. -/
theorem seg_split {seg : List Entry} {i : Nat} {child : Nat} {Uc : Option Int}
    (h : seg[i]? = some (child, Uc)) :
    seg = seg.take i ++ (child, Uc) :: seg.drop (i + 1) := by
  have hi : i < seg.length := by
    by_contra hcon
    rw [List.getElem?_eq_none (by omega)] at h
    cases h
  have h1 := List.getElem?_eq_getElem hi
  rw [h] at h1
  injection h1 with h1
  rw [h1]
  simp

theorem parentPath_exists (c : Consts) (b : BufMgr) (key : Int) (curC preC postC : List Entry)
    (left : Nat) (Uleft : Option Int)
    (htc : Target (fun k => decide (k ≤ key)) curC preC left Uleft postC)
    (hsc : LevelSorted curC) :
    ∀ (mids : List (List Entry)) (cur pre post : List Entry) (p : Nat) (U : Option Int)
      (bot : Bool),
      Links c b bot (curC :: mids ++ [cur]) → (∀ lv ∈ mids, LevelSorted lv) →
      (∀ lv ∈ mids, ∀ e ∈ lv, e.1 ≠ left) →
      Target (fun k => decide (k ≤ key)) cur pre p U post →
      ∃ par Upar preP postP,
        Target (fun k => decide (k ≤ key)) ((mids ++ [cur]).headD []) preP par Upar postP ∧
        ParentPath b key left (mids.length + 1) p par := by
  intro mids
  induction mids using List.reverseRecOn with
  | nil =>
    intro cur pre post p U bot hlinks _ _ ht
    obtain ⟨hcur, hpre, hU⟩ := ht
    have hlink : Link c b (if bot = true then 1 else 0) cur curC := by
      simp only [List.nil_append, List.cons_append, Links] at hlinks
      exact hlinks.1
    obtain ⟨n, lpre, seg, lpost, child, Uc, hfile, -, -, -, -, hlo, -, -, hchild, hseg, hbel,
      hUc⟩ := descent_step (fun k => decide (k ≤ key)) (mono_le key) hlink hsc hcur hpre hU
    have htc2 : Target (fun k => decide (k ≤ key)) curC
        (lpre ++ seg.take (searchP (fun k => decide (k ≤ key)) n.keyArray)) child Uc
        (seg.drop (searchP (fun k => decide (k ≤ key)) n.keyArray + 1) ++ lpost) := by
      refine ⟨?_, hbel, hUc⟩
      rw [hlo]
      conv_lhs => rw [seg_split hseg]
      simp
    obtain ⟨-, hch, -, -⟩ := Target_unique htc2 htc
    subst hch
    refine ⟨p, U, pre, post, ⟨by simpa using hcur, hpre, hU⟩, ?_⟩
    exact ParentPath.here hfile (by rw [searchGT_eq]; exact hchild)
  | append_singleton xs lv ih =>
    intro cur pre post p U bot hlinks hsort hne ht
    obtain ⟨hcur, hpre, hU⟩ := ht
    have hl : Links c b bot ((curC :: xs) ++ [lv, cur]) := by simpa using hlinks
    obtain ⟨hlow, hlink⟩ := (Links_snoc c b (curC :: xs) lv cur bot).mp hl
    have hslv : LevelSorted lv := hsort lv (by simp)
    obtain ⟨n, lpre, seg, lpost, child, Uc, hfile, -, -, -, -, hlo, -, -, hchild, hseg, hbel,
      hUc⟩ := descent_step (fun k => decide (k ≤ key)) (mono_le key) hlink hslv hcur hpre hU
    have htlv : Target (fun k => decide (k ≤ key)) lv
        (lpre ++ seg.take (searchP (fun k => decide (k ≤ key)) n.keyArray)) child Uc
        (seg.drop (searchP (fun k => decide (k ≤ key)) n.keyArray + 1) ++ lpost) := by
      refine ⟨?_, hbel, hUc⟩
      rw [hlo]
      conv_lhs => rw [seg_split hseg]
      simp
    have hchne : child ≠ left := by
      apply hne lv (by simp) (child, Uc)
      rw [htlv.1]
      simp
    obtain ⟨par, Upar, preP, postP, htp, hpath⟩ :=
      ih lv _ _ child Uc bot (by simpa using hlow)
        (fun l hl => hsort l (by simp [hl])) (fun l hl => hne l (by simp [hl])) htlv
    refine ⟨par, Upar, preP, postP, ?_, ?_⟩
    · have : ((xs ++ [lv]) ++ [cur]).headD [] = (xs ++ [lv]).headD [] := by
        cases xs <;> rfl
      rw [this]
      exact htp
    · have := ParentPath.step hfile (by rw [searchGT_eq]; exact hchild) hchne hpath
      simpa using this

/-! ## `modifyNonLeafNode`: the state it leaves -/

theorem modifyNonLeafNode_nosplit {c : Consts} {b : BufMgr} {p : Nat} {n : NonLeafNodeInt}
    (key : Int) (left right : Nat) (pos : Nat) {total : Nat}
    (hp : b.file p = some (Page.nonLeaf n)) (ht : total < c.INTARRAYNONLEAFSIZE) :
    modifyNonLeafNode c b p key left right pos total =
      some ((p, INVALID_NUMBER, -1),
        { b with file := Function.update b.file p (some (Page.nonLeaf
            { level := n.level
              keyArray := insertAt n.keyArray pos key
              pageNoArray := insertChildren n.pageNoArray pos left right })) }) := by
  obtain ⟨b1, hr, hu⟩ := read_write_unpin hp (Page.nonLeaf
    { level := n.level
      keyArray := insertAt n.keyArray pos key
      pageNoArray := insertChildren n.pageNoArray pos left right })
  simp only [modifyNonLeafNode, ht, if_true, hr, Page.asNonLeaf, hu]

theorem insertChildren_length (xs : List Nat) (pos left right : Nat) (h : pos < xs.length) :
    (insertChildren xs pos left right).length = xs.length + 1 := by
  simp only [insertChildren, List.length_append, List.length_cons, List.length_take,
    List.length_drop]
  omega

theorem modifyNonLeafNode_split {c : Consts} {b : BufMgr} {p : Nat} {n : NonLeafNodeInt}
    (key : Int) (left right : Nat) (pos : Nat) {total : Nat} {push : Int}
    (hp : b.file p = some (Page.nonLeaf n)) (ht : ¬ total < c.INTARRAYNONLEAFSIZE)
    (hpr : p ≠ b.numPages + 1)
    (hk : n.keyArray.length = c.INTARRAYNONLEAFSIZE)
    (hc : n.pageNoArray.length = c.INTARRAYNONLEAFSIZE + 1) (hpos : pos < n.pageNoArray.length)
    (hpush : (insertAt n.keyArray pos key)[c.MIDDLENONLEAF]? = some push) :
    modifyNonLeafNode c b p key left right pos total =
      some ((p, b.numPages + 1, push),
        { file := Function.update (Function.update b.file p (some (Page.nonLeaf
              { level := n.level
                keyArray := (insertAt n.keyArray pos key).take c.MIDDLENONLEAF
                pageNoArray := (insertChildren n.pageNoArray pos left right).take
                  (c.MIDDLENONLEAF + 1) })))
            (b.numPages + 1) (some (Page.nonLeaf
              { level := n.level
                keyArray := (insertAt n.keyArray pos key).drop (c.MIDDLENONLEAF + 1)
                pageNoArray := (insertChildren n.pageNoArray pos left right).drop
                  (c.MIDDLENONLEAF + 1) }))
          numPages := b.numPages + 1
          pinCnt := b.pinCnt }) := by
  have hT : (insertAt n.keyArray pos key).take (c.INTARRAYNONLEAFSIZE + 1) =
      insertAt n.keyArray pos key :=
    List.take_of_length_le (by rw [insertAt_length]; omega)
  have hC : (insertChildren n.pageNoArray pos left right).take (c.INTARRAYNONLEAFSIZE + 2) =
      insertChildren n.pageNoArray pos left right :=
    List.take_of_length_le (by rw [insertChildren_length _ _ _ _ hpos]; omega)
  have hT2 : ((insertAt n.keyArray pos key).drop (c.MIDDLENONLEAF + 1)).take
      (c.INTARRAYNONLEAFSIZE - c.MIDDLENONLEAF) =
      (insertAt n.keyArray pos key).drop (c.MIDDLENONLEAF + 1) :=
    List.take_of_length_le (by rw [List.length_drop, insertAt_length]; omega)
  have hC2 : ((insertChildren n.pageNoArray pos left right).drop (c.MIDDLENONLEAF + 1)).take
      (c.INTARRAYNONLEAFSIZE - c.MIDDLENONLEAF + 1) =
      (insertChildren n.pageNoArray pos left right).drop (c.MIDDLENONLEAF + 1) :=
    List.take_of_length_le (by
      rw [List.length_drop, insertChildren_length _ _ _ _ hpos]; omega)
  obtain ⟨h1, h2, h3⟩ := pin_restore_two b.pinCnt p (b.numPages + 1) hpr
  simp only [modifyNonLeafNode, ht, if_false, readPage, hp, allocPage, Page.asNonLeaf, hT, hC,
    hT2, hC2, hpush, unPinPage, writePage]
  simp only [h1, h2, if_false, Option.some.injEq, Prod.mk.injEq, true_and, BufMgr.mk.injEq,
    and_true]
  refine ⟨?_, h3⟩
  funext x
  simp only [Function.update]
  by_cases hx : x = b.numPages + 1
  · simp [hx]
  · by_cases hxp : x = p
    · simp [hx, hxp, hpr]
    · simp [hx, hxp]

/-! ## The children of a node after a separator was inserted -/

theorem segInsert_fst {seg : List Entry} {i : Nat} {left right : Nat} {push : Int}
    {U : Option Int} {pages : List Nat} (h : seg.map Prod.fst = pages) :
    (segInsert seg i left push right U).map Prod.fst = insertChildren pages i left right := by
  subst h
  simp [segInsert, insertChildren, List.map_take, List.map_drop]

theorem segInsert_snd {seg : List Entry} {i : Nat} {left right : Nat} {push : Int}
    {U UP : Option Int} {keys : List Int} (h : seg.map Prod.snd = keys.map some ++ [UP])
    (hi : seg[i]? = some (left, U)) (hik : i ≤ keys.length) :
    (segInsert seg i left push right U).map Prod.snd =
      (insertAt keys i push).map some ++ [UP] := by
  have hB : (keys.map some ++ [UP])[i]? = some U := by
    rw [← h]
    simp [hi]
  have hdrop : (keys.map some ++ [UP]).drop i = U :: (keys.map some ++ [UP]).drop (i + 1) := by
    have hlt : i < (keys.map some ++ [UP]).length := by simp; omega
    rw [List.drop_eq_getElem_cons hlt]
    have := List.getElem?_eq_getElem hlt
    rw [hB] at this
    injection this with this
    rw [this]
  simp only [segInsert, List.map_append, List.map_cons, List.map_take, List.map_drop, h,
    insertAt]
  rw [← hdrop]
  rw [List.take_append_of_le_length (by simpa using hik),
    List.drop_append_of_le_length (by simpa using hik)]
  simp

/-! ## The parent of a node that was split -/

theorem findParentNode_root {b : BufMgr} {h : IndexMetaInfo} (key : Int)
    (hfile : b.file headerPageNum = some (Page.header h)) :
    findParentNode b h.rootPageNo key = some ((INVALID_NUMBER, 0, 0), b) := by
  obtain ⟨b1, hr, hu⟩ := read_unpin hfile
  simp only [findParentNode, hr, hu, Page.asMeta, if_true]

theorem findParentNode_spec {b : BufMgr} {h : IndexMetaInfo} {key : Int} {child k par : Nat}
    {n : NonLeafNodeInt}
    (hfile : b.file headerPageNum = some (Page.header h)) (hne : child ≠ h.rootPageNo)
    (hpath : ParentPath b key child k h.rootPageNo par) (hk : k ≤ b.numPages + 1)
    (hpar : b.file par = some (Page.nonLeaf n)) :
    findParentNode b child key =
      some ((par, searchGT n.keyArray key, n.keyArray.length), b) := by
  obtain ⟨b1, hr, hu⟩ := read_unpin hfile
  simp only [findParentNode, hr, hu, Page.asMeta, hne, if_false]
  exact findParentNodeLoop_of_path hpath hpar _ hk

theorem LevelSorted_unsplit {pre post : List Entry} {q r : Nat} {U : Option Int} {push : Int}
    (h : LevelSorted (pre ++ (q, some push) :: (r, U) :: post)) :
    LevelSorted (pre ++ (q, U) :: post) ∧ (∀ e ∈ pre, ltBB e.2 (some push)) ∧
      ltBB (some push) U := by
  unfold LevelSorted at *
  simp only [List.map_append, List.map_cons, List.pairwise_append, List.pairwise_cons,
    List.mem_cons, List.mem_map] at h ⊢
  obtain ⟨h1, ⟨h2, h3, h4⟩, h5⟩ := h
  refine ⟨⟨h1, ⟨h3, h4⟩, ?_⟩, ?_, ?_⟩
  · rintro a ⟨e, he, rfl⟩ x (rfl | ⟨e2, he2, rfl⟩)
    · exact h5 _ ⟨e, he, rfl⟩ _ (Or.inr (Or.inl rfl))
    · exact h5 _ ⟨e, he, rfl⟩ _ (Or.inr (Or.inr ⟨e2, he2, rfl⟩))
  · intro e he
    exact h5 _ ⟨e, he, rfl⟩ _ (Or.inl rfl)
  · exact h2 _ (Or.inl rfl)

theorem pending_target {pre post : List Entry} {q r : Nat} {U : Option Int} {push : Int}
    (h : LevelSorted (pre ++ (q, some push) :: (r, U) :: post)) :
    Target (fun k => decide (k ≤ push)) (pre ++ (q, U) :: post) pre q U post := by
  obtain ⟨-, h2, h3⟩ := LevelSorted_unsplit h
  refine ⟨rfl, ?_, ?_⟩
  · intro e he
    have := h2 e he
    cases hu : e.2 with
    | none => rw [hu] at this; exact this.elim
    | some x =>
      rw [hu] at this
      simp only [ltBB] at this
      simp only [belowB, decide_eq_true_eq]
      omega
  · cases U with
    | none => simp [belowB]
    | some u =>
      simp only [ltBB] at h3
      simp only [belowB, decide_eq_true_eq]
      omega

theorem parentSite {c : Consts} {b : BufMgr} {lows : List (List Entry)} {pre post : List Entry}
    {left right : Nat} {push : Int} {U : Option Int} {lvP : List Entry}
    {ups : List (List Entry)} {kvs : List (Int × RecordId)}
    (hs : Shape c b lows (pre ++ (left, some push) :: (right, U) :: post)
      (pre ++ (left, U) :: post) (lvP :: ups) kvs) :
    ∃ P UP preP postP n lpre seg lpost,
      ParentSite c b (if lows = [] then 1 else 0) pre left push U post lvP P UP preP postP n
        lpre seg lpost := by
  obtain ⟨h, hfile, hlast, hroot⟩ := hs.hdr
  have hcur := (hs.levels (pre ++ (left, some push) :: (right, U) :: post) (by simp)).1
  have htc := pending_target hcur
  have hsc := (LevelSorted_unsplit hcur).1
  obtain ⟨hlowsne, -, -, hupsne⟩ := nodup_site hs.nodup
  rw [List.getLast?_cons_cons] at hlast
  obtain ⟨mids, hmids⟩ := List.getLast?_eq_some_iff.mp hlast
  have hlinks := hs.linksUp
  rw [hmids] at hlinks
  have hmem : ∀ lv ∈ mids, lv ∈ lvP :: ups := by
    intro lv hlv
    rw [hmids]
    exact List.mem_append_left _ hlv
  have hrootmem : [(h.rootPageNo, (none : Option Int))] ∈ lvP :: ups := by
    rw [hmids]
    simp
  have hrootne : left ≠ h.rootPageNo := by
    intro e
    exact hupsne _ hrootmem (h.rootPageNo, none) (by simp) e.symm
  obtain ⟨P, UP, preP, postP, htP, hpath⟩ :=
    parentPath_exists c b push _ pre post left U htc hsc mids [(h.rootPageNo, none)] [] []
      h.rootPageNo none _ hlinks
      (fun lv hlv => (hs.levels lv (List.mem_append_right _
        (List.mem_cons_of_mem _ (hmem lv hlv)))).1)
      (fun lv hlv => hupsne lv (hmem lv hlv))
      ⟨rfl, by simp, by simp [belowB]⟩
  have hhead : (mids ++ [[(h.rootPageNo, (none : Option Int))]]).headD [] = lvP := by
    rw [← hmids]
    rfl
  rw [hhead] at htP
  have hlink : Link c b (if lows = [] then 1 else 0) lvP (pre ++ (left, U) :: post) := by
    have := hs.linksUp
    simp only [Links] at this
    have h1 := this.1
    by_cases hl : lows = []
    · simpa [hl] using h1
    · simpa [hl] using h1
  obtain ⟨hlvP, hpreP, hUP⟩ := htP
  obtain ⟨n, lpre, seg, lpost, child, Uc, hnf, hlvl, hsize, hfst, hsnd, hlo, hlpre, hlpost,
    hchild, hseg, hbel, hUc⟩ :=
    descent_step (fun k => decide (k ≤ push)) (mono_le push) hlink hsc hlvP hpreP hUP
  have htc2 : Target (fun k => decide (k ≤ push)) (pre ++ (left, U) :: post)
      (lpre ++ seg.take (searchP (fun k => decide (k ≤ push)) n.keyArray)) child Uc
      (seg.drop (searchP (fun k => decide (k ≤ push)) n.keyArray + 1) ++ lpost) := by
    refine ⟨?_, hbel, hUc⟩
    rw [hlo]
    conv_lhs => rw [seg_split hseg]
    simp
  obtain ⟨e1, e2, e3, e4⟩ := Target_unique htc2 htc
  subst e2 e3
  rw [← searchGT_eq] at e1 e4 hseg
  have hk : mids.length + 1 ≤ b.numPages + 1 := by
    have := hs.height_le
    have h2 : (lvP :: ups).length = mids.length + 1 := by rw [hmids]; simp
    simp only [List.length_append, List.length_cons] at this h2
    omega
  refine ⟨P, UP, preP, postP, n, lpre, seg, lpost,
    ⟨hlvP, hnf, hlvl, hsize, hfst, hsnd, e1.symm, e4.symm, hseg, hlpre, hlpost, ?_⟩⟩
  exact findParentNode_spec hfile hrootne hpath hk hnf

/-! ## From a shape with nothing pending to the invariant -/

theorem Shape.toInv {c : Consts} {b : BufMgr} {lows : List (List Entry)} {cur : List Entry}
    {ups : List (List Entry)} {kvs : List (Int × RecordId)}
    (hs : Shape c b lows cur cur ups kvs) : Inv c b (lows ++ cur :: ups) kvs := by
  cases lows with
  | nil => exact ⟨cur, ups, rfl, hs⟩
  | cons x xs =>
    refine ⟨x, xs ++ cur :: ups, rfl, ?_⟩
    constructor
    · obtain ⟨h, hf, hlast, hroot⟩ := hs.hdr
      refine ⟨h, hf, ?_, ?_⟩
      · have : (x :: (xs ++ cur :: ups)) = (x :: xs) ++ (cur :: ups) := rfl
        rw [this, List.getLast?_append, hlast]
        rfl
      · constructor
        · intro e
          exact absurd (hroot.mp e).1 (by simp)
        · rintro ⟨-, e⟩
          exact absurd e (by simp)
    · have := hs.chain
      simpa using this
    · exact hs.sorted
    · exact trivial
    · have h1 := hs.linksLow
      have h2 := hs.linksUp
      have := (Links_mid c b cur ups (x :: xs) true).mpr ⟨h1, by simpa using h2⟩
      simpa using this
    · exact hs.levels
    · exact hs.nodup
    · exact hs.range

/-! ## Inserting the separator into a parent that has room -/

theorem nonleaf_insert_nosplit {c : Consts} {b : BufMgr} {lows : List (List Entry)}
    {pre post : List Entry} {left right : Nat} {push : Int} {U : Option Int}
    {lvP : List Entry} {ups : List (List Entry)} {kvs : List (Int × RecordId)}
    (hs : Shape c b lows (pre ++ (left, some push) :: (right, U) :: post)
      (pre ++ (left, U) :: post) (lvP :: ups) kvs)
    {P : Nat} {UP : Option Int} {preP postP : List Entry} {n : NonLeafNodeInt}
    {lpre seg lpost : List Entry}
    (site : ParentSite c b (if lows = [] then 1 else 0) pre left push U post lvP P UP preP postP
      n lpre seg lpost)
    (hlen : n.keyArray.length < c.INTARRAYNONLEAFSIZE) :
    Shape c
      { b with file := Function.update b.file P (some (Page.nonLeaf
          { level := n.level
            keyArray := insertAt n.keyArray (searchGT n.keyArray push) push
            pageNoArray := insertChildren n.pageNoArray (searchGT n.keyArray push) left right })) }
      lows (pre ++ (left, some push) :: (right, U) :: post)
      (pre ++ (left, some push) :: (right, U) :: post) (lvP :: ups) kvs := by
  have hlvP := site.hlvP
  subst hlvP
  have hnd := hs.nodup
  have hrw : lows ++ (pre ++ (left, some push) :: (right, U) :: post) ::
      (preP ++ (P, UP) :: postP) :: ups =
      (lows ++ [pre ++ (left, some push) :: (right, U) :: post]) ++
        (preP ++ (P, UP) :: postP) :: ups := by simp
  rw [hrw] at hnd
  obtain ⟨hlowP, hpreP, hpostP, hupsP⟩ := nodup_site hnd
  have hP2 : 2 ≤ P := (hs.range P (@mem_pagesOf _ (preP ++ (P, UP) :: postP)
    (P, UP) (by simp) (by simp))).1
  have hfile : ∀ x, x ≠ P → Function.update b.file P (some (Page.nonLeaf
          { level := n.level
            keyArray := insertAt n.keyArray (searchGT n.keyArray push) push
            pageNoArray := insertChildren n.pageNoArray (searchGT n.keyArray push) left right }))
        x = b.file x :=
    fun x hx => Function.update_noteq hx _ _
  have hi : searchGT n.keyArray push ≤ n.keyArray.length := by
    rw [searchGT_eq]; exact searchP_le _ _
  have hcur : pre ++ (left, some push) :: (right, U) :: post =
      lpre ++ (segInsert seg (searchGT n.keyArray push) left push right U ++ lpost) := by
    rw [site.hpre, site.hpost]
    simp [segInsert]
  have hnode : NodeOK c
      { b with file := Function.update b.file P (some (Page.nonLeaf
          { level := n.level
            keyArray := insertAt n.keyArray (searchGT n.keyArray push) push
            pageNoArray := insertChildren n.pageNoArray (searchGT n.keyArray push) left right })) }
      (if lows = [] then 1 else 0) (P, UP)
      (segInsert seg (searchGT n.keyArray push) left push right U) := by
    refine ⟨_, Function.update_same _ _ _, site.level, ?_, segInsert_fst site.fst,
      segInsert_snd site.snd site.place hi⟩
    simp only [insertAt_length]
    omega
  have hlink : Link c
      { b with file := Function.update b.file P (some (Page.nonLeaf
          { level := n.level
            keyArray := insertAt n.keyArray (searchGT n.keyArray push) push
            pageNoArray := insertChildren n.pageNoArray (searchGT n.keyArray push) left right })) }
      (if lows = [] then 1 else 0) (preP ++ (P, UP) :: postP)
      (pre ++ (left, some push) :: (right, U) :: post) := by
    rw [hcur]
    exact (Link_append c _ _ preP ((P, UP) :: postP) _).mpr
      ⟨lpre, _, rfl, Link_frame (fun e he => hfile _ (hpreP e he)) site.linkPre,
        ⟨_, lpost, rfl, hnode, Link_frame (fun e he => hfile _ (hpostP e he)) site.linkPost⟩⟩
  constructor
  · obtain ⟨h, hf, hlast, hroot⟩ := hs.hdr
    refine ⟨h, ?_, ?_, hroot⟩
    · show Function.update b.file P _ headerPageNum = _
      rw [hfile _ (header_ne_of_two_le hP2)]
      exact hf
    · rw [List.getLast?_cons_cons] at hlast ⊢
      exact hlast
  · refine Chain_frame ?_ hs.chain
    intro e he
    apply hfile
    apply hlowP ((lows ++ [pre ++ (left, some push) :: (right, U) :: post]).headD []) _ e he
    cases lows <;> simp
  · exact hs.sorted
  · refine Links_frame ?_ hs.linksLow
    intro lv hlv e he
    exact hfile _ (hlowP lv (List.mem_of_mem_tail hlv) e he)
  · have h2 := hs.linksUp
    simp only [Links] at h2 ⊢
    refine ⟨?_, Links_frame ?_ h2.2⟩
    · by_cases hl : lows = []
      · simpa [hl] using hlink
      · simpa [hl] using hlink
    · intro lv hlv e he
      exact hfile _ (hupsP lv (by simpa using hlv) e he)
  · exact hs.levels
  · exact hs.nodup
  · exact hs.range

/-! ## Splitting a full parent -/

theorem pagesOf_site2 (lows : List (List Entry)) (pre : List Entry) (q : Nat) (X : Option Int)
    (r : Nat) (U : Option Int) (post : List Entry) (ups : List (List Entry)) :
    pagesOf (lows ++ (pre ++ (q, X) :: (r, U) :: post) :: ups) =
      (pagesOf lows ++ pre.map Prod.fst) ++ q :: r :: (post.map Prod.fst ++ pagesOf ups) := by
  simp [pagesOf]

/-- Page ids after a split: the new page is fresh, so the ids stay distinct. -/
theorem pages_after_split {lows : List (List Entry)} {pre post : List Entry} {q r : Nat}
    {U X : Option Int} {ups : List (List Entry)} {m : Nat}
    (hnd : (pagesOf (lows ++ (pre ++ (q, U) :: post) :: ups)).Nodup)
    (hr : ∀ p ∈ pagesOf (lows ++ (pre ++ (q, U) :: post) :: ups), 2 ≤ p ∧ p ≤ m) (hrm : r = m + 1) :
    (pagesOf (lows ++ (pre ++ (q, X) :: (r, U) :: post) :: ups)).Nodup ∧
      ∀ p ∈ pagesOf (lows ++ (pre ++ (q, X) :: (r, U) :: post) :: ups), 2 ≤ p ∧ p ≤ m + 1 := by
  rw [pagesOf_site] at hnd hr
  rw [pagesOf_site2]
  have hfresh : r ∉ (pagesOf lows ++ pre.map Prod.fst) ++ q :: (post.map Prod.fst ++ pagesOf ups) := by
    intro hmem
    have := (hr r hmem).2
    omega
  constructor
  · rw [List.nodup_middle, List.nodup_cons] at hnd ⊢
    refine ⟨?_, ?_⟩
    · intro hmem
      rcases List.mem_append.mp hmem with hm | hm
      · exact hnd.1 (List.mem_append_left _ hm)
      · rcases List.mem_cons.mp hm with hm | hm
        · apply hfresh
          rw [← hm]
          simp
        · exact hnd.1 (List.mem_append_right _ hm)
    · rw [List.nodup_middle, List.nodup_cons]
      refine ⟨?_, hnd.2⟩
      intro hmem
      apply hfresh
      rcases List.mem_append.mp hmem with hm | hm
      · exact List.mem_append_left _ hm
      · exact List.mem_append_right _ (List.mem_cons_of_mem _ hm)
  · intro p hp
    rcases List.mem_append.mp hp with hm | hm
    · have := hr p (List.mem_append_left _ hm)
      omega
    · rcases List.mem_cons.mp hm with rfl | hm
      · have := hr p (List.mem_append_right _ (List.mem_cons_self _ _))
        omega
      · rcases List.mem_cons.mp hm with rfl | hm
        · have := hr q (List.mem_append_right _ (List.mem_cons_self _ _))
          omega
        · have := hr p (List.mem_append_right _ (List.mem_cons_of_mem _ hm))
          omega

theorem Link_bound_mem {c : Consts} {b : BufMgr} {lvl : Nat} :
    ∀ {up lo : List Entry}, Link c b lvl up lo → ∀ e ∈ up, e.2 ∈ lo.map Prod.snd := by
  intro up
  induction up with
  | nil => intro _ _ e he; cases he
  | cons x xs ih =>
    intro lo h e he
    obtain ⟨seg, rest, rfl, hn, hr⟩ := h
    rw [List.map_append]
    rcases List.mem_cons.mp he with rfl | he
    · obtain ⟨n, -, -, -, -, hsnd⟩ := hn
      rw [hsnd]
      simp
    · exact List.mem_append_right _ (ih hr e he)

theorem nonleaf_insert_split {c : Consts} {b : BufMgr} {lows : List (List Entry)}
    {pre post : List Entry} {left right : Nat} {push : Int} {U : Option Int}
    {lvP : List Entry} {ups : List (List Entry)} {kvs : List (Int × RecordId)}
    (hs : Shape c b lows (pre ++ (left, some push) :: (right, U) :: post)
      (pre ++ (left, U) :: post) (lvP :: ups) kvs)
    {P : Nat} {UP : Option Int} {preP postP : List Entry} {n : NonLeafNodeInt}
    {lpre seg lpost : List Entry}
    (site : ParentSite c b (if lows = [] then 1 else 0) pre left push U post lvP P UP preP postP
      n lpre seg lpost)
    (hlen : ¬ n.keyArray.length < c.INTARRAYNONLEAFSIZE) :
    ∃ push2, (insertAt n.keyArray (searchGT n.keyArray push) push)[c.MIDDLENONLEAF]? =
        some push2 ∧
      P ≠ b.numPages + 1 ∧ n.keyArray.length = c.INTARRAYNONLEAFSIZE ∧
      n.pageNoArray.length = c.INTARRAYNONLEAFSIZE + 1 ∧
      searchGT n.keyArray push < n.pageNoArray.length ∧
      Shape c
        { file := Function.update (Function.update b.file P (some (Page.nonLeaf
              { level := n.level
                keyArray := (insertAt n.keyArray (searchGT n.keyArray push) push).take
                  c.MIDDLENONLEAF
                pageNoArray := (insertChildren n.pageNoArray (searchGT n.keyArray push) left
                  right).take (c.MIDDLENONLEAF + 1) })))
            (b.numPages + 1) (some (Page.nonLeaf
              { level := n.level
                keyArray := (insertAt n.keyArray (searchGT n.keyArray push) push).drop
                  (c.MIDDLENONLEAF + 1)
                pageNoArray := (insertChildren n.pageNoArray (searchGT n.keyArray push) left
                  right).drop (c.MIDDLENONLEAF + 1) }))
          numPages := b.numPages + 1
          pinCnt := b.pinCnt }
        (lows ++ [pre ++ (left, some push) :: (right, U) :: post])
        (preP ++ (P, some push2) :: (b.numPages + 1, UP) :: postP) lvP ups kvs := by
  have hlvP := site.hlvP
  subst hlvP
  have hnd := hs.nodup
  have hrw : lows ++ (pre ++ (left, some push) :: (right, U) :: post) ::
      (preP ++ (P, UP) :: postP) :: ups =
      (lows ++ [pre ++ (left, some push) :: (right, U) :: post]) ++
        (preP ++ (P, UP) :: postP) :: ups := by simp
  have hrange := hs.range
  rw [hrw] at hnd hrange
  obtain ⟨hlowP, hpreP, hpostP, hupsP⟩ := nodup_site hnd
  have hPr := hrange P (by rw [pagesOf_site]; simp)
  have hP2 : 2 ≤ P := hPr.1
  have hPn : P ≠ b.numPages + 1 := by omega
  have hklen : n.keyArray.length = c.INTARRAYNONLEAFSIZE := by
    have := site.size
    omega
  have hseglen : seg.length = n.keyArray.length + 1 := by
    have := congrArg List.length site.snd
    simpa using this
  have hclen : n.pageNoArray.length = c.INTARRAYNONLEAFSIZE + 1 := by
    rw [← site.fst, List.length_map, hseglen, hklen]
  have hi : searchGT n.keyArray push ≤ n.keyArray.length := by
    rw [searchGT_eq]; exact searchP_le _ _
  have hipos : searchGT n.keyArray push < n.pageNoArray.length := by omega
  have hTlen : (insertAt n.keyArray (searchGT n.keyArray push) push).length =
      c.INTARRAYNONLEAFSIZE + 1 := by rw [insertAt_length, hklen]
  have hM : c.MIDDLENONLEAF < c.INTARRAYNONLEAFSIZE + 1 := by
    unfold Consts.MIDDLENONLEAF; omega
  obtain ⟨push2, hget⟩ : ∃ push2,
      (insertAt n.keyArray (searchGT n.keyArray push) push)[c.MIDDLENONLEAF]? = some push2 :=
    ⟨_, List.getElem?_eq_getElem (by rw [hTlen]; exact hM)⟩
  obtain ⟨hnd2, hrange2⟩ := pages_after_split (X := some push2) (r := b.numPages + 1)
    (U := UP) hnd hrange rfl
  have hpush2_mem : push2 ∈ insertAt n.keyArray (searchGT n.keyArray push) push :=
    List.getElem?_mem hget
  -- the children of the parent after the insertion
  have hfst := @segInsert_fst _ (searchGT n.keyArray push) left right push U _ site.fst
  have hsnd := @segInsert_snd _ _ _ right push _ _ _ site.snd site.place hi
  generalize hsegdef : segInsert seg (searchGT n.keyArray push) left push right U = seg2
    at hfst hsnd
  have hcur : pre ++ (left, some push) :: (right, U) :: post =
      lpre ++ (seg2.take (c.MIDDLENONLEAF + 1) ++ (seg2.drop (c.MIDDLENONLEAF + 1) ++ lpost)) := by
    rw [← List.append_assoc (seg2.take _), List.take_append_drop, ← hsegdef, site.hpre, site.hpost]
    simp [segInsert]
  have hcurS := (hs.levels (pre ++ (left, some push) :: (right, U) :: post) (by simp)).1
  have hlvPS := (hs.levels (preP ++ (P, UP) :: postP) (by simp)).1
  have hseg2S : ∀ a ∈ lpre.map Prod.snd, ∀ x ∈ seg2.map Prod.snd, ltBB a x := by
    rw [hcur, ← List.append_assoc (seg2.take _), List.take_append_drop] at hcurS
    obtain ⟨-, -, h3⟩ := LevelSorted_append hcurS
    intro a ha x hx
    obtain ⟨e, he, rfl⟩ := List.mem_map.mp ha
    obtain ⟨e2, he2, rfl⟩ := List.mem_map.mp hx
    exact h3 e he e2 (List.mem_append_left _ he2)
  have hseg2P : (seg2.map Prod.snd).Pairwise ltBB := by
    rw [hcur, ← List.append_assoc (seg2.take _), List.take_append_drop] at hcurS
    obtain ⟨-, h2, -⟩ := LevelSorted_append hcurS
    exact (LevelSorted_append h2).1
  have hpush2UP : ltBB (some push2) UP := by
    rw [hsnd, List.pairwise_append] at hseg2P
    exact hseg2P.2.2 _ (List.mem_map_of_mem _ hpush2_mem) UP (by simp)
  have hpreP2 : ∀ e ∈ preP, ltBB e.2 (some push2) := by
    intro e he
    apply hseg2S _ (Link_bound_mem site.linkPre e he)
    rw [hsnd]
    exact List.mem_append_left _ (List.mem_map_of_mem _ hpush2_mem)
  have hfile : ∀ x, x ≠ P → x ≠ b.numPages + 1 →
      Function.update (Function.update b.file P (some (Page.nonLeaf
              { level := n.level
                keyArray := (insertAt n.keyArray (searchGT n.keyArray push) push).take
                  c.MIDDLENONLEAF
                pageNoArray := (insertChildren n.pageNoArray (searchGT n.keyArray push) left
                  right).take (c.MIDDLENONLEAF + 1) })))
            (b.numPages + 1) (some (Page.nonLeaf
              { level := n.level
                keyArray := (insertAt n.keyArray (searchGT n.keyArray push) push).drop
                  (c.MIDDLENONLEAF + 1)
                pageNoArray := (insertChildren n.pageNoArray (searchGT n.keyArray push) left
                  right).drop (c.MIDDLENONLEAF + 1) })) x = b.file x := by
    intro x h1 h2
    rw [Function.update_noteq h2, Function.update_noteq h1]
  have hold : ∀ p ∈ pagesOf ((lows ++ [pre ++ (left, some push) :: (right, U) :: post]) ++
      (preP ++ (P, UP) :: postP) :: ups), p ≠ b.numPages + 1 := by
    intro p hp
    have := (hrange p hp).2
    omega
  have hlow_r : ∀ lv ∈ lows ++ [pre ++ (left, some push) :: (right, U) :: post],
      ∀ e ∈ lv, e.1 ≠ b.numPages + 1 := fun lv hlv e he =>
    hold _ (mem_pagesOf (List.mem_append_left _ hlv) he)
  have hpre_r : ∀ e ∈ preP, e.1 ≠ b.numPages + 1 := fun e he =>
    hold _ (by
      rw [pagesOf_site]
      exact List.mem_append_left _ (List.mem_append_right _ (List.mem_map_of_mem _ he)))
  have hpost_r : ∀ e ∈ postP, e.1 ≠ b.numPages + 1 := fun e he =>
    hold _ (by
      rw [pagesOf_site]
      exact List.mem_append_right _ (List.mem_cons_of_mem _
        (List.mem_append_left _ (List.mem_map_of_mem _ he))))
  have hups_r : ∀ lv ∈ ups, ∀ e ∈ lv, e.1 ≠ b.numPages + 1 := fun lv hlv e he =>
    hold _ (mem_pagesOf (List.mem_append_right _ (List.mem_cons_of_mem _ hlv)) he)
  have hlink : Link c
      { file := Function.update (Function.update b.file P (some (Page.nonLeaf
            { level := n.level
              keyArray := (insertAt n.keyArray (searchGT n.keyArray push) push).take
                c.MIDDLENONLEAF
              pageNoArray := (insertChildren n.pageNoArray (searchGT n.keyArray push) left
                right).take (c.MIDDLENONLEAF + 1) })))
          (b.numPages + 1) (some (Page.nonLeaf
            { level := n.level
              keyArray := (insertAt n.keyArray (searchGT n.keyArray push) push).drop
                (c.MIDDLENONLEAF + 1)
              pageNoArray := (insertChildren n.pageNoArray (searchGT n.keyArray push) left
                right).drop (c.MIDDLENONLEAF + 1) }))
        numPages := b.numPages + 1
        pinCnt := b.pinCnt }
      (if lows = [] then 1 else 0) (preP ++ (P, some push2) :: (b.numPages + 1, UP) :: postP)
      (pre ++ (left, some push) :: (right, U) :: post) := by
    rw [hcur]
    refine (Link_append c _ _ preP _ _).mpr
      ⟨lpre, _, rfl, Link_frame (fun e he => hfile _ (hpreP e he) (hpre_r e he)) site.linkPre,
        ⟨_, _, rfl, ?_, ⟨_, lpost, rfl, ?_,
          Link_frame (fun e he => hfile _ (hpostP e he) (hpost_r e he)) site.linkPost⟩⟩⟩
    · refine ⟨{ level := n.level
                keyArray := (insertAt n.keyArray (searchGT n.keyArray push) push).take
                  c.MIDDLENONLEAF
                pageNoArray := (insertChildren n.pageNoArray (searchGT n.keyArray push) left
                  right).take (c.MIDDLENONLEAF + 1) }, ?_, site.level, ?_, ?_, ?_⟩
      · show Function.update (Function.update b.file P _) _ _ P = _
        rw [Function.update_noteq hPn, Function.update_same]
      · simp only [List.length_take, hTlen]
        omega
      · rw [List.map_take, hfst]
      · rw [List.map_take, hsnd]
        rw [List.take_append_of_le_length (by rw [List.length_map, hTlen]; omega)]
        rw [← List.map_take, List.take_succ, hget]
        simp
    · refine ⟨{ level := n.level
                keyArray := (insertAt n.keyArray (searchGT n.keyArray push) push).drop
                  (c.MIDDLENONLEAF + 1)
                pageNoArray := (insertChildren n.pageNoArray (searchGT n.keyArray push) left
                  right).drop (c.MIDDLENONLEAF + 1) }, Function.update_same _ _ _, site.level,
          ?_, ?_, ?_⟩
      · simp only [List.length_drop, hTlen]
        omega
      · rw [List.map_drop, hfst]
      · rw [List.map_drop, hsnd]
        rw [List.drop_append_of_le_length (by rw [List.length_map, hTlen]; omega)]
        rw [List.map_drop]
  refine ⟨push2, hget, hPn, hklen, hclen, hipos, ?_⟩
  constructor
  · obtain ⟨h, hf, hlast, hroot⟩ := hs.hdr
    refine ⟨h, ?_, ?_, ?_⟩
    · show Function.update (Function.update b.file P _) _ _ headerPageNum = _
      rw [hfile _ (header_ne_of_two_le hP2) (header_ne_of_two_le (by omega))]
      exact hf
    · rw [List.getLast?_cons_cons] at hlast
      exact hlast
    · constructor
      · intro e
        exact absurd (hroot.mp e).2 (by simp)
      · rintro ⟨e, -⟩
        exact absurd e (by simp)
  · have hhead : ((lows ++ [pre ++ (left, some push) :: (right, U) :: post]) ++
        [preP ++ (P, some push2) :: (b.numPages + 1, UP) :: postP]).headD [] =
        (lows ++ [pre ++ (left, some push) :: (right, U) :: post]).headD [] := by
      cases lows <;> rfl
    rw [hhead]
    refine Chain_frame ?_ hs.chain
    intro e he
    have hmem : (lows ++ [pre ++ (left, some push) :: (right, U) :: post]).headD [] ∈
        lows ++ [pre ++ (left, some push) :: (right, U) :: post] := by
      cases lows <;> simp
    exact hfile _ (hlowP _ hmem e he) (hlow_r _ hmem e he)
  · exact hs.sorted
  · have hrw2 : (lows ++ [pre ++ (left, some push) :: (right, U) :: post]) ++
        [preP ++ (P, some push2) :: (b.numPages + 1, UP) :: postP] =
        lows ++ [pre ++ (left, some push) :: (right, U) :: post,
          preP ++ (P, some push2) :: (b.numPages + 1, UP) :: postP] := by simp
    rw [hrw2]
    refine (Links_snoc c _ lows (pre ++ (left, some push) :: (right, U) :: post)
      (preP ++ (P, some push2) :: (b.numPages + 1, UP) :: postP) true).mpr
      ⟨Links_frame ?_ hs.linksLow, ?_⟩
    · intro lv hlv e he
      exact hfile _ (hlowP lv (List.mem_of_mem_tail hlv) e he)
        (hlow_r lv (List.mem_of_mem_tail hlv) e he)
    · by_cases hl : lows = []
      · simpa [hl] using hlink
      · simpa [hl] using hlink
  · have h2 := hs.linksUp
    simp only [Links] at h2
    have hd : decide (lows ++ [pre ++ (left, some push) :: (right, U) :: post] = []) = false := by
      simp
    rw [hd]
    exact Links_frame (fun lv hlv e he => hfile _ (hupsP lv (by simpa using hlv) e he)
      (hups_r lv (by simpa using hlv) e he)) h2.2
  · intro lv hlv
    rcases List.mem_append.mp hlv with hl | hl
    · exact hs.levels lv (by
        rcases List.mem_append.mp hl with h1 | h1
        · exact List.mem_append_left _ h1
        · simp only [List.mem_singleton] at h1
          subst h1
          simp)
    · rcases List.mem_cons.mp hl with rfl | hl
      · exact ⟨LevelSorted_split hlvPS hpreP2 hpush2UP, by simp⟩
      · exact hs.levels lv (by simp [hl])
  · exact hnd2
  · exact hrange2

/-! ## Replacing the root -/

theorem insertEntryLoop_root {c : Consts} {b : BufMgr} {h : IndexMetaInfo} (fuel : Nat)
    (leaf_num right : Nat) (push : Int)
    (hfile : b.file headerPageNum = some (Page.header h))
    (hr : headerPageNum ≠ b.numPages + 1) :
    insertEntryLoop c (fuel + 1) b leaf_num h.rootPageNo right push =
      some
        { file := Function.update (Function.update b.file headerPageNum
              (some (Page.header { h with rootPageNo := b.numPages + 1 })))
            (b.numPages + 1) (some (Page.nonLeaf
              { level := if h.rootPageNo = leaf_num then 1 else 0
                keyArray := [push]
                pageNoArray := [h.rootPageNo, right] }))
          numPages := b.numPages + 1
          pinCnt := b.pinCnt } := by
  have hfp := findParentNode_root (b := b) push hfile
  have hr2 : b.numPages + 1 ≠ headerPageNum := fun e => hr e.symm
  simp only [insertEntryLoop, hfp, if_true, allocPage, readPage, Function.update_noteq hr,
    hfile, Page.asMeta, writePage, unPinPage, Function.update_same, Nat.add_one_ne_zero,
    if_false, Function.update_noteq hr2, Option.some.injEq, BufMgr.mk.injEq, true_and]
  constructor <;>
    (funext x
     simp only [Function.update_apply]
     by_cases hx : x = b.numPages + 1 <;> by_cases hx1 : x = headerPageNum <;> simp_all)

theorem pending_top {c : Consts} {b : BufMgr} {lows : List (List Entry)} {pre post : List Entry}
    {left right : Nat} {push : Int} {U : Option Int} {kvs : List (Int × RecordId)}
    (hs : Shape c b lows (pre ++ (left, some push) :: (right, U) :: post)
      (pre ++ (left, U) :: post) [] kvs) : pre = [] ∧ post = [] ∧ U = none := by
  obtain ⟨h, hf, hlast, hroot⟩ := hs.hdr
  simp only [List.getLast?_singleton, Option.some.injEq] at hlast
  have hpre : pre = [] := by
    cases pre with
    | nil => rfl
    | cons x xs =>
      have := congrArg List.length hlast
      simp at this
  subst hpre
  simp only [List.nil_append, List.cons.injEq, Prod.mk.injEq] at hlast
  obtain ⟨⟨hl, hU⟩, hpost⟩ := hlast
  exact ⟨rfl, hpost, hU⟩

theorem root_split {c : Consts} {b : BufMgr} {lows : List (List Entry)}
    {left right : Nat} {push : Int} {kvs : List (Int × RecordId)}
    (hN : 1 ≤ c.INTARRAYNONLEAFSIZE)
    (hs : Shape c b lows [(left, some push), (right, none)] [(left, none)] [] kvs)
    (leaf_num : Nat) (hleaf : left = leaf_num ↔ lows = []) :
    ∃ h, b.file headerPageNum = some (Page.header h) ∧ h.rootPageNo = left ∧
      headerPageNum ≠ b.numPages + 1 ∧
      Shape c
        { file := Function.update (Function.update b.file headerPageNum
              (some (Page.header { h with rootPageNo := b.numPages + 1 })))
            (b.numPages + 1) (some (Page.nonLeaf
              { level := if h.rootPageNo = leaf_num then 1 else 0
                keyArray := [push]
                pageNoArray := [h.rootPageNo, right] }))
          numPages := b.numPages + 1
          pinCnt := b.pinCnt }
        (lows ++ [[(left, some push), (right, none)]])
        [(b.numPages + 1, none)] [(b.numPages + 1, none)] [] kvs := by
  obtain ⟨h, hf, hlast, hroot⟩ := hs.hdr
  simp only [List.getLast?_singleton, Option.some.injEq, List.cons.injEq, Prod.mk.injEq,
    and_true] at hlast
  have hl : h.rootPageNo = left := hlast.symm
  have hrange := hs.range
  have hleft := hrange left (@mem_pagesOf _ [(left, some push), (right, none)]
    (left, some push) (by simp) (by simp))
  have hn1 : headerPageNum ≠ b.numPages + 1 := header_ne_of_two_le (by omega)
  have hfile : ∀ x, x ≠ headerPageNum → x ≠ b.numPages + 1 →
      Function.update (Function.update b.file headerPageNum
          (some (Page.header { h with rootPageNo := b.numPages + 1 })))
        (b.numPages + 1) (some (Page.nonLeaf
          { level := if h.rootPageNo = leaf_num then 1 else 0
            keyArray := [push]
            pageNoArray := [h.rootPageNo, right] })) x = b.file x := by
    intro x h1 h2
    rw [Function.update_noteq h2, Function.update_noteq h1]
  have hpg : ∀ p ∈ pagesOf (lows ++ [(left, some push), (right, none)] :: []),
      p ≠ headerPageNum ∧ p ≠ b.numPages + 1 := by
    intro p hp
    have := hrange p hp
    exact ⟨fun e => header_ne_of_two_le this.1 e.symm, by omega⟩
  have hlv : ∀ lv ∈ lows ++ [[(left, some push), (right, none)]], ∀ e ∈ lv,
      Function.update (Function.update b.file headerPageNum
          (some (Page.header { h with rootPageNo := b.numPages + 1 })))
        (b.numPages + 1) (some (Page.nonLeaf
          { level := if h.rootPageNo = leaf_num then 1 else 0
            keyArray := [push]
            pageNoArray := [h.rootPageNo, right] })) e.1 = b.file e.1 := by
    intro lv hlv e he
    have := hpg e.1 (mem_pagesOf (by simpa using hlv) he)
    exact hfile _ this.1 this.2
  refine ⟨h, hf, hl, hn1, ?_⟩
  constructor
  · refine ⟨{ h with rootPageNo := b.numPages + 1 }, ?_, by simp, ?_⟩
    · show Function.update (Function.update b.file headerPageNum _) _ _ headerPageNum = _
      rw [Function.update_noteq hn1, Function.update_same]
    · show b.numPages + 1 = 2 ↔ _
      constructor
      · intro e
        omega
      · rintro ⟨e, -⟩
        exact absurd e (by simp)
  · have hhead : ((lows ++ [[(left, some push), (right, none)]]) ++
        [[(b.numPages + 1, (none : Option Int))]]).headD [] =
        (lows ++ [[(left, some push), (right, none)]]).headD [] := by
      cases lows <;> rfl
    rw [hhead]
    refine Chain_frame ?_ hs.chain
    intro e he
    apply hlv _ _ e he
    cases lows <;> simp
  · exact hs.sorted
  · have hrw2 : (lows ++ [[(left, some push), (right, none)]]) ++
        [[(b.numPages + 1, (none : Option Int))]] =
        lows ++ [[(left, some push), (right, none)], [(b.numPages + 1, none)]] := by simp
    rw [hrw2]
    refine (Links_snoc c _ lows _ _ true).mpr ⟨Links_frame ?_ hs.linksLow, ?_⟩
    · intro lv hmem e he
      exact hlv lv (List.mem_of_mem_tail hmem) e he
    · rw [Link_single]
      refine ⟨{ level := if h.rootPageNo = leaf_num then 1 else 0
                keyArray := [push]
                pageNoArray := [h.rootPageNo, right] }, Function.update_same _ _ _, ?_, ?_, ?_, ?_⟩
      · show (if h.rootPageNo = leaf_num then 1 else 0) = _
        rw [hl]
        by_cases hlw : lows = []
        · simp [hlw, hleaf.mpr hlw]
        · have : left ≠ leaf_num := fun e => hlw (hleaf.mp e)
          simp [hlw, this]
      · show [push].length ≤ _
        simpa using hN
      · simp [hl]
      · simp
  · exact trivial
  · intro lv hlv
    rcases List.mem_append.mp hlv with hm | hm
    · exact hs.levels lv (by simpa using hm)
    · simp only [List.mem_singleton] at hm
      subst hm
      exact ⟨by simp [LevelSorted], by simp⟩
  · have hnd := hs.nodup
    have : pagesOf ((lows ++ [[(left, some push), (right, none)]]) ++
        [(b.numPages + 1, none)] :: []) =
        pagesOf (lows ++ [(left, some push), (right, none)] :: []) ++ [b.numPages + 1] := by
      simp [pagesOf]
    rw [this]
    rw [List.nodup_append]
    refine ⟨hnd, by simp, ?_⟩
    intro a ha hb
    simp only [List.mem_singleton] at hb
    exact (hpg a ha).2 hb
  · intro p hp
    have : pagesOf ((lows ++ [[(left, some push), (right, none)]]) ++
        [(b.numPages + 1, none)] :: []) =
        pagesOf (lows ++ [(left, some push), (right, none)] :: []) ++ [b.numPages + 1] := by
      simp [pagesOf]
    rw [this] at hp
    show 2 ≤ p ∧ p ≤ b.numPages + 1
    rcases List.mem_append.mp hp with hm | hm
    · have := hrange p hm
      omega
    · simp only [List.mem_singleton] at hm
      omega

/-! ## `insertEntry` keeps the tree well formed -/

theorem MinFill_of_file {c : Consts} {b b2 : BufMgr} {p : Nat} (hf : b2.file p = b.file p)
    (h : MinFill c b p) : MinFill c b2 p := by
  unfold MinFill at h ⊢
  rw [hf]
  exact h

theorem MinFill_leaf {c : Consts} {b : BufMgr} {p : Nat} {l : LeafNodeInt}
    (hf : b.file p = some (Page.leaf l)) (hl : c.MIDDLELEAF ≤ l.keyArray.length) :
    MinFill c b p := by
  constructor
  · intro l2 h2
    rw [hf] at h2
    injection h2 with h2
    injection h2 with h2
    subst h2
    exact hl
  · intro n h2
    rw [hf] at h2
    cases h2

theorem MinFill_nonLeaf {c : Consts} {b : BufMgr} {p : Nat} {n : NonLeafNodeInt}
    (hf : b.file p = some (Page.nonLeaf n)) (hl : c.MIDDLENONLEAF ≤ n.keyArray.length) :
    MinFill c b p := by
  constructor
  · intro l h2
    rw [hf] at h2
    cases h2
  · intro n2 h2
    rw [hf] at h2
    injection h2 with h2
    injection h2 with h2
    subst h2
    exact hl

theorem MinFill_header {c : Consts} {b : BufMgr} {p : Nat} {h : IndexMetaInfo}
    (hf : b.file p = some (Page.header h)) : MinFill c b p := by
  constructor
  · intro l h2
    rw [hf] at h2
    cases h2
  · intro n2 h2
    rw [hf] at h2
    cases h2

/-- The push-up loop of `insertEntry`, started with a split pending on the level
`cur`: it returns, the levels up to `cur` stay as they are, the pages outside the
levels above keep their content, and every node other than the root stays at least
half full. -/
theorem insertEntryLoop_spec (c : Consts) (hN : 1 ≤ c.INTARRAYNONLEAFSIZE) (leaf_num : Nat)
    (kvs : List (Int × RecordId)) :
    ∀ (ups lows : List (List Entry)) (pre post : List Entry) (left right : Nat) (push : Int)
      (U : Option Int) (b : BufMgr) (fuel : Nat),
      Shape c b lows (pre ++ (left, some push) :: (right, U) :: post)
        (pre ++ (left, U) :: post) ups kvs →
      (lows = [] → left = leaf_num) →
      (lows ≠ [] → leaf_num ∈ (lows.headD []).map Prod.fst) →
      ups.length + 1 ≤ fuel →
      ∃ b2 ups2, insertEntryLoop c fuel b leaf_num left right push = some b2 ∧
        Inv c b2 (lows ++ (pre ++ (left, some push) :: (right, U) :: post) :: ups2) kvs ∧
        ups2 ≠ [] ∧
        (∀ p, 2 ≤ p → p ≤ b.numPages → p ∉ pagesOf ups → b2.file p = b.file p) ∧
        (∀ h, b.file headerPageNum = some (Page.header h) →
          (∀ p, (p ≠ h.rootPageNo ∨ p = left) → MinFill c b p) →
          ∃ h2, b2.file headerPageNum = some (Page.header h2) ∧
            ∀ p, p ≠ h2.rootPageNo → MinFill c b2 p) := by
  intro ups
  induction ups with
  | nil =>
    intro lows pre post left right push U b fuel hs hl1 hl2 hfuel
    obtain ⟨rfl, rfl, rfl⟩ := pending_top hs
    simp only [List.nil_append] at hs
    obtain ⟨f, rfl⟩ : ∃ f, fuel = f + 1 := ⟨fuel - 1, by omega⟩
    have hleaf : left = leaf_num ↔ lows = [] := by
      constructor
      · intro e
        by_contra hne
        have hmem := hl2 hne
        obtain ⟨x, hx, hx1⟩ := List.mem_map.mp hmem
        have hnd := hs.nodup
        have hrw : lows ++ [(left, some push), (right, none)] :: [] =
            lows ++ ([] ++ (left, some push) :: [(right, none)]) :: [] := by simp
        rw [hrw] at hnd
        obtain ⟨h1, -, -, -⟩ := nodup_site hnd
        have hhead : lows.headD [] ∈ lows := by
          cases lows with
          | nil => exact absurd rfl hne
          | cons y ys => simp
        exact h1 _ hhead x hx (hx1.trans e.symm)
      · exact hl1
    obtain ⟨h, hf, hroot, hn1, hs2⟩ := root_split hN hs leaf_num hleaf
    have hrun := insertEntryLoop_root (c := c) f leaf_num right push hf hn1
    rw [hroot] at hrun hs2
    refine ⟨_, [[(b.numPages + 1, none)]], hrun, ?_, by simp, ?_, ?_⟩
    · have := hs2.toInv
      simpa using this
    · intro p hp2 hpn _
      have h1 : p ≠ b.numPages + 1 := by omega
      have h2 : p ≠ headerPageNum := by
        unfold headerPageNum
        omega
      show Function.update (Function.update b.file headerPageNum _) (b.numPages + 1) _ p = _
      rw [Function.update_noteq h1, Function.update_noteq h2]
    · intro h0 hf0 hfill
      rw [hf] at hf0
      injection hf0 with hf0
      injection hf0 with hf0
      subst hf0
      refine ⟨{ h with rootPageNo := b.numPages + 1 }, ?_, ?_⟩
      · show Function.update (Function.update b.file headerPageNum _) (b.numPages + 1) _ _ = _
        rw [Function.update_noteq hn1, Function.update_same]
      · intro p hp
        have hp1 : p ≠ b.numPages + 1 := hp
        by_cases hph : p = headerPageNum
        · subst hph
          refine MinFill_header (h := { h with rootPageNo := b.numPages + 1 }) ?_
          show Function.update (Function.update b.file headerPageNum _) (b.numPages + 1) _ _ = _
          rw [Function.update_noteq hn1, Function.update_same]
        · refine MinFill_of_file ?_ (hfill p ?_)
          · show Function.update (Function.update b.file headerPageNum _) (b.numPages + 1) _ p = _
            rw [Function.update_noteq hp1, Function.update_noteq hph]
          · by_cases hpl : p = left
            · exact Or.inr hpl
            · left
              rw [hroot]
              exact hpl
  | cons lvP ups ih =>
    intro lows pre post left right push U b fuel hs hl1 hl2 hfuel
    obtain ⟨f, rfl⟩ : ∃ f, fuel = f + 1 := ⟨fuel - 1, by omega⟩
    obtain ⟨P, UP, preP, postP, n, lpre, seg, lpost, site⟩ := parentSite hs
    have hlvP := site.hlvP
    subst hlvP
    have hPr := hs.range P (@mem_pagesOf _ (preP ++ (P, UP) :: postP)
      (P, UP) (by simp) (by simp))
    have hP2 : 2 ≤ P := hPr.1
    have hPle : P ≤ b.numPages := hPr.2
    have hPne : ¬ P = INVALID_NUMBER := by
      unfold INVALID_NUMBER
      omega
    have hPh : P ≠ headerPageNum := by
      unfold headerPageNum
      omega
    have hPmem : P ∈ pagesOf ((preP ++ (P, UP) :: postP) :: ups) :=
      @mem_pagesOf _ (preP ++ (P, UP) :: postP) (P, UP) (by simp) (by simp)
    by_cases hlen : n.keyArray.length < c.INTARRAYNONLEAFSIZE
    · have hmod := modifyNonLeafNode_nosplit (c := c) push left right
        (searchGT n.keyArray push) site.file hlen
      refine ⟨_, (preP ++ (P, UP) :: postP) :: ups, ?_,
        (nonleaf_insert_nosplit hs site hlen).toInv, by simp, ?_, ?_⟩
      · simp only [insertEntryLoop, site.found, hPne, if_false, hmod, if_true]
      · intro p _ _ hp
        have hpP : p ≠ P := fun e => hp (e ▸ hPmem)
        show Function.update b.file P _ p = _
        rw [Function.update_noteq hpP]
      · intro h0 hf0 hfill
        refine ⟨h0, ?_, ?_⟩
        · show Function.update b.file P _ _ = _
          rw [Function.update_noteq (Ne.symm hPh)]
          exact hf0
        · intro p hp
          by_cases hpP : p = P
          · subst hpP
            have hold := (hfill p (Or.inl hp)).2 n site.file
            refine MinFill_nonLeaf (n := { level := n.level
                                           keyArray := insertAt n.keyArray (searchGT n.keyArray push) push
                                           pageNoArray := insertChildren n.pageNoArray
                                             (searchGT n.keyArray push) left right }) ?_ ?_
            · show Function.update b.file p _ p = _
              rw [Function.update_same]
            · show _ ≤ (insertAt n.keyArray (searchGT n.keyArray push) push).length
              rw [insertAt_length]
              omega
          · refine MinFill_of_file ?_ (hfill p (Or.inl hp))
            show Function.update b.file P _ p = _
            rw [Function.update_noteq hpP]
    · obtain ⟨push2, hget, hPn, hklen, hclen, hipos, hs2⟩ := nonleaf_insert_split hs site hlen
      have hmod := modifyNonLeafNode_split (c := c) push left right
        (searchGT n.keyArray push) site.file hlen hPn hklen hclen hipos hget
      have hrne : ¬ b.numPages + 1 = INVALID_NUMBER := by
        unfold INVALID_NUMBER
        omega
      obtain ⟨b2, ups2, hrun, hinv, -, hframe, hocc⟩ :=
        ih (lows ++ [pre ++ (left, some push) :: (right, U) :: post])
        preP postP P (b.numPages + 1) push2 UP _ f hs2 (fun e => absurd e (by simp))
        (fun _ => by
          by_cases hlw : lows = []
          · subst hlw
            rw [← hl1 rfl]
            simp
          · have := hl2 hlw
            cases lows with
            | nil => exact absurd rfl hlw
            | cons y ys => simpa using this)
        (by simp only [List.length_cons] at hfuel; omega)
      refine ⟨b2, (preP ++ (P, some push2) :: (b.numPages + 1, UP) :: postP) :: ups2, ?_, ?_,
        by simp, ?_, ?_⟩
      · simp only [insertEntryLoop, site.found, hPne, if_false, hmod, hrne]
        exact hrun
      · simpa using hinv
      · intro p hp2 hpn hp
        have hpP : p ≠ P := fun e => hp (e ▸ hPmem)
        have hpn1 : p ≠ b.numPages + 1 := by omega
        have hpu : p ∉ pagesOf ups := by
          intro hmem
          apply hp
          unfold pagesOf at hmem ⊢
          simp only [List.flatten_cons, List.map_append, List.mem_append]
          exact Or.inr hmem
        rw [hframe p hp2 (by show p ≤ b.numPages + 1; omega) hpu]
        show Function.update (Function.update b.file P _) (b.numPages + 1) _ p = _
        rw [Function.update_noteq hpn1, Function.update_noteq hpP]
      · intro h0 hf0 hfill
        have hh1 : headerPageNum ≠ b.numPages + 1 := header_ne_of_two_le (by omega)
        apply hocc h0
        · show Function.update (Function.update b.file P _) (b.numPages + 1) _ _ = _
          rw [Function.update_noteq hh1, Function.update_noteq (Ne.symm hPh)]
          exact hf0
        · intro p hp
          have hTlen : (insertAt n.keyArray (searchGT n.keyArray push) push).length =
              c.INTARRAYNONLEAFSIZE + 1 := by rw [insertAt_length, hklen]
          have hM : c.MIDDLENONLEAF ≤ c.INTARRAYNONLEAFSIZE - c.MIDDLENONLEAF := by
            unfold Consts.MIDDLENONLEAF
            omega
          by_cases hpn1 : p = b.numPages + 1
          · subst hpn1
            refine MinFill_nonLeaf (n := { level := n.level
                                           keyArray := (insertAt n.keyArray
                                             (searchGT n.keyArray push) push).drop
                                             (c.MIDDLENONLEAF + 1)
                                           pageNoArray := (insertChildren n.pageNoArray
                                             (searchGT n.keyArray push) left right).drop
                                             (c.MIDDLENONLEAF + 1) }) ?_ ?_
            · show Function.update (Function.update b.file P _) (b.numPages + 1) _ _ = _
              rw [Function.update_same]
            · show _ ≤ ((insertAt n.keyArray (searchGT n.keyArray push) push).drop
                (c.MIDDLENONLEAF + 1)).length
              rw [List.length_drop, hTlen]
              omega
          · by_cases hpP : p = P
            · subst hpP
              refine MinFill_nonLeaf (n := { level := n.level
                                             keyArray := (insertAt n.keyArray
                                               (searchGT n.keyArray push) push).take
                                               c.MIDDLENONLEAF
                                             pageNoArray := (insertChildren n.pageNoArray
                                               (searchGT n.keyArray push) left right).take
                                               (c.MIDDLENONLEAF + 1) }) ?_ ?_
              · show Function.update (Function.update b.file p _) (b.numPages + 1) _ _ = _
                rw [Function.update_noteq hpn1, Function.update_same]
              · show _ ≤ ((insertAt n.keyArray (searchGT n.keyArray push) push).take
                  c.MIDDLENONLEAF).length
                rw [List.length_take, hTlen]
                unfold Consts.MIDDLENONLEAF
                omega
            · have hpr : p ≠ h0.rootPageNo := by
                rcases hp with h | h
                · exact h
                · exact absurd h hpP
              refine MinFill_of_file ?_ (hfill p (Or.inl hpr))
              show Function.update (Function.update b.file P _) (b.numPages + 1) _ p = _
              rw [Function.update_noteq hpn1, Function.update_noteq hpP]

/-- The effect of `insertEntry` of a new key on a well-formed tree, told by the leaf
`q` where the descent for the key ends. If the leaf has room, only its page changes.
If it is full, it is split at `MIDDLELEAF` into the pages `q` and `numPages + 1`, the
other leaves keep their content, and the levels above the leaves are rebuilt. In both
cases every node other than the root stays at least half full. -/
theorem insertEntry_effect {c : Consts} {b : BufMgr} {lv0 : List Entry}
    {ups : List (List Entry)} {kvs : List (Int × RecordId)} (hL : 1 ≤ c.INTARRAYLEAFSIZE)
    (hN : 1 ≤ c.INTARRAYNONLEAFSIZE) (hinv : Inv c b (lv0 :: ups) kvs) (key : Int)
    (rid : RecordId) (hkey : key ∉ kvs.map Prod.fst) :
    ∃ pre q Uq post l b2 kvs2,
      Target (fun k => decide (k < key)) lv0 pre q Uq post ∧
      b.file q = some (Page.leaf l) ∧
      insertEntry c b key rid = some b2 ∧ kvs2.Perm ((key, rid) :: kvs) ∧
      ((l.keyArray.length < c.INTARRAYLEAFSIZE ∧
          b2 = { b with file := Function.update b.file q (some (Page.leaf
            { keyArray := insertAt l.keyArray (searchGE l.keyArray key) key
              ridArray := insertAt l.ridArray (searchGE l.keyArray key) rid
              rightSibPageNo := l.rightSibPageNo })) } ∧
          Inv c b2 (lv0 :: ups) kvs2) ∨
        (l.keyArray.length = c.INTARRAYLEAFSIZE ∧
          ∃ push ups2,
            (insertAt l.keyArray (searchGE l.keyArray key) key)[c.MIDDLELEAF]? = some push ∧
            ups2 ≠ [] ∧
            Inv c b2 ((pre ++ (q, some push) :: (b.numPages + 1, Uq) :: post) :: ups2) kvs2 ∧
            b2.file q = some (Page.leaf
              { keyArray := (insertAt l.keyArray (searchGE l.keyArray key) key).take
                  (c.MIDDLELEAF + 1)
                ridArray := (insertAt l.ridArray (searchGE l.keyArray key) rid).take
                  (c.MIDDLELEAF + 1)
                rightSibPageNo := b.numPages + 1 }) ∧
            b2.file (b.numPages + 1) = some (Page.leaf
              { keyArray := (insertAt l.keyArray (searchGE l.keyArray key) key).drop
                  (c.MIDDLELEAF + 1)
                ridArray := (insertAt l.ridArray (searchGE l.keyArray key) rid).drop
                  (c.MIDDLELEAF + 1)
                rightSibPageNo := l.rightSibPageNo }) ∧
            ∀ e ∈ pre ++ post, b2.file e.1 = b.file e.1)) ∧
      (∀ h, b.file headerPageNum = some (Page.header h) →
        (∀ p, p ≠ h.rootPageNo → MinFill c b p) →
        ∃ h2, b2.file headerPageNum = some (Page.header h2) ∧
          ∀ p, p ≠ h2.rootPageNo → MinFill c b2 p) := by
  obtain ⟨lv0', ups', hG, hs⟩ := id hinv
  injection hG with hG1 hG2
  subst hG1 hG2
  obtain ⟨h, pre, q, Uq, post, l, hfile, ht, hq, hcase⟩ := hinv.descend key
  have hfl := findLeafNode_spec hfile hq hcase
  have hlv0 := ht.1
  have hqr := hs.range q (@mem_pagesOf _ lv0 (q, Uq) (by simp) (by rw [hlv0]; simp))
  have hq2 : 2 ≤ q := hqr.1
  have hqle : q ≤ b.numPages := hqr.2
  have hqh : q ≠ headerPageNum := by
    unfold headerPageNum
    omega
  by_cases hlen : l.keyArray.length < c.INTARRAYLEAFSIZE
  · obtain ⟨kvs2, hperm, hs2⟩ := leaf_insert_nosplit hs rid ht hq hkey hlen
    have hmod := modifyLeafNode_nosplit (c := c) key rid (searchGE l.keyArray key) hq hlen
    refine ⟨pre, q, Uq, post, l, _, kvs2, ht, hq, ?_, hperm,
      Or.inl ⟨hlen, rfl, ⟨lv0, ups, rfl, hs2⟩⟩, ?_⟩
    · simp only [insertEntry, hfl, hmod, if_true]
    · intro h0 hf0 hfill
      refine ⟨h0, ?_, ?_⟩
      · show Function.update b.file q _ _ = _
        rw [Function.update_noteq (Ne.symm hqh)]
        exact hf0
      · intro p hp
        by_cases hpq : p = q
        · subst hpq
          have hold := (hfill p hp).1 l hq
          refine MinFill_leaf (l := { keyArray := insertAt l.keyArray (searchGE l.keyArray key) key
                                      ridArray := insertAt l.ridArray (searchGE l.keyArray key) rid
                                      rightSibPageNo := l.rightSibPageNo }) ?_ ?_
          · show Function.update b.file p _ p = _
            rw [Function.update_same]
          · show _ ≤ (insertAt l.keyArray (searchGE l.keyArray key) key).length
            rw [insertAt_length]
            omega
        · refine MinFill_of_file ?_ (hfill p hp)
          show Function.update b.file q _ p = _
          rw [Function.update_noteq hpq]
  · obtain ⟨push, kvs2, hget, hqn, hklen, hrlen, hperm, hs2⟩ :=
      leaf_insert_split hL hs rid ht hq hkey hlen
    have hmod := modifyLeafNode_split_full (c := c) key rid (searchGE l.keyArray key) hq hlen hqn
      hklen hrlen hget
    have hrne : ¬ b.numPages + 1 = INVALID_NUMBER := by
      unfold INVALID_NUMBER
      omega
    subst hlv0
    have hnd := hs.nodup
    obtain ⟨b1, hb1⟩ : ∃ b1 : BufMgr, b1 =
        { file := Function.update (Function.update b.file q (some (Page.leaf
              { keyArray := (insertAt l.keyArray (searchGE l.keyArray key) key).take
                  (c.MIDDLELEAF + 1)
                ridArray := (insertAt l.ridArray (searchGE l.keyArray key) rid).take
                  (c.MIDDLELEAF + 1)
                rightSibPageNo := b.numPages + 1 })))
            (b.numPages + 1) (some (Page.leaf
              { keyArray := (insertAt l.keyArray (searchGE l.keyArray key) key).drop
                  (c.MIDDLELEAF + 1)
                ridArray := (insertAt l.ridArray (searchGE l.keyArray key) rid).drop
                  (c.MIDDLELEAF + 1)
                rightSibPageNo := l.rightSibPageNo }))
          numPages := b.numPages + 1
          pinCnt := b.pinCnt } := ⟨_, rfl⟩
    rw [← hb1] at hs2 hmod
    have hb1n : b1.numPages = b.numPages + 1 := by rw [hb1]
    have hb1q : b1.file q = some (Page.leaf
        { keyArray := (insertAt l.keyArray (searchGE l.keyArray key) key).take (c.MIDDLELEAF + 1)
          ridArray := (insertAt l.ridArray (searchGE l.keyArray key) rid).take (c.MIDDLELEAF + 1)
          rightSibPageNo := b.numPages + 1 }) := by
      rw [hb1]
      show Function.update (Function.update b.file q _) (b.numPages + 1) _ q = _
      rw [Function.update_noteq hqn, Function.update_same]
    have hb1r : b1.file (b.numPages + 1) = some (Page.leaf
        { keyArray := (insertAt l.keyArray (searchGE l.keyArray key) key).drop (c.MIDDLELEAF + 1)
          ridArray := (insertAt l.ridArray (searchGE l.keyArray key) rid).drop (c.MIDDLELEAF + 1)
          rightSibPageNo := l.rightSibPageNo }) := by
      rw [hb1]
      show Function.update (Function.update b.file q _) (b.numPages + 1) _ _ = _
      rw [Function.update_same]
    have hb1o : ∀ p, p ≠ q → p ≠ b.numPages + 1 → b1.file p = b.file p := by
      intro p hpq hpn
      rw [hb1]
      show Function.update (Function.update b.file q _) (b.numPages + 1) _ p = _
      rw [Function.update_noteq hpn, Function.update_noteq hpq]
    have hheight := hs2.height_le
    obtain ⟨b2, ups2, hrun, hinv2, hne2, hframe, hocc⟩ :=
      insertEntryLoop_spec c hN q kvs2 ups [] pre post q
      (b.numPages + 1) push Uq b1 (b.numPages + 1 + 1) hs2 (fun _ => rfl)
      (fun e => absurd rfl e) (by
        simp only [List.nil_append, List.length_cons, hb1n] at hheight
        exact hheight)
    have hnu : ∀ p, p ∈ pagesOf ups → p ≤ b.numPages ∧
        p ∉ (pre ++ (q, Uq) :: post).map Prod.fst := by
      intro p hmem
      constructor
      · exact (hs.range p (by
          simp only [List.nil_append, pagesOf, List.flatten_cons, List.map_append,
            List.mem_append]
          exact Or.inr hmem)).2
      · intro hp
        have hnd2 : (pagesOf ((pre ++ (q, Uq) :: post) :: ups)).Nodup := by simpa using hnd
        unfold pagesOf at hnd2 hmem
        rw [List.flatten_cons, List.map_append] at hnd2
        exact (List.nodup_append.mp hnd2).2.2 hp hmem
    have hframe2 : ∀ e ∈ pre ++ (q, Uq) :: post, b2.file e.1 = b1.file e.1 := by
      intro e he
      have her := hs.range e.1 (@mem_pagesOf _ (pre ++ (q, Uq) :: post) e (by simp) he)
      exact hframe e.1 her.1 (by rw [hb1n]; omega)
        (fun hmem => (hnu e.1 hmem).2 (List.mem_map_of_mem Prod.fst he))
    have hnew : b2.file (b.numPages + 1) = b1.file (b.numPages + 1) :=
      hframe (b.numPages + 1) (by omega) (by rw [hb1n])
        (fun hmem => by
          have := (hnu _ hmem).1
          omega)
    have hnq := @nodup_site [] _ _ _ _ _ hnd
    refine ⟨pre, q, Uq, post, l, b2, kvs2, ht, hq, ?_, hperm,
      Or.inr ⟨by omega, push, ups2, hget, hne2, by simpa using hinv2, ?_, ?_, ?_⟩, ?_⟩
    · simp only [insertEntry, hfl, hmod, hrne, if_false, hb1n]
      exact hrun
    · rw [hframe2 (q, Uq) (by simp)]
      exact hb1q
    · rw [hnew]
      exact hb1r
    · intro e he
      have he2 : e ∈ pre ++ (q, Uq) :: post := by
        rcases List.mem_append.mp he with h1 | h1
        · exact List.mem_append_left _ h1
        · exact List.mem_append_right _ (List.mem_cons_of_mem _ h1)
      have heq : e.1 ≠ q := by
        rcases List.mem_append.mp he with h1 | h1
        · exact hnq.2.1 e h1
        · exact hnq.2.2.1 e h1
      have her := hs.range e.1 (@mem_pagesOf _ (pre ++ (q, Uq) :: post) e (by simp) he2)
      rw [hframe2 e he2]
      exact hb1o e.1 heq (by omega)
    · intro h0 hf0 hfill
      have hh1 : headerPageNum ≠ b.numPages + 1 := header_ne_of_two_le (by omega)
      apply hocc h0
      · rw [hb1o _ (Ne.symm hqh) hh1]
        exact hf0
      · intro p hp
        have hTlen : (insertAt l.keyArray (searchGE l.keyArray key) key).length =
            c.INTARRAYLEAFSIZE + 1 := by rw [insertAt_length, hklen]
        by_cases hpn1 : p = b.numPages + 1
        · subst hpn1
          refine MinFill_leaf hb1r ?_
          show _ ≤ ((insertAt l.keyArray (searchGE l.keyArray key) key).drop
            (c.MIDDLELEAF + 1)).length
          rw [List.length_drop, hTlen]
          unfold Consts.MIDDLELEAF
          omega
        · by_cases hpq : p = q
          · subst hpq
            refine MinFill_leaf hb1q ?_
            show _ ≤ ((insertAt l.keyArray (searchGE l.keyArray key) key).take
              (c.MIDDLELEAF + 1)).length
            rw [List.length_take, hTlen]
            unfold Consts.MIDDLELEAF
            omega
          · have hpr : p ≠ h0.rootPageNo := by
              rcases hp with h1 | h1
              · exact h1
              · exact absurd h1 hpq
            exact MinFill_of_file (hb1o p hpq hpn1) (hfill p hpr)

theorem insertEntry_spec {c : Consts} {b : BufMgr} {G : List (List Entry)}
    {kvs : List (Int × RecordId)} (hL : 1 ≤ c.INTARRAYLEAFSIZE)
    (hN : 1 ≤ c.INTARRAYNONLEAFSIZE) (hinv : Inv c b G kvs) (key : Int) (rid : RecordId)
    (hkey : key ∉ kvs.map Prod.fst) :
    ∃ b2 G2 kvs2, insertEntry c b key rid = some b2 ∧ Inv c b2 G2 kvs2 ∧
      kvs2.Perm ((key, rid) :: kvs) := by
  obtain ⟨lv0, ups, rfl, hs⟩ := hinv
  obtain ⟨pre, q, Uq, post, l, b2, kvs2, -, -, hins, hperm, hcases, -⟩ :=
    insertEntry_effect hL hN ⟨lv0, ups, rfl, hs⟩ key rid hkey
  rcases hcases with ⟨-, -, hinv2⟩ | ⟨-, push, ups2, -, -, hinv2, -⟩
  · exact ⟨b2, _, kvs2, hins, hinv2, hperm⟩
  · exact ⟨b2, _, kvs2, hins, hinv2, hperm⟩

/-! ## Building an index -/

theorem createIndex_spec (c : Consts) (name : String) (off : Int) (ty : Datatype) :
    ∃ b, createIndex name off ty = some b ∧ Inv c b [[(2, none)]] [] ∧
      b.file 1 = some (Page.header
        { relationName := cstr name, attrByteOffset := off, attrType := ty, rootPageNo := 2 }) ∧
      b.file 2 = some (Page.leaf
        { keyArray := [], ridArray := [], rightSibPageNo := INVALID_NUMBER }) ∧
      (∀ p, p ≠ 1 → p ≠ 2 → b.file p = none) ∧ b.numPages = 2 := by
  refine ⟨{ file := Function.update (Function.update (Function.update (Function.update
              (fun _ => none) 1 (some Page.blank)) 2 (some Page.blank)) 2
              (some (Page.leaf { keyArray := [], ridArray := [], rightSibPageNo := INVALID_NUMBER })))
              1 (some (Page.header
                { relationName := cstr name, attrByteOffset := off, attrType := ty, rootPageNo := 2 }))
            numPages := 2
            pinCnt := fun _ => 0 }, ?_, ?_, by simp, by simp, ?_, rfl⟩
  · simp only [createIndex, allocPage, emptyFile, writePage, unPinPage, Function.update_apply]
    simp [Function.update_apply]
    funext x
    simp only [Function.update_apply]
    by_cases h1 : x = 1 <;> by_cases h2 : x = 2 <;> simp_all
  · refine ⟨[(2, none)], [], rfl, ?_⟩
    constructor
    · exact ⟨{ relationName := cstr name, attrByteOffset := off, attrType := ty
               rootPageNo := 2 },
        by simp [headerPageNum], by simp, by simp⟩
    · refine ⟨{ keyArray := [], ridArray := [], rightSibPageNo := INVALID_NUMBER }, ?_, ?_, rfl,
        by simp, [], rfl, rfl⟩
      · simp [Function.update_apply]
      · exact ⟨rfl, by simp, by simp, by simp⟩
    · simp
    · exact trivial
    · exact trivial
    · intro lv hlv
      simp only [List.nil_append, List.mem_singleton] at hlv
      subst hlv
      exact ⟨by simp [LevelSorted], by simp⟩
    · simp [pagesOf]
    · intro p hp
      simp [pagesOf] at hp
      subst hp
      simp
  · intro p h1 h2
    simp [Function.update_apply, h1, h2]

theorem insertAll_spec {c : Consts} (hL : 1 ≤ c.INTARRAYLEAFSIZE)
    (hN : 1 ≤ c.INTARRAYNONLEAFSIZE) :
    ∀ (rel : List (Int × RecordId)) (b : BufMgr) (G : List (List Entry))
      (kvs : List (Int × RecordId)),
      Inv c b G kvs → (rel.map Prod.fst).Nodup →
      (∀ k ∈ rel.map Prod.fst, k ∉ kvs.map Prod.fst) →
      ∃ b2 G2 kvs2, insertAll c b rel = some b2 ∧ Inv c b2 G2 kvs2 ∧ kvs2.Perm (rel ++ kvs) := by
  intro rel
  induction rel with
  | nil =>
    intro b G kvs hinv _ _
    exact ⟨b, G, kvs, rfl, hinv, List.Perm.refl _⟩
  | cons x xs ih =>
    intro b G kvs hinv hnd hdis
    obtain ⟨key, rid⟩ := x
    simp only [List.map_cons, List.nodup_cons] at hnd
    obtain ⟨b1, G1, kvs1, hrun, hinv1, hperm1⟩ :=
      insertEntry_spec hL hN hinv key rid (hdis key (by simp))
    have hdis1 : ∀ k ∈ xs.map Prod.fst, k ∉ kvs1.map Prod.fst := by
      intro k hk hmem
      have := (hperm1.map Prod.fst).mem_iff.mp hmem
      simp only [List.map_cons, List.mem_cons] at this
      rcases this with rfl | h
      · exact hnd.1 hk
      · exact hdis k (by simp [hk]) h
    obtain ⟨b2, G2, kvs2, hrun2, hinv2, hperm2⟩ := ih b1 G1 kvs1 hinv1 hnd.2 hdis1
    refine ⟨b2, G2, kvs2, ?_, hinv2, ?_⟩
    · simp only [insertAll, hrun, hrun2]
    · refine hperm2.trans ?_
      refine (List.Perm.append_left xs hperm1).trans ?_
      simp only [List.cons_append]
      exact List.perm_middle

theorem buildIndex_spec {c : Consts} (hL : 1 ≤ c.INTARRAYLEAFSIZE)
    (hN : 1 ≤ c.INTARRAYNONLEAFSIZE) (name : String) (off : Int) (ty : Datatype)
    (rel : List (Int × RecordId)) (hnd : (rel.map Prod.fst).Nodup) :
    ∃ b G kvs, buildIndex c name off ty rel = some (mkIndex b) ∧ Inv c b G kvs ∧
      kvs.Perm rel := by
  obtain ⟨b0, hcreate, hinv0, -⟩ := createIndex_spec c name off ty
  obtain ⟨b, G, kvs, hrun, hinv, hperm⟩ := insertAll_spec hL hN rel b0 _ [] hinv0 hnd
    (by simp)
  refine ⟨b, G, kvs, ?_, hinv, by simpa using hperm⟩
  simp only [buildIndex, hcreate, hrun]

/-- The invariant of a reachable index says that the pairs are held in strictly
ascending key order. -/
theorem Inv.sorted {c : Consts} {b : BufMgr} {G : List (List Entry)}
    {kvs : List (Int × RecordId)} (h : Inv c b G kvs) :
    (kvs.map Prod.fst).Pairwise (· < ·) := by
  obtain ⟨lv0, ups, -, hs⟩ := h
  exact hs.sorted

/-! ## Reading a reachable index: descent and leaf chain -/

theorem nodup_length_lt (l : List Nat) (n : Nat) (hn : l.Nodup) (hr : ∀ p ∈ l, 2 ≤ p ∧ p ≤ n)
    (hne : l ≠ []) : l.length + 1 ≤ n := by
  obtain ⟨p0, hp0⟩ := List.exists_mem_of_ne_nil l hne
  have hn2 := hr p0 hp0
  have h0 : (0 :: l).Nodup := by
    rw [List.nodup_cons]
    refine ⟨?_, hn⟩
    intro h
    have := (hr 0 h).1
    omega
  have h1 : (1 :: 0 :: l).Nodup := by
    rw [List.nodup_cons]
    refine ⟨?_, h0⟩
    intro h
    rcases List.mem_cons.mp h with h | h
    · omega
    · have := (hr 1 h).1
      omega
  have := nodup_length_le (1 :: 0 :: l) (n + 1) h1 (by
    intro p hp
    rcases List.mem_cons.mp hp with rfl | hp
    · omega
    · rcases List.mem_cons.mp hp with rfl | hp
      · omega
      · have := (hr p hp).2
        omega)
  simp only [List.length_cons] at this
  omega

theorem leafWalk_chain {c : Consts} {b : BufMgr} :
    ∀ {es : List Entry} {ne : Bool} {kvs : List (Int × RecordId)},
      Chain c b ne es INVALID_NUMBER kvs → (∀ e ∈ es, e.1 ≠ INVALID_NUMBER) →
      ∀ fuel, es.length + 1 ≤ fuel →
        leafWalk fuel b (headPage es INVALID_NUMBER) = some kvs := by
  intro es
  induction es with
  | nil =>
    intro ne kvs h _ fuel hf
    obtain ⟨f, rfl⟩ : ∃ f, fuel = f + 1 := ⟨fuel - 1, by omega⟩
    simp only [Chain] at h
    subst h
    simp [leafWalk, headPage]
  | cons x xs ih =>
    intro ne kvs h hne fuel hf
    obtain ⟨f, rfl⟩ : ∃ f, fuel = f + 1 := ⟨fuel - 1, by omega⟩
    obtain ⟨l, hfl, -, hsib, -, rest, rfl, hr⟩ := h
    have hx := hne x (List.mem_cons_self _ _)
    have hrec := ih hr (fun e he => hne e (List.mem_cons_of_mem _ he)) f
      (by simp only [List.length_cons] at hf; omega)
    have hh : headPage (x :: xs) INVALID_NUMBER = x.1 := rfl
    rw [hh]
    simp only [leafWalk, hx, if_false, hfl, hsib, hrec]

theorem Inv.pages {c : Consts} {b : BufMgr} {lv0 : List Entry} {ups : List (List Entry)}
    {kvs : List (Int × RecordId)} (h : Inv c b (lv0 :: ups) kvs) :
    (∀ e ∈ lv0, 2 ≤ e.1 ∧ e.1 ≤ b.numPages) ∧ lv0.length + 1 ≤ b.numPages ∧
      Chain c b false lv0 INVALID_NUMBER kvs ∧ LevelSorted lv0 := by
  obtain ⟨lv0', ups', hG, hs⟩ := h
  injection hG with h1 h2
  subst h1 h2
  have hr : ∀ e ∈ lv0, 2 ≤ e.1 ∧ e.1 ≤ b.numPages := fun e he =>
    hs.range e.1 (@mem_pagesOf _ lv0 _ (by simp) he)
  have hnd : (lv0.map Prod.fst).Nodup := by
    have := hs.nodup
    simp only [pagesOf, List.nil_append, List.flatten_cons, List.map_append] at this
    exact (List.nodup_append.mp this).1
  refine ⟨hr, ?_, by simpa using hs.chain, (hs.levels lv0 (by simp)).1⟩
  have hne : lv0 ≠ [] := (hs.levels lv0 (by simp)).2
  have := nodup_length_lt (lv0.map Prod.fst) b.numPages hnd (by
    intro p hp
    obtain ⟨e, he, rfl⟩ := List.mem_map.mp hp
    exact hr e he) (by simpa using hne)
  simpa using this

theorem sorted_search_get (k : Int) :
    ∀ ks : List Int, ks.Pairwise (· < ·) → k ∈ ks → ks[searchGE ks k]? = some k := by
  intro ks
  induction ks with
  | nil => intro _ h; cases h
  | cons a as ih =>
    intro hs hk
    rw [List.pairwise_cons] at hs
    by_cases hge : a ≥ k
    · have : a = k := by
        rcases List.mem_cons.mp hk with h | h
        · exact h.symm
        · have := hs.1 k h
          omega
      subst this
      simp [searchGE]
    · have hmem : k ∈ as := by
        rcases List.mem_cons.mp hk with h | h
        · omega
        · exact h
      simp only [searchGE, hge, if_false, List.getElem?_cons_succ]
      exact ih hs.2 hmem

/-- The leaf where the descent for `key` ends holds every stored pair whose key is
`key`. -/
theorem target_holds {c : Consts} {b : BufMgr} {lv0 pre post : List Entry} {q : Nat}
    {Uq : Option Int} {l : LeafNodeInt} {key : Int} {kvs : List (Int × RecordId)}
    (hchain : Chain c b false lv0 INVALID_NUMBER kvs)
    (hsorted : (kvs.map Prod.fst).Pairwise (· < ·))
    (hlevel : LevelSorted lv0)
    (ht : Target (fun k => decide (k < key)) lv0 pre q Uq post)
    (hq : b.file q = some (Page.leaf l)) :
    ∃ k1 rest, kvs = k1 ++ l.entries ++ rest ∧ LeafOK c l Uq ∧
      Chain c b false pre q k1 ∧ Chain c b true post INVALID_NUMBER rest ∧
      l.rightSibPageNo = headPage post INVALID_NUMBER ∧
      (pre ≠ [] → l.keyArray ≠ []) ∧
      (∀ k ∈ k1.map Prod.fst, k < key) ∧
      (∀ k ∈ rest.map Prod.fst, key < k) ∧
      (l.keyArray.Pairwise (· < ·)) := by
  obtain ⟨hlv, hpre, hUq⟩ := ht
  subst hlv
  obtain ⟨k1, k2, rfl, hc1, hc2⟩ := (Chain_append c b ((q, Uq) :: post) INVALID_NUMBER pre false
    kvs).mp hchain
  obtain ⟨l2, hf2, hok, hsib, hne, rest, rfl, hrest⟩ := hc2
  have hl : l2 = l := by
    have : some (Page.leaf l2) = some (Page.leaf l) := by rw [← hf2]; exact hq
    injection this with this
    injection this
  subst hl
  have hfst := hok.entries_fst
  simp only [List.map_append, hfst] at hsorted
  rw [List.pairwise_append] at hsorted
  obtain ⟨hs1, hs23, hcross1⟩ := hsorted
  rw [List.pairwise_append] at hs23
  obtain ⟨hs2, hs3, hcross2⟩ := hs23
  refine ⟨k1, rest, by simp, hok, hc1, hrest, hsib, ?_, ?_, ?_, hs2⟩
  · intro hp
    apply hne
    simp [hp]
  · intro k hk
    obtain ⟨e, he, hle⟩ := Chain_keys_le hc1 k hk
    have hb := hpre e he
    cases hu : e.2 with
    | none => rw [hu] at hb; exact hb.elim
    | some u =>
      rw [hu] at hb hle
      simp only [belowB, decide_eq_true_eq] at hb
      simp only [leB] at hle
      omega
  · intro k hk
    cases hu : Uq with
    | none =>
      rw [hu] at hlevel
      have hp := hlevel.none_last
      subst hp
      have := Chain_nil hrest
      subst this
      cases hk
    | some u =>
      have hmem := hok.2.2.2 u hu
      have h1 := hcross2 u hmem k hk
      rw [hu] at hUq
      simp only [belowB, decide_eq_true_eq] at hUq
      omega

/-- On a well-formed tree `findLeafNode` ends at the leaf that holds `key`, at the
position of `key`, and reports the key count of that leaf. -/
theorem Inv.findLeafNode_found {c : Consts} {b : BufMgr} {G : List (List Entry)}
    {kvs : List (Int × RecordId)} (hinv : Inv c b G kvs) (key : Int)
    (hkey : key ∈ kvs.map Prod.fst) :
    ∃ p pos tot l, findLeafNode b key = some ((p, pos, tot), b) ∧
      b.file p = some (Page.leaf l) ∧ l.keyArray[pos]? = some key ∧
      tot = l.keyArray.length := by
  obtain ⟨lv0, ups, rfl, hs⟩ := hinv
  have hinv : Inv c b (lv0 :: ups) kvs := ⟨lv0, ups, rfl, hs⟩
  obtain ⟨h, pre, q, Uq, post, l, hfile, ht, hq, hcase⟩ := hinv.descend key
  obtain ⟨-, -, hchain, hlevel⟩ := hinv.pages
  obtain ⟨k1, rest, hk, hok, -, -, -, -, hk1, hrest, hsl⟩ :=
    target_holds hchain hs.sorted hlevel ht hq
  have hmem : key ∈ l.keyArray := by
    rw [hk] at hkey
    simp only [List.map_append, hok.entries_fst, List.mem_append] at hkey
    rcases hkey with (h1 | h2) | h3
    · have := hk1 key h1
      omega
    · exact h2
    · have := hrest key h3
      omega
  exact ⟨q, _, _, l, findLeafNode_spec hfile hq hcase, hq, sorted_search_get key _ hsl hmem, rfl⟩

/-- On a well-formed tree the walk along the leaf chain, started at the leaf that
`findLeafNode` returns for a key that is not greater than any stored key, yields all
stored pairs. -/
theorem Inv.leafWalk_all {c : Consts} {b : BufMgr} {G : List (List Entry)}
    {kvs : List (Int × RecordId)} (hinv : Inv c b G kvs) (k0 : Int)
    (hk0 : ∀ k ∈ kvs.map Prod.fst, k0 ≤ k) :
    ∃ p pos tot, findLeafNode b k0 = some ((p, pos, tot), b) ∧
      leafWalk (b.numPages + 1) b p = some kvs := by
  obtain ⟨lv0, ups, rfl, hs⟩ := hinv
  have hinv : Inv c b (lv0 :: ups) kvs := ⟨lv0, ups, rfl, hs⟩
  obtain ⟨h, pre, q, Uq, post, l, hfile, ht, hq, hcase⟩ := hinv.descend k0
  obtain ⟨hrange, hlen, hchain, hlevel⟩ := hinv.pages
  have hpre : pre = [] := by
    cases pre with
    | nil => rfl
    | cons e es =>
      exfalso
      have hb := ht.2.1 e (by simp)
      cases hu : e.2 with
      | none => rw [hu] at hb; exact hb.elim
      | some u =>
        rw [hu] at hb
        simp only [belowB, decide_eq_true_eq] at hb
        have hmem := Chain_bound_mem hchain e (by rw [ht.1]; simp) u hu
        have := hk0 u hmem
        omega
  subst hpre
  have hlv := ht.1
  simp only [List.nil_append] at hlv
  have hwalk := leafWalk_chain hchain (fun e he => by
    have := (hrange e he).1
    unfold INVALID_NUMBER
    omega) (b.numPages + 1) (by omega)
  rw [hlv] at hwalk
  exact ⟨q, _, _, findLeafNode_spec hfile hq hcase, hwalk⟩

/-- Two lists of pairs with the same elements that are both strictly ascending in
the key are equal. -/
theorem sorted_pairs_unique {l1 l2 : List (Int × RecordId)} (hp : l1.Perm l2)
    (h1 : (l1.map Prod.fst).Pairwise (· < ·)) (h2 : (l2.map Prod.fst).Pairwise (· < ·)) :
    l1 = l2 := by
  haveI : IsAntisymm (Int × RecordId) (fun a b => a.1 < b.1) :=
    ⟨fun a b hab hba => absurd hab (by omega)⟩
  rw [List.pairwise_map] at h1 h2
  exact List.eq_of_perm_of_sorted hp h1 h2

/-! ## Scans over a reachable index -/

theorem getAt_natCast {α : Type} (xs : List α) (i : Nat) : getAt xs (i : Int) = xs[i]? := by
  unfold getAt
  have : ¬ ((i : Int) < 0) := by omega
  simp [this]

theorem entries_get {l : LeafNodeInt} (hlen : l.ridArray.length = l.keyArray.length) {i : Nat}
    (hi : i < l.keyArray.length) :
    ∃ k r, l.keyArray[i]? = some k ∧ l.ridArray[i]? = some r ∧
      l.entries.drop i = (k, r) :: l.entries.drop (i + 1) := by
  have hir : i < l.ridArray.length := by omega
  have hie : i < l.entries.length := by
    unfold LeafNodeInt.entries
    simp
    omega
  refine ⟨l.keyArray[i], l.ridArray[i], List.getElem?_eq_getElem hi,
    List.getElem?_eq_getElem hir, ?_⟩
  rw [List.drop_eq_getElem_cons hie]
  congr 1
  unfold LeafNodeInt.entries
  simp

/-- One call of `scanNext` at a cursor. -/
theorem scanNext_step {c : Consts} {s : BTreeIndex} {rem : List (Int × RecordId)}
    (hc : Cursor c s rem) :
    (rem = [] → scanNext s = Res.throw Exn.IndexScanCompleted s) ∧
    (∀ k r rem2, rem = (k, r) :: rem2 → k > s.highValInt →
      scanNext s = Res.throw Exn.IndexScanCompleted s) ∧
    (∀ k r rem2, rem = (k, r) :: rem2 → ¬ k > s.highValInt →
      ∃ s2, scanNext s = Res.ok r s2 ∧ Cursor c s2 rem2 ∧ s2.highValInt = s.highValInt) := by
  obtain ⟨hx, hcur⟩ := hc
  rcases hcur with ⟨hp, hrem⟩ | ⟨l, es, rest, i, hp, hdata, hfile, hlen, hnext, hi, hsib, hchain,
    hes, hrem⟩
  · subst hrem
    refine ⟨?_, ?_, ?_⟩
    · intro _
      simp [scanNext, hx, hp]
    · intro k r rem2 h
      cases h
    · intro k r rem2 h
      cases h
  · obtain ⟨k0, r0, hk0, hr0, hdrop⟩ := entries_get hlen hi
    have hremeq : rem = (k0, r0) :: (l.entries.drop (i + 1) ++ rest) := by
      rw [hrem, hdrop]
      rfl
    have hfile2 : s.bufMgr.file s.currentPageData = some (Page.leaf l) := by
      rw [hdata]; exact hfile
    have hgk : getAt l.keyArray s.nextEntry = some k0 := by
      rw [hnext, getAt_natCast]; exact hk0
    have hgr : getAt l.ridArray s.nextEntry = some r0 := by
      rw [hnext, getAt_natCast]; exact hr0
    refine ⟨?_, ?_, ?_⟩
    · intro h
      rw [hremeq] at h
      cases h
    · intro k r rem2 h hgt
      rw [hremeq] at h
      injection h with h1 h2
      injection h1 with hk hr
      subst hk
      simp [scanNext, hx, hp, hfile2, Page.asLeaf, hgk, hgt]
    · intro k r rem2 h hgt
      rw [hremeq] at h
      injection h with h1 h2
      injection h1 with hk hr
      subst hk hr h2
      by_cases h1 : (l.keyArray.length : Int) - 1 > s.nextEntry
      · refine ⟨{ s with nextEntry := s.nextEntry + 1 }, ?_, ⟨hx, Or.inr
          ⟨l, es, rest, i + 1, hp, hdata, hfile, hlen, ?_, ?_, hsib, hchain, hes, rfl⟩⟩, rfl⟩
        · simp [scanNext, hx, hp, hfile2, Page.asLeaf, hgk, hgt, hgr, h1]
        · show s.nextEntry + 1 = ((i + 1 : Nat) : Int)
          rw [hnext]
          push_cast
          rfl
        · rw [hnext] at h1
          omega
      · have hlast : (l.keyArray.length : Int) - 1 = s.nextEntry := by
          rw [hnext] at h1 ⊢
          omega
        have hdrop2 : l.entries.drop (i + 1) = [] := by
          apply List.drop_of_length_le
          unfold LeafNodeInt.entries
          simp only [List.length_zip, hlen, min_self]
          rw [hnext] at hlast
          omega
        cases es with
        | nil =>
          have hsib0 : l.rightSibPageNo = INVALID_NUMBER := hsib
          have hrest : rest = [] := Chain_nil hchain
          subst hrest
          refine ⟨{ s with currentPageNum := INVALID_NUMBER }, ?_, ⟨hx, Or.inl ⟨rfl, ?_⟩⟩, rfl⟩
          · simp [scanNext, hx, hp, hfile2, Page.asLeaf, hgk, hgt, hgr, h1, hsib0]
          · rw [hdrop2]
            rfl
        | cons e es2 =>
          have hsibe : l.rightSibPageNo = e.1 := hsib
          have hene : e.1 ≠ INVALID_NUMBER := hes e (by simp)
          obtain ⟨l2, hf2, hok2, hsib2, hne2, rest2, hrest2, hchain2⟩ := hchain
          obtain ⟨b1, hread, -⟩ := read_unpin hf2
          obtain ⟨-, hb1⟩ := readPage_spec hread
          have hpos : 0 < l2.keyArray.length := List.length_pos.mpr (hne2 rfl)
          refine ⟨{ s with
              bufMgr := b1
              nextEntry := 0
              currentPageNum := e.1
              currentPageData := e.1
              page_nums := Function.update s.page_nums s.num_pinned_page e.1
              num_pinned_page := s.num_pinned_page + 1 }, ?_, ⟨hx, Or.inr
            ⟨l2, es2, rest2, 0, hene, rfl, ?_, hok2.1, rfl, hpos, hsib2, ?_,
              fun x hx2 => hes x (List.mem_cons_of_mem _ hx2), ?_⟩⟩, rfl⟩
          · simp [scanNext, hx, hp, hfile2, Page.asLeaf, hgk, hgt, hgr, h1, hlast, hsibe, hene,
              hread]
          · show b1.file e.1 = _
            rw [hb1]
            exact hf2
          · refine Chain_frame ?_ hchain2
            intro x _
            show b1.file x.1 = _
            rw [hb1]
          · rw [hdrop2, hrest2]
            simp

/-- Draining a scan from a cursor returns the rids of the leading pairs whose key
does not exceed the upper bound. -/
theorem scanDrain_spec {c : Consts} :
    ∀ (rem : List (Int × RecordId)) (s : BTreeIndex), Cursor c s rem →
      ∀ fuel, rem.length + 1 ≤ fuel →
        ∃ s2, scanDrain fuel s =
          some ((rem.takeWhile (fun kv => decide (kv.1 ≤ s.highValInt))).map Prod.snd, s2) := by
  intro rem
  induction rem with
  | nil =>
    intro s hc fuel hf
    obtain ⟨f, rfl⟩ : ∃ f, fuel = f + 1 := ⟨fuel - 1, by omega⟩
    have h := (scanNext_step hc).1 rfl
    exact ⟨s, by simp [scanDrain, h]⟩
  | cons x xs ih =>
    intro s hc fuel hf
    obtain ⟨f, rfl⟩ : ∃ f, fuel = f + 1 := ⟨fuel - 1, by omega⟩
    obtain ⟨k, r⟩ := x
    by_cases hgt : k > s.highValInt
    · have h := (scanNext_step hc).2.1 k r xs rfl hgt
      refine ⟨s, ?_⟩
      have hle : ¬ k ≤ s.highValInt := by omega
      simp [scanDrain, h, List.takeWhile, hle]
    · obtain ⟨s2, h, hc2, hhi⟩ := (scanNext_step hc).2.2 k r xs rfl hgt
      obtain ⟨s3, h3⟩ := ih s2 hc2 f (by simp only [List.length_cons] at hf; omega)
      refine ⟨s3, ?_⟩
      have hle : k ≤ s.highValInt := by omega
      simp [scanDrain, h, h3, List.takeWhile, hle, hhi]

/-- On a list that ascends strictly in the key, the pairs with key in `[lo, hi]`
are what remains after dropping the keys below `lo` and taking the keys up to
`hi`. -/
theorem filter_sorted_range (lo hi : Int) :
    ∀ (before rem : List (Int × RecordId)),
      (∀ kv ∈ before, kv.1 < lo) → (∀ kv ∈ rem, lo ≤ kv.1) →
      (rem.map Prod.fst).Pairwise (· < ·) →
      (before ++ rem).filter (fun kv => decide (lo ≤ kv.1) && decide (kv.1 ≤ hi)) =
        rem.takeWhile (fun kv => decide (kv.1 ≤ hi)) := by
  intro before
  induction before with
  | cons x xs ih =>
    intro rem hb hr hs
    have hx := hb x (by simp)
    have hn : ¬ lo ≤ x.1 := by omega
    simp only [List.cons_append, List.filter_cons, hn, decide_False, Bool.false_and]
    exact ih rem (fun kv h => hb kv (List.mem_cons_of_mem _ h)) hr hs
  | nil =>
    intro rem
    induction rem with
    | nil => intro _ _ _; rfl
    | cons y ys ih2 =>
      intro hb hr hs
      simp only [List.map_cons, List.pairwise_cons] at hs
      have hy := hr y (by simp)
      by_cases hle : y.1 ≤ hi
      · simp only [List.nil_append, List.filter_cons, hy, hle, decide_True, Bool.and_self,
          if_true, List.takeWhile_cons]
        congr 1
        have := ih2 hb (fun kv h => hr kv (List.mem_cons_of_mem _ h)) hs.2
        simpa using this
      · simp only [List.nil_append, List.filter_cons, hy, hle, decide_True, decide_False,
          Bool.and_false, List.takeWhile_cons]
        simp only [Bool.false_eq_true, if_false]
        rw [List.filter_eq_nil_iff]
        intro kv hkv
        have := hs.1 kv.1 (List.mem_map_of_mem _ hkv)
        simp only [Bool.and_eq_true, decide_eq_true_eq, not_and]
        intro _
        omega

/-- Where a scan with lower bound `lo` starts on a well-formed tree: the leaf `q`
the descent reaches, and the stored pairs split at the first key of that leaf that
is not below `lo`. -/
theorem Inv.scanSite {c : Consts} {b : BufMgr} {lv0 : List Entry} {ups : List (List Entry)}
    {kvs : List (Int × RecordId)} (hinv : Inv c b (lv0 :: ups) kvs) (lo : Int) :
    ∃ h q l post k1 rest, b.file headerPageNum = some (Page.header h) ∧
      b.file q = some (Page.leaf l) ∧
      ((h.rootPageNo = 2 ∧ q = 2) ∨
        (h.rootPageNo ≠ 2 ∧ ∃ k, k ≤ b.numPages + 1 ∧ LeafPath b lo k h.rootPageNo q)) ∧
      q ≠ INVALID_NUMBER ∧
      l.ridArray.length = l.keyArray.length ∧
      l.rightSibPageNo = headPage post INVALID_NUMBER ∧
      Chain c b true post INVALID_NUMBER rest ∧
      (∀ e ∈ post, e.1 ≠ INVALID_NUMBER) ∧
      kvs = (k1 ++ l.entries.take (searchGE l.keyArray lo)) ++
        (l.entries.drop (searchGE l.keyArray lo) ++ rest) ∧
      (∀ kv ∈ k1 ++ l.entries.take (searchGE l.keyArray lo), kv.1 < lo) ∧
      (∀ kv ∈ l.entries.drop (searchGE l.keyArray lo) ++ rest, lo ≤ kv.1) ∧
      (searchGE l.keyArray lo = l.keyArray.length → rest = []) := by
  obtain ⟨h, pre, q, Uq, post, l, hfile, ht, hq, hcase⟩ := hinv.descend lo
  obtain ⟨hrange, -, hchain, hlevel⟩ := hinv.pages
  obtain ⟨k1, rest, hk, hok, -, hpost, hsib, -, hk1, hrest, hsl⟩ :=
    target_holds hchain hinv.sorted hlevel ht hq
  have hfst := hok.entries_fst
  have hne0 : ∀ e ∈ lv0, e.1 ≠ INVALID_NUMBER := by
    intro e he
    have := (hrange e he).1
    unfold INVALID_NUMBER
    omega
  have hlv := ht.1
  have htake : ∀ k ∈ l.keyArray.take (searchGE l.keyArray lo), k < lo := by
    intro k hk
    rw [searchGE_eq] at hk
    simpa using searchP_take _ _ k hk
  have hdrop : ∀ k ∈ l.keyArray.drop (searchGE l.keyArray lo), lo ≤ k := by
    intro k hk
    cases hg : l.keyArray[searchGE l.keyArray lo]? with
    | none =>
      rw [List.getElem?_eq_none_iff] at hg
      rw [List.drop_of_length_le hg] at hk
      cases hk
    | some t =>
      have ht0 : ¬ t < lo := by
        have hg2 := hg
        rw [searchGE_eq] at hg2
        simpa using searchP_get _ _ t hg2
      have hm : searchGE l.keyArray lo < l.keyArray.length := by
        by_contra hcon
        rw [List.getElem?_eq_none (by omega)] at hg
        cases hg
      rw [List.drop_eq_getElem_cons hm] at hk
      have hte : l.keyArray[searchGE l.keyArray lo] = t := by
        rw [List.getElem?_eq_getElem hm] at hg
        injection hg
      rcases List.mem_cons.mp hk with rfl | hk
      · omega
      · have htk : t ∈ l.keyArray.take (searchGE l.keyArray lo + 1) := by
          rw [List.take_succ, List.getElem?_eq_getElem hm, hte]
          simp
        have := sorted_take_lt_drop l.keyArray hsl (searchGE l.keyArray lo + 1) t htk k hk
        omega
  refine ⟨h, q, l, post, k1, rest, hfile, hq, ?_, hne0 (q, Uq) (by rw [hlv]; simp), hok.1, hsib,
    hpost, fun e he => hne0 e (by rw [hlv]; simp [he]), ?_, ?_, ?_, ?_⟩
  · rcases hcase with ⟨-, h1, h2⟩ | h3
    · exact Or.inl ⟨h1, h2⟩
    · exact Or.inr h3
  · rw [hk]
    simp only [List.append_assoc]
    rw [← List.append_assoc (l.entries.take _), List.take_append_drop]
  · intro kv hkv
    rcases List.mem_append.mp hkv with h1 | h1
    · exact hk1 kv.1 (List.mem_map_of_mem _ h1)
    · apply htake
      have := List.mem_map_of_mem Prod.fst h1
      rwa [List.map_take, hfst] at this
  · intro kv hkv
    rcases List.mem_append.mp hkv with h1 | h1
    · apply hdrop
      have := List.mem_map_of_mem Prod.fst h1
      rwa [List.map_drop, hfst] at this
    · have := hrest kv.1 (List.mem_map_of_mem _ h1)
      omega
  · intro hfull
    cases hu : Uq with
    | none =>
      rw [hlv, hu] at hlevel
      have hp := hlevel.none_last
      subst hp
      exact Chain_nil hpost
    | some u =>
      exfalso
      have hmem := hok.2.2.2 u hu
      have hnb := ht.2.2
      rw [hu] at hnb
      simp only [belowB, decide_eq_true_eq] at hnb
      have : u ∈ l.keyArray.take (searchGE l.keyArray lo) := by
        rw [hfull, List.take_length]
        exact hmem
      have := htake u this
      omega

/-- The result of `findScanPage` when the root is the leaf on page 2: the upper
bound is not looked at. -/
theorem findScanPage_rootLeaf {b : BufMgr} {h : IndexMetaInfo} {l : LeafNodeInt} (lo hi : Int)
    (hfile : b.file headerPageNum = some (Page.header h)) (hr2 : h.rootPageNo = 2)
    (hq : b.file 2 = some (Page.leaf l)) (hle : ¬ lo > hi) :
    findScanPage b lo hi =
      if searchGE l.keyArray lo = l.keyArray.length then
        some ((INVALID_NUMBER, (searchGE l.keyArray lo : Int)), b)
      else some ((2, (searchGE l.keyArray lo : Int)), b) := by
  obtain ⟨b1, hr, hu⟩ := read_unpin hfile
  obtain ⟨b3, hr3, hu3⟩ := read_unpin hq
  simp only [findScanPage, hle, if_false, hr, hu, Page.asMeta, hr2, if_true, hr3, hu3,
    Page.asLeaf]

/-- The result of `findScanPage` when the root is an internal node. -/
theorem findScanPage_inner {b : BufMgr} {h : IndexMetaInfo} {l : LeafNodeInt} {q k : Nat}
    (lo hi : Int)
    (hfile : b.file headerPageNum = some (Page.header h)) (hr2 : h.rootPageNo ≠ 2)
    (hk : k ≤ b.numPages + 1) (hpath : LeafPath b lo k h.rootPageNo q)
    (hq : b.file q = some (Page.leaf l)) (hle : ¬ lo > hi) :
    findScanPage b lo hi =
      if searchGE l.keyArray lo = l.keyArray.length then
        some ((INVALID_NUMBER, (searchGE l.keyArray lo : Int)), b)
      else
        match l.keyArray[searchGE l.keyArray lo]? with
        | none => none
        | some k2 =>
          if k2 > hi then some ((INVALID_NUMBER, (searchGE l.keyArray lo : Int)), b)
          else some ((q, (searchGE l.keyArray lo : Int)), b) := by
  obtain ⟨b1, hr, hu⟩ := read_unpin hfile
  simp only [findScanPage, hle, if_false, hr, hu, Page.asMeta, hr2]
  exact findScanPageLoop_of_path hpath hq hi _ hk

/-- The state in which `startScanBody` returns when `findScanPage` names the leaf
`q` and the entry `i`. -/
theorem startScanBody_found {c : Consts} {s : BTreeIndex} {lo hi : Int} {lop hop : Operator}
    {q i : Nat} {l : LeafNodeInt} {post : List Entry} {rest : List (Int × RecordId)}
    (hlop : lop = Operator.GT ∨ lop = Operator.GTE)
    (hhop : hop = Operator.LT ∨ hop = Operator.LTE) (hle : ¬ lo > hi)
    (hfind : findScanPage s.bufMgr (if lop = Operator.GT then wrapInt (lo + 1) else lo)
      (if hop = Operator.LT then wrapInt (hi - 1) else hi) = some ((q, (i : Int)), s.bufMgr))
    (hq : s.bufMgr.file q = some (Page.leaf l)) (hq0 : q ≠ INVALID_NUMBER)
    (hlen : l.ridArray.length = l.keyArray.length) (hi2 : i < l.keyArray.length)
    (hsib : l.rightSibPageNo = headPage post INVALID_NUMBER)
    (hchain : Chain c s.bufMgr true post INVALID_NUMBER rest)
    (hpost : ∀ e ∈ post, e.1 ≠ INVALID_NUMBER) :
    ∃ s1, startScanBody s lo lop hi hop = Res.ok () s1 ∧
      Cursor c s1 (l.entries.drop i ++ rest) ∧
      s1.highValInt = (if hop = Operator.LT then wrapInt (hi - 1) else hi) := by
  obtain ⟨b5, hread, -⟩ := read_unpin hq
  obtain ⟨-, hb5⟩ := readPage_spec hread
  have e1 : ¬ ¬ (lop = Operator.GT ∨ lop = Operator.GTE) := fun hn => hn hlop
  have e2 : ¬ ¬ (hop = Operator.LT ∨ hop = Operator.LTE) := fun hn => hn hhop
  refine ⟨{ s with
      num_pinned_page := 0 + 1
      lowValInt := if lop = Operator.GT then wrapInt (lo + 1) else lo
      highValInt := if hop = Operator.LT then wrapInt (hi - 1) else hi
      lowOp := lop
      highOp := hop
      bufMgr := b5
      currentPageNum := q
      nextEntry := (i : Int)
      currentPageData := q
      page_nums := Function.update s.page_nums 0 q
      scanExecuting := true }, ?_, ?_, rfl⟩
  · simp only [startScanBody, e1, e2, hle, if_false, hfind, ne_eq, hq0, not_false_eq_true,
      if_true, hread]
  · refine ⟨rfl, Or.inr ⟨l, post, rest, i, hq0, rfl, ?_, hlen, rfl, hi2, hsib, ?_, hpost, rfl⟩⟩
    · show b5.file q = _
      rw [hb5]
      exact hq
    · refine Chain_frame ?_ hchain
      intro x _
      show b5.file x.1 = _
      rw [hb5]

/-- When `findScanPage` names no page, `startScanBody` raises `NoSuchKeyFound`. -/
theorem startScanBody_none {s : BTreeIndex} {lo hi : Int} {lop hop : Operator} {n : Int}
    {b3 : BufMgr}
    (hlop : lop = Operator.GT ∨ lop = Operator.GTE)
    (hhop : hop = Operator.LT ∨ hop = Operator.LTE) (hle : ¬ lo > hi)
    (hfind : findScanPage s.bufMgr (if lop = Operator.GT then wrapInt (lo + 1) else lo)
      (if hop = Operator.LT then wrapInt (hi - 1) else hi) = some ((INVALID_NUMBER, n), b3)) :
    ∃ s1, startScanBody s lo lop hi hop = Res.throw Exn.NoSuchKeyFound s1 := by
  have e1 : ¬ ¬ (lop = Operator.GT ∨ lop = Operator.GTE) := fun hn => hn hlop
  have e2 : ¬ ¬ (hop = Operator.LT ∨ hop = Operator.LTE) := fun hn => hn hhop
  simp only [startScanBody, e1, e2, hle, if_false, hfind, ne_eq, not_true_eq_false]
  exact ⟨_, rfl⟩

/-- The outcome of `startScan` on a well-formed tree with no scan in progress, for
admissible operators and `lo ≤ hi`: with `L` and `H` the normalised bounds, either
`NoSuchKeyFound` is raised and no stored key lies in `[L, H]`, or the call returns
with the cursor at the first stored key that is not below `L`. -/
theorem Inv.startScan_spec {c : Consts} {b : BufMgr} {lv0 : List Entry}
    {ups : List (List Entry)} {kvs : List (Int × RecordId)} (hinv : Inv c b (lv0 :: ups) kvs)
    (s : BTreeIndex) (hb : s.bufMgr = b) (hx : s.scanExecuting = false)
    (lo hi : Int) (lop hop : Operator)
    (hlop : lop = Operator.GT ∨ lop = Operator.GTE)
    (hhop : hop = Operator.LT ∨ hop = Operator.LTE) (hle : lo ≤ hi) (L H : Int)
    (hL : L = if lop = Operator.GT then wrapInt (lo + 1) else lo)
    (hH : H = if hop = Operator.LT then wrapInt (hi - 1) else hi) :
    (∃ s1, startScan s lo lop hi hop = Res.throw Exn.NoSuchKeyFound s1 ∧
      kvs.filter (fun kv => decide (L ≤ kv.1) && decide (kv.1 ≤ H)) = []) ∨
    (∃ s1 rem, startScan s lo lop hi hop = Res.ok () s1 ∧ Cursor c s1 rem ∧
      s1.highValInt = H ∧ rem.length ≤ kvs.length ∧
      rem.takeWhile (fun kv => decide (kv.1 ≤ H)) =
        kvs.filter (fun kv => decide (L ≤ kv.1) && decide (kv.1 ≤ H))) := by
  have hbody : startScan s lo lop hi hop = startScanBody s lo lop hi hop := by
    unfold startScan
    simp [hx]
  have hle2 : ¬ lo > hi := by omega
  rw [hbody]
  subst hb
  by_cases hgt : L > H
  · left
    have hfind : findScanPage s.bufMgr L H = some ((INVALID_NUMBER, -1), s.bufMgr) := by
      simp only [findScanPage, hgt, if_true]
    rw [hL, hH] at hfind
    obtain ⟨s1, hs1⟩ := startScanBody_none hlop hhop hle2 hfind
    refine ⟨s1, hs1, ?_⟩
    rw [List.filter_eq_nil_iff]
    intro kv _
    simp only [Bool.and_eq_true, decide_eq_true_eq, not_and]
    intro _
    omega
  · obtain ⟨h, q, l, post, k1, rest, hfile, hq, hcase, hq0, hlen, hsib, hchain, hpost, hk,
      hbefore, hafter, hfull⟩ := hinv.scanSite L
    have hsorted := hinv.sorted
    rw [hk, List.map_append, List.pairwise_append] at hsorted
    have hfilter := filter_sorted_range L H _ _ hbefore hafter hsorted.2.1
    rw [← hk] at hfilter
    have hfindEq : findScanPage s.bufMgr L H =
        findScanPage s.bufMgr (if lop = Operator.GT then wrapInt (lo + 1) else lo)
          (if hop = Operator.LT then wrapInt (hi - 1) else hi) := by rw [hL, hH]
    by_cases he : searchGE l.keyArray L = l.keyArray.length
    · left
      have hfind : findScanPage s.bufMgr L H =
          some ((INVALID_NUMBER, (searchGE l.keyArray L : Int)), s.bufMgr) := by
        rcases hcase with ⟨hr2, rfl⟩ | ⟨hr2, k, hk2, hpath⟩
        · rw [findScanPage_rootLeaf L H hfile hr2 hq hgt, if_pos he]
        · rw [findScanPage_inner L H hfile hr2 hk2 hpath hq hgt, if_pos he]
      rw [hfindEq] at hfind
      obtain ⟨s1, hs1⟩ := startScanBody_none hlop hhop hle2 hfind
      refine ⟨s1, hs1, ?_⟩
      rw [hfilter, hfull he]
      have : l.entries.drop (searchGE l.keyArray L) = [] := by
        apply List.drop_of_length_le
        unfold LeafNodeInt.entries
        simp only [List.length_zip, hlen, min_self]
        omega
      rw [this]
      rfl
    · have hlt : searchGE l.keyArray L < l.keyArray.length := by
        have := searchP_le (fun k => decide (k < L)) l.keyArray
        rw [← searchGE_eq] at this
        omega
      obtain ⟨k0, r0, hk0, -, hdrop⟩ := entries_get hlen hlt
      have hok : ∀ (hfind : findScanPage s.bufMgr L H =
          some ((q, (searchGE l.keyArray L : Int)), s.bufMgr)),
          ∃ s1 rem, startScanBody s lo lop hi hop = Res.ok () s1 ∧ Cursor c s1 rem ∧
            s1.highValInt = H ∧ rem.length ≤ kvs.length ∧
            rem.takeWhile (fun kv => decide (kv.1 ≤ H)) =
              kvs.filter (fun kv => decide (L ≤ kv.1) && decide (kv.1 ≤ H)) := by
        intro hfind
        rw [hfindEq] at hfind
        obtain ⟨s1, hs1, hcur, hhi⟩ := startScanBody_found hlop hhop hle2 hfind hq hq0 hlen hlt
          hsib hchain hpost
        refine ⟨s1, _, hs1, hcur, by rw [hhi, hH], ?_, hfilter.symm⟩
        rw [hk]
        simp only [List.length_append]
        omega
      rcases hcase with ⟨hr2, rfl⟩ | ⟨hr2, k, hk2, hpath⟩
      · right
        apply hok
        rw [findScanPage_rootLeaf L H hfile hr2 hq hgt, if_neg he]
      · have hf := findScanPage_inner L H hfile hr2 hk2 hpath hq hgt
        rw [if_neg he, hk0] at hf
        by_cases hk0H : k0 > H
        · left
          simp only [hk0H, if_true] at hf
          rw [hfindEq] at hf
          obtain ⟨s1, hs1⟩ := startScanBody_none hlop hhop hle2 hf
          refine ⟨s1, hs1, ?_⟩
          rw [hfilter, hdrop]
          have : ¬ k0 ≤ H := by omega
          simp [List.takeWhile, this]
        · right
          apply hok
          simp only [hk0H, if_false] at hf
          exact hf

theorem wrapInt_id (x : Int) (h1 : -2147483648 ≤ x) (h2 : x ≤ 2147483647) : wrapInt x = x := by
  unfold wrapInt
  omega

/-- With bounds whose normalisation does not overflow, the scan predicate is
membership in the normalised closed interval. -/
theorem inScan_normalised (lo hi : Int) (lop hop : Operator)
    (hlo : -2147483648 ≤ lo ∧ lo ≤ 2147483647) (hhi : -2147483648 ≤ hi ∧ hi ≤ 2147483647)
    (hlo1 : lop = Operator.GT → lo < 2147483647) (hhi1 : hop = Operator.LT → -2147483648 < hi)
    (k : Int) :
    (decide ((if lop = Operator.GT then wrapInt (lo + 1) else lo) ≤ k) &&
      decide (k ≤ (if hop = Operator.LT then wrapInt (hi - 1) else hi))) =
      inScan lo lop hi hop k := by
  unfold inScan
  congr 1
  · by_cases h : lop = Operator.GT
    · have := hlo1 h
      rw [if_pos h, if_pos h, wrapInt_id _ (by omega) (by omega)]
      simp only [decide_eq_decide]
      omega
    · rw [if_neg h, if_neg h]
  · by_cases h : hop = Operator.LT
    · have := hhi1 h
      rw [if_pos h, if_pos h, wrapInt_id _ (by omega) (by omega)]
      simp only [decide_eq_decide]
      omega
    · rw [if_neg h, if_neg h]

/-- In a list that ascends strictly in the key, the pairs with key `k` are the one
pair stored with `k`. -/
theorem filter_point (k : Int) (r : RecordId) :
    ∀ kvs : List (Int × RecordId), (kvs.map Prod.fst).Pairwise (· < ·) → (k, r) ∈ kvs →
      kvs.filter (fun kv => decide (k ≤ kv.1) && decide (kv.1 ≤ k)) = [(k, r)] := by
  intro kvs
  induction kvs with
  | nil => intro _ h; cases h
  | cons x xs ih =>
    intro hs hm
    simp only [List.map_cons, List.pairwise_cons] at hs
    by_cases hx : x.1 = k
    · have hxe : x = (k, r) := by
        rcases List.mem_cons.mp hm with h | h
        · exact h.symm
        · have := hs.1 k (List.mem_map_of_mem Prod.fst h)
          omega
      subst hxe
      simp only [List.filter_cons, le_refl, decide_True, Bool.and_self, if_true]
      congr 1
      rw [List.filter_eq_nil_iff]
      intro kv hkv
      have := hs.1 kv.1 (List.mem_map_of_mem Prod.fst hkv)
      simp only [Bool.and_eq_true, decide_eq_true_eq, not_and]
      intro _
      omega
    · have hmem : (k, r) ∈ xs := by
        rcases List.mem_cons.mp hm with h | h
        · exact absurd (by rw [← h]) hx
        · exact h
      have hn : ¬ (k ≤ x.1 ∧ x.1 ≤ k) := by omega
      have hb : (decide (k ≤ x.1) && decide (x.1 ≤ k)) = false := by
        simpa using hn
      simp only [List.filter_cons, hb]
      exact ih hs.2 hmem

/-! ## `findScanPage` leaves the buffer manager as it found it -/

theorem read_unpin_eq {b b1 b2 : BufMgr} {p : Nat} {pg : Page} {d : Bool}
    (hr : readPage b p = some (pg, b1)) (hu : unPinPage b1 p d = some b2) : b2 = b := by
  obtain ⟨hf, -⟩ := readPage_spec hr
  obtain ⟨b1', hr', hu'⟩ := read_unpin hf
  rw [hr] at hr'
  injection hr' with hr'
  injection hr' with _ hb
  subst hb
  rw [hu' d] at hu
  injection hu with hu
  exact hu.symm

theorem findScanPageLoop_bufMgr (lo hi : Int) :
    ∀ (fuel : Nat) (b : BufMgr) (p : Nat) (r : PageId × Int) (b2 : BufMgr),
      findScanPageLoop fuel b p lo hi = some (r, b2) → b2 = b := by
  intro fuel
  induction fuel with
  | zero => intro b p r b2 h; cases h
  | succ f ih =>
    intro b p r b2 h
    unfold findScanPageLoop at h
    split at h
    · cases h
    · rename_i pg s1 hr
      split at h
      · cases h
      · rename_i s2 hu
        have e2 := read_unpin_eq hr hu
        subst e2
        split at h
        · cases h
        · split at h
          · cases h
          · split at h
            · split at h
              · cases h
              · rename_i pg3 s3 hr3
                split at h
                · cases h
                · rename_i s4 hu4
                  have e4 := read_unpin_eq hr3 hu4
                  subst e4
                  split at h
                  · cases h
                  · simp only [] at h
                    split at h
                    · injection h with h
                      injection h with _ h
                      exact h.symm
                    · split at h
                      · cases h
                      · split at h
                        · injection h with h
                          injection h with _ h
                          exact h.symm
                        · injection h with h
                          injection h with _ h
                          exact h.symm
            · exact ih _ _ _ _ h

theorem findScanPage_bufMgr {b b2 : BufMgr} {lo hi : Int} {r : PageId × Int}
    (h : findScanPage b lo hi = some (r, b2)) : b2 = b := by
  unfold findScanPage at h
  split at h
  · injection h with h
    injection h with _ h
    exact h.symm
  · split at h
    · cases h
    · rename_i pg s1 hr
      split at h
      · cases h
      · rename_i s2 hu
        have e2 := read_unpin_eq hr hu
        subst e2
        split at h
        · cases h
        · split at h
          · split at h
            · cases h
            · rename_i pg3 s3 hr3
              split at h
              · cases h
              · rename_i s4 hu4
                have e4 := read_unpin_eq hr3 hu4
                subst e4
                split at h
                · cases h
                · simp only [] at h
                  split at h
                  · injection h with h
                    injection h with _ h
                    exact h.symm
                  · injection h with h
                    injection h with _ h
                    exact h.symm
          · exact findScanPageLoop_bufMgr _ _ _ _ _ _ _ h

/-- The state in which `startScanBody` raises an exception: only the scan
parameters have changed. -/
theorem startScanBody_throw_state {t s1 : BTreeIndex} {lo hi : Int} {lop hop : Operator}
    {e : Exn} (h : startScanBody t lo lop hi hop = Res.throw e s1) :
    (e = Exn.BadOpcodes ∨ e = Exn.BadScanrange ∨ e = Exn.NoSuchKeyFound) ∧
      s1.scanExecuting = t.scanExecuting ∧ s1.bufMgr = t.bufMgr := by
  unfold startScanBody at h
  simp only [] at h
  split at h
  · injection h with h1 h2
    subst h1 h2
    exact ⟨Or.inl rfl, rfl, rfl⟩
  · split at h
    · injection h with h1 h2
      subst h1 h2
      exact ⟨Or.inl rfl, rfl, rfl⟩
    · split at h
      · injection h with h1 h2
        subst h1 h2
        exact ⟨Or.inr (Or.inl rfl), rfl, rfl⟩
      · split at h
        · cases h
        · rename_i pn en b3 hf
          have hb := findScanPage_bufMgr hf
          split at h
          · split at h <;> cases h
          · injection h with h1 h2
            subst h1 h2
            exact ⟨Or.inr (Or.inr rfl), rfl, hb⟩

/-! ## Opening an index file -/

theorem cstr_of_no_nul (s : String) (h : Char.ofNat 0 ∉ s.toList) : cstr s = s := by
  unfold cstr
  have : s.toList.takeWhile (fun ch => decide (ch ≠ Char.ofNat 0)) = s.toList := by
    rw [List.takeWhile_eq_self_iff]
    intro ch hch
    simp only [ne_eq, decide_not, Bool.not_eq_true', decide_eq_false_iff_not]
    intro e
    exact h (e ▸ hch)
  rw [this]
  rfl

/-- What `openIndex` returns on a file whose first page is a header page. -/
theorem openIndex_eq {s : BufMgr} {h : IndexMetaInfo}
    (hfile : s.file headerPageNum = some (Page.header h)) (r : String) (o : Int) (t : Datatype) :
    openIndex s r o t =
      if h.attrByteOffset ≠ o ∨ h.attrType ≠ t ∨ cstr h.relationName ≠ cstr r then
        Opened.BadIndexInfo s
      else Opened.ok (mkIndex s) h.rootPageNo := by
  obtain ⟨b1, hr, hu⟩ := read_unpin hfile
  simp only [openIndex, hr, hu, Page.asMeta]

/-! ## The nodes of a reachable index, level by level -/

theorem Links_get {c : Consts} {b : BufMgr} :
    ∀ (G : List (List Entry)) (bot : Bool) (j : Nat) (lo up : List Entry),
      Links c b bot G → G[j]? = some lo → G[j + 1]? = some up →
      Link c b (if (bot && decide (j = 0)) = true then 1 else 0) up lo := by
  intro G
  induction G with
  | nil => intro bot j lo up _ h; simp at h
  | cons x xs ih =>
    intro bot j lo up hl h1 h2
    cases xs with
    | nil => simp at h2
    | cons y ys =>
      obtain ⟨hlink, hrest⟩ := hl
      cases j with
      | zero =>
        simp only [List.getElem?_cons_zero, Option.some.injEq, zero_add,
          List.getElem?_cons_succ] at h1 h2
        subst h1 h2
        simpa using hlink
      | succ j =>
        rw [List.getElem?_cons_succ] at h1 h2
        have := ih false j lo up hrest h1 h2
        simpa using this

/-- What the invariant says about the entries of one level. -/
theorem Inv.level {c : Consts} {b : BufMgr} {G : List (List Entry)}
    {kvs : List (Int × RecordId)} (hinv : Inv c b G kvs) :
    (∃ lv0, G[0]? = some lv0 ∧ Chain c b false lv0 INVALID_NUMBER kvs) ∧
    (∀ (j : Nat) (lo up : List Entry), G[j]? = some lo → G[j + 1]? = some up →
      Link c b (if j = 0 then 1 else 0) up lo) ∧
    (∀ (j : Nat) (lv : List Entry), G[j]? = some lv → LevelSorted lv) ∧
    (∃ h, b.file headerPageNum = some (Page.header h) ∧
      G[G.length - 1]? = some [(h.rootPageNo, none)] ∧ (h.rootPageNo = 2 ↔ G.length = 1)) := by
  obtain ⟨lv0, ups, rfl, hs⟩ := hinv
  refine ⟨⟨lv0, by simp, by simpa using hs.chain⟩, ?_, ?_, ?_⟩
  · intro j lo up h1 h2
    have hl : Links c b true (lv0 :: ups) := by simpa using hs.linksUp
    have := Links_get _ true j lo up hl h1 h2
    simpa using this
  · intro j lv hj
    exact (hs.levels lv (by simpa using List.getElem?_mem hj)).1
  · obtain ⟨h, hf, hlast, hroot⟩ := hs.hdr
    refine ⟨h, hf, ?_, ?_⟩
    · rw [List.getLast?_eq_getElem?] at hlast
      exact hlast
    · rw [hroot]
      simp

/-- The internal node behind an entry of a level above the leaves, with the part of
the level below that holds its children. -/
theorem Inv.node_at {c : Consts} {b : BufMgr} {G : List (List Entry)}
    {kvs : List (Int × RecordId)} (hinv : Inv c b G kvs) {j : Nat} {pre post : List Entry}
    {e : Entry} (hj : G[j + 1]? = some (pre ++ e :: post)) :
    ∃ lpre seg lpost, G[j]? = some (lpre ++ seg ++ lpost) ∧
      Link c b (if j = 0 then 1 else 0) pre lpre ∧
      NodeOK c b (if j = 0 then 1 else 0) e seg ∧ LevelSorted (lpre ++ seg ++ lpost) := by
  obtain ⟨-, hlinks, hsorted, -⟩ := hinv.level
  have hlt : j < G.length := by
    have := (List.getElem?_eq_some_iff.mp hj).1
    omega
  have hlo : G[j]? = some G[j] := List.getElem?_eq_getElem hlt
  have hlink := hlinks j _ _ hlo hj
  obtain ⟨l1, l2, h12, hl1, hl2⟩ := (Link_append c b _ pre (e :: post) _).mp hlink
  obtain ⟨seg, rest, hsr, hnode, -⟩ := hl2
  refine ⟨l1, seg, rest, ?_, hl1, hnode, ?_⟩
  · rw [hlo, h12, hsr, List.append_assoc]
  · have := hsorted j _ hlo
    rw [h12, hsr, ← List.append_assoc] at this
    exact this

/-- The leaf behind an entry of the lowest level. -/
theorem Inv.leaf_at {c : Consts} {b : BufMgr} {G : List (List Entry)}
    {kvs : List (Int × RecordId)} (hinv : Inv c b G kvs) {pre post : List Entry}
    {e : Entry} (hj : G[0]? = some (pre ++ e :: post)) :
    ∃ l, b.file e.1 = some (Page.leaf l) ∧ LeafOK c l e.2 ∧ l.keyArray.Pairwise (· < ·) ∧
      ∀ x ∈ pre, ∀ key ∈ l.keyArray, ltBB x.2 (some key) := by
  obtain ⟨⟨lv0, h0, hchain⟩, -, hsorted, -⟩ := hinv.level
  have hlv : lv0 = pre ++ e :: post := by
    rw [h0] at hj
    injection hj
  subst hlv
  have hlevel := hsorted 0 _ h0
  obtain ⟨k1, k2, rfl, hc1, hc2⟩ := (Chain_append c b (e :: post) INVALID_NUMBER pre false
    kvs).mp hchain
  obtain ⟨l, hfl, hok, -, -, rest, rfl, -⟩ := hc2
  have hs := hinv.sorted
  simp only [List.map_append, hok.entries_fst] at hs
  rw [List.pairwise_append] at hs
  obtain ⟨-, hs23, hcross⟩ := hs
  rw [List.pairwise_append] at hs23
  refine ⟨l, hfl, hok, hs23.1, ?_⟩
  intro x hx key hkey
  obtain ⟨-, -, hlt⟩ := LevelSorted_append hlevel
  have hxe := hlt x hx e (by simp)
  cases hu : x.2 with
  | none => rw [hu] at hxe; exact hxe.elim
  | some u =>
    have hmem := Chain_bound_mem hc1 x hx u hu
    have := hcross u hmem key (List.mem_append_left _ hkey)
    exact this

theorem leB_of_ltBB {key : Int} {a u : Option Int} (h1 : leB key a) (h2 : ltBB a u) :
    leB key u := by
  cases a with
  | none => exact h2.elim
  | some x =>
    cases u with
    | none => trivial
    | some y =>
      simp only [leB, ltBB] at h1 h2 ⊢
      omega

/-- The bound of a child of a node is the bound of the node or lies below it. -/
theorem NodeOK.child_bound {c : Consts} {b : BufMgr} {lvl : Nat} {e ec : Entry}
    {s1 s2 : List Entry} (hnode : NodeOK c b lvl e (s1 ++ ec :: s2))
    (hsorted : LevelSorted (s1 ++ ec :: s2)) : ec.2 = e.2 ∨ ltBB ec.2 e.2 := by
  obtain ⟨n, -, -, -, -, hsnd⟩ := hnode
  cases s2 using List.reverseRecOn with
  | nil =>
    left
    simp only [List.map_append, List.map_cons, List.map_nil] at hsnd
    have := List.append_inj_right' hsnd (by simp)
    injection this
  | append_singleton ys y _ =>
    right
    have hy : y.2 = e.2 := by
      have h2 : List.map Prod.snd (s1 ++ ec :: (ys ++ [y])) =
          (List.map Prod.snd (s1 ++ ec :: ys)) ++ [y.2] := by simp
      rw [h2] at hsnd
      have := List.append_inj_right' hsnd (by simp)
      injection this
    obtain ⟨-, h2, -⟩ := LevelSorted_append hsorted
    unfold LevelSorted at h2
    rw [List.map_cons, List.pairwise_cons] at h2
    rw [← hy]
    exact h2.1 y.2 (by simp)

/-- The keys of the leaves below an entry of a level lie above the bounds of the
entries before it and do not exceed its own bound. -/
theorem Inv.subtree_bounds {c : Consts} {b : BufMgr} {G : List (List Entry)}
    {kvs : List (Int × RecordId)} (hinv : Inv c b G kvs) :
    ∀ (j : Nat) (pre post : List Entry) (e : Entry), G[j]? = some (pre ++ e :: post) →
      ∀ q l, Reach b e.1 q → b.file q = some (Page.leaf l) →
      ∀ key ∈ l.keyArray, leB key e.2 ∧ ∀ x ∈ pre, ltBB x.2 (some key) := by
  intro j
  induction j with
  | zero =>
    intro pre post e hj q l hreach hq key hkey
    obtain ⟨l0, hf0, hok, -, hpre⟩ := hinv.leaf_at hj
    cases hreach with
    | here =>
      rw [hf0] at hq
      injection hq with hq
      injection hq with hq
      subst hq
      exact ⟨hok.2.2.1 key hkey, fun x hx => hpre x hx key hkey⟩
    | down hfile _ _ =>
      rw [hf0] at hfile
      cases hfile
  | succ j ih =>
    intro pre post e hj q l hreach hq key hkey
    obtain ⟨lpre, seg, lpost, hlo, hlink, hnode, hsorted⟩ := hinv.node_at hj
    obtain ⟨n, hfn, -, -, hfst, hsnd⟩ := id hnode
    cases hreach with
    | here =>
      rw [hfn] at hq
      cases hq
    | down hfile hch hreach2 =>
      rw [hfn] at hfile
      injection hfile with hfile
      injection hfile with hfile
      subst hfile
      rw [← hfst] at hch
      obtain ⟨ec, hec, rfl⟩ := List.mem_map.mp hch
      obtain ⟨s1, s2, rfl⟩ := List.append_of_mem hec
      have hlo2 : G[j]? = some ((lpre ++ s1) ++ ec :: (s2 ++ lpost)) := by
        rw [hlo]
        simp
      obtain ⟨h1, h2⟩ := ih _ _ ec hlo2 q l hreach2 hq key hkey
      have hsseg : LevelSorted (s1 ++ ec :: s2) := by
        obtain ⟨hA, -, -⟩ := LevelSorted_append hsorted
        exact (LevelSorted_append hA).2.1
      constructor
      · rcases hnode.child_bound hsseg with h | h
        · rw [← h]; exact h1
        · exact leB_of_ltBB h1 h
      · intro x hx
        have := Link_bound_mem hlink x hx
        obtain ⟨y, hy, hyx⟩ := List.mem_map.mp this
        rw [← hyx]
        exact h2 y (by simp [hy])

/-- The bound of an entry, when it has one, is a key of a leaf below it. -/
theorem Inv.bound_stored {c : Consts} {b : BufMgr} {G : List (List Entry)}
    {kvs : List (Int × RecordId)} (hinv : Inv c b G kvs) :
    ∀ (j : Nat) (pre post : List Entry) (e : Entry) (u : Int),
      G[j]? = some (pre ++ e :: post) → e.2 = some u →
      ∃ q l, Reach b e.1 q ∧ b.file q = some (Page.leaf l) ∧ u ∈ l.keyArray := by
  intro j
  induction j with
  | zero =>
    intro pre post e u hj hu
    obtain ⟨l0, hf0, hok, -, -⟩ := hinv.leaf_at hj
    exact ⟨e.1, l0, Reach.here _, hf0, hok.2.2.2 u hu⟩
  | succ j ih =>
    intro pre post e u hj hu
    obtain ⟨lpre, seg, lpost, hlo, hlink, hnode, hsorted⟩ := hinv.node_at hj
    obtain ⟨n, hfn, -, -, hfst, hsnd⟩ := hnode
    cases seg using List.reverseRecOn with
    | nil => simp at hsnd
    | append_singleton ys y _ =>
      have hy : y.2 = e.2 := by
        rw [List.map_append] at hsnd
        have := List.append_inj_right' hsnd (by simp)
        simp only [List.map_cons, List.map_nil] at this
        injection this
      have hlo2 : G[j]? = some ((lpre ++ ys) ++ y :: lpost) := by
        rw [hlo]
        simp
      obtain ⟨q, l, hreach, hq, hmem⟩ := ih _ _ y u hlo2 (hy.trans hu)
      refine ⟨q, l, Reach.down hfn ?_ hreach, hq, hmem⟩
      rw [← hfst]
      simp

/-- Every page below an entry of a level is itself an entry of that level or of a
lower one. -/
theorem Inv.reach_level {c : Consts} {b : BufMgr} {G : List (List Entry)}
    {kvs : List (Int × RecordId)} (hinv : Inv c b G kvs) {p q : Nat} (hreach : Reach b p q) :
    ∀ (j : Nat) (lv : List Entry) (e : Entry), G[j]? = some lv → e ∈ lv → e.1 = p →
      ∃ (j2 : Nat) (pre post : List Entry) (e2 : Entry),
        G[j2]? = some (pre ++ e2 :: post) ∧ e2.1 = q := by
  induction hreach with
  | here p =>
    intro j lv e hj he hp
    obtain ⟨pre, post, rfl⟩ := List.append_of_mem he
    exact ⟨j, pre, post, e, hj, hp⟩
  | down hfile hch _ ih =>
    intro j lv e hj he hp
    obtain ⟨pre, post, rfl⟩ := List.append_of_mem he
    cases j with
    | zero =>
      obtain ⟨l0, hf0, -⟩ := hinv.leaf_at hj
      rw [hp, hfile] at hf0
      cases hf0
    | succ j =>
      obtain ⟨lpre, seg, lpost, hlo, -, hnode, -⟩ := hinv.node_at hj
      obtain ⟨n, hfn, -, -, hfst, -⟩ := hnode
      rw [hp, hfile] at hfn
      injection hfn with hfn
      injection hfn with hfn
      subst hfn
      rw [← hfst] at hch
      obtain ⟨ec, hec, hec1⟩ := List.mem_map.mp hch
      exact ih j _ ec hlo (by simp [hec]) hec1

/-- A node of the tree is an entry of one of the levels. -/
theorem Inv.inTree_level {c : Consts} {b : BufMgr} {G : List (List Entry)}
    {kvs : List (Int × RecordId)} (hinv : Inv c b G kvs) {p : Nat} (hp : InTree b p) :
    ∃ (j : Nat) (pre post : List Entry) (e : Entry),
      G[j]? = some (pre ++ e :: post) ∧ e.1 = p := by
  obtain ⟨h, hf, hreach⟩ := hp
  obtain ⟨-, -, -, h2, hf2, hroot, -⟩ := hinv.level
  rw [hf] at hf2
  injection hf2 with hf2
  injection hf2 with hf2
  subst hf2
  exact hinv.reach_level hreach _ _ (h.rootPageNo, none) hroot (by simp) rfl

/-- What the invariant says about an internal node of the tree: its keys ascend
strictly, they are at most `INTARRAYNONLEAFSIZE`, there is one child more than there
are keys, the level flag is 1 and all children are leaves or the level flag is 0 and
all children are internal nodes. -/
theorem Inv.internal_node {c : Consts} {b : BufMgr} {G : List (List Entry)}
    {kvs : List (Int × RecordId)} (hinv : Inv c b G kvs) {p : Nat} {n : NonLeafNodeInt}
    (hp : InTree b p) (hfile : b.file p = some (Page.nonLeaf n)) :
    n.keyArray.Pairwise (· < ·) ∧ n.keyArray.length ≤ c.INTARRAYNONLEAFSIZE ∧
      n.pageNoArray.length = n.keyArray.length + 1 ∧
      ((n.level = 1 ∧ ∀ ch ∈ n.pageNoArray, ∃ l, b.file ch = some (Page.leaf l)) ∨
        (n.level = 0 ∧ ∀ ch ∈ n.pageNoArray, ∃ m, b.file ch = some (Page.nonLeaf m))) := by
  obtain ⟨j, pre, post, e, hj, rfl⟩ := hinv.inTree_level hp
  cases j with
  | zero =>
    obtain ⟨l0, hf0, -⟩ := hinv.leaf_at hj
    rw [hfile] at hf0
    cases hf0
  | succ j =>
    obtain ⟨lpre, seg, lpost, hlo, -, hnode, hsorted⟩ := hinv.node_at hj
    obtain ⟨n2, hfn, hlvl, hsize, hfst, hsnd⟩ := hnode
    rw [hfile] at hfn
    injection hfn with hfn
    injection hfn with hfn
    subst hfn
    have hsseg : LevelSorted seg := by
      obtain ⟨hA, -, -⟩ := LevelSorted_append hsorted
      exact (LevelSorted_append hA).2.1
    unfold LevelSorted at hsseg
    rw [hsnd, List.pairwise_append, List.pairwise_map] at hsseg
    have hlen : n.pageNoArray.length = n.keyArray.length + 1 := by
      have h1 := congrArg List.length hfst
      have h2 := congrArg List.length hsnd
      simp only [List.length_map, List.length_append, List.length_singleton] at h1 h2
      omega
    refine ⟨hsseg.1, hsize, hlen, ?_⟩
    have hchild : ∀ ch ∈ n.pageNoArray, ∃ (s1 s2 : List Entry) (ec : Entry),
        G[j]? = some (s1 ++ ec :: s2) ∧ ec.1 = ch := by
      intro ch hch
      rw [← hfst] at hch
      obtain ⟨ec, hec, hec1⟩ := List.mem_map.mp hch
      obtain ⟨s1, s2, rfl⟩ := List.append_of_mem hec
      exact ⟨lpre ++ s1, s2 ++ lpost, ec, by rw [hlo]; simp, hec1⟩
    cases j with
    | zero =>
      left
      refine ⟨by simpa using hlvl, ?_⟩
      intro ch hch
      obtain ⟨s1, s2, ec, hg, rfl⟩ := hchild ch hch
      obtain ⟨l, hl, -⟩ := hinv.leaf_at hg
      exact ⟨l, hl⟩
    | succ j =>
      right
      refine ⟨by simpa using hlvl, ?_⟩
      intro ch hch
      obtain ⟨s1, s2, ec, hg, rfl⟩ := hchild ch hch
      obtain ⟨_, _, _, -, -, ⟨m, hm, -⟩, -⟩ := hinv.node_at hg
      exact ⟨m, hm⟩

/-- What the invariant says about a leaf of the tree. -/
theorem Inv.leaf_node {c : Consts} {b : BufMgr} {G : List (List Entry)}
    {kvs : List (Int × RecordId)} (hinv : Inv c b G kvs) {p : Nat} {l : LeafNodeInt}
    (hp : InTree b p) (hfile : b.file p = some (Page.leaf l)) :
    l.keyArray.Pairwise (· < ·) ∧ l.keyArray.length ≤ c.INTARRAYLEAFSIZE ∧
      l.ridArray.length = l.keyArray.length := by
  obtain ⟨j, pre, post, e, hj, rfl⟩ := hinv.inTree_level hp
  cases j with
  | zero =>
    obtain ⟨l0, hf0, hok, hs, -⟩ := hinv.leaf_at hj
    rw [hfile] at hf0
    injection hf0 with hf0
    injection hf0 with hf0
    subst hf0
    exact ⟨hs, hok.2.1, hok.1⟩
  | succ j =>
    obtain ⟨_, _, _, -, -, ⟨m, hm, -⟩, -⟩ := hinv.node_at hj
    rw [hfile] at hm
    cases hm

theorem split_at_get {α : Type} {xs : List α} {i : Nat} {x : α} (h : xs[i]? = some x) :
    xs = xs.take i ++ x :: xs.drop (i + 1) := by
  have hlt : i < xs.length := (List.getElem?_eq_some_iff.mp h).1
  have hx : xs[i] = x := (List.getElem?_eq_some_iff.mp h).2
  have := List.take_append_drop i xs
  rw [List.drop_eq_getElem_cons hlt, hx] at this
  exact this.symm

/-- The separators of an internal node of the tree: the keys below the child to the
left of a separator do not exceed it, the separator itself is one of them, and the
keys below the child to its right are greater. -/
theorem Inv.separators {c : Consts} {b : BufMgr} {G : List (List Entry)}
    {kvs : List (Int × RecordId)} (hinv : Inv c b G kvs) {p : Nat} {n : NonLeafNodeInt}
    (hp : InTree b p) (hfile : b.file p = some (Page.nonLeaf n)) {i : Nat} {k : Int}
    {chL chR : Nat} (hk : n.keyArray[i]? = some k) (hL : n.pageNoArray[i]? = some chL)
    (hR : n.pageNoArray[i + 1]? = some chR) :
    (∀ q l, Reach b chL q → b.file q = some (Page.leaf l) → ∀ x ∈ l.keyArray, x ≤ k) ∧
    (∀ q l, Reach b chR q → b.file q = some (Page.leaf l) → ∀ x ∈ l.keyArray, k < x) ∧
    (∃ q l, Reach b chL q ∧ b.file q = some (Page.leaf l) ∧ k ∈ l.keyArray) := by
  obtain ⟨j, pre, post, e, hj, rfl⟩ := hinv.inTree_level hp
  cases j with
  | zero =>
    obtain ⟨l0, hf0, -⟩ := hinv.leaf_at hj
    rw [hfile] at hf0
    cases hf0
  | succ j =>
    obtain ⟨lpre, seg, lpost, hlo, -, hnode, -⟩ := hinv.node_at hj
    obtain ⟨n2, hfn, -, -, hfst, hsnd⟩ := hnode
    rw [hfile] at hfn
    injection hfn with hfn
    injection hfn with hfn
    subst hfn
    have hik : i < n.keyArray.length := (List.getElem?_eq_some_iff.mp hk).1
    -- the entry of the left child
    have hL2 := hL
    rw [← hfst, List.getElem?_map] at hL2
    obtain ⟨eL, heL, heL1⟩ := Option.map_eq_some'.mp hL2
    have heL2 : eL.2 = some k := by
      have h1 : (seg.map Prod.snd)[i]? = some eL.2 := by
        rw [List.getElem?_map, heL]
        rfl
      rw [hsnd, List.getElem?_append_left (by simpa using hik), List.getElem?_map, hk] at h1
      injection h1 with h1
      exact h1.symm
    -- the entry of the right child
    have hR2 := hR
    rw [← hfst, List.getElem?_map] at hR2
    obtain ⟨eR, heR, heR1⟩ := Option.map_eq_some'.mp hR2
    have hsegL := split_at_get heL
    have hsegR := split_at_get heR
    have hmemL : eL ∈ seg.take (i + 1) := by
      rw [List.take_succ, heL]
      simp
    have hloL : G[j]? = some ((lpre ++ seg.take i) ++ eL :: (seg.drop (i + 1) ++ lpost)) := by
      rw [hlo]
      nth_rewrite 1 [hsegL]
      simp
    have hloR : G[j]? =
        some ((lpre ++ seg.take (i + 1)) ++ eR :: (seg.drop (i + 1 + 1) ++ lpost)) := by
      rw [hlo]
      nth_rewrite 1 [hsegR]
      simp
    have hbL := hinv.subtree_bounds j _ _ eL hloL
    have hbR := hinv.subtree_bounds j _ _ eR hloR
    rw [heL1] at hbL
    rw [heR1] at hbR
    refine ⟨?_, ?_, ?_⟩
    · intro q l hreach hq x hx
      have := (hbL q l hreach hq x hx).1
      rw [heL2] at this
      exact this
    · intro q l hreach hq x hx
      have := (hbR q l hreach hq x hx).2 eL (by simp [hmemL])
      rw [heL2] at this
      exact this
    · have := hinv.bound_stored j _ _ eL k hloL heL2
      rw [heL1] at this
      exact this

/-! ## How a reachable index grows -/

theorem Inv.length_pos {c : Consts} {b : BufMgr} {G : List (List Entry)}
    {kvs : List (Int × RecordId)} (hinv : Inv c b G kvs) : 0 < G.length := by
  obtain ⟨lv0, ups, rfl, -⟩ := hinv
  simp

theorem insertEntry_grown {c : Consts} {b : BufMgr} {G : List (List Entry)}
    {kvs : List (Int × RecordId)} (hL : 1 ≤ c.INTARRAYLEAFSIZE)
    (hN : 1 ≤ c.INTARRAYNONLEAFSIZE) (hg : Grown c b G kvs) (key : Int) (rid : RecordId)
    (hkey : key ∉ kvs.map Prod.fst) :
    ∃ b2 G2 kvs2, insertEntry c b key rid = some b2 ∧ Grown c b2 G2 kvs2 ∧
      kvs2.Perm ((key, rid) :: kvs) := by
  obtain ⟨lv0, ups, rfl, hs⟩ := id hg.inv
  have hinv : Inv c b (lv0 :: ups) kvs := hg.inv
  obtain ⟨pre, q, Uq, post, l, b2, kvs2, ht, hq, hins, hperm, hcases, hfill⟩ :=
    insertEntry_effect hL hN hinv key rid hkey
  obtain ⟨-, -, -, h, hf, -, -⟩ := hinv.level
  obtain ⟨h2, hf2, hfill2⟩ := hfill h hf (hg.fill h hf)
  have hfill3 : ∀ h3, b2.file headerPageNum = some (Page.header h3) →
      ∀ p, p ≠ h3.rootPageNo → MinFill c b2 p := by
    intro h3 hf3
    rw [hf2] at hf3
    injection hf3 with hf3
    injection hf3 with hf3
    subst hf3
    exact hfill2
  have hlen2 : kvs2.length = kvs.length + 1 := by
    rw [hperm.length_eq]
    simp
  rcases hcases with ⟨-, -, hinv2⟩ | ⟨hfull, push, ups2, -, hne2, hinv2, -⟩
  · refine ⟨b2, _, kvs2, hins, ⟨hinv2, ?_, hfill3⟩, hperm⟩
    intro hG
    have := hg.tall hG
    omega
  · refine ⟨b2, _, kvs2, hins, ⟨hinv2, ?_, hfill3⟩, hperm⟩
    intro _
    obtain ⟨-, -, hchain, hlevel⟩ := hinv.pages
    obtain ⟨k1, rest, hk, hok, -⟩ := target_holds hchain hinv.sorted hlevel ht hq
    have hel : l.entries.length = c.INTARRAYLEAFSIZE := by
      unfold LeafNodeInt.entries
      rw [List.length_zip, hok.1, hfull]
      simp
    have : c.INTARRAYLEAFSIZE ≤ kvs.length := by
      rw [hk]
      simp only [List.length_append, hel]
      omega
    omega

theorem insertAll_grown {c : Consts} (hL : 1 ≤ c.INTARRAYLEAFSIZE)
    (hN : 1 ≤ c.INTARRAYNONLEAFSIZE) :
    ∀ (rel : List (Int × RecordId)) (b : BufMgr) (G : List (List Entry))
      (kvs : List (Int × RecordId)),
      Grown c b G kvs → (rel.map Prod.fst).Nodup →
      (∀ k ∈ rel.map Prod.fst, k ∉ kvs.map Prod.fst) →
      ∃ b2 G2 kvs2, insertAll c b rel = some b2 ∧ Grown c b2 G2 kvs2 ∧
        kvs2.Perm (rel ++ kvs) := by
  intro rel
  induction rel with
  | nil =>
    intro b G kvs hg _ _
    exact ⟨b, G, kvs, rfl, hg, by simp⟩
  | cons x xs ih =>
    intro b G kvs hg hnd hnew
    obtain ⟨key, rid⟩ := x
    simp only [List.map_cons, List.nodup_cons] at hnd
    obtain ⟨b1, G1, kvs1, hins, hg1, hperm1⟩ := insertEntry_grown hL hN hg key rid
      (hnew key (by simp))
    obtain ⟨b2, G2, kvs2, hrun, hg2, hperm2⟩ := ih b1 G1 kvs1 hg1 hnd.2 (by
      intro k hk hk1
      have := (hperm1.map Prod.fst).mem_iff.mp hk1
      simp only [List.map_cons, List.mem_cons] at this
      rcases this with h | h
      · subst h
        exact hnd.1 hk
      · exact hnew k (by simp [hk]) h)
    refine ⟨b2, G2, kvs2, ?_, hg2, ?_⟩
    · simp only [insertAll, hins, hrun]
    · refine hperm2.trans ?_
      refine (List.Perm.append_left xs hperm1).trans ?_
      simp only [List.cons_append]
      exact List.perm_middle

theorem buildIndex_grown {c : Consts} (hL : 1 ≤ c.INTARRAYLEAFSIZE)
    (hN : 1 ≤ c.INTARRAYNONLEAFSIZE) (name : String) (off : Int) (ty : Datatype)
    (rel : List (Int × RecordId)) (hnd : (rel.map Prod.fst).Nodup) :
    ∃ b G kvs, buildIndex c name off ty rel = some (mkIndex b) ∧ Grown c b G kvs ∧
      kvs.Perm rel := by
  obtain ⟨b0, hcreate, hinv0, hf1, hf2, hfo, -⟩ := createIndex_spec c name off ty
  have hg0 : Grown c b0 [[(2, none)]] [] := by
    refine ⟨hinv0, fun h => absurd rfl h, ?_⟩
    intro h hf p hp
    have hf1' : b0.file headerPageNum = _ := hf1
    rw [hf1'] at hf
    injection hf with hf
    injection hf with hf
    subst hf
    by_cases hp1 : p = 1
    · subst hp1
      exact MinFill_header hf1
    · have : b0.file p = none := hfo p hp1 hp
      constructor
      · intro l hl
        rw [this] at hl
        cases hl
      · intro n hn
        rw [this] at hn
        cases hn
  obtain ⟨b, G, kvs, hrun, hg, hperm⟩ := insertAll_grown hL hN rel b0 _ [] hg0 hnd (by simp)
  refine ⟨b, G, kvs, ?_, hg, by simpa using hperm⟩
  simp only [buildIndex, hcreate, hrun]

/-! ## Building from ascending keys -/

theorem keyRun_length (s r : Nat) : (keyRun s r).length = r := by
  simp [keyRun]

theorem keyRun_succ (s r : Nat) : keyRun s (r + 1) = keyRun s r ++ [((s + r : Nat) : Int)] := by
  simp [keyRun, List.range_succ]

theorem keyRun_mem {s r : Nat} {k : Int} (h : k ∈ keyRun s r) : k < ((s + r : Nat) : Int) := by
  simp only [keyRun, List.mem_map, List.mem_range] at h
  obtain ⟨i, hi, rfl⟩ := h
  omega

theorem keyRun_take (s r t : Nat) (h : t ≤ r) : (keyRun s r).take t = keyRun s t := by
  unfold keyRun
  rw [← List.map_take, List.take_range, min_eq_left h]

theorem keyRun_drop (s r t : Nat) : (keyRun s r).drop t = keyRun (s + t) (r - t) := by
  apply List.ext_getElem?
  intro i
  simp only [keyRun, List.getElem?_drop, List.getElem?_map]
  by_cases hi : i < r - t
  · rw [List.getElem?_range (by omega), List.getElem?_range hi]
    simp only [Option.map_some']
    congr 2
    omega
  · rw [List.getElem?_eq_none (by simp; omega), List.getElem?_eq_none (by simp; omega)]
    rfl

theorem keyRun_get {s r i : Nat} {k : Int} (h : (keyRun s r)[i]? = some k) :
    i < r ∧ k = ((s + i : Nat) : Int) := by
  simp only [keyRun, List.getElem?_map] at h
  by_cases hi : i < r
  · rw [List.getElem?_range hi] at h
    simp only [Option.map_some', Option.some.injEq] at h
    exact ⟨hi, h.symm⟩
  · rw [List.getElem?_eq_none (by simp; omega)] at h
    cases h

theorem searchGE_all_lt (key : Int) :
    ∀ ks : List Int, (∀ k ∈ ks, k < key) → searchGE ks key = ks.length := by
  intro ks
  induction ks with
  | nil => intro _; rfl
  | cons a as ih =>
    intro h
    have ha : ¬ a ≥ key := by
      have := h a (by simp)
      omega
    simp only [searchGE, ha, if_false, List.length_cons]
    rw [ih (fun k hk => h k (List.mem_cons_of_mem _ hk))]

theorem insertAt_end {α : Type} (xs : List α) (x : α) : insertAt xs xs.length x = xs ++ [x] := by
  simp [insertAt]

/-- The layout in terms of the number of full leaves agrees with the leaves that
`test7` expects. -/
theorem expectedLeaves_eq (L : Nat) :
    ∀ (m fuel s r : Nat), m ≤ fuel → r ≤ L → (m ≠ 0 → L - L / 2 ≤ r) →
      expectedLeaves L fuel s (m * (L / 2 + 1) + r) =
        ((List.range m).map fun (i : Nat) => keyRun (s + i * (L / 2 + 1)) (L / 2 + 1)) ++
          [keyRun (s + m * (L / 2 + 1)) r] := by
  intro m
  induction m with
  | zero =>
    intro fuel s r _ hr _
    cases fuel with
    | zero => simp [expectedLeaves]
    | succ f => simp [expectedLeaves, hr]
  | succ m ih =>
    intro fuel s r hf hr hm
    obtain ⟨f, rfl⟩ : ∃ f, fuel = f + 1 := ⟨fuel - 1, by omega⟩
    have hlow := hm (by omega)
    have hgt : ¬ (m + 1) * (L / 2 + 1) + r ≤ L := by
      have : (m + 1) * (L / 2 + 1) = m * (L / 2 + 1) + (L / 2 + 1) := by ring
      omega
    have hsub : (m + 1) * (L / 2 + 1) + r - (L / 2 + 1) = m * (L / 2 + 1) + r := by
      have : (m + 1) * (L / 2 + 1) = m * (L / 2 + 1) + (L / 2 + 1) := by ring
      omega
    simp only [expectedLeaves, hgt, if_false, hsub]
    rw [ih f (s + (L / 2 + 1)) r (by omega) hr (fun _ => hlow)]
    rw [List.range_succ_eq_map, List.map_cons, List.map_map]
    simp only [zero_mul, add_zero, List.cons_append, List.cons.injEq, true_and]
    have h1 : List.map (fun i => keyRun (s + (L / 2 + 1) + i * (L / 2 + 1)) (L / 2 + 1))
        (List.range m) =
        List.map ((fun i => keyRun (s + i * (L / 2 + 1)) (L / 2 + 1)) ∘ Nat.succ)
          (List.range m) := by
      apply List.map_congr_left
      intro i _
      simp only [Function.comp]
      congr 1
      show s + (L / 2 + 1) + i * (L / 2 + 1) = s + (i + 1) * (L / 2 + 1)
      ring
    have h2 : s + (L / 2 + 1) + m * (L / 2 + 1) = s + (m + 1) * (L / 2 + 1) := by ring
    rw [h1, h2]

theorem insertAll_append (c : Consts) (ys : List (Int × RecordId)) :
    ∀ (xs : List (Int × RecordId)) (b : BufMgr),
      insertAll c b (xs ++ ys) = (insertAll c b xs).bind fun b1 => insertAll c b1 ys := by
  intro xs
  induction xs with
  | nil => intro b; rfl
  | cons x xs ih =>
    intro b
    obtain ⟨k, r⟩ := x
    simp only [List.cons_append, insertAll]
    cases insertEntry c b k r with
    | none => rfl
    | some b1 => exact ih b1

theorem ascendingRelation_succ (n : Nat) (rids : Nat → RecordId) :
    ascendingRelation (n + 1) rids = ascendingRelation n rids ++ [((n : Int), rids n)] := by
  simp [ascendingRelation, List.range_succ]

theorem ascendingRelation_keys (n : Nat) (rids : Nat → RecordId) :
    (ascendingRelation n rids).map Prod.fst = keyRun 0 n := by
  simp [ascendingRelation, keyRun, Function.comp]

theorem keyRun_sorted (s r : Nat) : (keyRun s r).Pairwise (· < ·) := by
  induction r with
  | zero => simp [keyRun]
  | succ r ih =>
    rw [keyRun_succ, List.pairwise_append]
    refine ⟨ih, by simp, ?_⟩
    intro a ha b hb
    simp only [List.mem_singleton] at hb
    subst hb
    exact keyRun_mem ha

theorem leafKeysOf_congr {b b2 : BufMgr} {lv : List Entry}
    (h : ∀ e ∈ lv, b2.file e.1 = b.file e.1) : leafKeysOf b2 lv = leafKeysOf b lv := by
  unfold leafKeysOf
  apply List.map_congr_left
  intro e he
  rw [h e he]

/-- One more key at the upper end: the key goes to the last leaf, which takes it if
it has room and is split otherwise. -/
theorem ascending_step {c : Consts} (hL : 1 ≤ c.INTARRAYLEAFSIZE)
    (hN : 1 ≤ c.INTARRAYNONLEAFSIZE) (rids : Nat → RecordId) {b : BufMgr} {lv0 : List Entry}
    {ups : List (List Entry)} {n m r : Nat}
    (hinv : Inv c b (lv0 :: ups) (ascendingRelation n rids))
    (hkeys : leafKeysOf b lv0 = (ascLayout (c.INTARRAYLEAFSIZE / 2) m r).map some)
    (hn : n = m * (c.INTARRAYLEAFSIZE / 2 + 1) + r)
    (hm : m ≠ 0 → c.INTARRAYLEAFSIZE - c.INTARRAYLEAFSIZE / 2 ≤ r) :
    ∃ b2 lv2 ups2 m2 r2, insertEntry c b (n : Int) (rids n) = some b2 ∧
      Inv c b2 (lv2 :: ups2) (ascendingRelation (n + 1) rids) ∧
      leafKeysOf b2 lv2 = (ascLayout (c.INTARRAYLEAFSIZE / 2) m2 r2).map some ∧
      n + 1 = m2 * (c.INTARRAYLEAFSIZE / 2 + 1) + r2 ∧ r2 ≤ c.INTARRAYLEAFSIZE ∧
      (m2 ≠ 0 → c.INTARRAYLEAFSIZE - c.INTARRAYLEAFSIZE / 2 ≤ r2) := by
  have hML : c.MIDDLELEAF = c.INTARRAYLEAFSIZE / 2 := rfl
  have hkey : (n : Int) ∉ (ascendingRelation n rids).map Prod.fst := by
    rw [ascendingRelation_keys]
    intro h
    have := keyRun_mem h
    simp at this
  obtain ⟨pre, q, Uq, post, l, b2, kvs2, ht, hq, hins, hperm, hcases, -⟩ :=
    insertEntry_effect hL hN hinv (n : Int) (rids n) hkey
  obtain ⟨-, -, hchain, hlevel⟩ := hinv.pages
  obtain ⟨hlv, -, hUq⟩ := id ht
  -- the descent ends at the last leaf
  have hU : Uq = none := by
    cases hu : Uq with
    | none => rfl
    | some u =>
      exfalso
      apply hUq
      rw [hu]
      have hmem := Chain_bound_mem hchain (q, Uq) (by rw [hlv]; simp) u hu
      rw [ascendingRelation_keys] at hmem
      have := keyRun_mem hmem
      simp only [belowB, decide_eq_true_eq]
      simpa using this
  subst hU
  have hpost : post = [] := by
    rw [hlv] at hlevel
    exact hlevel.none_last
  subst hpost
  subst hlv
  -- its keys
  have hsplit : leafKeysOf b pre ++ [some l.keyArray] =
      ((List.range m).map fun (i : Nat) =>
        keyRun (i * (c.INTARRAYLEAFSIZE / 2 + 1)) (c.INTARRAYLEAFSIZE / 2 + 1)).map some ++
        [some (keyRun (m * (c.INTARRAYLEAFSIZE / 2 + 1)) r)] := by
    have := hkeys
    unfold ascLayout at this
    simp only [leafKeysOf, List.map_append, List.map_cons, List.map_nil, hq] at this
    simpa [leafKeysOf] using this
  have hpreK := List.append_inj_left' hsplit rfl
  have hlast := List.append_inj_right' hsplit rfl
  have hlk : l.keyArray = keyRun (m * (c.INTARRAYLEAFSIZE / 2 + 1)) r := by
    injection hlast with h1
    injection h1
  have hlen : l.keyArray.length = r := by rw [hlk, keyRun_length]
  have hpos : searchGE l.keyArray (n : Int) = l.keyArray.length := by
    apply searchGE_all_lt
    intro k hk
    rw [hlk] at hk
    have := keyRun_mem hk
    rw [hn]
    exact this
  have hins2 : insertAt l.keyArray (searchGE l.keyArray (n : Int)) (n : Int) =
      keyRun (m * (c.INTARRAYLEAFSIZE / 2 + 1)) (r + 1) := by
    rw [hpos, insertAt_end, hlk, keyRun_succ, hn]
  -- the stored pairs
  have hkvs : kvs2 = ascendingRelation (n + 1) rids := by
    have hs2 : (kvs2.map Prod.fst).Pairwise (· < ·) := by
      rcases hcases with ⟨-, -, hinv2⟩ | ⟨-, _, _, -, -, hinv2, -⟩
      · exact hinv2.sorted
      · exact hinv2.sorted
    refine sorted_pairs_unique ?_ hs2 (by rw [ascendingRelation_keys]; exact keyRun_sorted _ _)
    rw [ascendingRelation_succ]
    refine hperm.trans ?_
    exact (List.perm_append_singleton _ _).symm
  subst hkvs
  have hnq := @nodup_site [] _ _ _ _ _ (by
    obtain ⟨lvx, upsx, hGx, hsx⟩ := id hinv
    injection hGx with h1 h2
    subst h1 h2
    exact hsx.nodup)
  rcases hcases with ⟨hroom, hb2, hinv2⟩ | ⟨hfull, push, ups2, hget, -, hinv2, hfq, hfr, hfo⟩
  · refine ⟨b2, _, ups, m, r + 1, hins, hinv2, ?_, by omega, by omega, fun h => by
      have := hm h
      omega⟩
    have hfq : b2.file q = some (Page.leaf
        { keyArray := insertAt l.keyArray (searchGE l.keyArray (n : Int)) (n : Int)
          ridArray := insertAt l.ridArray (searchGE l.keyArray (n : Int)) (rids n)
          rightSibPageNo := l.rightSibPageNo }) := by
      rw [hb2]
      show Function.update b.file q _ q = _
      rw [Function.update_same]
    have hfo : ∀ e ∈ pre, b2.file e.1 = b.file e.1 := by
      intro e he
      rw [hb2]
      show Function.update b.file q _ e.1 = _
      rw [Function.update_noteq (hnq.2.1 e he)]
    unfold ascLayout
    simp only [leafKeysOf, List.map_append, List.map_cons, List.map_nil, hfq, hins2]
    have := leafKeysOf_congr hfo
    unfold leafKeysOf at this hpreK
    rw [this, hpreK]
  · have hrL : r = c.INTARRAYLEAFSIZE := by omega
    have hle : c.INTARRAYLEAFSIZE / 2 ≤ c.INTARRAYLEAFSIZE := Nat.div_le_self _ _
    refine ⟨b2, _, ups2, m + 1, c.INTARRAYLEAFSIZE - c.INTARRAYLEAFSIZE / 2, hins, hinv2, ?_, ?_,
      by omega, fun _ => le_refl _⟩
    · have hfo2 : ∀ e ∈ pre, b2.file e.1 = b.file e.1 := fun e he =>
        hfo e (by simp [he])
      have hcong := leafKeysOf_congr hfo2
      unfold ascLayout
      rw [hML] at hfq hfr
      rw [hins2] at hfq hfr
      rw [keyRun_take _ _ _ (by omega)] at hfq
      rw [keyRun_drop] at hfr
      simp only [leafKeysOf, List.map_append, List.map_cons, List.map_nil, hfq, hfr,
        List.range_succ]
      unfold leafKeysOf at hcong hpreK
      rw [hcong, hpreK]
      simp only [List.append_assoc, List.cons_append, List.nil_append, List.append_cancel_left_eq,
        List.cons.injEq, Option.some.injEq, true_and, and_true]
      have e1 : m * (c.INTARRAYLEAFSIZE / 2 + 1) + (c.INTARRAYLEAFSIZE / 2 + 1) =
          (m + 1) * (c.INTARRAYLEAFSIZE / 2 + 1) := by ring
      have e2 : r + 1 - (c.INTARRAYLEAFSIZE / 2 + 1) =
          c.INTARRAYLEAFSIZE - c.INTARRAYLEAFSIZE / 2 := by omega
      rw [e1, e2]
    · have e1 : (m + 1) * (c.INTARRAYLEAFSIZE / 2 + 1) =
          m * (c.INTARRAYLEAFSIZE / 2 + 1) + (c.INTARRAYLEAFSIZE / 2 + 1) := by ring
      omega

/-- The index built from the keys `0 .. n - 1` in ascending order: all leaves but the
last hold `INTARRAYLEAFSIZE / 2 + 1` consecutive keys, the last holds the rest. -/
theorem ascending_build {c : Consts} (hL : 1 ≤ c.INTARRAYLEAFSIZE)
    (hN : 1 ≤ c.INTARRAYNONLEAFSIZE) (name : String) (off : Int) (ty : Datatype)
    (rids : Nat → RecordId) :
    ∀ n, ∃ b lv0 ups m r,
      buildIndex c name off ty (ascendingRelation n rids) = some (mkIndex b) ∧
      Inv c b (lv0 :: ups) (ascendingRelation n rids) ∧
      leafKeysOf b lv0 = (ascLayout (c.INTARRAYLEAFSIZE / 2) m r).map some ∧
      n = m * (c.INTARRAYLEAFSIZE / 2 + 1) + r ∧ r ≤ c.INTARRAYLEAFSIZE ∧
      (m ≠ 0 → c.INTARRAYLEAFSIZE - c.INTARRAYLEAFSIZE / 2 ≤ r) := by
  obtain ⟨b0, hcreate, hinv0, -, hf2, -, -⟩ := createIndex_spec c name off ty
  have key : ∀ n, ∃ b lv0 ups m r,
      insertAll c b0 (ascendingRelation n rids) = some b ∧
      Inv c b (lv0 :: ups) (ascendingRelation n rids) ∧
      leafKeysOf b lv0 = (ascLayout (c.INTARRAYLEAFSIZE / 2) m r).map some ∧
      n = m * (c.INTARRAYLEAFSIZE / 2 + 1) + r ∧ r ≤ c.INTARRAYLEAFSIZE ∧
      (m ≠ 0 → c.INTARRAYLEAFSIZE - c.INTARRAYLEAFSIZE / 2 ≤ r) := by
    intro n
    induction n with
    | zero =>
      refine ⟨b0, [(2, none)], [], 0, 0, rfl, hinv0, ?_, by simp, by omega,
        fun h => absurd rfl h⟩
      simp [leafKeysOf, ascLayout, keyRun, hf2]
    | succ n ih =>
      obtain ⟨b, lv0, ups, m, r, hrun, hinv, hkeys, hn, -, hm⟩ := ih
      obtain ⟨b2, lv2, ups2, m2, r2, hins, hinv2, hkeys2, hn2, hr2, hm2⟩ :=
        ascending_step hL hN rids hinv hkeys hn hm
      refine ⟨b2, lv2, ups2, m2, r2, ?_, hinv2, hkeys2, hn2, hr2, hm2⟩
      rw [ascendingRelation_succ, insertAll_append, hrun]
      show insertAll c b [((n : Int), rids n)] = some b2
      simp only [insertAll, hins]
  intro n
  obtain ⟨b, lv0, ups, m, r, hrun, hrest⟩ := key n
  refine ⟨b, lv0, ups, m, r, ?_, hrest⟩
  simp only [buildIndex, hcreate, hrun]

theorem leafWalkNodes_chain {c : Consts} {b : BufMgr} :
    ∀ {es : List Entry} {ne : Bool} {kvs : List (Int × RecordId)},
      Chain c b ne es INVALID_NUMBER kvs → (∀ e ∈ es, e.1 ≠ INVALID_NUMBER) →
      ∀ fuel, es.length + 1 ≤ fuel →
        ∃ ls, leafWalkNodes fuel b (headPage es INVALID_NUMBER) = some ls ∧
          ls.map Prod.fst = es.map Prod.fst ∧
          (∀ x ∈ ls, b.file x.1 = some (Page.leaf x.2)) ∧
          ls.map (fun x => some x.2.keyArray) = leafKeysOf b es := by
  intro es
  induction es with
  | nil =>
    intro ne kvs _ _ fuel hf
    obtain ⟨f, rfl⟩ : ∃ f, fuel = f + 1 := ⟨fuel - 1, by omega⟩
    exact ⟨[], by simp [leafWalkNodes, headPage], rfl, by simp, rfl⟩
  | cons x xs ih =>
    intro ne kvs h hne fuel hf
    obtain ⟨f, rfl⟩ : ∃ f, fuel = f + 1 := ⟨fuel - 1, by omega⟩
    obtain ⟨l, hfl, -, hsib, -, rest, rfl, hr⟩ := h
    have hx := hne x (List.mem_cons_self _ _)
    obtain ⟨ls, hrec, h1, h2, h3⟩ := ih hr (fun e he => hne e (List.mem_cons_of_mem _ he)) f
      (by simp only [List.length_cons] at hf; omega)
    have hh : headPage (x :: xs) INVALID_NUMBER = x.1 := rfl
    rw [hh]
    refine ⟨(x.1, l) :: ls, ?_, ?_, ?_, ?_⟩
    · simp only [leafWalkNodes, hx, if_false, hfl, hsib, hrec]
    · simp [h1]
    · intro y hy
      rcases List.mem_cons.mp hy with rfl | hy
      · exact hfl
      · exact h2 y hy
    · simp only [List.map_cons, leafKeysOf, hfl]
      rw [h3]
      rfl

theorem sorted_index_unique (k : Int) :
    ∀ (ks : List Int) (i j : Nat), ks.Pairwise (· < ·) → ks[i]? = some k → ks[j]? = some k →
      i = j := by
  intro ks
  induction ks with
  | nil => intro i j _ h; simp at h
  | cons a as ih =>
    intro i j hs hi hj
    rw [List.pairwise_cons] at hs
    cases i with
    | zero =>
      cases j with
      | zero => rfl
      | succ j =>
        simp only [List.getElem?_cons_zero, Option.some.injEq, List.getElem?_cons_succ] at hi hj
        have := hs.1 k (List.getElem?_mem hj)
        omega
    | succ i =>
      cases j with
      | zero =>
        simp only [List.getElem?_cons_zero, Option.some.injEq, List.getElem?_cons_succ] at hi hj
        have := hs.1 k (List.getElem?_mem hi)
        omega
      | succ j =>
        simp only [List.getElem?_cons_succ] at hi hj
        rw [ih i j hs.2 hi hj]

/-- On a well-formed tree `findLeafNode` for a key stored at position `i` of a leaf
of the chain returns that leaf, `i` and the key count of the leaf. -/
theorem Inv.findLeafNode_at {c : Consts} {b : BufMgr} {lv0 : List Entry}
    {ups : List (List Entry)} {kvs : List (Int × RecordId)} (hinv : Inv c b (lv0 :: ups) kvs)
    {e : Entry} (he : e ∈ lv0) {l : LeafNodeInt} (hl : b.file e.1 = some (Page.leaf l))
    {i : Nat} {key : Int} (hi : l.keyArray[i]? = some key) :
    findLeafNode b key = some ((e.1, i, l.keyArray.length), b) := by
  obtain ⟨pre, post, rfl⟩ := List.append_of_mem he
  obtain ⟨l0, hf0, hok, hsorted, hpre⟩ := @Inv.leaf_at _ _ _ _ hinv pre post e
    (by simp)
  rw [hl] at hf0
  injection hf0 with hf0
  injection hf0 with hf0
  subst hf0
  have hmem : key ∈ l.keyArray := List.getElem?_mem hi
  have ht : Target (fun k => decide (k < key)) (pre ++ e :: post) pre e.1 e.2 post := by
    refine ⟨rfl, ?_, ?_⟩
    · intro x hx
      have := hpre x hx key hmem
      cases hu : x.2 with
      | none => rw [hu] at this; exact this.elim
      | some u =>
        rw [hu] at this
        simpa [belowB, ltBB] using this
    · have := hok.2.2.1 key hmem
      cases hu : e.2 with
      | none => simp [belowB]
      | some u =>
        rw [hu] at this
        simp only [leB] at this
        simp only [belowB, decide_eq_true_eq]
        omega
  obtain ⟨h, pre2, q, Uq, post2, l2, hfile, ht2, hq, hcase⟩ := hinv.descend key
  obtain ⟨-, hq2, -, -⟩ := Target_unique ht ht2
  subst hq2
  rw [hl] at hq
  injection hq with hq
  injection hq with hq
  subst hq
  have hfl := findLeafNode_spec hfile hl hcase
  rw [hfl]
  have := sorted_index_unique key l.keyArray _ _ hsorted
    (sorted_search_get key l.keyArray hsorted hmem) hi
  rw [this]

/-- The leaf chain of the index built from the keys `0 .. n - 1` in ascending order,
walked from the leaf that `findLeafNode` returns for key 0: `m` leaves with
`INTARRAYLEAFSIZE / 2 + 1` consecutive keys each and a last leaf with the `r` keys
that are left; and `findLeafNode` finds every key where the walk meets it. -/
theorem ascending_leaves {c : Consts} (hL : 1 ≤ c.INTARRAYLEAFSIZE)
    (hN : 1 ≤ c.INTARRAYNONLEAFSIZE) (name : String) (off : Int) (ty : Datatype)
    (rids : Nat → RecordId) (n : Nat) :
    ∃ b p0 pos0 tot0 leaves m r,
      buildIndex c name off ty (ascendingRelation n rids) = some (mkIndex b) ∧
      findLeafNode b 0 = some ((p0, pos0, tot0), b) ∧
      leafWalkNodes (b.numPages + 1) b p0 = some leaves ∧
      leaves.map (fun x => x.2.keyArray) = ascLayout (c.INTARRAYLEAFSIZE / 2) m r ∧
      n = m * (c.INTARRAYLEAFSIZE / 2 + 1) + r ∧ r ≤ c.INTARRAYLEAFSIZE ∧
      (m ≠ 0 → c.INTARRAYLEAFSIZE - c.INTARRAYLEAFSIZE / 2 ≤ r) ∧
      ∀ (idx pg : Nat) (l : LeafNodeInt) (i : Nat) (j : Int),
        leaves[idx]? = some (pg, l) → l.keyArray[i]? = some j →
        findLeafNode b j = some ((pg, i, l.keyArray.length), b) := by
  obtain ⟨b, lv0, ups, m, r, hbuild, hinv, hkeys, hn, hr, hm⟩ :=
    ascending_build hL hN name off ty rids n
  obtain ⟨h, pre, q, Uq, post, l, hfile, ht, hq, hcase⟩ := hinv.descend 0
  obtain ⟨hrange, hlen, hchain, hlevel⟩ := hinv.pages
  have hpre : pre = [] := by
    cases pre with
    | nil => rfl
    | cons e es =>
      exfalso
      have hb := ht.2.1 e (by simp)
      cases hu : e.2 with
      | none => rw [hu] at hb; exact hb.elim
      | some u =>
        rw [hu] at hb
        simp only [belowB, decide_eq_true_eq] at hb
        have hmem := Chain_bound_mem hchain e (by rw [ht.1]; simp) u hu
        rw [ascendingRelation_keys] at hmem
        simp only [keyRun, List.mem_map, List.mem_range] at hmem
        obtain ⟨i, -, rfl⟩ := hmem
        omega
  subst hpre
  have hlv := ht.1
  simp only [List.nil_append] at hlv
  obtain ⟨ls, hwalk, hfst, hfiles, hls⟩ := leafWalkNodes_chain hchain (fun e he => by
    have := (hrange e he).1
    unfold INVALID_NUMBER
    omega) (b.numPages + 1) (by omega)
  rw [hlv] at hwalk
  have hh : headPage ((q, Uq) :: post) INVALID_NUMBER = q := rfl
  rw [hh] at hwalk
  refine ⟨b, q, _, _, ls, m, r, hbuild, findLeafNode_spec hfile hq hcase, hwalk, ?_, hn, hr, hm,
    ?_⟩
  · rw [hkeys] at hls
    have hinj : Function.Injective (some : List Int → Option (List Int)) :=
      fun _ _ h => Option.some.inj h
    apply List.map_injective_iff.mpr hinj
    rw [← hls, List.map_map]
    rfl
  · intro idx pg l i j hidx hi
    have hmem := List.getElem?_mem hidx
    have hpg : pg ∈ lv0.map Prod.fst := by
      rw [← hfst]
      exact List.mem_map_of_mem Prod.fst hmem
    obtain ⟨e, he, he1⟩ := List.mem_map.mp hpg
    have hl := hfiles _ hmem
    have hl2 : b.file e.1 = some (Page.leaf l) := by rw [he1]; exact hl
    have := hinv.findLeafNode_at he hl2 hi
    rw [he1] at this
    exact this

theorem full_leaves_count {n L M m r : Nat} (hML : M ≤ L) (hn : n = m * (M + 1) + r)
    (hr : r ≤ L) (hm : m ≠ 0 → L - M ≤ r) : (n - L + M) / (M + 1) = m := by
  by_cases h0 : m = 0
  · subst h0
    have : n - L + M = M := by omega
    rw [this]
    exact Nat.div_eq_of_lt (by omega)
  · have hlow := hm h0
    apply Nat.div_eq_of_lt_le
    · omega
    · have : (m + 1) * (M + 1) = m * (M + 1) + (M + 1) := by ring
      omega

theorem ascLayout_length (M m r : Nat) : (ascLayout M m r).length = m + 1 := by
  simp [ascLayout]

theorem ascLayout_get_lt {M m r i : Nat} (hi : i < m) :
    (ascLayout M m r)[i]? = some (keyRun (i * (M + 1)) (M + 1)) := by
  unfold ascLayout
  rw [List.getElem?_append_left (by simpa using hi), List.getElem?_map,
    List.getElem?_range hi]
  rfl

theorem ascLayout_get_last (M m r : Nat) :
    (ascLayout M m r)[m]? = some (keyRun (m * (M + 1)) r) := by
  unfold ascLayout
  rw [List.getElem?_append_right (by simp)]
  simp

/-! ## Reading an array after an insertion -/

theorem insertAt_get_lt {α : Type} (xs : List α) (pos : Nat) (x : α) {i : Nat} (hi : i < pos)
    (hpos : pos ≤ xs.length) : (insertAt xs pos x)[i]? = xs[i]? := by
  unfold insertAt
  rw [List.getElem?_append_left (by rw [List.length_take]; omega), List.getElem?_take_of_lt hi]

theorem insertAt_get_eq {α : Type} (xs : List α) (pos : Nat) (x : α) (hpos : pos ≤ xs.length) :
    (insertAt xs pos x)[pos]? = some x := by
  unfold insertAt
  rw [List.getElem?_append_right (by rw [List.length_take]; omega)]
  simp [List.length_take, Nat.min_eq_left hpos]

theorem insertAt_get_gt {α : Type} (xs : List α) (pos : Nat) (x : α) {i : Nat} (hi : pos ≤ i)
    (hpos : pos ≤ xs.length) : (insertAt xs pos x)[i + 1]? = xs[i]? := by
  unfold insertAt
  rw [List.getElem?_append_right (by rw [List.length_take]; omega)]
  simp only [List.length_take, Nat.min_eq_left hpos]
  have : i + 1 - pos = (i - pos) + 1 := by omega
  rw [this, List.getElem?_cons_succ, List.getElem?_drop]
  congr 1
  omega

theorem insertChildren_get_lt (xs : List Nat) (pos left right : Nat) {i : Nat} (hi : i < pos)
    (hpos : pos < xs.length) : (insertChildren xs pos left right)[i]? = xs[i]? := by
  unfold insertChildren
  rw [List.getElem?_append_left (by rw [List.length_take]; omega), List.getElem?_take_of_lt hi]

theorem insertChildren_get_left (xs : List Nat) (pos left right : Nat) (hpos : pos < xs.length) :
    (insertChildren xs pos left right)[pos]? = some left := by
  unfold insertChildren
  rw [List.getElem?_append_right (by rw [List.length_take]; omega)]
  simp [List.length_take, Nat.min_eq_left (Nat.le_of_lt hpos)]

theorem insertChildren_get_right (xs : List Nat) (pos left right : Nat) (hpos : pos < xs.length) :
    (insertChildren xs pos left right)[pos + 1]? = some right := by
  unfold insertChildren
  rw [List.getElem?_append_right (by rw [List.length_take]; omega)]
  simp [List.length_take, Nat.min_eq_left (Nat.le_of_lt hpos)]

theorem insertChildren_get_gt (xs : List Nat) (pos left right : Nat) {i : Nat} (hi : pos < i)
    (hpos : pos < xs.length) : (insertChildren xs pos left right)[i + 1]? = xs[i]? := by
  unfold insertChildren
  rw [List.getElem?_append_right (by rw [List.length_take]; omega)]
  simp only [List.length_take, Nat.min_eq_left (Nat.le_of_lt hpos)]
  have : i + 1 - pos = (i - pos - 1) + 1 + 1 := by omega
  rw [this, List.getElem?_cons_succ, List.getElem?_cons_succ, List.getElem?_drop]
  congr 1
  omega

theorem searchGT_le (ks : List Int) (key : Int) : searchGT ks key ≤ ks.length := by
  induction ks with
  | nil => simp [searchGT]
  | cons a as ih =>
    simp only [searchGT, List.length_cons]
    split <;> omega

theorem searchGE_le (ks : List Int) (key : Int) : searchGE ks key ≤ ks.length := by
  induction ks with
  | nil => simp [searchGE]
  | cons a as ih =>
    simp only [searchGE, List.length_cons]
    split <;> omega

/-! ## What `findParentNode` returns on any file -/

theorem asNonLeaf_eq {pg : Page} {n : NonLeafNodeInt} (h : pg.asNonLeaf = some n) :
    pg = Page.nonLeaf n := by
  cases pg with
  | nonLeaf m =>
    simp only [Page.asNonLeaf, Option.some.injEq] at h
    rw [h]
  | blank => simp [Page.asNonLeaf] at h
  | header _ => simp [Page.asNonLeaf] at h
  | leaf _ => simp [Page.asNonLeaf] at h

theorem asLeaf_eq {pg : Page} {l : LeafNodeInt} (h : pg.asLeaf = some l) :
    pg = Page.leaf l := by
  cases pg with
  | leaf m =>
    simp only [Page.asLeaf, Option.some.injEq] at h
    rw [h]
  | blank => simp [Page.asLeaf] at h
  | header _ => simp [Page.asLeaf] at h
  | nonLeaf _ => simp [Page.asLeaf] at h

theorem asMeta_eq {pg : Page} {hd : IndexMetaInfo} (h : pg.asMeta = some hd) :
    pg = Page.header hd := by
  cases pg with
  | header m =>
    simp only [Page.asMeta, Option.some.injEq] at h
    rw [h]
  | blank => simp [Page.asMeta] at h
  | leaf _ => simp [Page.asMeta] at h
  | nonLeaf _ => simp [Page.asMeta] at h

theorem findParentNodeLoop_result (child : Nat) (key : Int) :
    ∀ (fuel : Nat) (s : BufMgr) (t : Nat) (r : PageId × Nat × Nat) (s1 : BufMgr),
      findParentNodeLoop fuel s t child key = some (r, s1) →
      s1 = s ∧ ∃ n, s.file r.1 = some (Page.nonLeaf n) ∧
        r.2.1 = searchGT n.keyArray key ∧ r.2.2 = n.keyArray.length ∧
        n.pageNoArray[r.2.1]? = some child := by
  intro fuel
  induction fuel with
  | zero => intro s t r s1 h; cases h
  | succ f ih =>
    intro s t r s1 h
    unfold findParentNodeLoop at h
    split at h
    · cases h
    · rename_i pg b1 hr
      split at h
      · cases h
      · rename_i b2 hu
        have e2 := read_unpin_eq hr hu
        subst e2
        obtain ⟨hfile, -⟩ := readPage_spec hr
        split at h
        · cases h
        · rename_i n hn
          have hpg := asNonLeaf_eq hn
          subst hpg
          split at h
          · cases h
          · rename_i ch hch
            split at h
            · rename_i hc
              injection h with h
              injection h with h1 h2
              subst h1 h2
              exact ⟨rfl, n, hfile, rfl, rfl, by rw [hch, hc]⟩
            · exact ih _ _ _ _ h

/-- On any file, a call of `findParentNode` that returns leaves the buffer manager as
it found it and either reports that the child is the root, or names an internal node,
the position the separator search gives in it, its key count, and the child stands at
that position of its child array. -/
theorem findParentNode_result {s s1 : BufMgr} {child : Nat} {key : Int} {r : PageId × Nat × Nat}
    (h : findParentNode s child key = some (r, s1)) :
    s1 = s ∧
      ((r = (INVALID_NUMBER, 0, 0) ∧
          ∃ hd, s.file headerPageNum = some (Page.header hd) ∧ child = hd.rootPageNo) ∨
        ∃ n, s.file r.1 = some (Page.nonLeaf n) ∧
          r.2.1 = searchGT n.keyArray key ∧ r.2.2 = n.keyArray.length ∧
          n.pageNoArray[r.2.1]? = some child) := by
  unfold findParentNode at h
  split at h
  · cases h
  · rename_i pg b1 hr
    split at h
    · cases h
    · rename_i b2 hu
      have e2 := read_unpin_eq hr hu
      subst e2
      obtain ⟨hfile, -⟩ := readPage_spec hr
      split at h
      · cases h
      · rename_i hd hhd
        have hpg := asMeta_eq hhd
        subst hpg
        split at h
        · rename_i hc
          injection h with h
          injection h with h1 h2
          subst h1 h2
          exact ⟨rfl, Or.inl ⟨rfl, hd, hfile, hc⟩⟩
        · obtain ⟨e, hres⟩ := findParentNodeLoop_result child key _ _ _ _ _ h
          exact ⟨e, Or.inr hres⟩


/-! ## Pin counts across `insertEntry`, on any file -/

theorem unPinPage_spec {s s1 : BufMgr} {p : Nat} {d : Bool} (h : unPinPage s p d = some s1) :
    s.pinCnt p ≠ 0 ∧ s1 = { s with pinCnt := Function.update s.pinCnt p (s.pinCnt p - 1) } := by
  unfold unPinPage at h
  split at h
  · cases h
  · rename_i h0
    injection h with h
    exact ⟨h0, h.symm⟩

theorem pins_two (f : Nat → Nat) (q r : Nat) :
    Function.update
      (Function.update (Function.update (Function.update f q (f q + 1)) r
          (Function.update f q (f q + 1) r + 1)) q
        (Function.update (Function.update f q (f q + 1)) r
          (Function.update f q (f q + 1) r + 1) q - 1)) r
      (Function.update (Function.update (Function.update f q (f q + 1)) r
          (Function.update f q (f q + 1) r + 1)) q
        (Function.update (Function.update f q (f q + 1)) r
          (Function.update f q (f q + 1) r + 1) q - 1) r - 1) = f := by
  funext x
  by_cases hqr : q = r
  · subst hqr
    by_cases hx : x = q
    · subst hx
      simp
    · simp [Function.update_apply, hx]
  · have hrq : r ≠ q := fun e => hqr e.symm
    by_cases hx : x = q
    · subst hx
      simp [Function.update_apply, hqr, hrq]
    · by_cases hx2 : x = r
      · subst hx2
        simp [Function.update_apply, hqr, hrq, hx]
      · simp [Function.update_apply, hx, hx2]

theorem pins_nested (f : Nat → Nat) (q r : Nat) :
    Function.update
      (Function.update (Function.update (Function.update f q (f q + 1)) r
          (Function.update f q (f q + 1) r + 1)) r
        (Function.update (Function.update f q (f q + 1)) r
          (Function.update f q (f q + 1) r + 1) r - 1)) q
      (Function.update (Function.update (Function.update f q (f q + 1)) r
          (Function.update f q (f q + 1) r + 1)) r
        (Function.update (Function.update f q (f q + 1)) r
          (Function.update f q (f q + 1) r + 1) r - 1) q - 1) = f := by
  funext x
  by_cases hqr : q = r
  · subst hqr
    by_cases hx : x = q
    · subst hx
      simp
    · simp [Function.update_apply, hx]
  · have hrq : r ≠ q := fun e => hqr e.symm
    by_cases hx : x = q
    · subst hx
      simp [Function.update_apply, hqr, hrq]
    · by_cases hx2 : x = r
      · subst hx2
        simp [Function.update_apply, hqr, hrq, hx]
      · simp [Function.update_apply, hx, hx2]

theorem findLeafNodeLoop_bufMgr (key : Int) :
    ∀ (fuel : Nat) (s : BufMgr) (t : Nat) (r : PageId × Nat × Nat) (s1 : BufMgr),
      findLeafNodeLoop fuel s t key = some (r, s1) → s1 = s := by
  intro fuel
  induction fuel with
  | zero => intro s t r s1 h; cases h
  | succ f ih =>
    intro s t r s1 h
    unfold findLeafNodeLoop at h
    split at h
    · cases h
    · rename_i pg b1 hr
      split at h
      · cases h
      · rename_i b2 hu
        have e2 := read_unpin_eq hr hu
        subst e2
        split at h
        · cases h
        · split at h
          · cases h
          · split at h
            · split at h
              · cases h
              · rename_i pg3 b3 hr3
                split at h
                · cases h
                · rename_i b4 hu4
                  have e4 := read_unpin_eq hr3 hu4
                  subst e4
                  split at h
                  · cases h
                  · injection h with h
                    injection h with _ h
                    exact h.symm
            · exact ih _ _ _ _ h

theorem findLeafNode_bufMgr {s s1 : BufMgr} {key : Int} {r : PageId × Nat × Nat}
    (h : findLeafNode s key = some (r, s1)) : s1 = s := by
  unfold findLeafNode at h
  split at h
  · cases h
  · rename_i pg b1 hr
    split at h
    · cases h
    · rename_i b2 hu
      have e2 := read_unpin_eq hr hu
      subst e2
      split at h
      · cases h
      · split at h
        · split at h
          · cases h
          · rename_i pg3 b3 hr3
            split at h
            · cases h
            · rename_i b4 hu4
              have e4 := read_unpin_eq hr3 hu4
              subst e4
              split at h
              · cases h
              · injection h with h
                injection h with _ h
                exact h.symm
        · exact findLeafNodeLoop_bufMgr _ _ _ _ _ _ h

theorem modifyLeafNode_pins {c : Consts} {s s2 : BufMgr} {q : Nat} {key : Int} {rid : RecordId}
    {pos tot : Nat} {r : PageId × PageId × Int}
    (h : modifyLeafNode c s q key rid pos tot = some (r, s2)) : s2.pinCnt = s.pinCnt := by
  unfold modifyLeafNode at h
  split at h
  · split at h
    · cases h
    · rename_i pg s1 hr
      obtain ⟨-, hs1⟩ := readPage_spec hr
      split at h
      · cases h
      · split at h
        · cases h
        · rename_i s3 hu
          obtain ⟨-, hs3⟩ := unPinPage_spec hu
          injection h with h
          injection h with _ h
          subst h hs3 hs1
          exact update_pin_restore s.pinCnt q
  · split at h
    · cases h
    · rename_i pg s1 hr
      obtain ⟨-, hs1⟩ := readPage_spec hr
      split at h
      rename_i tr sa ha
      have ha1 : tr = s1.numPages + 1 := (congrArg Prod.fst ha).symm
      have ha2 : sa = (allocPage s1).2 := (congrArg Prod.snd ha).symm
      split at h
      · cases h
      · simp only [] at h
        split at h
        · cases h
        · split at h
          · cases h
          · rename_i s5 hu5
            split at h
            · cases h
            · rename_i s6 hu6
              obtain ⟨-, hs5⟩ := unPinPage_spec hu5
              obtain ⟨-, hs6⟩ := unPinPage_spec hu6
              injection h with h
              injection h with _ h
              subst h hs6 hs5 ha2 ha1 hs1
              exact pins_two s.pinCnt q (s.numPages + 1)

theorem modifyNonLeafNode_pins {c : Consts} {s s2 : BufMgr} {p : Nat} {key : Int}
    {left right pos tot : Nat} {r : PageId × PageId × Int}
    (h : modifyNonLeafNode c s p key left right pos tot = some (r, s2)) :
    s2.pinCnt = s.pinCnt := by
  unfold modifyNonLeafNode at h
  split at h
  · split at h
    · cases h
    · rename_i pg s1 hr
      obtain ⟨-, hs1⟩ := readPage_spec hr
      split at h
      · cases h
      · split at h
        · cases h
        · rename_i s3 hu
          obtain ⟨-, hs3⟩ := unPinPage_spec hu
          injection h with h
          injection h with _ h
          subst h hs3 hs1
          exact update_pin_restore s.pinCnt p
  · split at h
    · cases h
    · rename_i pg s1 hr
      obtain ⟨-, hs1⟩ := readPage_spec hr
      split at h
      rename_i tr sa ha
      have ha1 : tr = s1.numPages + 1 := (congrArg Prod.fst ha).symm
      have ha2 : sa = (allocPage s1).2 := (congrArg Prod.snd ha).symm
      split at h
      · cases h
      · simp only [] at h
        split at h
        · cases h
        · split at h
          · cases h
          · rename_i s5 hu5
            split at h
            · cases h
            · rename_i s6 hu6
              obtain ⟨-, hs5⟩ := unPinPage_spec hu5
              obtain ⟨-, hs6⟩ := unPinPage_spec hu6
              injection h with h
              injection h with _ h
              subst h hs6 hs5 ha2 ha1 hs1
              exact pins_two s.pinCnt p (s.numPages + 1)

theorem insertEntryLoop_pins (c : Consts) (leaf_num : Nat) :
    ∀ (fuel : Nat) (s : BufMgr) (left right : Nat) (push : Int) (s2 : BufMgr),
      insertEntryLoop c fuel s leaf_num left right push = some s2 → s2.pinCnt = s.pinCnt := by
  intro fuel
  induction fuel with
  | zero => intro s left right push s2 h; cases h
  | succ f ih =>
    intro s left right push s2 h
    unfold insertEntryLoop at h
    split at h
    · cases h
    · rename_i par pos tot s1 hfp
      have e1 := (findParentNode_result hfp).1
      subst e1
      split at h
      · split at h
        rename_i tr sa ha
        have ha1 : tr = s1.numPages + 1 := (congrArg Prod.fst ha).symm
        have ha2 : sa = (allocPage s1).2 := (congrArg Prod.snd ha).symm
        split at h
        · cases h
        · rename_i pg s3 hr
          obtain ⟨-, hs3⟩ := readPage_spec hr
          split at h
          · cases h
          · simp only [] at h
            split at h
            · cases h
            · rename_i s6 hu6
              obtain ⟨-, hs6⟩ := unPinPage_spec hu6
              obtain ⟨-, hs7⟩ := unPinPage_spec h
              subst hs7 hs6 hs3 ha2 ha1
              exact pins_nested s1.pinCnt (s1.numPages + 1) headerPageNum
      · split at h
        · cases h
        · rename_i l2 r2 k2 s3 hm
          have e3 := modifyNonLeafNode_pins hm
          split at h
          · injection h with h
            subst h
            exact e3
          · rw [ih _ _ _ _ _ h, e3]

/-- On any file, a call of `insertEntry` that returns leaves every pin count as it
found it. -/
theorem insertEntry_pins {c : Consts} {s s2 : BufMgr} {key : Int} {rid : RecordId}
    (h : insertEntry c s key rid = some s2) : s2.pinCnt = s.pinCnt := by
  unfold insertEntry at h
  split at h
  · cases h
  · rename_i q pos tot s1 hf
    have e1 := findLeafNode_bufMgr hf
    subst e1
    split at h
    · cases h
    · rename_i l2 r2 k2 s3 hm
      have e3 := modifyLeafNode_pins hm
      split at h
      · injection h with h
        subst h
        exact e3
      · rw [insertEntryLoop_pins c _ _ _ _ _ _ _ h, e3]

/-! ## The descent at a separator -/

theorem Reach.trans {b : BufMgr} {p q r : Nat} (h1 : Reach b p q) (h2 : Reach b q r) :
    Reach b p r := by
  induction h1 with
  | here _ => exact h2
  | down hf hc _ ih => exact Reach.down hf hc (ih h2)

/-- In a strictly ascending key array the search with `>=` for a key stored at index
`i` stops at `i`. -/
theorem searchGE_at {ks : List Int} (hs : ks.Pairwise (· < ·)) {i : Nat} {k : Int}
    (hk : ks[i]? = some k) : searchGE ks k = i :=
  sorted_index_unique k ks _ _ hs (sorted_search_get k ks hs (List.getElem?_mem hk)) hk

/-- One round of the loop of `findLeafNode` at an internal node whose level flag is
not 1: the descent goes on at the child the search names. -/
theorem findLeafNodeLoop_step {b : BufMgr} {p : Nat} {n : NonLeafNodeInt} {key : Int} {ch : Nat}
    (hp : b.file p = some (Page.nonLeaf n)) (hl : n.level ≠ 1)
    (hc : n.pageNoArray[searchGE n.keyArray key]? = some ch) (fuel : Nat) :
    findLeafNodeLoop (fuel + 1) b p key = findLeafNodeLoop fuel b ch key := by
  obtain ⟨b1, hr, hu⟩ := read_unpin hp
  simp only [findLeafNodeLoop, hr, hu, Page.asNonLeaf, hc, hl, if_false]

/-- One round of the loop of `findLeafNode` at an internal node with the level flag
1: the child the search names is the leaf returned. -/
theorem findLeafNodeLoop_last {b : BufMgr} {p : Nat} {n : NonLeafNodeInt} {key : Int} {ch : Nat}
    {l : LeafNodeInt} (hp : b.file p = some (Page.nonLeaf n)) (hl : n.level = 1)
    (hc : n.pageNoArray[searchGE n.keyArray key]? = some ch)
    (hch : b.file ch = some (Page.leaf l)) (fuel : Nat) :
    findLeafNodeLoop (fuel + 1) b p key =
      some ((ch, searchGE l.keyArray key, l.keyArray.length), b) := by
  obtain ⟨b1, hr, hu⟩ := read_unpin hp
  obtain ⟨b3, hr3, hu3⟩ := read_unpin hch
  simp only [findLeafNodeLoop, hr, hu, Page.asNonLeaf, hc, hl, if_true, hr3, hu3, Page.asLeaf]

/-- On a well-formed tree the descent for a key that equals the separator
`keyArray[i]` of an internal node takes the child `pageNoArray[i]` at that node and
ends in a leaf below that child, which is not below `pageNoArray[i + 1]`. -/
theorem Inv.descent_at_separator {c : Consts} {b : BufMgr} {G : List (List Entry)}
    {kvs : List (Int × RecordId)} (hinv : Inv c b G kvs) {p : Nat} {n : NonLeafNodeInt}
    (hp : InTree b p) (hfile : b.file p = some (Page.nonLeaf n)) {i : Nat} {k : Int}
    {chL chR : Nat} (hk : n.keyArray[i]? = some k) (hL : n.pageNoArray[i]? = some chL)
    (hR : n.pageNoArray[i + 1]? = some chR) :
    searchGE n.keyArray k = i ∧
    (n.level ≠ 1 → ∀ fuel,
      findLeafNodeLoop (fuel + 1) b p k = findLeafNodeLoop fuel b chL k) ∧
    (n.level = 1 → ∃ l, b.file chL = some (Page.leaf l) ∧ ∀ fuel,
      findLeafNodeLoop (fuel + 1) b p k =
        some ((chL, searchGE l.keyArray k, l.keyArray.length), b)) ∧
    ∃ q pos tot l, findLeafNode b k = some ((q, pos, tot), b) ∧
      b.file q = some (Page.leaf l) ∧ l.keyArray[pos]? = some k ∧
      Reach b chL q ∧ ¬ Reach b chR q := by
  obtain ⟨hsorted, -, -, hkind⟩ := hinv.internal_node hp hfile
  have hsearch := searchGE_at hsorted hk
  have hc : n.pageNoArray[searchGE n.keyArray k]? = some chL := by rw [hsearch, hL]
  obtain ⟨-, hgt, q, l, hreach, hql, hmem⟩ := hinv.separators hp hfile hk hL hR
  refine ⟨hsearch, fun hl fuel => findLeafNodeLoop_step hfile hl hc fuel, ?_, ?_⟩
  · intro hl
    rcases hkind with ⟨-, hleaves⟩ | ⟨h0, -⟩
    · obtain ⟨l2, hl2⟩ := hleaves chL (List.getElem?_mem hL)
      exact ⟨l2, hl2, fun fuel => findLeafNodeLoop_last hfile hl hc hl2 fuel⟩
    · rw [hl] at h0
      cases h0
  · obtain ⟨h, hf, hrp⟩ := hp
    have hq : InTree b q :=
      ⟨h, hf, hrp.trans (Reach.down hfile (List.getElem?_mem hL) hreach)⟩
    obtain ⟨j, pre, post, e, hj, he⟩ := hinv.inTree_level hq
    obtain ⟨pos, hpos⟩ := List.mem_iff_getElem?.mp hmem
    obtain ⟨lv0, ups, hG, hs⟩ := id hinv
    subst hG
    cases j with
    | succ j =>
      obtain ⟨_, _, _, -, -, ⟨m, hm, -⟩, -⟩ := hinv.node_at hj
      rw [he, hql] at hm
      cases hm
    | zero =>
      have hlv : lv0 = pre ++ e :: post := by
        have : (lv0 :: ups)[0]? = some lv0 := by simp
        rw [this] at hj
        exact Option.some.inj hj
      have hel : b.file e.1 = some (Page.leaf l) := by rw [he]; exact hql
      have hfind := hinv.findLeafNode_at (e := e) (by rw [hlv]; simp) hel hpos
      rw [he] at hfind
      refine ⟨q, pos, l.keyArray.length, l, hfind, hql, hpos, hreach, ?_⟩
      intro hr
      have := hgt q l hr hql k hmem
      omega

/-! ## The bounds `startScan` stores -/

theorem wrapInt_range (x : Int) : -2147483648 ≤ wrapInt x ∧ wrapInt x ≤ 2147483647 := by
  unfold wrapInt
  omega

/-- The bounds in the state `startScanBody` leaves when it returns or raises
`NoSuchKeyFound`. -/
theorem startScanBody_bounds {t s1 : BTreeIndex} {lo hi : Int} {lop hop : Operator}
    (h : startScanBody t lo lop hi hop = Res.ok () s1 ∨
      startScanBody t lo lop hi hop = Res.throw Exn.NoSuchKeyFound s1) :
    s1.lowValInt = (if lop = Operator.GT then wrapInt (lo + 1) else lo) ∧
      s1.highValInt = (if hop = Operator.LT then wrapInt (hi - 1) else hi) := by
  unfold startScanBody at h
  simp only [] at h
  split at h
  · rcases h with h | h
    · cases h
    · injection h with h1 _
      cases h1
  · split at h
    · rcases h with h | h
      · cases h
      · injection h with h1 _
        cases h1
    · split at h
      · rcases h with h | h
        · cases h
        · injection h with h1 _
          cases h1
      · split at h
        · rcases h with h | h <;> cases h
        · split at h
          · split at h
            · rcases h with h | h <;> cases h
            · rcases h with h | h
              · injection h with _ h
                subst h
                exact ⟨rfl, rfl⟩
              · cases h
          · rcases h with h | h
            · cases h
            · injection h with _ h
              subst h
              exact ⟨rfl, rfl⟩

theorem startScan_bounds {s s1 : BTreeIndex} {lo hi : Int} {lop hop : Operator}
    (h : startScan s lo lop hi hop = Res.ok () s1 ∨
      startScan s lo lop hi hop = Res.throw Exn.NoSuchKeyFound s1) :
    s1.lowValInt = (if lop = Operator.GT then wrapInt (lo + 1) else lo) ∧
      s1.highValInt = (if hop = Operator.LT then wrapInt (hi - 1) else hi) := by
  unfold startScan at h
  split at h
  · split at h
    · exact startScanBody_bounds h
    · rename_i hx _ e s2 he
      unfold endScan at he
      split at he
      · rename_i hx2
        rw [hx] at hx2
        cases hx2
      · split at he <;> cases he
    · rcases h with h | h <;> cases h
  · exact startScanBody_bounds h

/-! ## Pin counts of a freshly built index -/

theorem createIndex_pins {name : String} {off : Int} {ty : Datatype} {b : BufMgr}
    (h : createIndex name off ty = some b) : ∀ p, b.pinCnt p = 0 := by
  unfold createIndex at h
  simp only [allocPage, emptyFile] at h
  split at h
  · cases h
  · rename_i s5 hu5
    obtain ⟨-, hs5⟩ := unPinPage_spec hu5
    obtain ⟨-, hs6⟩ := unPinPage_spec h
    subst hs6 hs5
    intro p
    exact congrFun (pins_two (fun _ => 0) (0 + 1) (0 + 1 + 1)) p

theorem insertAll_pins (c : Consts) :
    ∀ (rel : List (Int × RecordId)) (s s2 : BufMgr),
      insertAll c s rel = some s2 → s2.pinCnt = s.pinCnt := by
  intro rel
  induction rel with
  | nil =>
    intro s s2 h
    simp only [insertAll, Option.some.injEq] at h
    rw [h]
  | cons kv rest ih =>
    intro s s2 h
    obtain ⟨key, rid⟩ := kv
    simp only [insertAll] at h
    split at h
    · cases h
    · rename_i s1 h1
      rw [ih _ _ h, insertEntry_pins h1]

theorem buildIndex_pins {c : Consts} {name : String} {off : Int} {ty : Datatype}
    {rel : List (Int × RecordId)} {s : BTreeIndex} (h : buildIndex c name off ty rel = some s) :
    ∀ p, s.bufMgr.pinCnt p = 0 := by
  unfold buildIndex at h
  split at h
  · cases h
  · rename_i b hb
    split at h
    · cases h
    · rename_i b1 hb1
      injection h with h
      subst h
      intro p
      show b1.pinCnt p = 0
      rw [insertAll_pins c _ _ _ hb1]
      exact createIndex_pins hb p

/-! ## Pin counts across a scan -/

theorem recorded_snoc (pn : Nat → Nat) (n q : Nat) :
    (List.range (n + 1)).map (Function.update pn n q) = (List.range n).map pn ++ [q] := by
  have hmap : List.map (Function.update pn n q) (List.range n) = List.map pn (List.range n) := by
    apply List.map_congr_left
    intro i hi
    have : i ≠ n := by
      have := List.mem_range.mp hi
      omega
    simp [Function.update, this]
  simp only [List.range_succ, List.map_append, List.map_cons, List.map_nil,
    Function.update_same, hmap]

theorem unpinAll_spec (ps : List Nat) :
    ∀ b : BufMgr, (∀ p, ps.count p ≤ b.pinCnt p) →
      ∃ b2, unpinAll b ps = some b2 ∧ b2.file = b.file ∧ b2.numPages = b.numPages ∧
        ∀ p, b2.pinCnt p + ps.count p = b.pinCnt p := by
  induction ps with
  | nil =>
    intro b _
    exact ⟨b, rfl, rfl, rfl, fun p => by simp⟩
  | cons q qs ih =>
    intro b h
    have hq : b.pinCnt q ≠ 0 := by
      have := h q
      simp at this
      omega
    obtain ⟨b2, hb2, hf, hn, hp⟩ :=
      ih { b with pinCnt := Function.update b.pinCnt q (b.pinCnt q - 1) } (by
        intro p
        have hp := h p
        by_cases hpq : p = q
        · subst hpq
          simp at hp ⊢
          omega
        · have hqp : q ≠ p := fun e => hpq e.symm
          simp [List.count_cons, Function.update, hpq, hqp] at hp ⊢
          exact hp)
    refine ⟨b2, ?_, hf, hn, ?_⟩
    · simp only [unpinAll, unPinPage, hq, if_false]
      exact hb2
    · intro p
      have := hp p
      by_cases hpq : p = q
      · subst hpq
        simp at this ⊢
        omega
      · have hqp : q ≠ p := fun e => hpq e.symm
        simp [List.count_cons, Function.update, hpq, hqp] at this ⊢
        exact this

/-- A scan that has kept its pins can be ended, and `endScan` gives back the buffer
manager the scan was started on. -/
theorem endScan_pins {b0 : BufMgr} {s : BTreeIndex} (hx : s.scanExecuting = true)
    (hp : PinsExact b0 s) :
    ∃ s3, endScan s = Res.ok () s3 ∧ s3.scanExecuting = false ∧ s3.bufMgr = b0 := by
  obtain ⟨hf, hn, hc⟩ := hp
  obtain ⟨b2, hb2, hf2, hn2, hp2⟩ := unpinAll_spec (recordedPages s) s.bufMgr (by
    intro p
    rw [hc p]
    omega)
  refine ⟨{ s with scanExecuting := false, bufMgr := b2 }, ?_, rfl, ?_⟩
  · unfold endScan
    unfold recordedPages at hb2
    simp [hx, hb2]
  · show b2 = b0
    have hpin : b2.pinCnt = b0.pinCnt := by
      funext p
      have h1 := hp2 p
      have h2 := hc p
      omega
    cases b2
    cases b0
    simp only [BufMgr.mk.injEq]
    exact ⟨hf2.trans hf, hn2.trans hn, hpin⟩

/-- The state in which `startScanBody` returns: the leaf `findScanPage` named is the
page of the cursor, it is the one page recorded, and it is pinned once more than
before. -/
theorem startScanBody_ok_pins {t s1 : BTreeIndex} {lo hi : Int} {lop hop : Operator}
    (h : startScanBody t lo lop hi hop = Res.ok () s1) :
    s1.scanExecuting = true ∧ PinsExact t.bufMgr s1 ∧
      recordedPages s1 = [s1.currentPageData] ∧ s1.currentPageNum = s1.currentPageData ∧
      s1.currentPageData ≠ INVALID_NUMBER ∧
      ∃ en, findScanPage t.bufMgr (if lop = Operator.GT then wrapInt (lo + 1) else lo)
        (if hop = Operator.LT then wrapInt (hi - 1) else hi) =
          some ((s1.currentPageData, en), t.bufMgr) := by
  unfold startScanBody at h
  simp only [] at h
  split at h
  · cases h
  · split at h
    · cases h
    · split at h
      · cases h
      · split at h
        · cases h
        · rename_i pn en b3 hf
          have hb3 := findScanPage_bufMgr hf
          subst hb3
          split at h
          · rename_i hne
            split at h
            · cases h
            · rename_i pg b5 hr
              obtain ⟨-, hb⟩ := readPage_spec hr
              injection h with _ h
              subst h
              have hrec : recordedPages
                  { t with
                    num_pinned_page := 0 + 1
                    page_nums := Function.update t.page_nums 0 pn } = [pn] := by
                unfold recordedPages
                exact recorded_snoc t.page_nums 0 pn
              refine ⟨rfl, ⟨?_, ?_, ?_⟩, hrec, rfl, hne, en, hf⟩
              · show b5.file = _
                rw [hb]
              · show b5.numPages = _
                rw [hb]
              · intro p
                show b5.pinCnt p = t.bufMgr.pinCnt p + List.count p (recordedPages _)
                have hrec2 : recordedPages
                    { t with
                      num_pinned_page := 0 + 1
                      page_nums := Function.update t.page_nums 0 pn } = [pn] := hrec
                rw [hb]
                simp only [Function.update_apply]
                by_cases hp : p = pn
                · subst hp
                  simp [recordedPages, recorded_snoc]
                · have : pn ≠ p := fun e => hp e.symm
                  simp [recordedPages, recorded_snoc, hp, this]
          · cases h


/-- One call of `scanNext` that returns, told by its effect on the pins: either the
cursor stays on its leaf and neither the pins nor `page_nums` change, or the cursor
enters the right sibling of its leaf, which is pinned once more and recorded at the
end of `page_nums`. -/
theorem scanNext_ok_pins {b0 : BufMgr} {s s1 : BTreeIndex} {r : RecordId}
    (h : scanNext s = Res.ok r s1) (hp : PinsExact b0 s)
    (hl : (recordedPages s).getLast? = some s.currentPageData) :
    s1.scanExecuting = true ∧ PinsExact b0 s1 ∧
      (recordedPages s1).getLast? = some s1.currentPageData ∧
      ((s1.bufMgr = s.bufMgr ∧ recordedPages s1 = recordedPages s ∧
          s1.currentPageData = s.currentPageData) ∨
        (recordedPages s1 = recordedPages s ++ [s1.currentPageData] ∧
          s1.currentPageNum = s1.currentPageData ∧
          s1.currentPageData ≠ INVALID_NUMBER ∧
          s1.bufMgr.pinCnt = Function.update s.bufMgr.pinCnt s1.currentPageData
            (s.bufMgr.pinCnt s1.currentPageData + 1) ∧
          ∃ l, s.bufMgr.file s.currentPageData = some (Page.leaf l) ∧
            l.rightSibPageNo = s1.currentPageData)) := by
  unfold scanNext at h
  split at h
  · cases h
  · rename_i hx
    have hx' : s.scanExecuting = true := by simpa using hx
    split at h
    · cases h
    · split at h
      · cases h
      · rename_i pg hpg
        split at h
        · cases h
        · rename_i l hlf
          have hpgl := asLeaf_eq hlf
          subst hpgl
          split at h
          · cases h
          · split at h
            · cases h
            · split at h
              · cases h
              · split at h
                · injection h with _ h
                  subst h
                  exact ⟨hx', hp, hl, Or.inl ⟨rfl, rfl, rfl⟩⟩
                · split at h
                  · rename_i hsib
                    split at h
                    · cases h
                    · rename_i pg2 b1 hr
                      obtain ⟨-, hb⟩ := readPage_spec hr
                      injection h with _ h
                      subst h
                      obtain ⟨hf, hn, hc⟩ := hp
                      have hrec : recordedPages
                          { s with
                            bufMgr := b1
                            nextEntry := 0
                            currentPageNum := l.rightSibPageNo
                            currentPageData := l.rightSibPageNo
                            page_nums :=
                              Function.update s.page_nums s.num_pinned_page l.rightSibPageNo
                            num_pinned_page := s.num_pinned_page + 1 } =
                          recordedPages s ++ [l.rightSibPageNo] := by
                        unfold recordedPages
                        exact recorded_snoc s.page_nums s.num_pinned_page l.rightSibPageNo
                      refine ⟨hx', ⟨?_, ?_, ?_⟩, ?_, Or.inr ⟨hrec, rfl, hsib.2, ?_, l, hpg, rfl⟩⟩
                      · show b1.file = _
                        rw [hb]
                        exact hf
                      · show b1.numPages = _
                        rw [hb]
                        exact hn
                      · intro p
                        rw [hrec, List.count_append]
                        show b1.pinCnt p = _
                        rw [hb]
                        have := hc p
                        by_cases hpq : p = l.rightSibPageNo
                        · subst hpq
                          simp
                          omega
                        · have hqp : l.rightSibPageNo ≠ p := fun e => hpq e.symm
                          simp [Function.update_apply, hpq, hqp]
                          omega
                      · rw [hrec]
                        simp
                      · show b1.pinCnt = _
                        rw [hb]
                  · injection h with _ h
                    subst h
                    exact ⟨hx', hp, hl, Or.inl ⟨rfl, rfl, rfl⟩⟩

/-- Any number of calls of `scanNext`, each returning or raising `IndexScanCompleted`,
keeps the pin accounting of the scan. -/
theorem scanCalls_pins {b0 : BufMgr} (n : Nat) :
    ∀ (s s2 : BTreeIndex), scanCalls n s = some s2 → s.scanExecuting = true →
      PinsExact b0 s → (recordedPages s).getLast? = some s.currentPageData →
      s2.scanExecuting = true ∧ PinsExact b0 s2 ∧
        (recordedPages s2).getLast? = some s2.currentPageData := by
  induction n with
  | zero =>
    intro s s2 h hx hp hl
    simp only [scanCalls, Option.some.injEq] at h
    subst h
    exact ⟨hx, hp, hl⟩
  | succ n ih =>
    intro s s2 h hx hp hl
    simp only [scanCalls] at h
    split at h
    · rename_i r s1 hr
      obtain ⟨hx1, hp1, hl1, -⟩ := scanNext_ok_pins hr hp hl
      exact ih s1 s2 h hx1 hp1 hl1
    · rename_i s1 hr
      obtain ⟨e, -⟩ := scanNext_completed_state s s1 hr
      subst e
      exact ih _ s2 h hx hp hl
    · cases h


/-! ## The pages a scan records on a reachable index -/

theorem Chain_sib {c : Consts} {b : BufMgr} :
    ∀ (lv : List Entry) (ne : Bool) (nxt : Nat) (kvs : List (Int × RecordId)),
      Chain c b ne lv nxt kvs → ∀ (i : Nat) (e : Entry), lv[i]? = some e →
        ∃ l, b.file e.1 = some (Page.leaf l) ∧
          l.rightSibPageNo = headPage (lv.drop (i + 1)) nxt := by
  intro lv
  induction lv with
  | nil =>
    intro ne nxt kvs _ i e h
    simp at h
  | cons e0 es ih =>
    intro ne nxt kvs hc i e h
    obtain ⟨l, hf, -, hsib, -, rest, -, hrest⟩ := hc
    cases i with
    | zero =>
      simp only [List.getElem?_cons_zero, Option.some.injEq] at h
      subst h
      exact ⟨l, hf, by simpa using hsib⟩
    | succ i =>
      rw [List.getElem?_cons_succ] at h
      obtain ⟨l2, hf2, hs2⟩ := ih true nxt rest hrest i e h
      exact ⟨l2, hf2, by simpa using hs2⟩

theorem take_drop_getLast {α : Type} (xs : List α) (j k : Nat) (h : j + k < xs.length) :
    ((xs.drop j).take (k + 1)).getLast? = xs[j + k]? := by
  rw [List.getLast?_eq_getElem?, List.length_take, List.length_drop]
  have : min (k + 1) (xs.length - j) - 1 = k := by omega
  rw [this, List.getElem?_take_of_lt (Nat.lt_succ_self _), List.getElem?_drop]

theorem take_drop_snoc {α : Type} (xs : List α) (j k : Nat) (x : α)
    (h : xs[j + k + 1]? = some x) :
    (xs.drop j).take (k + 1) ++ [x] = (xs.drop j).take (k + 1 + 1) := by
  rw [List.take_succ (n := k + 1), List.getElem?_drop]
  have : j + (k + 1) = j + k + 1 := by omega
  rw [this, h]
  rfl

/-- On a well-formed tree a page that `findScanPage` names is a leaf of the chain. -/
theorem Inv.findScanPage_page {c : Consts} {b : BufMgr} {lv0 : List Entry}
    {ups : List (List Entry)} {kvs : List (Int × RecordId)} (hinv : Inv c b (lv0 :: ups) kvs)
    {lo hi : Int} {pn : PageId} {en : Int} {b3 : BufMgr}
    (h : findScanPage b lo hi = some ((pn, en), b3)) (hne : pn ≠ INVALID_NUMBER) :
    pn ∈ lv0.map Prod.fst := by
  by_cases hgt : lo > hi
  · simp only [findScanPage, hgt, if_true, Option.some.injEq, Prod.mk.injEq] at h
    exact absurd h.1.1.symm hne
  · obtain ⟨hd, pre, q, Uq, post, l, hfile, ht, hq, hcase⟩ := hinv.descend lo
    have hmem : q ∈ lv0.map Prod.fst := by
      rw [ht.1]
      simp
    rcases hcase with ⟨-, hr2, rfl⟩ | ⟨hr2, k, hk, hpath⟩
    · rw [findScanPage_rootLeaf lo hi hfile hr2 hq hgt] at h
      split at h
      · simp only [Option.some.injEq, Prod.mk.injEq] at h
        exact absurd h.1.1.symm hne
      · simp only [Option.some.injEq, Prod.mk.injEq] at h
        rw [← h.1.1]
        exact hmem
    · rw [findScanPage_inner lo hi hfile hr2 hk hpath hq hgt] at h
      split at h
      · simp only [Option.some.injEq, Prod.mk.injEq] at h
        exact absurd h.1.1.symm hne
      · split at h
        · cases h
        · split at h
          · simp only [Option.some.injEq, Prod.mk.injEq] at h
            exact absurd h.1.1.symm hne
          · simp only [Option.some.injEq, Prod.mk.injEq] at h
            rw [← h.1.1]
            exact hmem

/-- On a well-formed tree the pages a scan has recorded stay a run of consecutive
leaves of the chain across a call of `scanNext`. -/
theorem Inv.scanNext_recorded {c : Consts} {b : BufMgr} {lv0 : List Entry}
    {ups : List (List Entry)} {kvs : List (Int × RecordId)} (hinv : Inv c b (lv0 :: ups) kvs)
    {s s1 : BTreeIndex} {r : RecordId} (h : scanNext s = Res.ok r s1) (hp : PinsExact b s)
    (hl : (recordedPages s).getLast? = some s.currentPageData)
    (hrec : ∃ j k, j + k < lv0.length ∧
      recordedPages s = ((lv0.map Prod.fst).drop j).take (k + 1)) :
    ∃ j k, j + k < lv0.length ∧
      recordedPages s1 = ((lv0.map Prod.fst).drop j).take (k + 1) := by
  obtain ⟨j, k, hjk, hr⟩ := hrec
  obtain ⟨-, -, -, hstep⟩ := scanNext_ok_pins h hp hl
  rcases hstep with ⟨-, hsame, -⟩ | ⟨hnew, -, hne, -, l, hfl, hsib⟩
  · exact ⟨j, k, hjk, hsame.trans hr⟩
  · have hcur : (lv0.map Prod.fst)[j + k]? = some s.currentPageData := by
      rw [← take_drop_getLast _ j k (by rw [List.length_map]; exact hjk), ← hr]
      exact hl
    rw [List.getElem?_map] at hcur
    obtain ⟨e, he, he1⟩ := Option.map_eq_some'.mp hcur
    obtain ⟨-, -, hchain, -⟩ := hinv.pages
    obtain ⟨l2, hf2, hs2⟩ := Chain_sib lv0 false INVALID_NUMBER kvs hchain (j + k) e he
    have hfile : s.bufMgr.file s.currentPageData = b.file e.1 := by
      rw [hp.1, he1]
    rw [hfile, hf2] at hfl
    have hll : l2 = l := by
      injection hfl with hfl
      injection hfl
    subst hll
    rw [hs2] at hsib
    cases hd : lv0.drop (j + k + 1) with
    | nil =>
      rw [hd] at hsib
      exact absurd hsib.symm hne
    | cons e2 rest =>
      rw [hd] at hsib
      have hget : lv0[j + k + 1]? = some e2 := by
        have := congrArg (fun xs => xs[0]?) hd
        simpa [List.getElem?_drop] using this
      have hlt : j + k + 1 < lv0.length := (List.getElem?_eq_some_iff.mp hget).1
      have hget2 : (lv0.map Prod.fst)[j + k + 1]? = some s1.currentPageData := by
        rw [List.getElem?_map, hget, ← hsib]
        rfl
      refine ⟨j, k + 1, by omega, ?_⟩
      rw [hnew, hr]
      exact take_drop_snoc _ j k _ hget2

theorem Inv.scanCalls_recorded {c : Consts} {b : BufMgr} {lv0 : List Entry}
    {ups : List (List Entry)} {kvs : List (Int × RecordId)} (hinv : Inv c b (lv0 :: ups) kvs)
    (n : Nat) :
    ∀ (s s2 : BTreeIndex), scanCalls n s = some s2 → PinsExact b s →
      (recordedPages s).getLast? = some s.currentPageData →
      (∃ j k, j + k < lv0.length ∧
        recordedPages s = ((lv0.map Prod.fst).drop j).take (k + 1)) →
      ∃ j k, j + k < lv0.length ∧
        recordedPages s2 = ((lv0.map Prod.fst).drop j).take (k + 1) := by
  induction n with
  | zero =>
    intro s s2 h _ _ hrec
    simp only [scanCalls, Option.some.injEq] at h
    subst h
    exact hrec
  | succ n ih =>
    intro s s2 h hp hl hrec
    simp only [scanCalls] at h
    split at h
    · rename_i r s1 hr
      obtain ⟨-, hp1, hl1, -⟩ := scanNext_ok_pins hr hp hl
      exact ih s1 s2 h hp1 hl1 (hinv.scanNext_recorded hr hp hl hrec)
    · rename_i s1 hr
      obtain ⟨e, -⟩ := scanNext_completed_state s s1 hr
      subst e
      exact ih _ s2 h hp hl hrec
    · cases h

/-- On a well-formed tree with no page pinned, a scan pins every leaf it has entered
exactly once: the recorded pages are pairwise distinct and they are the pinned
pages. -/
theorem Inv.scan_pins_once {c : Consts} {b : BufMgr} {lv0 : List Entry}
    {ups : List (List Entry)} {kvs : List (Int × RecordId)} (hinv : Inv c b (lv0 :: ups) kvs)
    (hzero : ∀ p, b.pinCnt p = 0) {s0 s1 s2 : BTreeIndex} (hb : s0.bufMgr = b)
    (hx : s0.scanExecuting = false) {lo hi : Int} {lop hop : Operator}
    (hstart : startScan s0 lo lop hi hop = Res.ok () s1) {n : Nat}
    (hcalls : scanCalls n s1 = some s2) :
    (recordedPages s2).Nodup ∧
      ∀ p, s2.bufMgr.pinCnt p = if p ∈ recordedPages s2 then 1 else 0 := by
  have hbody : startScan s0 lo lop hi hop = startScanBody s0 lo lop hi hop := by
    unfold startScan
    simp [hx]
  rw [hbody] at hstart
  obtain ⟨hx1, hp1, hrec1, -, hne, en, hfind⟩ := startScanBody_ok_pins hstart
  rw [hb] at hp1 hfind
  have hl1 : (recordedPages s1).getLast? = some s1.currentPageData := by
    rw [hrec1]
    rfl
  have hmem := hinv.findScanPage_page hfind hne
  obtain ⟨j, hj⟩ := List.mem_iff_getElem?.mp hmem
  have hjlt : j < lv0.length := by
    have := (List.getElem?_eq_some_iff.mp hj).1
    rwa [List.length_map] at this
  have hstart1 : ∃ j k, j + k < lv0.length ∧
      recordedPages s1 = ((lv0.map Prod.fst).drop j).take (k + 1) := by
    refine ⟨j, 0, by omega, ?_⟩
    rw [hrec1]
    have h0 : ((lv0.map Prod.fst).drop j).take 1 = [s1.currentPageData] := by
      rw [List.take_succ (n := 0), List.getElem?_drop, Nat.add_zero, hj]
      rfl
    exact h0.symm
  obtain ⟨j2, k2, -, hrec2⟩ := hinv.scanCalls_recorded n s1 s2 hcalls hp1 hl1 hstart1
  obtain ⟨-, hp2, -⟩ := scanCalls_pins n s1 s2 hcalls hx1 hp1 hl1
  have hnd : (lv0.map Prod.fst).Nodup := by
    obtain ⟨lv0', ups', hG, hs⟩ := id hinv
    injection hG with h1 h2
    subst h1 h2
    have := hs.nodup
    simp only [List.nil_append, pagesOf, List.flatten_cons, List.map_append] at this
    exact (List.nodup_append.mp this).1
  have hnd2 : (recordedPages s2).Nodup := by
    rw [hrec2]
    exact (hnd.sublist (List.drop_sublist _ _)).sublist (List.take_sublist _ _)
  refine ⟨hnd2, ?_⟩
  intro p
  rw [hp2.2.2 p, hzero p, Nat.zero_add]
  by_cases hpm : p ∈ recordedPages s2
  · rw [if_pos hpm]
    exact List.count_eq_one_of_mem hnd2 hpm
  · rw [if_neg hpm]
    exact List.count_eq_zero_of_not_mem hpm

/-! ## What `insertEntry` does to the root -/

/-- The push-up loop of `insertEntry`, started with a split pending on the level
`cur` whose right half is the page allocated last: it returns, and either the header
page is as it was, or the node that was the root has been split and the page
allocated last holds the new root, with one key, the old root as its left child, the
page allocated before it as its right child and the level flag 1 exactly when the
old root is the leaf the descent reached. -/
theorem insertEntryLoop_root_effect (c : Consts) (hN : 1 ≤ c.INTARRAYNONLEAFSIZE)
    (leaf_num : Nat) (kvs : List (Int × RecordId)) (h : IndexMetaInfo) :
    ∀ (ups lows : List (List Entry)) (pre post : List Entry) (left right : Nat) (push : Int)
      (U : Option Int) (b : BufMgr) (fuel : Nat),
      Shape c b lows (pre ++ (left, some push) :: (right, U) :: post)
        (pre ++ (left, U) :: post) ups kvs →
      (lows = [] → left = leaf_num) →
      (lows ≠ [] → leaf_num ∈ (lows.headD []).map Prod.fst) →
      ups.length + 1 ≤ fuel → right = b.numPages →
      b.file headerPageNum = some (Page.header h) →
      ∃ b2, insertEntryLoop c fuel b leaf_num left right push = some b2 ∧
        (b2.file headerPageNum = some (Page.header h) ∨
          ∃ k, b.numPages < b2.numPages ∧
            b2.file headerPageNum =
              some (Page.header { h with rootPageNo := b2.numPages }) ∧
            b2.file b2.numPages = some (Page.nonLeaf
              { level := if h.rootPageNo = leaf_num then 1 else 0
                keyArray := [k]
                pageNoArray := [h.rootPageNo, b2.numPages - 1] }) ∧
            (h.rootPageNo = leaf_num ↔ lows = [] ∧ ups = [])) := by
  intro ups
  induction ups with
  | nil =>
    intro lows pre post left right push U b fuel hs hl1 hl2 hfuel hright hhdr
    obtain ⟨rfl, rfl, rfl⟩ := pending_top hs
    simp only [List.nil_append] at hs
    obtain ⟨f, rfl⟩ : ∃ f, fuel = f + 1 := ⟨fuel - 1, by omega⟩
    have hleaf : left = leaf_num ↔ lows = [] := by
      constructor
      · intro e
        by_contra hne
        have hmem := hl2 hne
        obtain ⟨x, hx, hx1⟩ := List.mem_map.mp hmem
        have hnd := hs.nodup
        have hrw : lows ++ [(left, some push), (right, none)] :: [] =
            lows ++ ([] ++ (left, some push) :: [(right, none)]) :: [] := by simp
        rw [hrw] at hnd
        obtain ⟨h1, -, -, -⟩ := nodup_site hnd
        have hhead : lows.headD [] ∈ lows := by
          cases lows with
          | nil => exact absurd rfl hne
          | cons y ys => simp
        exact h1 _ hhead x hx (hx1.trans e.symm)
      · exact hl1
    obtain ⟨h2, hf, hroot, hn1, -⟩ := root_split hN hs leaf_num hleaf
    rw [hhdr] at hf
    have hh : h = h2 := by
      injection hf with hf
      injection hf
    subst hh
    have hrun := insertEntryLoop_root (c := c) f leaf_num right push hhdr hn1
    rw [hroot] at hrun
    refine ⟨_, hrun, Or.inr ⟨push, ?_, ?_, ?_, ?_⟩⟩
    · show b.numPages < b.numPages + 1
      omega
    · show Function.update (Function.update b.file headerPageNum _) (b.numPages + 1) _ _ = _
      rw [Function.update_noteq hn1, Function.update_same]
    · show Function.update (Function.update b.file headerPageNum _) (b.numPages + 1) _ _ = _
      rw [Function.update_same, hright]
      simp only [Nat.add_sub_cancel]
      rw [hroot]
    · rw [hroot]
      constructor
      · intro e
        exact ⟨hleaf.mp e, rfl⟩
      · intro e
        exact hleaf.mpr e.1
  | cons lvP ups ih =>
    intro lows pre post left right push U b fuel hs hl1 hl2 hfuel hright hhdr
    obtain ⟨f, rfl⟩ : ∃ f, fuel = f + 1 := ⟨fuel - 1, by omega⟩
    obtain ⟨P, UP, preP, postP, n, lpre, seg, lpost, site⟩ := parentSite hs
    have hlvP := site.hlvP
    subst hlvP
    have hPr := hs.range P (@mem_pagesOf _ (preP ++ (P, UP) :: postP)
      (P, UP) (by simp) (by simp))
    have hP2 : 2 ≤ P := hPr.1
    have hPne : ¬ P = INVALID_NUMBER := by
      unfold INVALID_NUMBER
      omega
    have hPh : P ≠ headerPageNum := by
      unfold headerPageNum
      omega
    by_cases hlen : n.keyArray.length < c.INTARRAYNONLEAFSIZE
    · have hmod := modifyNonLeafNode_nosplit (c := c) push left right
        (searchGT n.keyArray push) site.file hlen
      refine ⟨{ b with file := Function.update b.file P (some (Page.nonLeaf
          { level := n.level
            keyArray := insertAt n.keyArray (searchGT n.keyArray push) push
            pageNoArray := insertChildren n.pageNoArray (searchGT n.keyArray push) left
              right })) }, ?_, Or.inl ?_⟩
      · simp only [insertEntryLoop, site.found, hPne, if_false, hmod, if_true]
      · show Function.update b.file P _ _ = _
        rw [Function.update_noteq (Ne.symm hPh)]
        exact hhdr
    · obtain ⟨push2, hget, hPn, hklen, hclen, hipos, hs2⟩ := nonleaf_insert_split hs site hlen
      have hmod := modifyNonLeafNode_split (c := c) push left right
        (searchGT n.keyArray push) site.file hlen hPn hklen hclen hipos hget
      have hrne : ¬ b.numPages + 1 = INVALID_NUMBER := by
        unfold INVALID_NUMBER
        omega
      have hh1 : headerPageNum ≠ b.numPages + 1 := header_ne_of_two_le (by omega)
      obtain ⟨b2, hrun, hres⟩ :=
        ih (lows ++ [pre ++ (left, some push) :: (right, U) :: post])
        preP postP P (b.numPages + 1) push2 UP _ f hs2 (fun e => absurd e (by simp))
        (fun _ => by
          by_cases hlw : lows = []
          · subst hlw
            rw [← hl1 rfl]
            simp
          · have := hl2 hlw
            cases lows with
            | nil => exact absurd rfl hlw
            | cons y ys => simpa using this)
        (by simp only [List.length_cons] at hfuel; omega) rfl (by
          show Function.update (Function.update b.file P _) (b.numPages + 1) _ _ = _
          rw [Function.update_noteq hh1, Function.update_noteq (Ne.symm hPh)]
          exact hhdr)
      refine ⟨b2, ?_, ?_⟩
      · simp only [insertEntryLoop, site.found, hPne, if_false, hmod, hrne]
        exact hrun
      · rcases hres with hsame | ⟨k, hlt, hhd2, hroot2, hiff⟩
        · exact Or.inl hsame
        · refine Or.inr ⟨k, ?_, hhd2, hroot2, ?_⟩
          · have : b.numPages + 1 < b2.numPages := hlt
            omega
          · constructor
            · intro e
              have := (hiff.mp e).1
              simp at this
            · intro e
              have := e.2
              simp at this


/-- The root of a well-formed tree is a leaf on page 2 when the tree has one level,
and an internal node on another page otherwise. -/
theorem Inv.root_kind {c : Consts} {b : BufMgr} {lv0 : List Entry} {ups : List (List Entry)}
    {kvs : List (Int × RecordId)} (hinv : Inv c b (lv0 :: ups) kvs) {h : IndexMetaInfo}
    (hhdr : b.file headerPageNum = some (Page.header h)) :
    (ups = [] → h.rootPageNo = 2 ∧ ∃ l, b.file h.rootPageNo = some (Page.leaf l)) ∧
    (ups ≠ [] → h.rootPageNo ≠ 2 ∧ ∃ n, b.file h.rootPageNo = some (Page.nonLeaf n)) := by
  obtain ⟨-, -, -, h2, hf, hroot, hiff⟩ := hinv.level
  rw [hhdr] at hf
  have hh : h = h2 := by
    injection hf with hf
    injection hf
  subst hh
  have hrootE : (lv0 :: ups)[(lv0 :: ups).length - 1]? =
      some ([] ++ (h.rootPageNo, none) :: []) := by
    simpa using hroot
  constructor
  · intro hu
    subst hu
    have h1 : ([lv0] : List (List Entry)).length = 1 := rfl
    rw [h1] at hrootE
    obtain ⟨l, hl, -⟩ := hinv.leaf_at hrootE
    exact ⟨hiff.mpr h1, l, hl⟩
  · intro hu
    have hlen : (lv0 :: ups).length ≠ 1 := by
      cases ups with
      | nil => exact absurd rfl hu
      | cons x xs => simp
    obtain ⟨j, hj⟩ : ∃ j, (lv0 :: ups).length - 1 = j + 1 :=
      ⟨(lv0 :: ups).length - 2, by
        have := hinv.length_pos
        omega⟩
    rw [hj] at hrootE
    obtain ⟨_, _, _, -, -, ⟨n, hn, -⟩, -⟩ := hinv.node_at hrootE
    exact ⟨fun e => hlen (hiff.mp e), n, hn⟩

/-- A well-formed tree with a single level stores at most `INTARRAYLEAFSIZE`
pairs. -/
theorem Inv.single_leaf_le {c : Consts} {b : BufMgr} {G : List (List Entry)}
    {kvs : List (Int × RecordId)} (hinv : Inv c b G kvs) (h1 : G.length = 1) :
    kvs.length ≤ c.INTARRAYLEAFSIZE := by
  obtain ⟨⟨lv0, h0, hchain⟩, -, -, h, hf, hroot, -⟩ := hinv.level
  rw [h1] at hroot
  simp only [Nat.sub_self] at hroot
  rw [h0] at hroot
  have hlv : lv0 = [(h.rootPageNo, none)] := Option.some.inj hroot
  rw [hlv] at hchain
  obtain ⟨l2, hl2, hok2, -, -, rest, hk, hrest⟩ := hchain
  have hr : rest = [] := hrest
  rw [hk, hr, List.append_nil]
  unfold LeafNodeInt.entries
  rw [List.length_zip, hok2.1]
  simp only [min_self]
  exact hok2.2.1

/-- The effect of `insertEntry` of a new key on the root of a well-formed tree: it
returns, and either the header page is as it was, or the root was split and the page
allocated last holds the new root, with one key, the old root as its left child, the
page allocated before it as its right child, and the level flag 1 exactly when the
tree had a single level. Both pages are new. -/
theorem Inv.insertEntry_root_effect {c : Consts} {b : BufMgr} {lv0 : List Entry}
    {ups : List (List Entry)} {kvs : List (Int × RecordId)} (hL : 1 ≤ c.INTARRAYLEAFSIZE)
    (hN : 1 ≤ c.INTARRAYNONLEAFSIZE) (hinv : Inv c b (lv0 :: ups) kvs) {h : IndexMetaInfo}
    (hhdr : b.file headerPageNum = some (Page.header h)) (key : Int) (rid : RecordId)
    (hkey : key ∉ kvs.map Prod.fst) :
    ∃ b2, insertEntry c b key rid = some b2 ∧
      (b2.file headerPageNum = some (Page.header h) ∨
        ∃ n k, b.numPages + 1 < b2.numPages ∧
          b2.file headerPageNum = some (Page.header { h with rootPageNo := b2.numPages }) ∧
          b2.file b2.numPages = some (Page.nonLeaf n) ∧ n.keyArray = [k] ∧
          n.pageNoArray = [h.rootPageNo, b2.numPages - 1] ∧
          (ups = [] → n.level = 1) ∧ (ups ≠ [] → n.level = 0)) := by
  obtain ⟨lv0', ups', hG, hs⟩ := id hinv
  injection hG with hG1 hG2
  subst hG1 hG2
  obtain ⟨h2, pre, q, Uq, post, l, hfile, ht, hq, hcase⟩ := hinv.descend key
  rw [hhdr] at hfile
  have hh : h = h2 := by
    injection hfile with hfile
    injection hfile
  subst hh
  have hfl := findLeafNode_spec hhdr hq hcase
  have hlv0 := ht.1
  have hqr := hs.range q (@mem_pagesOf _ lv0 (q, Uq) (by simp) (by rw [hlv0]; simp))
  have hq2 : 2 ≤ q := hqr.1
  have hqh : q ≠ headerPageNum := by
    unfold headerPageNum
    omega
  by_cases hlen : l.keyArray.length < c.INTARRAYLEAFSIZE
  · have hmod := modifyLeafNode_nosplit (c := c) key rid (searchGE l.keyArray key) hq hlen
    refine ⟨{ b with file := Function.update b.file q (some (Page.leaf
        { keyArray := insertAt l.keyArray (searchGE l.keyArray key) key
          ridArray := insertAt l.ridArray (searchGE l.keyArray key) rid
          rightSibPageNo := l.rightSibPageNo })) }, ?_, Or.inl ?_⟩
    · simp only [insertEntry, hfl, hmod, if_true]
    · show Function.update b.file q _ _ = _
      rw [Function.update_noteq (Ne.symm hqh)]
      exact hhdr
  · obtain ⟨push, kvs2, hget, hqn, hklen, hrlen, -, hs2⟩ :=
      leaf_insert_split hL hs rid ht hq hkey hlen
    have hmod := modifyLeafNode_split_full (c := c) key rid (searchGE l.keyArray key) hq hlen hqn
      hklen hrlen hget
    have hrne : ¬ b.numPages + 1 = INVALID_NUMBER := by
      unfold INVALID_NUMBER
      omega
    subst hlv0
    obtain ⟨b1, hb1⟩ : ∃ b1 : BufMgr, b1 =
        { file := Function.update (Function.update b.file q (some (Page.leaf
              { keyArray := (insertAt l.keyArray (searchGE l.keyArray key) key).take
                  (c.MIDDLELEAF + 1)
                ridArray := (insertAt l.ridArray (searchGE l.keyArray key) rid).take
                  (c.MIDDLELEAF + 1)
                rightSibPageNo := b.numPages + 1 })))
            (b.numPages + 1) (some (Page.leaf
              { keyArray := (insertAt l.keyArray (searchGE l.keyArray key) key).drop
                  (c.MIDDLELEAF + 1)
                ridArray := (insertAt l.ridArray (searchGE l.keyArray key) rid).drop
                  (c.MIDDLELEAF + 1)
                rightSibPageNo := l.rightSibPageNo }))
          numPages := b.numPages + 1
          pinCnt := b.pinCnt } := ⟨_, rfl⟩
    rw [← hb1] at hs2 hmod
    have hb1n : b1.numPages = b.numPages + 1 := by rw [hb1]
    have hh1 : headerPageNum ≠ b.numPages + 1 := header_ne_of_two_le (by
      have := hqr.2
      omega)
    have hb1h : b1.file headerPageNum = some (Page.header h) := by
      rw [hb1]
      show Function.update (Function.update b.file q _) (b.numPages + 1) _ _ = _
      rw [Function.update_noteq hh1, Function.update_noteq (Ne.symm hqh)]
      exact hhdr
    have hheight := hs2.height_le
    obtain ⟨b2, hrun, hres⟩ :=
      insertEntryLoop_root_effect c hN q kvs2 h ups [] pre post q
      (b.numPages + 1) push Uq b1 (b.numPages + 1 + 1) hs2 (fun _ => rfl)
      (fun e => absurd rfl e) (by
        simp only [List.nil_append, List.length_cons, hb1n] at hheight
        exact hheight) hb1n.symm hb1h
    refine ⟨b2, ?_, ?_⟩
    · simp only [insertEntry, hfl, hmod, hrne, if_false, hb1n]
      exact hrun
    · rcases hres with hsame | ⟨k, hlt, hhd2, hroot2, hiff⟩
      · exact Or.inl hsame
      · refine Or.inr ⟨_, k, by rw [hb1n] at hlt; exact hlt, hhd2, hroot2, rfl, rfl, ?_, ?_⟩
        · intro hu
          show (if h.rootPageNo = q then 1 else 0) = 1
          rw [if_pos (hiff.mpr ⟨rfl, hu⟩)]
        · intro hu
          show (if h.rootPageNo = q then 1 else 0) = 0
          rw [if_neg (fun e => hu (hiff.mp e).2)]

theorem Inv.separatorsAreMax {c : Consts} {b : BufMgr} {G : List (List Entry)}
    {kvs : List (Int × RecordId)} (hinv : Inv c b G kvs) : SeparatorsAreMax b := by
  intro p n i k chL chR hp hfile hk hl hr
  obtain ⟨h1, h2, h3⟩ := hinv.separators hp hfile hk hl hr
  exact ⟨h3, h1, h2⟩

/-! ## The scan interface leaves the pages of the file alone -/

theorem unpinAll_file (ps : List Nat) :
    ∀ b b2 : BufMgr, unpinAll b ps = some b2 → b2.file = b.file ∧ b2.numPages = b.numPages := by
  induction ps with
  | nil =>
    intro b b2 h
    simp only [unpinAll, Option.some.injEq] at h
    subst h
    exact ⟨rfl, rfl⟩
  | cons p ps ih =>
    intro b b2 h
    simp only [unpinAll] at h
    split at h
    · cases h
    · rename_i b1 hu
      obtain ⟨-, hb1⟩ := unPinPage_spec hu
      obtain ⟨h1, h2⟩ := ih b1 b2 h
      rw [h1, h2, hb1]
      exact ⟨rfl, rfl⟩

theorem endScan_file {s s1 : BTreeIndex} (h : (endScan s).state = some s1) :
    s1.bufMgr.file = s.bufMgr.file ∧ s1.bufMgr.numPages = s.bufMgr.numPages := by
  unfold endScan at h
  split at h
  · simp only [Res.state, Option.some.injEq] at h
    subst h
    exact ⟨rfl, rfl⟩
  · split at h
    · simp only [Res.state] at h
      cases h
    · rename_i b hb
      simp only [Res.state, Option.some.injEq] at h
      subst h
      exact unpinAll_file _ _ _ hb

theorem startScanBody_file {s s1 : BTreeIndex} {lo hi : Int} {lop hop : Operator}
    (h : (startScanBody s lo lop hi hop).state = some s1) :
    s1.bufMgr.file = s.bufMgr.file ∧ s1.bufMgr.numPages = s.bufMgr.numPages := by
  cases hr : startScanBody s lo lop hi hop with
  | stuck =>
    rw [hr] at h
    simp only [Res.state] at h
    cases h
  | throw e s2 =>
    rw [hr] at h
    simp only [Res.state, Option.some.injEq] at h
    subst h
    obtain ⟨-, -, hb⟩ := startScanBody_throw_state hr
    rw [hb]
    exact ⟨rfl, rfl⟩
  | ok u s2 =>
    rw [hr] at h
    simp only [Res.state, Option.some.injEq] at h
    subst h
    obtain ⟨-, hp, -⟩ := startScanBody_ok_pins hr
    exact ⟨hp.1, hp.2.1⟩

theorem startScan_file {s s1 : BTreeIndex} {lo hi : Int} {lop hop : Operator}
    (h : (startScan s lo lop hi hop).state = some s1) :
    s1.bufMgr.file = s.bufMgr.file ∧ s1.bufMgr.numPages = s.bufMgr.numPages := by
  unfold startScan at h
  split at h
  · cases he : endScan s with
    | stuck =>
      rw [he] at h
      simp only [Res.state] at h
      cases h
    | throw e s2 =>
      rw [he] at h
      simp only [Res.state, Option.some.injEq] at h
      subst h
      exact endScan_file (by rw [he]; rfl)
    | ok u s2 =>
      rw [he] at h
      simp only at h
      obtain ⟨h1, h2⟩ := startScanBody_file h
      obtain ⟨h3, h4⟩ := endScan_file (show (endScan s).state = some s2 by rw [he]; rfl)
      exact ⟨h1.trans h3, h2.trans h4⟩
  · exact startScanBody_file h

theorem scanNext_file {s s1 : BTreeIndex} (h : (scanNext s).state = some s1) :
    s1.bufMgr.file = s.bufMgr.file ∧ s1.bufMgr.numPages = s.bufMgr.numPages := by
  unfold scanNext at h
  split at h
  · simp only [Res.state, Option.some.injEq] at h
    subst h
    exact ⟨rfl, rfl⟩
  split at h
  · simp only [Res.state, Option.some.injEq] at h
    subst h
    exact ⟨rfl, rfl⟩
  split at h
  · simp only [Res.state] at h
    cases h
  split at h
  · simp only [Res.state] at h
    cases h
  split at h
  · simp only [Res.state] at h
    cases h
  split at h
  · simp only [Res.state, Option.some.injEq] at h
    subst h
    exact ⟨rfl, rfl⟩
  split at h
  · simp only [Res.state] at h
    cases h
  split at h
  · simp only [Res.state, Option.some.injEq] at h
    subst h
    exact ⟨rfl, rfl⟩
  split at h
  · split at h
    · simp only [Res.state] at h
      cases h
    · rename_i pg b1 hr
      simp only [Res.state, Option.some.injEq] at h
      subst h
      obtain ⟨-, hb1⟩ := readPage_spec hr
      rw [hb1]
      exact ⟨rfl, rfl⟩
  · simp only [Res.state, Option.some.injEq] at h
    subst h
    exact ⟨rfl, rfl⟩

/-! ## What `findLeafNode` returns on any file -/

theorem findLeafNodeLoop_result (key : Int) :
    ∀ (fuel : Nat) (s : BufMgr) (t : Nat) (r : PageId × Nat × Nat) (s1 : BufMgr),
      findLeafNodeLoop fuel s t key = some (r, s1) →
      ∃ l, s.file r.1 = some (Page.leaf l) ∧ r.2.1 = searchGE l.keyArray key ∧
        r.2.2 = l.keyArray.length := by
  intro fuel
  induction fuel with
  | zero => intro s t r s1 h; cases h
  | succ f ih =>
    intro s t r s1 h
    unfold findLeafNodeLoop at h
    split at h
    · cases h
    · rename_i pg b1 hr
      split at h
      · cases h
      · rename_i b2 hu
        have e2 := read_unpin_eq hr hu
        subst e2
        split at h
        · cases h
        · split at h
          · cases h
          · split at h
            · split at h
              · cases h
              · rename_i pg3 b3 hr3
                split at h
                · cases h
                · rename_i b4 hu4
                  have e4 := read_unpin_eq hr3 hu4
                  subst e4
                  split at h
                  · cases h
                  · rename_i l hl
                    obtain ⟨hf, -⟩ := readPage_spec hr3
                    have hpg := asLeaf_eq hl
                    subst hpg
                    injection h with h
                    injection h with h _
                    subst h
                    exact ⟨l, hf, rfl, rfl⟩
            · exact ih _ _ _ _ h

theorem findLeafNode_result {s s1 : BufMgr} {key : Int} {r : PageId × Nat × Nat}
    (h : findLeafNode s key = some (r, s1)) :
    s1 = s ∧ ∃ hd l, s.file headerPageNum = some (Page.header hd) ∧
      s.file r.1 = some (Page.leaf l) ∧ r.2.1 = searchGE l.keyArray key ∧
      r.2.2 = l.keyArray.length := by
  refine ⟨findLeafNode_bufMgr h, ?_⟩
  unfold findLeafNode at h
  split at h
  · cases h
  · rename_i pg b1 hr
    obtain ⟨hfh, -⟩ := readPage_spec hr
    split at h
    · cases h
    · rename_i b2 hu
      have e2 := read_unpin_eq hr hu
      subst e2
      split at h
      · cases h
      · rename_i hd hhd
        have hpg := asMeta_eq hhd
        subst hpg
        split at h
        · split at h
          · cases h
          · rename_i pg3 b3 hr3
            split at h
            · cases h
            · rename_i b4 hu4
              have e4 := read_unpin_eq hr3 hu4
              subst e4
              split at h
              · cases h
              · rename_i l hl
                obtain ⟨hf, -⟩ := readPage_spec hr3
                have hpg := asLeaf_eq hl
                subst hpg
                injection h with h
                injection h with h _
                subst h
                exact ⟨hd, l, hfh, hf, rfl, rfl⟩
        · obtain ⟨l, h1, h2, h3⟩ := findLeafNodeLoop_result _ _ _ _ _ _ h
          exact ⟨hd, l, hfh, h1, h2, h3⟩

/-- The effect of `insertEntry` on any file on which `findLeafNode` returns a leaf
with room. -/
theorem insertEntry_room {c : Consts} {s : BufMgr} {key : Int} {rid : RecordId} {q pos tot : Nat}
    (hfind : (findLeafNode s key).map Prod.fst = some (q, pos, tot))
    (hlt : tot < c.INTARRAYLEAFSIZE) :
    ∃ hd l, s.file headerPageNum = some (Page.header hd) ∧ s.file q = some (Page.leaf l) ∧
      pos = searchGE l.keyArray key ∧ tot = l.keyArray.length ∧
      insertEntry c s key rid = some { s with file := Function.update s.file q (some (Page.leaf
        { keyArray := insertAt l.keyArray pos key
          ridArray := insertAt l.ridArray pos rid
          rightSibPageNo := l.rightSibPageNo })) } := by
  cases hf : findLeafNode s key with
  | none =>
    rw [hf] at hfind
    cases hfind
  | some x =>
    obtain ⟨r, s1⟩ := x
    rw [hf] at hfind
    simp only [Option.map_some', Option.some.injEq] at hfind
    subst hfind
    obtain ⟨hs1, hd, l, hh, hq, hpos, htot⟩ := findLeafNode_result hf
    subst hs1
    simp only at hq hpos htot
    refine ⟨hd, l, hh, hq, hpos, htot, ?_⟩
    simp only [insertEntry, hf, modifyLeafNode_nosplit key rid pos hq hlt, if_true]

/-! ## The leaves of a tree that holds a key are not empty -/

theorem Chain_nonempty {c : Consts} {b : BufMgr} :
    ∀ (lv : List Entry) (ne : Bool) (nxt : Nat) (kvs : List (Int × RecordId)),
      Chain c b ne lv nxt kvs → ∀ (i : Nat) (e : Entry), lv[i]? = some e →
        (i = 0 → ne = true) →
        ∃ l, b.file e.1 = some (Page.leaf l) ∧ l.keyArray ≠ [] := by
  intro lv
  induction lv with
  | nil => intro ne nxt kvs _ i e hi; simp at hi
  | cons x xs ih =>
    intro ne nxt kvs hch i e hi hne
    obtain ⟨l, hf, -, -, hnel, rest, -, hrest⟩ := hch
    cases i with
    | zero =>
      simp only [List.getElem?_cons_zero, Option.some.injEq] at hi
      subst hi
      exact ⟨l, hf, hnel (hne rfl)⟩
    | succ j =>
      simp only [List.getElem?_cons_succ] at hi
      exact ih true nxt rest hrest j e hi (fun _ => rfl)

theorem entries_ne_nil {l : LeafNodeInt} (h : l.entries ≠ []) : l.keyArray ≠ [] := by
  intro hk
  apply h
  simp only [LeafNodeInt.entries, hk, List.zip_nil_left]

/-- In a tree that holds at least one pair, no leaf is empty. -/
theorem Inv.leaves_nonempty {c : Consts} {b : BufMgr} {G : List (List Entry)}
    {kvs : List (Int × RecordId)} (hinv : Inv c b G kvs) (hne : kvs ≠ []) {p : Nat}
    {l : LeafNodeInt} (hp : InTree b p) (hfile : b.file p = some (Page.leaf l)) :
    l.keyArray ≠ [] := by
  obtain ⟨j, pre, post, e, hj, rfl⟩ := hinv.inTree_level hp
  cases j with
  | succ j =>
    obtain ⟨lpre, seg, lpost, -, -, hnode, -⟩ := hinv.node_at hj
    obtain ⟨n2, hfn, -⟩ := hnode
    rw [hfile] at hfn
    cases hfn
  | zero =>
    obtain ⟨⟨lv0, h0, hchain⟩, -, -, -⟩ := hinv.level
    rw [hj] at h0
    injection h0 with h0
    subst h0
    cases pre with
    | cons x xs =>
      have hget : ((x :: xs) ++ e :: post)[(x :: xs).length]? = some e := by
        rw [List.getElem?_append_right (le_refl _)]
        simp
      obtain ⟨l2, hf2, hl2⟩ := Chain_nonempty _ _ _ _ hchain _ e hget (by simp)
      rw [hfile] at hf2
      injection hf2 with hf2
      injection hf2 with hf2
      subst hf2
      exact hl2
    | nil =>
      simp only [List.nil_append] at hchain
      obtain ⟨l2, hf2, hok, -, -, rest, hkvs, hrest⟩ := hchain
      rw [hfile] at hf2
      injection hf2 with hf2
      injection hf2 with hf2
      subst hf2
      cases post with
      | nil =>
        simp only [Chain] at hrest
        subst hrest
        rw [List.append_nil] at hkvs
        rw [hkvs] at hne
        exact entries_ne_nil hne
      | cons y ys =>
        obtain ⟨-, -, hsort, -⟩ := hinv.level
        have hs := hsort 0 _ hj
        simp only [LevelSorted, List.nil_append, List.map_cons, List.pairwise_cons] at hs
        have hlt := hs.1 y.2 (by simp)
        cases he : e.2 with
        | none =>
          rw [he] at hlt
          exact absurd hlt (by simp [ltBB])
        | some u =>
          have := hok.2.2.2 u he
          intro hk
          rw [hk] at this
          cases this

/-- An active scan stays an active scan under any number of calls of `scanNext`. -/
theorem Cursor.scanCalls {c : Consts} (n : Nat) :
    ∀ (s : BTreeIndex) (rem : List (Int × RecordId)), Cursor c s rem →
      ∃ s2 rem2, scanCalls n s = some s2 ∧ Cursor c s2 rem2 ∧
        s2.bufMgr.file = s.bufMgr.file := by
  induction n with
  | zero =>
    intro s rem hc
    exact ⟨s, rem, rfl, hc, rfl⟩
  | succ n ih =>
    intro s rem hc
    obtain ⟨h1, h2, h3⟩ := scanNext_step hc
    cases rem with
    | nil =>
      obtain ⟨s2, rem2, hs2, hc2, hf2⟩ := ih s [] hc
      refine ⟨s2, rem2, ?_, hc2, hf2⟩
      simp only [BTree.scanCalls, h1 rfl, hs2]
    | cons kv rem1 =>
      obtain ⟨k, r⟩ := kv
      by_cases hk : k > s.highValInt
      · obtain ⟨s2, rem2, hs2, hc2, hf2⟩ := ih s _ hc
        refine ⟨s2, rem2, ?_, hc2, hf2⟩
        simp only [BTree.scanCalls, h2 k r rem1 rfl hk, hs2]
      · obtain ⟨s1, hn, hc1, -⟩ := h3 k r rem1 rfl hk
        obtain ⟨s2, rem2, hs2, hc2, hf2⟩ := ih s1 _ hc1
        refine ⟨s2, rem2, ?_, hc2, ?_⟩
        · simp only [BTree.scanCalls, hn, hs2]
        · rw [hf2]
          exact (scanNext_file (show (scanNext s).state = some s1 by rw [hn]; rfl)).1

/-- What a cursor that is not exhausted says about the members of the scan. -/
theorem Cursor.bounds {c : Consts} {s : BTreeIndex} {rem : List (Int × RecordId)}
    (hc : Cursor c s rem) (hne : s.currentPageNum ≠ INVALID_NUMBER) :
    ∃ l, s.bufMgr.file s.currentPageNum = some (Page.leaf l) ∧
      s.currentPageData = s.currentPageNum ∧
      0 ≤ s.nextEntry ∧ s.nextEntry < (l.keyArray.length : Int) ∧
      (getAt l.keyArray s.nextEntry).isSome = true ∧
      (getAt l.ridArray s.nextEntry).isSome = true ∧ rem ≠ [] := by
  obtain ⟨-, hcur⟩ := hc
  rcases hcur with ⟨h0, -⟩ | ⟨l, es, rest, i, -, hd, hf, hlen, hi, hil, -, -, -, hrem⟩
  · exact absurd h0 hne
  · refine ⟨l, hf, hd, by omega, by omega, ?_, ?_, ?_⟩
    · have : ¬ s.nextEntry < 0 := by omega
      simp only [getAt, this, if_false, hi, Int.toNat_ofNat]
      rw [List.getElem?_eq_getElem hil]
      rfl
    · have : ¬ s.nextEntry < 0 := by omega
      simp only [getAt, this, if_false, hi, Int.toNat_ofNat]
      rw [List.getElem?_eq_getElem (by omega)]
      rfl
    · rw [hrem]
      intro hnil
      have hlen2 := congrArg List.length hnil
      simp only [LeafNodeInt.entries, List.length_append, List.length_drop, List.length_zip,
        List.length_nil] at hlen2
      omega

theorem Cursor.scanNext_returns {c : Consts} {s : BTreeIndex} {rem : List (Int × RecordId)}
    (hc : Cursor c s rem) : (scanNext s).state ≠ none := by
  obtain ⟨h1, h2, h3⟩ := scanNext_step hc
  cases rem with
  | nil =>
    rw [h1 rfl]
    simp [Res.state]
  | cons kv rem1 =>
    obtain ⟨k, r⟩ := kv
    by_cases hk : k > s.highValInt
    · rw [h2 k r rem1 rfl hk]
      simp [Res.state]
    · obtain ⟨s1, hn, -, -⟩ := h3 k r rem1 rfl hk
      rw [hn]
      simp [Res.state]

theorem startScan_ok_ops {s s1 : BTreeIndex} {lo hi : Int} {lop hop : Operator}
    (hx : s.scanExecuting = false) (h : startScan s lo lop hi hop = Res.ok () s1) :
    (lop = Operator.GT ∨ lop = Operator.GTE) ∧ (hop = Operator.LT ∨ hop = Operator.LTE) ∧
      lo ≤ hi ∧ s1.currentPageNum ≠ INVALID_NUMBER := by
  have hb : startScan s lo lop hi hop = startScanBody s lo lop hi hop := by
    simp only [startScan, hx, Bool.false_eq_true, if_false]
  rw [hb] at h
  obtain ⟨hbad, hrange, -⟩ := startScanBody_raised s lo lop hi hop
  rw [h] at hbad hrange
  simp only [Res.raised] at hbad hrange
  have hl : lop = Operator.GT ∨ lop = Operator.GTE := by
    by_contra hc
    exact absurd (hbad (Or.inl hc)) (by simp)
  have hh : hop = Operator.LT ∨ hop = Operator.LTE := by
    by_contra hc
    exact absurd (hbad (Or.inr hc)) (by simp)
  have hle : lo ≤ hi := by
    by_contra hc
    exact absurd (hrange hl hh (by omega)) (by simp)
  obtain ⟨-, -, -, h4, h5, -⟩ := startScanBody_ok_pins h
  exact ⟨hl, hh, hle, by rw [h4]; exact h5⟩

/-! ## The search for the parent with `>=` in place of `>` -/

theorem searchGE_eq_searchGT {ks : List Int} {key : Int} (h : key ∉ ks) :
    searchGE ks key = searchGT ks key := by
  induction ks with
  | nil => rfl
  | cons k ks ih =>
    have hk : k ≠ key := fun e => h (by simp [e])
    have hks : key ∉ ks := fun e => h (by simp [e])
    simp only [searchGE, searchGT, ih hks]
    by_cases h1 : k ≥ key
    · have h2 : k > key := by omega
      simp [h1, h2]
    · have h2 : ¬ k > key := by omega
      simp [h1, h2]

theorem findParentNodeGE_root {b : BufMgr} {h : IndexMetaInfo} (key : Int)
    (hfile : b.file headerPageNum = some (Page.header h)) :
    findParentNodeGE b h.rootPageNo key = some ((INVALID_NUMBER, 0, 0), b) := by
  obtain ⟨b1, hr, hu⟩ := read_unpin hfile
  simp only [findParentNodeGE, hr, hu, Page.asMeta, if_true]

/-- The search with `>=` from the node that is first on its level with a bound
`≥ key` stops at the node that is first on the level above `curC` with a bound
`≥ key`, provided the first node of `curC` with a bound `≥ key` is `left`. -/
theorem parentGE_exists (c : Consts) (b : BufMgr) (key : Int) (curC preC postC : List Entry)
    (left : Nat) (Uleft : Option Int)
    (htc : Target (fun k => decide (k < key)) curC preC left Uleft postC)
    (hsc : LevelSorted curC) :
    ∀ (mids : List (List Entry)) (cur pre post : List Entry) (p : Nat) (U : Option Int)
      (bot : Bool),
      Links c b bot (curC :: mids ++ [cur]) → (∀ lv ∈ mids, LevelSorted lv) →
      (∀ lv ∈ mids, ∀ e ∈ lv, e.1 ≠ left) →
      Target (fun k => decide (k < key)) cur pre p U post →
      ∀ fuel, mids.length + 1 ≤ fuel →
      ∃ par Upar preP postP n,
        Target (fun k => decide (k < key)) ((mids ++ [cur]).headD []) preP par Upar postP ∧
        b.file par = some (Page.nonLeaf n) ∧
        findParentNodeLoopGE fuel b p left key =
          some ((par, searchGE n.keyArray key, n.keyArray.length), b) := by
  intro mids
  induction mids using List.reverseRecOn with
  | nil =>
    intro cur pre post p U bot hlinks _ _ ht fuel hfuel
    obtain ⟨hcur, hpre, hU⟩ := ht
    have hlink : Link c b (if bot = true then 1 else 0) cur curC := by
      simp only [List.nil_append, List.cons_append, Links] at hlinks
      exact hlinks.1
    obtain ⟨n, lpre, seg, lpost, child, Uc, hfile, -, -, -, -, hlo, -, -, hchild, hseg, hbel,
      hUc⟩ := descent_step (fun k => decide (k < key)) (mono_lt key) hlink hsc hcur hpre hU
    have htc2 : Target (fun k => decide (k < key)) curC
        (lpre ++ seg.take (searchP (fun k => decide (k < key)) n.keyArray)) child Uc
        (seg.drop (searchP (fun k => decide (k < key)) n.keyArray + 1) ++ lpost) := by
      refine ⟨?_, hbel, hUc⟩
      rw [hlo]
      conv_lhs => rw [seg_split hseg]
      simp
    obtain ⟨-, hch, -, -⟩ := Target_unique htc2 htc
    subst hch
    refine ⟨p, U, pre, post, n, ⟨by simpa using hcur, hpre, hU⟩, hfile, ?_⟩
    obtain ⟨f, rfl⟩ : ∃ f, fuel = f + 1 := ⟨fuel - 1, by omega⟩
    obtain ⟨b1, hr, hu⟩ := read_unpin hfile
    rw [← searchGE_eq] at hchild
    simp only [findParentNodeLoopGE, hr, hu, Page.asNonLeaf, hchild, if_true]
  | append_singleton xs lv ih =>
    intro cur pre post p U bot hlinks hsort hne ht fuel hfuel
    obtain ⟨hcur, hpre, hU⟩ := ht
    have hl : Links c b bot ((curC :: xs) ++ [lv, cur]) := by simpa using hlinks
    obtain ⟨hlow, hlink⟩ := (Links_snoc c b (curC :: xs) lv cur bot).mp hl
    have hslv : LevelSorted lv := hsort lv (by simp)
    obtain ⟨n, lpre, seg, lpost, child, Uc, hfile, -, -, -, -, hlo, -, -, hchild, hseg, hbel,
      hUc⟩ := descent_step (fun k => decide (k < key)) (mono_lt key) hlink hslv hcur hpre hU
    have htlv : Target (fun k => decide (k < key)) lv
        (lpre ++ seg.take (searchP (fun k => decide (k < key)) n.keyArray)) child Uc
        (seg.drop (searchP (fun k => decide (k < key)) n.keyArray + 1) ++ lpost) := by
      refine ⟨?_, hbel, hUc⟩
      rw [hlo]
      conv_lhs => rw [seg_split hseg]
      simp
    have hchne : child ≠ left := by
      apply hne lv (by simp) (child, Uc)
      rw [htlv.1]
      simp
    obtain ⟨f, rfl⟩ : ∃ f, fuel = f + 1 := ⟨fuel - 1, by omega⟩
    obtain ⟨par, Upar, preP, postP, n2, htp, hfp, hloop⟩ :=
      ih lv _ _ child Uc bot (by simpa using hlow)
        (fun l hl => hsort l (by simp [hl])) (fun l hl => hne l (by simp [hl])) htlv f
        (by simp only [List.length_append, List.length_singleton] at hfuel; omega)
    refine ⟨par, Upar, preP, postP, n2, ?_, hfp, ?_⟩
    · have : ((xs ++ [lv]) ++ [cur]).headD [] = (xs ++ [lv]).headD [] := by
        cases xs <;> rfl
      rw [this]
      exact htp
    · obtain ⟨b1, hr, hu⟩ := read_unpin hfile
      rw [← searchGE_eq] at hchild
      simp only [findParentNodeLoopGE, hr, hu, Page.asNonLeaf, hchild, hchne, if_false]
      exact hloop

/-- The key that a split pushes up is not among the bounds of the level as the level
above still sees it. -/
theorem pending_fresh {pre post : List Entry} {q r : Nat} {U : Option Int} {push : Int}
    (h : LevelSorted (pre ++ (q, some push) :: (r, U) :: post)) :
    ∀ e ∈ pre ++ (q, U) :: post, e.2 ≠ some push := by
  unfold LevelSorted at h
  simp only [List.map_append, List.map_cons, List.pairwise_append, List.pairwise_cons,
    List.mem_cons, List.mem_map] at h
  obtain ⟨-, ⟨h2, -, -⟩, h5⟩ := h
  intro e he hc
  rcases List.mem_append.mp he with hm | hm
  · have := h5 _ ⟨e, hm, rfl⟩ _ (Or.inl rfl)
    rw [hc] at this
    simp [ltBB] at this
  · rcases List.mem_cons.mp hm with rfl | hm
    · have := h2 _ (Or.inl rfl)
      simp only at hc
      rw [hc] at this
      simp [ltBB] at this
    · have := h2 _ (Or.inr ⟨e, hm, rfl⟩)
      rw [hc] at this
      simp [ltBB] at this

/-- The parent of a node that was just split, as `parentSite` finds it, is also what
the search with `>=` returns, with the same position. -/
theorem parentSite_GE {c : Consts} {b : BufMgr} {lows : List (List Entry)} {pre post : List Entry}
    {left right : Nat} {push : Int} {U : Option Int} {lvP : List Entry}
    {ups : List (List Entry)} {kvs : List (Int × RecordId)}
    (hs : Shape c b lows (pre ++ (left, some push) :: (right, U) :: post)
      (pre ++ (left, U) :: post) (lvP :: ups) kvs) :
    ∃ P UP preP postP n lpre seg lpost,
      ParentSite c b (if lows = [] then 1 else 0) pre left push U post lvP P UP preP postP n
        lpre seg lpost ∧
      push ∉ n.keyArray ∧
      findParentNodeGE b left push =
        some ((P, searchGT n.keyArray push, n.keyArray.length), b) := by
  obtain ⟨h, hfile, hlast, hroot⟩ := hs.hdr
  have hcur := (hs.levels (pre ++ (left, some push) :: (right, U) :: post) (by simp)).1
  have htc := pending_target hcur
  have hsc := (LevelSorted_unsplit hcur).1
  have hfresh := pending_fresh hcur
  obtain ⟨hlowsne, -, -, hupsne⟩ := nodup_site hs.nodup
  rw [List.getLast?_cons_cons] at hlast
  obtain ⟨mids, hmids⟩ := List.getLast?_eq_some_iff.mp hlast
  have hlinks := hs.linksUp
  rw [hmids] at hlinks
  have hmem : ∀ lv ∈ mids, lv ∈ lvP :: ups := by
    intro lv hlv
    rw [hmids]
    exact List.mem_append_left _ hlv
  have hrootmem : [(h.rootPageNo, (none : Option Int))] ∈ lvP :: ups := by
    rw [hmids]
    simp
  have hrootne : left ≠ h.rootPageNo := by
    intro e
    exact hupsne _ hrootmem (h.rootPageNo, none) (by simp) e.symm
  obtain ⟨P, UP, preP, postP, htP, hpath⟩ :=
    parentPath_exists c b push _ pre post left U htc hsc mids [(h.rootPageNo, none)] [] []
      h.rootPageNo none _ hlinks
      (fun lv hlv => (hs.levels lv (List.mem_append_right _
        (List.mem_cons_of_mem _ (hmem lv hlv)))).1)
      (fun lv hlv => hupsne lv (hmem lv hlv))
      ⟨rfl, by simp, by simp [belowB]⟩
  have hhead : (mids ++ [[(h.rootPageNo, (none : Option Int))]]).headD [] = lvP := by
    rw [← hmids]
    rfl
  rw [hhead] at htP
  have hlink : Link c b (if lows = [] then 1 else 0) lvP (pre ++ (left, U) :: post) := by
    have := hs.linksUp
    simp only [Links] at this
    have h1 := this.1
    by_cases hl : lows = []
    · simpa [hl] using h1
    · simpa [hl] using h1
  obtain ⟨hlvP, hpreP, hUP⟩ := htP
  obtain ⟨n, lpre, seg, lpost, child, Uc, hnf, hlvl, hsize, hfst, hsnd, hlo, hlpre, hlpost,
    hchild, hseg, hbel, hUc⟩ :=
    descent_step (fun k => decide (k ≤ push)) (mono_le push) hlink hsc hlvP hpreP hUP
  have htc2 : Target (fun k => decide (k ≤ push)) (pre ++ (left, U) :: post)
      (lpre ++ seg.take (searchP (fun k => decide (k ≤ push)) n.keyArray)) child Uc
      (seg.drop (searchP (fun k => decide (k ≤ push)) n.keyArray + 1) ++ lpost) := by
    refine ⟨?_, hbel, hUc⟩
    rw [hlo]
    conv_lhs => rw [seg_split hseg]
    simp
  obtain ⟨e1, e2, e3, e4⟩ := Target_unique htc2 htc
  subst e2 e3
  rw [← searchGT_eq] at e1 e4 hseg
  have hk : mids.length + 1 ≤ b.numPages + 1 := by
    have := hs.height_le
    have h2 : (lvP :: ups).length = mids.length + 1 := by rw [hmids]; simp
    simp only [List.length_append, List.length_cons] at this h2
    omega
  -- the key pushed up is not a key of the parent
  have hnotin : push ∉ n.keyArray := by
    intro hin
    have h1 : some push ∈ seg.map Prod.snd := by
      rw [hsnd]
      exact List.mem_append_left _ (List.mem_map.mpr ⟨push, hin, rfl⟩)
    obtain ⟨x, hx, hx2⟩ := List.mem_map.mp h1
    have hxc : x ∈ pre ++ (child, Uc) :: post := by
      rw [hlo]
      simp [hx]
    exact hfresh x hxc hx2
  -- the search with `>=` on the levels above
  have htcLT : Target (fun k => decide (k < push)) (pre ++ (child, Uc) :: post) pre child Uc
      post := by
    refine ⟨rfl, ?_, ?_⟩
    · intro e he
      have h1 := htc.2.1 e he
      have h2 := hfresh e (by simp [he])
      cases hu : e.2 with
      | none => rw [hu] at h1; exact h1.elim
      | some x =>
        rw [hu] at h1 h2
        simp only [belowB, decide_eq_true_eq] at h1 ⊢
        have : x ≠ push := fun e => h2 (by rw [e])
        omega
    · intro hb
      apply htc.2.2
      cases hu : Uc with
      | none => rw [hu] at hb; exact hb.elim
      | some x =>
        rw [hu] at hb
        simp only [belowB, decide_eq_true_eq] at hb ⊢
        omega
  obtain ⟨par, Upar, preP2, postP2, n2, htP2, hfp2, hloop⟩ :=
    parentGE_exists c b push _ pre post child Uc htcLT hsc mids [(h.rootPageNo, none)] [] []
      h.rootPageNo none _ hlinks
      (fun lv hlv => (hs.levels lv (List.mem_append_right _
        (List.mem_cons_of_mem _ (hmem lv hlv)))).1)
      (fun lv hlv => hupsne lv (hmem lv hlv))
      ⟨rfl, by simp, by simp [belowB]⟩ (b.numPages + 1) hk
  rw [hhead] at htP2
  have htPLT : Target (fun k => decide (k < push)) lvP preP P UP postP := by
    refine ⟨hlvP, ?_, ?_⟩
    · intro e he
      have h1 := hpreP e he
      have hmemlo : e.2 ∈ (pre ++ (child, Uc) :: post).map Prod.snd :=
        Link_bound_mem hlink e (by rw [hlvP]; simp [he])
      obtain ⟨x, hx, hx2⟩ := List.mem_map.mp hmemlo
      have h2 := hfresh x hx
      rw [hx2] at h2
      cases hu : e.2 with
      | none => rw [hu] at h1; exact h1.elim
      | some y =>
        rw [hu] at h1 h2
        simp only [belowB, decide_eq_true_eq] at h1 ⊢
        have : y ≠ push := fun e => h2 (by rw [e])
        omega
    · intro hb
      apply hUP
      cases hu : UP with
      | none => rw [hu] at hb; exact hb.elim
      | some x =>
        rw [hu] at hb
        simp only [belowB, decide_eq_true_eq] at hb ⊢
        omega
  obtain ⟨-, hpar, -, -⟩ := Target_unique htP2 htPLT
  subst hpar
  rw [hnf] at hfp2
  injection hfp2 with hfp2
  injection hfp2 with hfp2
  subst hfp2
  refine ⟨par, UP, preP, postP, n, lpre, seg, lpost,
    ⟨hlvP, hnf, hlvl, hsize, hfst, hsnd, e1.symm, e4.symm, hseg, hlpre, hlpost,
      findParentNode_spec hfile hrootne hpath hk hnf⟩, hnotin, ?_⟩
  obtain ⟨b1, hr, hu⟩ := read_unpin hfile
  simp only [findParentNodeGE, hr, hu, Page.asMeta, hrootne, if_false]
  rw [hloop, searchGE_eq_searchGT hnotin]

/-! ## The calls of `findParentNode` during an insert -/

theorem findParentNodeLoop_reach (child : Nat) (key : Int) :
    ∀ (fuel : Nat) (s : BufMgr) (t : Nat) (r : PageId × Nat × Nat) (s1 : BufMgr),
      findParentNodeLoop fuel s t child key = some (r, s1) → Reach s t r.1 := by
  intro fuel
  induction fuel with
  | zero => intro s t r s1 h; cases h
  | succ f ih =>
    intro s t r s1 h
    unfold findParentNodeLoop at h
    split at h
    · cases h
    · rename_i pg b1 hr
      split at h
      · cases h
      · rename_i b2 hu
        have e2 := read_unpin_eq hr hu
        subst e2
        obtain ⟨hfile, -⟩ := readPage_spec hr
        split at h
        · cases h
        · rename_i n hn
          have hpg := asNonLeaf_eq hn
          subst hpg
          split at h
          · cases h
          · rename_i ch hch
            split at h
            · injection h with h
              injection h with h1 h2
              subst h1
              exact Reach.here _
            · exact Reach.down hfile (List.getElem?_mem hch) (ih _ _ _ _ h)

theorem findParentNode_inTree {s s1 : BufMgr} {child : Nat} {key : Int} {r : PageId × Nat × Nat}
    {hd : IndexMetaInfo} (h : findParentNode s child key = some (r, s1))
    (hfile : s.file headerPageNum = some (Page.header hd)) (hne : child ≠ hd.rootPageNo) :
    InTree s r.1 := by
  obtain ⟨b1, hr, hu⟩ := read_unpin hfile
  simp only [findParentNode, hr, hu, Page.asMeta, hne, if_false] at h
  exact ⟨hd, hfile, findParentNodeLoop_reach child key _ _ _ _ _ h⟩

/-- The push-up loop of `insertEntry`, started with a split pending on the level
`cur`: it returns and leaves a well-formed tree; either the header page is as it was
and the tree has as many levels as before, or the root was replaced and the tree has
one level more. The loop makes at most one call of `findParentNode` for the level
`cur` and each level above, and every call returns what `ParentCall` says. -/
theorem insertEntryLoop_trace (c : Consts) (hN : 1 ≤ c.INTARRAYNONLEAFSIZE) (leaf_num : Nat)
    (kvs : List (Int × RecordId)) :
    ∀ (ups lows : List (List Entry)) (pre post : List Entry) (left right : Nat) (push : Int)
      (U : Option Int) (b : BufMgr) (fuel : Nat),
      Shape c b lows (pre ++ (left, some push) :: (right, U) :: post)
        (pre ++ (left, U) :: post) ups kvs →
      (lows = [] → left = leaf_num) →
      (lows ≠ [] → leaf_num ∈ (lows.headD []).map Prod.fst) →
      ups.length + 1 ≤ fuel →
      ∃ b2 ups2, insertEntryLoop c fuel b leaf_num left right push = some b2 ∧
        Inv c b2 (lows ++ (pre ++ (left, some push) :: (right, U) :: post) :: ups2) kvs ∧
        ((ups2.length = ups.length ∧ b2.file headerPageNum = b.file headerPageNum) ∨
          (ups2.length = ups.length + 1 ∧
            ∃ hd, b.file headerPageNum = some (Page.header hd) ∧
              b2.file headerPageNum =
                some (Page.header { hd with rootPageNo := b2.numPages }) ∧
              hd.rootPageNo < b2.numPages)) ∧
        pushUpCalls c fuel b left right push ≠ [] ∧
        (pushUpCalls c fuel b left right push).length ≤ ups.length + 1 ∧
        ∀ call ∈ pushUpCalls c fuel b left right push, ParentCall call.1 call.2.1 call.2.2 := by
  intro ups
  induction ups with
  | nil =>
    intro lows pre post left right push U b fuel hs hl1 hl2 hfuel
    obtain ⟨rfl, rfl, rfl⟩ := pending_top hs
    simp only [List.nil_append] at hs
    obtain ⟨f, rfl⟩ : ∃ f, fuel = f + 1 := ⟨fuel - 1, by omega⟩
    have hleaf : left = leaf_num ↔ lows = [] := by
      constructor
      · intro e
        by_contra hne
        have hmem := hl2 hne
        obtain ⟨x, hx, hx1⟩ := List.mem_map.mp hmem
        have hnd := hs.nodup
        have hrw : lows ++ [(left, some push), (right, none)] :: [] =
            lows ++ ([] ++ (left, some push) :: [(right, none)]) :: [] := by simp
        rw [hrw] at hnd
        obtain ⟨h1, -, -, -⟩ := nodup_site hnd
        have hhead : lows.headD [] ∈ lows := by
          cases lows with
          | nil => exact absurd rfl hne
          | cons y ys => simp
        exact h1 _ hhead x hx (hx1.trans e.symm)
      · exact hl1
    obtain ⟨h, hf, hroot, hn1, hs2⟩ := root_split hN hs leaf_num hleaf
    have hrun := insertEntryLoop_root (c := c) f leaf_num right push hf hn1
    have hleft := hs.range left (@mem_pagesOf _ [(left, some push), (right, none)]
      (left, some push) (by simp) (by simp))
    have hfp := findParentNode_root (b := b) push hf
    have hfpGE := findParentNodeGE_root (b := b) push hf
    rw [hroot] at hrun hs2 hfp hfpGE
    have hcalls : pushUpCalls c (f + 1) b left right push = [(b, left, push)] := by
      simp only [pushUpCalls, hfp, if_true]
    refine ⟨_, [[(b.numPages + 1, none)]], hrun, ?_, Or.inr ⟨rfl, h, hf, ?_, ?_⟩, ?_, ?_, ?_⟩
    · have := hs2.toInv
      simpa using this
    · show Function.update (Function.update b.file headerPageNum _) (b.numPages + 1) _ _ = _
      rw [Function.update_noteq hn1, Function.update_same]
    · show h.rootPageNo < b.numPages + 1
      rw [hroot]
      exact Nat.lt_succ_of_le hleft.2
    · rw [hcalls]
      simp
    · rw [hcalls]
      simp
    · rw [hcalls]
      intro call hcall
      simp only [List.mem_singleton] at hcall
      subst hcall
      exact ⟨h, hf, Or.inl ⟨hroot.symm, hfp, hfpGE⟩⟩
  | cons lvP ups ih =>
    intro lows pre post left right push U b fuel hs hl1 hl2 hfuel
    obtain ⟨f, rfl⟩ : ∃ f, fuel = f + 1 := ⟨fuel - 1, by omega⟩
    obtain ⟨P, UP, preP, postP, n, lpre, seg, lpost, site, hnotin, hGE⟩ := parentSite_GE hs
    have hlvP := site.hlvP
    subst hlvP
    obtain ⟨hd, hhd, hlast, -⟩ := hs.hdr
    have hrootne : left ≠ hd.rootPageNo := by
      obtain ⟨-, -, -, hupsne⟩ := nodup_site hs.nodup
      rw [List.getLast?_cons_cons] at hlast
      obtain ⟨mids, hmids⟩ := List.getLast?_eq_some_iff.mp hlast
      have hrootmem : [(hd.rootPageNo, (none : Option Int))] ∈ (preP ++ (P, UP) :: postP) :: ups := by
        rw [hmids]
        simp
      intro e
      exact hupsne _ hrootmem (hd.rootPageNo, none) (by simp) e.symm
    have hPr := hs.range P (@mem_pagesOf _ (preP ++ (P, UP) :: postP)
      (P, UP) (by simp) (by simp))
    have hP2 : 2 ≤ P := hPr.1
    have hPne : ¬ P = INVALID_NUMBER := by
      unfold INVALID_NUMBER
      omega
    have hPh : P ≠ headerPageNum := by
      unfold headerPageNum
      omega
    have hplace : n.pageNoArray[searchGT n.keyArray push]? = some left := by
      rw [← site.fst, List.getElem?_map, site.place]
      rfl
    have hcall : ParentCall b left push :=
      ⟨hd, hhd, Or.inr ⟨hrootne, P, n, hPne, findParentNode_inTree site.found hhd hrootne,
        site.file, hplace, hnotin, site.found, hGE⟩⟩
    by_cases hlen : n.keyArray.length < c.INTARRAYNONLEAFSIZE
    · have hmod := modifyNonLeafNode_nosplit (c := c) push left right
        (searchGT n.keyArray push) site.file hlen
      have hcalls : pushUpCalls c (f + 1) b left right push = [(b, left, push)] := by
        simp only [pushUpCalls, site.found, hPne, if_false, hmod, if_true]
      refine ⟨_, (preP ++ (P, UP) :: postP) :: ups, ?_,
        (nonleaf_insert_nosplit hs site hlen).toInv, Or.inl ⟨rfl, ?_⟩, ?_, ?_, ?_⟩
      · simp only [insertEntryLoop, site.found, hPne, if_false, hmod, if_true]
      · show Function.update b.file P _ _ = _
        rw [Function.update_noteq (Ne.symm hPh)]
      · rw [hcalls]
        simp
      · rw [hcalls]
        simp
      · rw [hcalls]
        intro call hc
        simp only [List.mem_singleton] at hc
        subst hc
        exact hcall
    · obtain ⟨push2, hget, hPn, hklen, hclen, hipos, hs2⟩ := nonleaf_insert_split hs site hlen
      have hmod := modifyNonLeafNode_split (c := c) push left right
        (searchGT n.keyArray push) site.file hlen hPn hklen hclen hipos hget
      have hrne : ¬ b.numPages + 1 = INVALID_NUMBER := by
        unfold INVALID_NUMBER
        omega
      have hh1 : headerPageNum ≠ b.numPages + 1 := header_ne_of_two_le (by omega)
      obtain ⟨b2, ups2, hrun, hinv, hlev, -, hcl, hcok⟩ :=
        ih (lows ++ [pre ++ (left, some push) :: (right, U) :: post])
        preP postP P (b.numPages + 1) push2 UP _ f hs2 (fun e => absurd e (by simp))
        (fun _ => by
          by_cases hlw : lows = []
          · subst hlw
            rw [← hl1 rfl]
            simp
          · have := hl2 hlw
            cases lows with
            | nil => exact absurd rfl hlw
            | cons y ys => simpa using this)
        (by simp only [List.length_cons] at hfuel; omega)
      have hcalls : pushUpCalls c (f + 1) b left right push = (b, left, push) ::
          pushUpCalls c f
            { file := Function.update (Function.update b.file P (some (Page.nonLeaf
                  { level := n.level
                    keyArray := (insertAt n.keyArray (searchGT n.keyArray push) push).take
                      c.MIDDLENONLEAF
                    pageNoArray := (insertChildren n.pageNoArray (searchGT n.keyArray push) left
                      right).take (c.MIDDLENONLEAF + 1) })))
                (b.numPages + 1) (some (Page.nonLeaf
                  { level := n.level
                    keyArray := (insertAt n.keyArray (searchGT n.keyArray push) push).drop
                      (c.MIDDLENONLEAF + 1)
                    pageNoArray := (insertChildren n.pageNoArray (searchGT n.keyArray push) left
                      right).drop (c.MIDDLENONLEAF + 1) }))
              numPages := b.numPages + 1
              pinCnt := b.pinCnt } P (b.numPages + 1) push2 := by
        simp only [pushUpCalls, site.found, hPne, if_false, hmod, hrne]
      have hhdr2 : Function.update (Function.update b.file P (some (Page.nonLeaf
            { level := n.level
              keyArray := (insertAt n.keyArray (searchGT n.keyArray push) push).take
                c.MIDDLENONLEAF
              pageNoArray := (insertChildren n.pageNoArray (searchGT n.keyArray push) left
                right).take (c.MIDDLENONLEAF + 1) })))
          (b.numPages + 1) (some (Page.nonLeaf
            { level := n.level
              keyArray := (insertAt n.keyArray (searchGT n.keyArray push) push).drop
                (c.MIDDLENONLEAF + 1)
              pageNoArray := (insertChildren n.pageNoArray (searchGT n.keyArray push) left
                right).drop (c.MIDDLENONLEAF + 1) })) headerPageNum = b.file headerPageNum := by
        rw [Function.update_noteq hh1, Function.update_noteq (Ne.symm hPh)]
      refine ⟨b2, (preP ++ (P, some push2) :: (b.numPages + 1, UP) :: postP) :: ups2, ?_, ?_,
        ?_, ?_, ?_, ?_⟩
      · simp only [insertEntryLoop, site.found, hPne, if_false, hmod, hrne]
        exact hrun
      · simpa using hinv
      · rcases hlev with ⟨h1, h2⟩ | ⟨h1, hd2, h2, h3, h4⟩
        · refine Or.inl ⟨by simp [h1], ?_⟩
          rw [h2]
          exact hhdr2
        · refine Or.inr ⟨by simp [h1], hd2, ?_, h3, h4⟩
          rw [← hhdr2]
          exact h2
      · rw [hcalls]
        simp
      · rw [hcalls]
        simp only [List.length_cons]
        omega
      · rw [hcalls]
        intro call hc
        rcases List.mem_cons.mp hc with rfl | hc
        · exact hcall
        · exact hcok call hc

/-- An insert of a new key into a well-formed tree, with the calls of `findParentNode`
it makes: it returns and leaves a well-formed tree with the new pair; either the
header page is as it was and the tree has as many levels as before, or the root was
replaced and the tree has one level more; there are at most as many calls as the
tree has levels, and every call returns what `ParentCall` says. -/
theorem Inv.insertEntry_trace {c : Consts} {b : BufMgr} {lv0 : List Entry}
    {ups : List (List Entry)} {kvs : List (Int × RecordId)} (hL : 1 ≤ c.INTARRAYLEAFSIZE)
    (hN : 1 ≤ c.INTARRAYNONLEAFSIZE) (hinv : Inv c b (lv0 :: ups) kvs) (key : Int)
    (rid : RecordId) (hkey : key ∉ kvs.map Prod.fst) :
    ∃ b2 lv2 ups2 kvs2, insertEntry c b key rid = some b2 ∧ Inv c b2 (lv2 :: ups2) kvs2 ∧
      kvs2.Perm ((key, rid) :: kvs) ∧
      ((ups2.length = ups.length ∧ b2.file headerPageNum = b.file headerPageNum) ∨
        (ups2.length = ups.length + 1 ∧
          ∃ hd, b.file headerPageNum = some (Page.header hd) ∧
            b2.file headerPageNum = some (Page.header { hd with rootPageNo := b2.numPages }) ∧
            hd.rootPageNo < b2.numPages)) ∧
      (findParentCalls c b key rid).length ≤ ups.length + 1 ∧
      (∀ call ∈ findParentCalls c b key rid, ParentCall call.1 call.2.1 call.2.2) ∧
      ∃ q l, findLeafNode b key = some ((q, searchGE l.keyArray key, l.keyArray.length), b) ∧
        b.file q = some (Page.leaf l) ∧
        (l.keyArray.length < c.INTARRAYLEAFSIZE → findParentCalls c b key rid = []) ∧
        (¬ l.keyArray.length < c.INTARRAYLEAFSIZE → findParentCalls c b key rid ≠ []) := by
  obtain ⟨lv0', ups', hG, hs⟩ := id hinv
  injection hG with hG1 hG2
  subst hG1 hG2
  obtain ⟨h, pre, q, Uq, post, l, hfile, ht, hq, hcase⟩ := hinv.descend key
  have hfl := findLeafNode_spec hfile hq hcase
  have hlv0 := ht.1
  have hqr := hs.range q (@mem_pagesOf _ lv0 (q, Uq) (by simp) (by rw [hlv0]; simp))
  have hq2 : 2 ≤ q := hqr.1
  have hqh : q ≠ headerPageNum := by
    unfold headerPageNum
    omega
  by_cases hlen : l.keyArray.length < c.INTARRAYLEAFSIZE
  · obtain ⟨kvs2, hperm, hs2⟩ := leaf_insert_nosplit hs rid ht hq hkey hlen
    have hmod := modifyLeafNode_nosplit (c := c) key rid (searchGE l.keyArray key) hq hlen
    have hcalls : findParentCalls c b key rid = [] := by
      simp only [findParentCalls, hfl, hmod, if_true]
    refine ⟨_, lv0, ups, kvs2, ?_, ⟨lv0, ups, rfl, hs2⟩, hperm, Or.inl ⟨rfl, ?_⟩, ?_, ?_,
      q, l, hfl, hq, fun _ => hcalls, fun hc => absurd hlen hc⟩
    · simp only [insertEntry, hfl, hmod, if_true]
    · show Function.update b.file q _ _ = _
      rw [Function.update_noteq (Ne.symm hqh)]
    · rw [hcalls]
      simp
    · rw [hcalls]
      intro call hc
      cases hc
  · obtain ⟨push, kvs2, hget, hqn, hklen, hrlen, hperm, hs2⟩ :=
      leaf_insert_split hL hs rid ht hq hkey hlen
    have hmod := modifyLeafNode_split_full (c := c) key rid (searchGE l.keyArray key) hq hlen hqn
      hklen hrlen hget
    have hrne : ¬ b.numPages + 1 = INVALID_NUMBER := by
      unfold INVALID_NUMBER
      omega
    subst hlv0
    obtain ⟨b1, hb1⟩ : ∃ b1 : BufMgr, b1 =
        { file := Function.update (Function.update b.file q (some (Page.leaf
              { keyArray := (insertAt l.keyArray (searchGE l.keyArray key) key).take
                  (c.MIDDLELEAF + 1)
                ridArray := (insertAt l.ridArray (searchGE l.keyArray key) rid).take
                  (c.MIDDLELEAF + 1)
                rightSibPageNo := b.numPages + 1 })))
            (b.numPages + 1) (some (Page.leaf
              { keyArray := (insertAt l.keyArray (searchGE l.keyArray key) key).drop
                  (c.MIDDLELEAF + 1)
                ridArray := (insertAt l.ridArray (searchGE l.keyArray key) rid).drop
                  (c.MIDDLELEAF + 1)
                rightSibPageNo := l.rightSibPageNo }))
          numPages := b.numPages + 1
          pinCnt := b.pinCnt } := ⟨_, rfl⟩
    rw [← hb1] at hs2 hmod
    have hb1n : b1.numPages = b.numPages + 1 := by rw [hb1]
    have hh1 : headerPageNum ≠ b.numPages + 1 := header_ne_of_two_le (by omega)
    have hb1h : b1.file headerPageNum = b.file headerPageNum := by
      rw [hb1]
      show Function.update (Function.update b.file q _) (b.numPages + 1) _ _ = _
      rw [Function.update_noteq hh1, Function.update_noteq (Ne.symm hqh)]
    have hheight := hs2.height_le
    obtain ⟨b2, ups2, hrun, hinv2, hlev, hcne, hcl, hcok⟩ :=
      insertEntryLoop_trace c hN q kvs2 ups [] pre post q
      (b.numPages + 1) push Uq b1 (b.numPages + 1 + 1) hs2 (fun _ => rfl)
      (fun e => absurd rfl e) (by
        simp only [List.nil_append, List.length_cons, hb1n] at hheight
        exact hheight)
    have hcalls : findParentCalls c b key rid =
        pushUpCalls c (b.numPages + 1 + 1) b1 q (b.numPages + 1) push := by
      simp only [findParentCalls, hfl, hmod, hrne, if_false, hb1n]
    refine ⟨b2, _, ups2, kvs2, ?_, by simpa using hinv2, hperm, ?_, ?_, ?_,
      q, l, hfl, hq, fun hc => absurd hc hlen, fun _ => ?_⟩
    · simp only [insertEntry, hfl, hmod, hrne, if_false, hb1n]
      exact hrun
    · rcases hlev with ⟨h1, h2⟩ | ⟨h1, hd2, h2, h3, h4⟩
      · exact Or.inl ⟨h1, h2.trans hb1h⟩
      · exact Or.inr ⟨h1, hd2, hb1h ▸ h2, h3, h4⟩
    · rw [hcalls]
      exact hcl
    · rw [hcalls]
      exact hcok
    · rw [hcalls]
      exact hcne

/-! ## The height of a well-formed tree -/

theorem LeafPath.reachIn {b : BufMgr} {key : Int} {k p q : Nat} (h : LeafPath b key k p q) :
    ReachIn b k p q := by
  induction h with
  | last hp _ hc => exact ReachIn.down hp (List.getElem?_mem hc) (ReachIn.here _)
  | step hp _ hc _ ih => exact ReachIn.down hp (List.getElem?_mem hc) ih

/-- A page that lies `d` levels below an entry of the level `j` is an entry of the
level `j - d`. -/
theorem Inv.reachIn_level {c : Consts} {b : BufMgr} {G : List (List Entry)}
    {kvs : List (Int × RecordId)} (hinv : Inv c b G kvs) {d p q : Nat}
    (hreach : ReachIn b d p q) :
    ∀ (j : Nat) (lv : List Entry) (e : Entry), G[j]? = some lv → e ∈ lv → e.1 = p →
      d ≤ j ∧ ∃ (pre post : List Entry) (e2 : Entry),
        G[j - d]? = some (pre ++ e2 :: post) ∧ e2.1 = q := by
  induction hreach with
  | here p =>
    intro j lv e hj he hp
    obtain ⟨pre, post, rfl⟩ := List.append_of_mem he
    exact ⟨Nat.zero_le _, pre, post, e, hj, hp⟩
  | down hfile hch _ ih =>
    intro j lv e hj he hp
    obtain ⟨pre, post, rfl⟩ := List.append_of_mem he
    cases j with
    | zero =>
      obtain ⟨l0, hf0, -⟩ := hinv.leaf_at hj
      rw [hp, hfile] at hf0
      cases hf0
    | succ j =>
      obtain ⟨lpre, seg, lpost, hlo, -, hnode, -⟩ := hinv.node_at hj
      obtain ⟨n, hfn, -, -, hfst, -⟩ := hnode
      rw [hp, hfile] at hfn
      injection hfn with hfn
      injection hfn with hfn
      subst hfn
      rw [← hfst] at hch
      obtain ⟨ec, hec, hec1⟩ := List.mem_map.mp hch
      obtain ⟨hle, pre2, post2, e2, hg, he2⟩ := ih j _ ec hlo (by simp [hec]) hec1
      refine ⟨by omega, pre2, post2, e2, ?_, he2⟩
      rw [Nat.add_sub_add_right]
      exact hg

/-- The descent for a key in a well-formed tree reads one internal node for every
level above the leaves. -/
theorem Inv.descend_exact {c : Consts} {b : BufMgr} {lv0 : List Entry}
    {ups : List (List Entry)} {kvs : List (Int × RecordId)} (hinv : Inv c b (lv0 :: ups) kvs)
    (key : Int) :
    ∃ h q l, b.file headerPageNum = some (Page.header h) ∧
      b.file q = some (Page.leaf l) ∧
      ((ups = [] ∧ h.rootPageNo = 2 ∧ q = 2) ∨
        (ups ≠ [] ∧ h.rootPageNo ≠ 2 ∧ LeafPath b key ups.length h.rootPageNo q)) := by
  obtain ⟨lv0', ups', hG, hs⟩ := hinv
  injection hG with h1 h2
  subst h1 h2
  obtain ⟨h, hfile, hlast, hroot⟩ := hs.hdr
  have hchain : Chain c b false lv0 INVALID_NUMBER kvs := by simpa using hs.chain
  by_cases hups : ups = []
  · subst hups
    have hr2 : h.rootPageNo = 2 := hroot.mpr ⟨rfl, rfl⟩
    simp only [List.getLast?_singleton, Option.some.injEq] at hlast
    obtain ⟨l, hl⟩ := Chain_leaf hchain (h.rootPageNo, none) (by rw [hlast]; simp)
    exact ⟨h, h.rootPageNo, l, hfile, hl, Or.inl ⟨rfl, hr2, hr2⟩⟩
  · have hr2 : h.rootPageNo ≠ 2 := fun e => hups (hroot.mp e).2
    obtain ⟨ys, hys⟩ := List.getLast?_eq_some_iff.mp hlast
    have hlinks : Links c b true (lv0 :: ups) := by simpa using hs.linksUp
    cases ys with
    | nil =>
      exfalso
      simp only [List.nil_append] at hys
      injection hys with _ h2
      exact hups h2
    | cons y ys2 =>
      simp only [List.cons_append] at hys
      injection hys with h1 h2
      subst h1
      have hlinks2 : Links c b true ((lv0 :: ys2) ++ [[(h.rootPageNo, none)]]) := by
        rw [h2] at hlinks
        simpa using hlinks
      have hsort : ∀ lv ∈ lv0 :: ys2, LevelSorted lv := by
        intro lv hlv
        apply (hs.levels lv _).1
        rw [h2]
        simp only [List.nil_append, List.mem_cons, List.mem_append] at hlv ⊢
        tauto
      obtain ⟨q, Uq, pre0, post0, h0, hb0, hU0, hpath⟩ :=
        leafPath_exists c b key (lv0 :: ys2) [(h.rootPageNo, none)] [] [] h.rootPageNo none
          (by simp) hlinks2 hsort rfl (by simp) (by simp [belowB])
      simp only [List.headD_cons] at h0
      obtain ⟨l, hl⟩ := Chain_leaf hchain (q, Uq) (by rw [h0]; simp)
      refine ⟨h, q, l, hfile, hl, Or.inr ⟨hups, hr2, ?_⟩⟩
      have hlen : ups.length = (lv0 :: ys2).length := by
        rw [h2]
        simp
      rw [hlen]
      exact hpath

/-- A well-formed tree with the levels `lv0 :: ups` has the height `ups.length`. -/
theorem Inv.height {c : Consts} {b : BufMgr} {lv0 : List Entry} {ups : List (List Entry)}
    {kvs : List (Int × RecordId)} (hinv : Inv c b (lv0 :: ups) kvs) :
    Height b ups.length := by
  obtain ⟨h, q, l, hfile, hq, hcase⟩ := hinv.descend_exact 0
  refine ⟨h, hfile, ?_, ?_⟩
  · rcases hcase with ⟨hu, hr, hq2⟩ | ⟨-, -, hpath⟩
    · subst hu
      refine ⟨h.rootPageNo, l, ReachIn.here _, ?_⟩
      rw [hr, ← hq2]
      exact hq
    · exact ⟨q, l, hpath.reachIn, hq⟩
  · intro d q2 l2 hreach hq2
    obtain ⟨-, -, -, h2, hf2, hroot, -⟩ := hinv.level
    rw [hfile] at hf2
    injection hf2 with hf2
    injection hf2 with hf2
    subst hf2
    obtain ⟨hle, pre, post, e2, hg, he2⟩ :=
      hinv.reachIn_level hreach _ _ (h.rootPageNo, none) hroot (by simp) rfl
    simp only [List.length_cons, Nat.add_sub_cancel] at hle hg
    cases hj : ups.length - d with
    | zero => omega
    | succ j =>
      rw [hj] at hg
      obtain ⟨_, _, _, -, -, ⟨n, hn, -⟩, -⟩ := hinv.node_at hg
      rw [he2, hq2] at hn
      cases hn

theorem Height.unique {b : BufMgr} {H H2 : Nat} (h : Height b H) (h2 : Height b H2) :
    H = H2 := by
  obtain ⟨hd, hf, ⟨q, l, hr, hq⟩, -⟩ := h
  obtain ⟨hd2, hf2, -, hall⟩ := h2
  rw [hf] at hf2
  injection hf2 with hf2
  injection hf2 with hf2
  subst hf2
  exact hall H q l hr hq

/-! ## The descents return after one node per level -/

/-- On a well-formed tree with the levels `lv0 :: ups`, `findLeafNode` and
`findScanPage` return for every argument, and when the root is an internal node their
loops return within `ups.length` rounds: one round for every level above the
leaves. -/
theorem Inv.descents_return {c : Consts} {b : BufMgr} {lv0 : List Entry}
    {ups : List (List Entry)} {kvs : List (Int × RecordId)} (hinv : Inv c b (lv0 :: ups) kvs)
    {hd : IndexMetaInfo} (hhd : b.file headerPageNum = some (Page.header hd)) :
    (∀ key, ∃ r, findLeafNode b key = some (r, b) ∧
      (hd.rootPageNo ≠ 2 →
        findLeafNodeLoop ups.length b hd.rootPageNo key = some (r, b))) ∧
    (∀ lo hi, ∃ r, findScanPage b lo hi = some (r, b) ∧
      (lo ≤ hi → hd.rootPageNo ≠ 2 →
        findScanPageLoop ups.length b hd.rootPageNo lo hi = some (r, b))) := by
  have hk : ups.length ≤ b.numPages + 1 := by
    obtain ⟨lv0', ups', hG, hs⟩ := id hinv
    injection hG with h1 h2
    subst h1 h2
    have := hs.height_le
    simp only [List.nil_append, List.length_cons] at this
    omega
  constructor
  · intro key
    obtain ⟨h, q, l, hfile, hq, hcase⟩ := hinv.descend_exact key
    rw [hhd] at hfile
    injection hfile with hfile
    injection hfile with hfile
    subst hfile
    rcases hcase with ⟨hu, hr, hq2⟩ | ⟨hu, hr, hpath⟩
    · exact ⟨_, findLeafNode_spec hhd hq (Or.inl ⟨hu, hr, hq2⟩), fun hne => absurd hr hne⟩
    · exact ⟨_, @findLeafNode_spec b key hd q l ups hhd hq (Or.inr ⟨hr, _, hk, hpath⟩),
        fun _ => findLeafNodeLoop_of_path hpath hq _ (le_refl _)⟩
  · intro lo hi
    by_cases hgt : lo > hi
    · refine ⟨(INVALID_NUMBER, -1), ?_, fun hle => absurd hle (by omega)⟩
      simp only [findScanPage, hgt, if_true]
    · obtain ⟨h, q, l, hfile, hq, hcase⟩ := hinv.descend_exact lo
      rw [hhd] at hfile
      injection hfile with hfile
      injection hfile with hfile
      subst hfile
      rcases hcase with ⟨hu, hr, hq2⟩ | ⟨hu, hr, hpath⟩
      · subst hq2
        have hres := findScanPage_rootLeaf lo hi hhd hr hq hgt
        by_cases hs : searchGE l.keyArray lo = l.keyArray.length
        · rw [if_pos hs] at hres
          exact ⟨_, hres, fun _ hne => absurd hr hne⟩
        · rw [if_neg hs] at hres
          exact ⟨_, hres, fun _ hne => absurd hr hne⟩
      · have hres := findScanPage_inner lo hi hhd hr hk hpath hq hgt
        have hloop := findScanPageLoop_of_path hpath hq hi _ (le_refl ups.length)
        by_cases hs : searchGE l.keyArray lo = l.keyArray.length
        · rw [if_pos hs] at hres hloop
          exact ⟨_, hres, fun _ _ => hloop⟩
        · have hlt : searchGE l.keyArray lo < l.keyArray.length := by
            have := searchGE_le l.keyArray lo
            omega
          rw [if_neg hs, List.getElem?_eq_getElem hlt] at hres hloop
          by_cases hk2 : l.keyArray[searchGE l.keyArray lo] > hi
          · simp only [hk2, if_true] at hres hloop
            exact ⟨_, hres, fun _ _ => hloop⟩
          · simp only [hk2, if_false] at hres hloop
            exact ⟨_, hres, fun _ _ => hloop⟩

/-- On an index built from a relation with pairwise distinct keys, every call of
`findParentNode` that an insert of a new key makes returns what `ParentCall` says. -/
theorem buildIndex_calls {c : Consts} (hL : 1 ≤ c.INTARRAYLEAFSIZE)
    (hN : 1 ≤ c.INTARRAYNONLEAFSIZE) (name : String) (off : Int) (ty : Datatype)
    (rel : List (Int × RecordId)) (hnd : (rel.map Prod.fst).Nodup) :
    ∃ b, buildIndex c name off ty rel = some (mkIndex b) ∧
      ∀ key rid, key ∉ rel.map Prod.fst →
        ∀ call ∈ findParentCalls c b key rid, ParentCall call.1 call.2.1 call.2.2 := by
  obtain ⟨b, G, kvs, hbuild, hinv, hperm⟩ := buildIndex_spec hL hN name off ty rel hnd
  refine ⟨b, hbuild, ?_⟩
  intro key rid hkey
  have hkey2 : key ∉ kvs.map Prod.fst := by
    intro hmem
    exact hkey ((hperm.map Prod.fst).mem_iff.mp hmem)
  obtain ⟨lv0, ups, hG, -⟩ := id hinv
  subst hG
  obtain ⟨_, _, _, _, -, -, -, -, -, hcok, -⟩ := hinv.insertEntry_trace hL hN key rid hkey2
  exact hcok

/-! ## Claims on the error surface of the scan interface -/

/-- C7: `startScan` raises `BadOpcodes` exactly when `lowOp` is not one of GT, GTE or
`highOp` is not one of LT, LTE, whatever the bounds and the state of the index (the
pages recorded by a scan in progress being pinned, so that the implicit `endScan`
goes through). -/
theorem startScan_BadOpcodes_iff (s : BTreeIndex) (lo : Int) (lop : Operator) (hi : Int)
    (hop : Operator) (hp : s.scanExecuting = true → PinsHeld s) :
    (startScan s lo lop hi hop).raised = some Exn.BadOpcodes ↔
      (¬ (lop = Operator.GT ∨ lop = Operator.GTE) ∨
        ¬ (hop = Operator.LT ∨ hop = Operator.LTE)) := by
  obtain ⟨s1, h1⟩ := startScan_eq_body s lo lop hi hop hp
  rw [h1]
  obtain ⟨hbad, hrange, hrest⟩ := startScanBody_raised s1 lo lop hi hop
  constructor
  · intro h
    by_contra hc
    have hl : lop = Operator.GT ∨ lop = Operator.GTE := by tauto
    have hh : hop = Operator.LT ∨ hop = Operator.LTE := by tauto
    by_cases hlh : lo > hi
    · rw [hrange hl hh hlh] at h
      cases h
    · exact (hrest hl hh hlh).1 h
  · exact hbad

/-- Witness for C7: on `sampleIndex` with the scan `[2, 5]` in progress,
`startScan(2, LTE, 5, LTE)` raises `BadOpcodes`. -/
theorem startScan_BadOpcodes_iff_witness :
    (sampleScan.scanExecuting = true → PinsHeld sampleScan) ∧
    ((startScan sampleScan 2 Operator.LTE 5 Operator.LTE).raised = some Exn.BadOpcodes ↔
      (¬ (Operator.LTE = Operator.GT ∨ Operator.LTE = Operator.GTE) ∨
        ¬ (Operator.LTE = Operator.LT ∨ Operator.LTE = Operator.LTE))) :=
  ⟨fun _ => (startScan_ok_state sampleIndex 2 Operator.GTE 5 Operator.LTE sampleScan rfl).2,
   startScan_BadOpcodes_iff sampleScan 2 Operator.LTE 5 Operator.LTE
    (fun _ => (startScan_ok_state sampleIndex 2 Operator.GTE 5 Operator.LTE sampleScan rfl).2)⟩

/-- C8: with admissible operators, `startScan` raises `BadScanrange` exactly when the
caller's `low` is greater than the caller's `high` (the bounds before they are
normalised). -/
theorem startScan_BadScanrange_iff (s : BTreeIndex) (lo : Int) (lop : Operator) (hi : Int)
    (hop : Operator) (hp : s.scanExecuting = true → PinsHeld s)
    (hl : lop = Operator.GT ∨ lop = Operator.GTE) (hh : hop = Operator.LT ∨ hop = Operator.LTE) :
    (startScan s lo lop hi hop).raised = some Exn.BadScanrange ↔ lo > hi := by
  obtain ⟨s1, h1⟩ := startScan_eq_body s lo lop hi hop hp
  rw [h1]
  obtain ⟨_, hrange, hrest⟩ := startScanBody_raised s1 lo lop hi hop
  constructor
  · intro h
    by_contra hc
    exact (hrest hl hh hc).2 h
  · exact hrange hl hh

/-- Witness for C8: `startScan(5, GTE, 2, LTE)` on `sampleIndex`. -/
theorem startScan_BadScanrange_iff_witness :
    (startScan sampleIndex 5 Operator.GTE 2 Operator.LTE).raised = some Exn.BadScanrange ↔
      (5 : Int) > 2 :=
  startScan_BadScanrange_iff sampleIndex 5 Operator.GTE 2 Operator.LTE
    (fun h => absurd h (by decide)) (Or.inr rfl) (Or.inr rfl)

/-- C9: `scanNext` and `endScan` raise `ScanNotInitialized` exactly when
`scanExecuting` is false; a freshly constructed index has `scanExecuting = false`, a
`startScan` that returns leaves it true, and an `endScan` that returns leaves it
false. -/
theorem scanNotInitialized_iff :
    (∀ s : BTreeIndex,
      (scanNext s).raised = some Exn.ScanNotInitialized ↔ s.scanExecuting = false) ∧
    (∀ s : BTreeIndex,
      (endScan s).raised = some Exn.ScanNotInitialized ↔ s.scanExecuting = false) ∧
    (∀ (c : Consts) (name : String) (off : Int) (ty : Datatype) (rel : List (Int × RecordId))
      (s : BTreeIndex), buildIndex c name off ty rel = some s → s.scanExecuting = false) ∧
    (∀ (s : BTreeIndex) (lo : Int) (lop : Operator) (hi : Int) (hop : Operator) (s1 : BTreeIndex),
      startScan s lo lop hi hop = Res.ok () s1 → s1.scanExecuting = true) ∧
    (∀ s s1 : BTreeIndex, endScan s = Res.ok () s1 → s1.scanExecuting = false) := by
  refine ⟨?_, ?_, ?_, ?_, ?_⟩
  · intro s
    constructor
    · intro h
      by_contra hx
      unfold scanNext at h
      rw [if_neg hx] at h
      revert h
      repeat' split
      all_goals simp [Res.raised]
    · intro hx
      unfold scanNext
      rw [if_pos hx]
      rfl
  · intro s
    constructor
    · intro h
      by_contra hx
      unfold endScan at h
      rw [if_neg hx] at h
      revert h
      split <;> simp [Res.raised]
    · intro hx
      unfold endScan
      rw [if_pos hx]
      rfl
  · intro c name off ty rel s h
    unfold buildIndex at h
    split at h
    · cases h
    · split at h
      · cases h
      · injection h with h
        subst h
        rfl
  · intro s lo lop hi hop s1 h
    exact (startScan_ok_state s lo lop hi hop s1 h).1
  · intro s s1 h
    unfold endScan at h
    split at h
    · cases h
    · split at h
      · cases h
      · injection h with _ h
        subst h
        rfl

/-- C10: take any scan started by a `startScan` that returned, advanced by any number
of `scanNext` calls that returned, and then told `IndexScanCompleted` by `scanNext`.
The scan is still active, the next `endScan` returns, and a second `endScan` right
after raises `ScanNotInitialized`. -/
theorem endScan_after_completed (s0 : BTreeIndex) (lo : Int) (lop : Operator) (hi : Int)
    (hop : Operator) (s1 : BTreeIndex) (n : Nat) (rs : List RecordId) (s2 s3 : BTreeIndex)
    (hstart : startScan s0 lo lop hi hop = Res.ok () s1)
    (hnext : scanNextN n s1 = some (rs, s2))
    (hdone : scanNext s2 = Res.throw Exn.IndexScanCompleted s3) :
    s3.scanExecuting = true ∧
      ∃ s4, endScan s3 = Res.ok () s4 ∧ (endScan s4).raised = some Exn.ScanNotInitialized := by
  obtain ⟨hx1, hp1⟩ := startScan_ok_state s0 lo lop hi hop s1 hstart
  obtain ⟨hx2, hp2⟩ := scanNextN_state n s1 rs s2 hnext hx1 hp1
  obtain ⟨rfl, -⟩ := scanNext_completed_state s2 s3 hdone
  refine ⟨hx2, ?_⟩
  obtain ⟨b, hb⟩ := endScan_ok_of_pins s3 hx2 hp2
  refine ⟨_, hb, ?_⟩
  unfold endScan
  simp [Res.raised]

/-- Witness for C10: the scan `[2, 5]` over `sampleIndex`, drained by four calls of
`scanNext`; the fifth raises `IndexScanCompleted`. -/
theorem endScan_after_completed_witness :
    sampleDrained.scanExecuting = true ∧
      ∃ s4, endScan sampleDrained = Res.ok () s4 ∧
        (endScan s4).raised = some Exn.ScanNotInitialized :=
  endScan_after_completed sampleIndex 2 Operator.GTE 5 Operator.LTE sampleScan 4
    ((List.range 4).map fun (i : Nat) => { page_number := 1, slot_number := i + 2 })
    sampleDrained sampleDrained rfl rfl rfl

/-- C6 (evaluation at the failing input): the keys 5 and 17 and the scan
`startScan(6, GTE, 8, LTE)`, whose interval holds no key. With leaf capacity 2 the
root is still the leaf on page 2 and `startScan` returns normally; with leaf capacity
1 the same two keys sit under an internal root and `startScan` raises
`NoSuchKeyFound`. -/
theorem startScan_gap_rootLeaf_returns :
    (∃ s, buildIndex { INTARRAYLEAFSIZE := 2, INTARRAYNONLEAFSIZE := 2 } "relA" 0
        Datatype.INTEGER [(5, { page_number := 1, slot_number := 0 }),
          (17, { page_number := 1, slot_number := 1 })] = some s ∧
      (startScan s 6 Operator.GTE 8 Operator.LTE).returned = true ∧
      (startScan s 6 Operator.GTE 8 Operator.LTE).raised = none) ∧
    (∃ s, buildIndex { INTARRAYLEAFSIZE := 1, INTARRAYNONLEAFSIZE := 1 } "relA" 0
        Datatype.INTEGER [(5, { page_number := 1, slot_number := 0 }),
          (17, { page_number := 1, slot_number := 1 })] = some s ∧
      (startScan s 6 Operator.GTE 8 Operator.LTE).raised = some Exn.NoSuchKeyFound) :=
  ⟨⟨_, rfl, rfl, rfl⟩, ⟨_, rfl, rfl⟩⟩

/-! ## Claims on the tree built by the constructor -/

/-- C3: for every relation with pairwise distinct keys, in any order, the index is
built, and the walk along the leaf chain from the leaf that `findLeafNode` returns
for a key not greater than any inserted key (such as the smallest one), following
`rightSibPageNo` to the sentinel, yields every inserted `(key, rid)` pair exactly
once, in strictly ascending key order, and nothing else. -/
theorem leafChain_enumerates (c : Consts) (hL : 1 ≤ c.INTARRAYLEAFSIZE)
    (hN : 1 ≤ c.INTARRAYNONLEAFSIZE) (name : String) (off : Int) (ty : Datatype)
    (rel : List (Int × RecordId)) (hnd : (rel.map Prod.fst).Nodup) (k0 : Int)
    (hk0 : ∀ k ∈ rel.map Prod.fst, k0 ≤ k) :
    ∃ s p pos tot kvs, buildIndex c name off ty rel = some s ∧
      findLeafNode s.bufMgr k0 = some ((p, pos, tot), s.bufMgr) ∧
      leafWalk (s.bufMgr.numPages + 1) s.bufMgr p = some kvs ∧
      kvs.Perm rel ∧ (kvs.map Prod.fst).Pairwise (· < ·) := by
  obtain ⟨b, G, kvs, hbuild, hinv, hperm⟩ := buildIndex_spec hL hN name off ty rel hnd
  obtain ⟨p, pos, tot, hfind, hwalk⟩ := hinv.leafWalk_all k0 (fun k hk =>
    hk0 k ((hperm.map Prod.fst).mem_iff.mp hk))
  exact ⟨mkIndex b, p, pos, tot, kvs, hbuild, hfind, hwalk, hperm, hinv.sorted⟩

/-- Witness for C3: `exampleRelation` with capacities 2 and 2, walk started from
the leaf of key 1. -/
theorem leafChain_enumerates_witness :
    ∃ s p pos tot kvs,
      buildIndex exampleConsts "relA" 0 Datatype.INTEGER exampleRelation = some s ∧
      findLeafNode s.bufMgr 1 = some ((p, pos, tot), s.bufMgr) ∧
      leafWalk (s.bufMgr.numPages + 1) s.bufMgr p = some kvs ∧
      kvs.Perm exampleRelation ∧ (kvs.map Prod.fst).Pairwise (· < ·) :=
  leafChain_enumerates exampleConsts (by decide) (by decide) "relA" 0 Datatype.INTEGER
    exampleRelation (by decide) 1 (by decide)

/-- C4: for every relation with pairwise distinct keys and every two orders of its
records, the two indexes built have the same leaf-chain enumeration: the same
sequence of `(key, rid)` pairs is read along the sibling chain. -/
theorem leafChain_order_independent (c : Consts) (hL : 1 ≤ c.INTARRAYLEAFSIZE)
    (hN : 1 ≤ c.INTARRAYNONLEAFSIZE) (name : String) (off : Int) (ty : Datatype)
    (rel1 rel2 : List (Int × RecordId)) (hperm : rel1.Perm rel2)
    (hnd : (rel1.map Prod.fst).Nodup) (k0 : Int) (hk0 : ∀ k ∈ rel1.map Prod.fst, k0 ≤ k) :
    ∃ s1 s2 p1 pos1 tot1 p2 pos2 tot2 kvs,
      buildIndex c name off ty rel1 = some s1 ∧ buildIndex c name off ty rel2 = some s2 ∧
      findLeafNode s1.bufMgr k0 = some ((p1, pos1, tot1), s1.bufMgr) ∧
      findLeafNode s2.bufMgr k0 = some ((p2, pos2, tot2), s2.bufMgr) ∧
      leafWalk (s1.bufMgr.numPages + 1) s1.bufMgr p1 = some kvs ∧
      leafWalk (s2.bufMgr.numPages + 1) s2.bufMgr p2 = some kvs := by
  have hnd2 : (rel2.map Prod.fst).Nodup := (hperm.map Prod.fst).nodup_iff.mp hnd
  obtain ⟨b1, G1, kvs1, hbuild1, hinv1, hperm1⟩ := buildIndex_spec hL hN name off ty rel1 hnd
  obtain ⟨b2, G2, kvs2, hbuild2, hinv2, hperm2⟩ := buildIndex_spec hL hN name off ty rel2 hnd2
  obtain ⟨p1, pos1, tot1, hfind1, hwalk1⟩ := hinv1.leafWalk_all k0 (fun k hk =>
    hk0 k ((hperm1.map Prod.fst).mem_iff.mp hk))
  obtain ⟨p2, pos2, tot2, hfind2, hwalk2⟩ := hinv2.leafWalk_all k0 (fun k hk =>
    hk0 k (((hperm2.trans hperm.symm).map Prod.fst).mem_iff.mp hk))
  have heq : kvs1 = kvs2 :=
    sorted_pairs_unique (hperm1.trans (hperm.trans hperm2.symm)) hinv1.sorted hinv2.sorted
  subst heq
  exact ⟨mkIndex b1, mkIndex b2, p1, pos1, tot1, p2, pos2, tot2, kvs1, hbuild1, hbuild2, hfind1,
    hfind2, hwalk1, hwalk2⟩

/-- Witness for C4: `exampleRelation` and the same records in descending key
order. -/
theorem leafChain_order_independent_witness :
    ∃ s1 s2 p1 pos1 tot1 p2 pos2 tot2 kvs,
      buildIndex exampleConsts "relA" 0 Datatype.INTEGER exampleRelation = some s1 ∧
      buildIndex exampleConsts "relA" 0 Datatype.INTEGER exampleRelationDesc = some s2 ∧
      findLeafNode s1.bufMgr 1 = some ((p1, pos1, tot1), s1.bufMgr) ∧
      findLeafNode s2.bufMgr 1 = some ((p2, pos2, tot2), s2.bufMgr) ∧
      leafWalk (s1.bufMgr.numPages + 1) s1.bufMgr p1 = some kvs ∧
      leafWalk (s2.bufMgr.numPages + 1) s2.bufMgr p2 = some kvs :=
  leafChain_order_independent exampleConsts (by decide) (by decide) "relA" 0 Datatype.INTEGER
    exampleRelation exampleRelationDesc (by decide) (by decide) 1 (by decide)

/-- C5: for every index built from a relation with pairwise distinct keys and every
key `k` of the relation, `findLeafNode(k)` returns a leaf page `p`, a position `pos`
and `total_key` such that leaf `p` stores `k` at `keyArray[pos]` and `total_key` is
the `keySize` of that leaf. -/
theorem findLeafNode_locates (c : Consts) (hL : 1 ≤ c.INTARRAYLEAFSIZE)
    (hN : 1 ≤ c.INTARRAYNONLEAFSIZE) (name : String) (off : Int) (ty : Datatype)
    (rel : List (Int × RecordId)) (hnd : (rel.map Prod.fst).Nodup) (k : Int)
    (hk : k ∈ rel.map Prod.fst) :
    ∃ s p pos tot l, buildIndex c name off ty rel = some s ∧
      findLeafNode s.bufMgr k = some ((p, pos, tot), s.bufMgr) ∧
      s.bufMgr.file p = some (Page.leaf l) ∧ l.keyArray[pos]? = some k ∧
      tot = l.keyArray.length := by
  obtain ⟨b, G, kvs, hbuild, hinv, hperm⟩ := buildIndex_spec hL hN name off ty rel hnd
  obtain ⟨p, pos, tot, l, hfind, hfile, hget, htot⟩ :=
    hinv.findLeafNode_found k ((hperm.map Prod.fst).mem_iff.mpr hk)
  exact ⟨mkIndex b, p, pos, tot, l, hbuild, hfind, hfile, hget, htot⟩

/-- Witness for C5: key 5 of `exampleRelation`. -/
theorem findLeafNode_locates_witness :
    ∃ s p pos tot l,
      buildIndex exampleConsts "relA" 0 Datatype.INTEGER exampleRelation = some s ∧
      findLeafNode s.bufMgr 5 = some ((p, pos, tot), s.bufMgr) ∧
      s.bufMgr.file p = some (Page.leaf l) ∧ l.keyArray[pos]? = some 5 ∧
      tot = l.keyArray.length :=
  findLeafNode_locates exampleConsts (by decide) (by decide) "relA" 0 Datatype.INTEGER
    exampleRelation (by decide) 5 (by decide)

/-! ## Claims on scans over the tree built by the constructor -/

/-- C1: round trip. For every relation with pairwise distinct keys, in any order,
the index is built, and for every inserted pair `(k, r)` the call
`startScan(k, GTE, k, LTE)` returns, the first `scanNext` returns exactly `r`, and
the second `scanNext` raises `IndexScanCompleted`. -/
theorem pointScan_roundTrip (c : Consts) (hL : 1 ≤ c.INTARRAYLEAFSIZE)
    (hN : 1 ≤ c.INTARRAYNONLEAFSIZE) (name : String) (off : Int) (ty : Datatype)
    (rel : List (Int × RecordId)) (hnd : (rel.map Prod.fst).Nodup) (k : Int) (r : RecordId)
    (hk : (k, r) ∈ rel) :
    ∃ s s1 s2, buildIndex c name off ty rel = some s ∧
      startScan s k Operator.GTE k Operator.LTE = Res.ok () s1 ∧
      scanNext s1 = Res.ok r s2 ∧
      scanNext s2 = Res.throw Exn.IndexScanCompleted s2 := by
  obtain ⟨b, G, kvs, hbuild, hinv, hperm⟩ := buildIndex_spec hL hN name off ty rel hnd
  obtain ⟨lv0, ups, rfl, hs⟩ := hinv
  have hinv : Inv c b (lv0 :: ups) kvs := ⟨lv0, ups, rfl, hs⟩
  have hpoint := filter_point k r kvs hinv.sorted (hperm.mem_iff.mpr hk)
  rcases hinv.startScan_spec (mkIndex b) rfl rfl k k Operator.GTE Operator.LTE (Or.inr rfl)
    (Or.inr rfl) (le_refl k) k k (by simp) (by simp) with ⟨s1, -, hnone⟩ | ⟨s1, rem, hstart, hcur,
    hhi, -, htake⟩
  · rw [hpoint] at hnone
    cases hnone
  · rw [hpoint] at htake
    cases rem with
    | nil => cases htake
    | cons y ys =>
      rw [List.takeWhile_cons] at htake
      by_cases hy : y.1 ≤ k
      · simp only [hy, decide_True, if_true] at htake
        injection htake with hy1 hy2
        subst hy1
        have hngt : ¬ k > s1.highValInt := by rw [hhi]; omega
        obtain ⟨s2, hnext, hcur2, hhi2⟩ := (scanNext_step hcur).2.2 k r ys rfl hngt
        refine ⟨mkIndex b, s1, s2, hbuild, hstart, hnext, ?_⟩
        cases ys with
        | nil => exact (scanNext_step hcur2).1 rfl
        | cons z zs =>
          rw [List.takeWhile_cons] at hy2
          by_cases hz : z.1 ≤ k
          · simp only [hz, decide_True, if_true] at hy2
            cases hy2
          · exact (scanNext_step hcur2).2.1 z.1 z.2 zs rfl (by rw [hhi2, hhi]; omega)
      · simp only [hy, decide_False] at htake
        cases htake

/-- Witness for C1: key 5 of `exampleRelation`, whose rid is slot 5 of page 1. -/
theorem pointScan_roundTrip_witness :
    ∃ s s1 s2, buildIndex exampleConsts "relA" 0 Datatype.INTEGER exampleRelation = some s ∧
      startScan s 5 Operator.GTE 5 Operator.LTE = Res.ok () s1 ∧
      scanNext s1 = Res.ok { page_number := 1, slot_number := 5 } s2 ∧
      scanNext s2 = Res.throw Exn.IndexScanCompleted s2 :=
  pointScan_roundTrip exampleConsts (by decide) (by decide) "relA" 0 Datatype.INTEGER
    exampleRelation (by decide) 5 { page_number := 1, slot_number := 5 } (by decide)

/-- C2: range scan. For every relation with pairwise distinct keys, in any order,
`lowOp` in GT, GTE, `highOp` in LT, LTE and 32-bit bounds `low ≤ high` for which
`low + 1` (with GT) and `high - 1` (with LT) do not overflow, `startScan` followed by
`scanNext` until `IndexScanCompleted`, where `NoSuchKeyFound` from `startScan` counts
as the empty result, yields exactly the rids of the keys that satisfy the scan
predicate (`key > low` or `key ≥ low`, and `key < high` or `key ≤ high`), each once,
in ascending key order: `kvs` is the relation in ascending key order. -/
theorem rangeScan_correct (c : Consts) (hL : 1 ≤ c.INTARRAYLEAFSIZE)
    (hN : 1 ≤ c.INTARRAYNONLEAFSIZE) (name : String) (off : Int) (ty : Datatype)
    (rel : List (Int × RecordId)) (hnd : (rel.map Prod.fst).Nodup)
    (lo : Int) (lop : Operator) (hi : Int) (hop : Operator)
    (hlop : lop = Operator.GT ∨ lop = Operator.GTE)
    (hhop : hop = Operator.LT ∨ hop = Operator.LTE) (hle : lo ≤ hi)
    (hlo : -2147483648 ≤ lo ∧ lo ≤ 2147483647) (hhi : -2147483648 ≤ hi ∧ hi ≤ 2147483647)
    (hlo1 : lop = Operator.GT → lo < 2147483647) (hhi1 : hop = Operator.LT → -2147483648 < hi) :
    ∃ (s : BTreeIndex) (kvs : List (Int × RecordId)),
      buildIndex c name off ty rel = some s ∧ kvs.Perm rel ∧
      (kvs.map Prod.fst).Pairwise (· < ·) ∧
      ∀ fuel, rel.length + 1 ≤ fuel →
        scanRids fuel s lo lop hi hop =
          some ((kvs.filter (fun kv => inScan lo lop hi hop kv.1)).map Prod.snd) := by
  obtain ⟨b, G, kvs, hbuild, hinv, hperm⟩ := buildIndex_spec hL hN name off ty rel hnd
  obtain ⟨lv0, ups, rfl, hs⟩ := hinv
  have hinv : Inv c b (lv0 :: ups) kvs := ⟨lv0, ups, rfl, hs⟩
  refine ⟨mkIndex b, kvs, hbuild, hperm, hinv.sorted, ?_⟩
  intro fuel hfuel
  have hfilter : kvs.filter (fun kv => inScan lo lop hi hop kv.1) =
      kvs.filter (fun kv =>
        decide ((if lop = Operator.GT then wrapInt (lo + 1) else lo) ≤ kv.1) &&
        decide (kv.1 ≤ (if hop = Operator.LT then wrapInt (hi - 1) else hi))) := by
    apply List.filter_congr
    intro kv _
    exact (inScan_normalised lo hi lop hop hlo hhi hlo1 hhi1 kv.1).symm
  rw [hfilter]
  rcases hinv.startScan_spec (mkIndex b) rfl rfl lo hi lop hop hlop hhop hle _ _ rfl rfl with
    ⟨s1, hstart, hnone⟩ | ⟨s1, rem, hstart, hcur, hhi2, hlen, htake⟩
  · rw [hnone]
    simp only [scanRids, hstart, List.map_nil]
  · have hklen : kvs.length = rel.length := hperm.length_eq
    obtain ⟨s2, hdrain⟩ := scanDrain_spec rem s1 hcur fuel (by omega)
    rw [hhi2, htake] at hdrain
    simp only [scanRids, hstart, hdrain]

/-- Witness for C2: the open interval (2, 6) over `exampleRelation`. -/
theorem rangeScan_correct_witness :
    ∃ (s : BTreeIndex) (kvs : List (Int × RecordId)),
      buildIndex exampleConsts "relA" 0 Datatype.INTEGER exampleRelation = some s ∧
      kvs.Perm exampleRelation ∧ (kvs.map Prod.fst).Pairwise (· < ·) ∧
      ∀ fuel, exampleRelation.length + 1 ≤ fuel →
        scanRids fuel s 2 Operator.GT 6 Operator.LT =
          some ((kvs.filter (fun kv => inScan 2 Operator.GT 6 Operator.LT kv.1)).map Prod.snd) :=
  rangeScan_correct exampleConsts (by decide) (by decide) "relA" 0 Datatype.INTEGER
    exampleRelation (by decide) 2 Operator.GT 6 Operator.LT (by decide) (by decide) (by decide)
    (by decide) (by decide) (by decide) (by decide)

/-! ## Claims on restarting a scan, on the invariants of the tree and on the constructor -/

/-- C11: if a scan is active when `startScan` is called (its recorded pages being
pinned), the prior scan is ended first: all pages it recorded are unpinned, so that
the pin count of every page falls by the number of times the prior scan recorded it
while the pages of the file and their number stay as they are, and only then are the
new parameters looked at. Whenever `startScan` raises an exception it is
`BadOpcodes`, `BadScanrange` or `NoSuchKeyFound`, no scan is active in the state it
leaves, the pins of the prior scan stay released (the pin counts are the lowered
ones), and a following `scanNext` or `endScan` raises `ScanNotInitialized`. -/
theorem startScan_ends_prior_scan (s : BTreeIndex) (lo : Int) (lop : Operator) (hi : Int)
    (hop : Operator) (hp : s.scanExecuting = true → PinsHeld s) :
    (s.scanExecuting = true →
      ∃ b, unpinAll s.bufMgr (recordedPages s) = some b ∧
        b.file = s.bufMgr.file ∧ b.numPages = s.bufMgr.numPages ∧
        (∀ p, b.pinCnt p + (recordedPages s).count p = s.bufMgr.pinCnt p) ∧
        startScan s lo lop hi hop =
          startScanBody { s with scanExecuting := false, bufMgr := b } lo lop hi hop ∧
        ∀ e s1, startScan s lo lop hi hop = Res.throw e s1 →
          s1.bufMgr = b ∧
          ∀ p, s1.bufMgr.pinCnt p + (recordedPages s).count p = s.bufMgr.pinCnt p) ∧
    (∀ e s1, startScan s lo lop hi hop = Res.throw e s1 →
      (e = Exn.BadOpcodes ∨ e = Exn.BadScanrange ∨ e = Exn.NoSuchKeyFound) ∧
      s1.scanExecuting = false ∧
      (scanNext s1).raised = some Exn.ScanNotInitialized ∧
      (endScan s1).raised = some Exn.ScanNotInitialized) := by
  have hafter : ∀ s1 : BTreeIndex, s1.scanExecuting = false →
      (scanNext s1).raised = some Exn.ScanNotInitialized ∧
      (endScan s1).raised = some Exn.ScanNotInitialized := by
    intro s1 h1
    constructor
    · unfold scanNext
      rw [if_pos h1]
      rfl
    · unfold endScan
      rw [if_pos h1]
      rfl
  by_cases hx : s.scanExecuting = true
  · obtain ⟨b, hb, hbf, hbn, hbp⟩ := unpinAll_spec (recordedPages s) s.bufMgr (hp hx)
    have hend : endScan s = Res.ok () { s with scanExecuting := false, bufMgr := b } := by
      unfold endScan
      unfold recordedPages at hb
      simp [hx, hb]
    have hstart : startScan s lo lop hi hop =
        startScanBody { s with scanExecuting := false, bufMgr := b } lo lop hi hop := by
      unfold startScan
      rw [if_pos hx, hend]
    refine ⟨fun _ => ⟨b, hb, hbf, hbn, hbp, hstart, ?_⟩, ?_⟩
    · intro e s1 h
      rw [hstart] at h
      have hs1 : s1.bufMgr = b := (startScanBody_throw_state h).2.2
      refine ⟨hs1, ?_⟩
      rw [hs1]
      exact hbp
    · intro e s1 h
      rw [hstart] at h
      obtain ⟨he, hx1, -⟩ := startScanBody_throw_state h
      exact ⟨he, hx1, hafter s1 hx1⟩
  · have hx0 : s.scanExecuting = false := by simpa using hx
    have hstart : startScan s lo lop hi hop = startScanBody s lo lop hi hop := by
      unfold startScan
      rw [if_neg hx]
    refine ⟨fun h => absurd h hx, ?_⟩
    intro e s1 h
    rw [hstart] at h
    obtain ⟨he, hx1, -⟩ := startScanBody_throw_state h
    exact ⟨he, hx1.trans hx0, hafter s1 (hx1.trans hx0)⟩

/-- Witness for C11: on `sampleIndex` with the scan `[2, 5]` in progress,
`startScan(5, GTE, 2, LTE)`. The scan in progress has recorded the leaf on page 2 and
holds one pin on it; the call raises `BadScanrange` and leaves page 2 unpinned. -/
theorem startScan_ends_prior_scan_witness :
    (sampleScan.scanExecuting = true → PinsHeld sampleScan) ∧
    ((sampleScan.scanExecuting = true →
      ∃ b, unpinAll sampleScan.bufMgr (recordedPages sampleScan) = some b ∧
        b.file = sampleScan.bufMgr.file ∧ b.numPages = sampleScan.bufMgr.numPages ∧
        (∀ p, b.pinCnt p + (recordedPages sampleScan).count p = sampleScan.bufMgr.pinCnt p) ∧
        startScan sampleScan 5 Operator.GTE 2 Operator.LTE =
          startScanBody { sampleScan with scanExecuting := false, bufMgr := b } 5 Operator.GTE 2
            Operator.LTE ∧
        ∀ e s1, startScan sampleScan 5 Operator.GTE 2 Operator.LTE = Res.throw e s1 →
          s1.bufMgr = b ∧
          ∀ p, s1.bufMgr.pinCnt p + (recordedPages sampleScan).count p =
            sampleScan.bufMgr.pinCnt p) ∧
    (∀ e s1, startScan sampleScan 5 Operator.GTE 2 Operator.LTE = Res.throw e s1 →
      (e = Exn.BadOpcodes ∨ e = Exn.BadScanrange ∨ e = Exn.NoSuchKeyFound) ∧
      s1.scanExecuting = false ∧
      (scanNext s1).raised = some Exn.ScanNotInitialized ∧
      (endScan s1).raised = some Exn.ScanNotInitialized)) ∧
    sampleScan.scanExecuting = true ∧ recordedPages sampleScan = [2] ∧
    sampleScan.bufMgr.pinCnt 2 = 1 ∧
    (startScan sampleScan 5 Operator.GTE 2 Operator.LTE).raised = some Exn.BadScanrange ∧
    (startScan sampleScan 5 Operator.GTE 2 Operator.LTE).state.map
      (fun s1 => s1.bufMgr.pinCnt 2) = some 0 :=
  ⟨fun _ => (startScan_ok_state sampleIndex 2 Operator.GTE 5 Operator.LTE sampleScan rfl).2,
   startScan_ends_prior_scan sampleScan 5 Operator.GTE 2 Operator.LTE
    (fun _ => (startScan_ok_state sampleIndex 2 Operator.GTE 5 Operator.LTE sampleScan rfl).2),
   rfl, rfl, rfl, rfl, rfl⟩

/-- C19: for every relation name `r` and key byte offset `o` the constructor sets
`outIndexName` to `r`, a dot and the decimal rendering of `o`, whatever the file
system holds and whatever the outcome; in particular, when a file of that name exists
and its header disagrees with the arguments, the constructor raises `BadIndexInfo`
and `outIndexName` has been set all the same. -/
theorem constructIndex_outIndexName (c : Consts) (disk : String → Option BufMgr)
    (relation : List (Int × RecordId)) (r : String) (o : Int) (t : Datatype) :
    (constructIndex c disk relation r o t).1 = r ++ "." ++ toString o ∧
    (∀ s h, disk (r ++ "." ++ toString o) = some s →
      s.file headerPageNum = some (Page.header h) →
      (h.attrByteOffset ≠ o ∨ h.attrType ≠ t ∨ cstr h.relationName ≠ cstr r) →
      constructIndex c disk relation r o t = (r ++ "." ++ toString o, Opened.BadIndexInfo s)) := by
  constructor
  · unfold constructIndex
    simp only [indexFileName]
    split
    · rfl
    · split
      · rfl
      · split <;> rfl
  · intro s h hd hfile hne
    unfold constructIndex
    simp only [indexFileName, hd, openIndex_eq hfile, hne, if_true]

/-- Witness for C19: every file name exists and holds the index built over
`exampleRelation` for `relA`; the constructor called for `relB` at offset 4 sets the
name `relB.4` and raises `BadIndexInfo`. -/
theorem constructIndex_outIndexName_witness :
    (constructIndex exampleConsts (fun _ => some sampleIndex.bufMgr) [] "relB" 4
        Datatype.INTEGER).1 = "relB.4" ∧
    constructIndex exampleConsts (fun _ => some sampleIndex.bufMgr) [] "relB" 4
        Datatype.INTEGER = ("relB.4", Opened.BadIndexInfo sampleIndex.bufMgr) :=
  ⟨(constructIndex_outIndexName exampleConsts (fun _ => some sampleIndex.bufMgr) [] "relB" 4
      Datatype.INTEGER).1,
   (constructIndex_outIndexName exampleConsts (fun _ => some sampleIndex.bufMgr) [] "relB" 4
      Datatype.INTEGER).2 sampleIndex.bufMgr
      { relationName := "relA", attrByteOffset := 0, attrType := Datatype.INTEGER
        rootPageNo := 4 } rfl rfl (Or.inl (by decide))⟩

/-- C20: opening an existing index file (its first page being the header page, the
stored relation name and the argument being C strings) raises `BadIndexInfo` exactly
when the stored key byte offset, the stored key type or the stored relation name
differs from the constructor argument. When all three agree, the constructor returns
an index on the unchanged file with `rootPageNum` taken from the header, whatever the
relation holds (nothing is inserted), so every scan returns what it returns on the
file as it was. -/
theorem openIndex_BadIndexInfo_iff (s : BufMgr) (h : IndexMetaInfo)
    (hfile : s.file headerPageNum = some (Page.header h)) (r : String) (o : Int) (t : Datatype)
    (hr : Char.ofNat 0 ∉ r.toList) (hh : Char.ofNat 0 ∉ h.relationName.toList) :
    ((∃ f, openIndex s r o t = Opened.BadIndexInfo f) ↔
      (h.attrByteOffset ≠ o ∨ h.attrType ≠ t ∨ h.relationName ≠ r)) ∧
    (h.attrByteOffset = o → h.attrType = t → h.relationName = r →
      openIndex s r o t = Opened.ok (mkIndex s) h.rootPageNo ∧
      (∀ (c : Consts) (disk : String → Option BufMgr) (relation : List (Int × RecordId)),
        disk (indexFileName r o) = some s →
        constructIndex c disk relation r o t =
          (indexFileName r o, Opened.ok (mkIndex s) h.rootPageNo)) ∧
      (∀ index root, openIndex s r o t = Opened.ok index root →
        index.bufMgr = s ∧ root = h.rootPageNo ∧
        ∀ fuel lo lop hi hop,
          scanRids fuel index lo lop hi hop = scanRids fuel (mkIndex s) lo lop hi hop)) := by
  have heq := openIndex_eq hfile r o t
  rw [cstr_of_no_nul _ hr, cstr_of_no_nul _ hh] at heq
  constructor
  · constructor
    · rintro ⟨f, hf⟩
      by_contra hne
      rw [heq, if_neg hne] at hf
      cases hf
    · intro hne
      rw [heq, if_pos hne]
      exact ⟨s, rfl⟩
  · intro h1 h2 h3
    have hn : ¬ (h.attrByteOffset ≠ o ∨ h.attrType ≠ t ∨ h.relationName ≠ r) := by
      rintro (h | h | h)
      · exact h h1
      · exact h h2
      · exact h h3
    rw [if_neg hn] at heq
    refine ⟨heq, ?_, ?_⟩
    · intro c disk relation hd
      unfold constructIndex
      simp only [hd, heq]
    · intro index root hok
      rw [heq] at hok
      injection hok with e1 e2
      subst e1 e2
      exact ⟨rfl, rfl, fun _ _ _ _ _ => rfl⟩

/-- Witness for C20: the file of `sampleIndex`, reopened with the parameters it was
built with. -/
theorem openIndex_BadIndexInfo_iff_witness :
    ((∃ f, openIndex sampleIndex.bufMgr "relA" 0 Datatype.INTEGER = Opened.BadIndexInfo f) ↔
      ((0 : Int) ≠ 0 ∨ Datatype.INTEGER ≠ Datatype.INTEGER ∨ "relA" ≠ "relA")) ∧
    openIndex sampleIndex.bufMgr "relA" 0 Datatype.INTEGER =
      Opened.ok (mkIndex sampleIndex.bufMgr) 4 :=
  ⟨(openIndex_BadIndexInfo_iff sampleIndex.bufMgr
      { relationName := "relA", attrByteOffset := 0, attrType := Datatype.INTEGER
        rootPageNo := 4 } rfl "relA" 0 Datatype.INTEGER (by decide) (by decide)).1,
   ((openIndex_BadIndexInfo_iff sampleIndex.bufMgr
      { relationName := "relA", attrByteOffset := 0, attrType := Datatype.INTEGER
        rootPageNo := 4 } rfl "relA" 0 Datatype.INTEGER (by decide) (by decide)).2 rfl rfl rfl).1⟩

/-- C12 (as the code has it): in every index built from a relation with pairwise
distinct keys, for every internal node of the tree and every separator `keyArray[i]`
of it, every key stored in the subtree under `pageNoArray[i]` is less than or equal
to `keyArray[i]`, the separator itself is stored in that subtree, and every key
stored in the subtree under `pageNoArray[i+1]` is strictly greater than
`keyArray[i]`. -/
theorem separator_invariant (c : Consts) (hL : 1 ≤ c.INTARRAYLEAFSIZE)
    (hN : 1 ≤ c.INTARRAYNONLEAFSIZE) (name : String) (off : Int) (ty : Datatype)
    (rel : List (Int × RecordId)) (hnd : (rel.map Prod.fst).Nodup) :
    ∃ s, buildIndex c name off ty rel = some s ∧
      ∀ (p : Nat) (n : NonLeafNodeInt) (i : Nat) (k : Int) (chL chR : Nat),
        InTree s.bufMgr p → s.bufMgr.file p = some (Page.nonLeaf n) →
        n.keyArray[i]? = some k → n.pageNoArray[i]? = some chL →
        n.pageNoArray[i + 1]? = some chR →
        (∀ q l, Reach s.bufMgr chL q → s.bufMgr.file q = some (Page.leaf l) →
          ∀ x ∈ l.keyArray, x ≤ k) ∧
        (∀ q l, Reach s.bufMgr chR q → s.bufMgr.file q = some (Page.leaf l) →
          ∀ x ∈ l.keyArray, k < x) ∧
        (∃ q l, Reach s.bufMgr chL q ∧ s.bufMgr.file q = some (Page.leaf l) ∧
          k ∈ l.keyArray) := by
  obtain ⟨b, G, kvs, hbuild, hinv, -⟩ := buildIndex_spec hL hN name off ty rel hnd
  refine ⟨mkIndex b, hbuild, ?_⟩
  intro p n i k chL chR hp hfile hk hl hr
  exact hinv.separators hp hfile hk hl hr

/-- Witness for C12: the index over `exampleRelation` with capacities 2 and 2. -/
theorem separator_invariant_witness :
    ∃ s, buildIndex exampleConsts "relA" 0 Datatype.INTEGER exampleRelation = some s ∧
      ∀ (p : Nat) (n : NonLeafNodeInt) (i : Nat) (k : Int) (chL chR : Nat),
        InTree s.bufMgr p → s.bufMgr.file p = some (Page.nonLeaf n) →
        n.keyArray[i]? = some k → n.pageNoArray[i]? = some chL →
        n.pageNoArray[i + 1]? = some chR →
        (∀ q l, Reach s.bufMgr chL q → s.bufMgr.file q = some (Page.leaf l) →
          ∀ x ∈ l.keyArray, x ≤ k) ∧
        (∀ q l, Reach s.bufMgr chR q → s.bufMgr.file q = some (Page.leaf l) →
          ∀ x ∈ l.keyArray, k < x) ∧
        (∃ q l, Reach s.bufMgr chL q ∧ s.bufMgr.file q = some (Page.leaf l) ∧
          k ∈ l.keyArray) :=
  separator_invariant exampleConsts (by decide) (by decide) "relA" 0 Datatype.INTEGER
    exampleRelation (by decide)

/-- Counterexample for C12 as the spec states it: capacities 2 and 2, keys 1, 2, 3
inserted in this order. The third insert splits the leaf on page 2 into the keys
1, 2 (page 2) and 3 (page 3) and makes page 4 the root with the separator 2 and the
children 2 and 3. The key 2 is stored under `pageNoArray[0]` and is not strictly less
than `keyArray[0] = 2`. -/
theorem separator_strict_fails :
    ∃ s n l,
      buildIndex exampleConsts "relA" 0 Datatype.INTEGER
        [(1, { page_number := 1, slot_number := 1 }), (2, { page_number := 1, slot_number := 2 }),
          (3, { page_number := 1, slot_number := 3 })] = some s ∧
      InTree s.bufMgr 4 ∧ s.bufMgr.file 4 = some (Page.nonLeaf n) ∧
      n.keyArray[0]? = some 2 ∧ n.pageNoArray[0]? = some 2 ∧
      Reach s.bufMgr 2 2 ∧ s.bufMgr.file 2 = some (Page.leaf l) ∧
      (2 : Int) ∈ l.keyArray ∧ ¬ ((2 : Int) < 2) :=
  ⟨_, _, _, rfl, ⟨_, rfl, Reach.here _⟩, rfl, rfl, rfl, Reach.here _, rfl, by decide, by decide⟩

/-- C13: in every index built from a relation with pairwise distinct keys, the keys
of every leaf of the tree and the keys of every internal node of the tree are
strictly ascending; and `insertEntry` of a key that is not yet present returns and
leaves a tree of which the same holds. -/
theorem keys_strictly_ascending (c : Consts) (hL : 1 ≤ c.INTARRAYLEAFSIZE)
    (hN : 1 ≤ c.INTARRAYNONLEAFSIZE) (name : String) (off : Int) (ty : Datatype)
    (rel : List (Int × RecordId)) (hnd : (rel.map Prod.fst).Nodup) :
    ∃ s, buildIndex c name off ty rel = some s ∧
      (∀ p, InTree s.bufMgr p →
        (∀ l, s.bufMgr.file p = some (Page.leaf l) → l.keyArray.Pairwise (· < ·)) ∧
        (∀ n, s.bufMgr.file p = some (Page.nonLeaf n) → n.keyArray.Pairwise (· < ·))) ∧
      (∀ key rid, key ∉ rel.map Prod.fst →
        ∃ b2, insertEntry c s.bufMgr key rid = some b2 ∧
          ∀ p, InTree b2 p →
            (∀ l, b2.file p = some (Page.leaf l) → l.keyArray.Pairwise (· < ·)) ∧
            (∀ n, b2.file p = some (Page.nonLeaf n) → n.keyArray.Pairwise (· < ·))) := by
  obtain ⟨b, G, kvs, hbuild, hinv, hperm⟩ := buildIndex_spec hL hN name off ty rel hnd
  refine ⟨mkIndex b, hbuild, ?_, ?_⟩
  · intro p hp
    exact ⟨fun l hl => (hinv.leaf_node hp hl).1, fun n hn => (hinv.internal_node hp hn).1⟩
  · intro key rid hkey
    obtain ⟨b2, G2, kvs2, hins, hinv2, -⟩ := insertEntry_spec hL hN hinv key rid
      (fun h => hkey ((hperm.map Prod.fst).mem_iff.mp h))
    refine ⟨b2, hins, ?_⟩
    intro p hp
    exact ⟨fun l hl => (hinv2.leaf_node hp hl).1, fun n hn => (hinv2.internal_node hp hn).1⟩

/-- Witness for C13: the index over `exampleRelation` with capacities 2 and 2. -/
theorem keys_strictly_ascending_witness :
    ∃ s, buildIndex exampleConsts "relA" 0 Datatype.INTEGER exampleRelation = some s ∧
      (∀ p, InTree s.bufMgr p →
        (∀ l, s.bufMgr.file p = some (Page.leaf l) → l.keyArray.Pairwise (· < ·)) ∧
        (∀ n, s.bufMgr.file p = some (Page.nonLeaf n) → n.keyArray.Pairwise (· < ·))) ∧
      (∀ key rid, key ∉ exampleRelation.map Prod.fst →
        ∃ b2, insertEntry exampleConsts s.bufMgr key rid = some b2 ∧
          ∀ p, InTree b2 p →
            (∀ l, b2.file p = some (Page.leaf l) → l.keyArray.Pairwise (· < ·)) ∧
            (∀ n, b2.file p = some (Page.nonLeaf n) → n.keyArray.Pairwise (· < ·))) :=
  keys_strictly_ascending exampleConsts (by decide) (by decide) "relA" 0 Datatype.INTEGER
    exampleRelation (by decide)

/-- C14: in every index built from a relation with pairwise distinct keys, every
internal node of the tree has `keySize + 1` children and either the level flag 1 and
only leaves among them, or the level flag 0 and only internal nodes among them; and
`insertEntry` of a key that is not yet present, with whatever leaf split, internal
splits and root replacement it carries out, returns and leaves a tree of which the
same holds. -/
theorem level_invariant (c : Consts) (hL : 1 ≤ c.INTARRAYLEAFSIZE)
    (hN : 1 ≤ c.INTARRAYNONLEAFSIZE) (name : String) (off : Int) (ty : Datatype)
    (rel : List (Int × RecordId)) (hnd : (rel.map Prod.fst).Nodup) :
    ∃ s, buildIndex c name off ty rel = some s ∧
      (∀ p n, InTree s.bufMgr p → s.bufMgr.file p = some (Page.nonLeaf n) →
        n.pageNoArray.length = n.keyArray.length + 1 ∧
        ((n.level = 1 ∧ ∀ ch ∈ n.pageNoArray, ∃ l, s.bufMgr.file ch = some (Page.leaf l)) ∨
          (n.level = 0 ∧
            ∀ ch ∈ n.pageNoArray, ∃ m, s.bufMgr.file ch = some (Page.nonLeaf m)))) ∧
      (∀ key rid, key ∉ rel.map Prod.fst →
        ∃ b2, insertEntry c s.bufMgr key rid = some b2 ∧
          ∀ p n, InTree b2 p → b2.file p = some (Page.nonLeaf n) →
            n.pageNoArray.length = n.keyArray.length + 1 ∧
            ((n.level = 1 ∧ ∀ ch ∈ n.pageNoArray, ∃ l, b2.file ch = some (Page.leaf l)) ∨
              (n.level = 0 ∧
                ∀ ch ∈ n.pageNoArray, ∃ m, b2.file ch = some (Page.nonLeaf m)))) := by
  obtain ⟨b, G, kvs, hbuild, hinv, hperm⟩ := buildIndex_spec hL hN name off ty rel hnd
  refine ⟨mkIndex b, hbuild, ?_, ?_⟩
  · intro p n hp hn
    exact (hinv.internal_node hp hn).2.2
  · intro key rid hkey
    obtain ⟨b2, G2, kvs2, hins, hinv2, -⟩ := insertEntry_spec hL hN hinv key rid
      (fun h => hkey ((hperm.map Prod.fst).mem_iff.mp h))
    refine ⟨b2, hins, ?_⟩
    intro p n hp hn
    exact (hinv2.internal_node hp hn).2.2

/-- Witness for C14: the index over `exampleRelation` with capacities 2 and 2. -/
theorem level_invariant_witness :
    ∃ s, buildIndex exampleConsts "relA" 0 Datatype.INTEGER exampleRelation = some s ∧
      (∀ p n, InTree s.bufMgr p → s.bufMgr.file p = some (Page.nonLeaf n) →
        n.pageNoArray.length = n.keyArray.length + 1 ∧
        ((n.level = 1 ∧ ∀ ch ∈ n.pageNoArray, ∃ l, s.bufMgr.file ch = some (Page.leaf l)) ∨
          (n.level = 0 ∧
            ∀ ch ∈ n.pageNoArray, ∃ m, s.bufMgr.file ch = some (Page.nonLeaf m)))) ∧
      (∀ key rid, key ∉ exampleRelation.map Prod.fst →
        ∃ b2, insertEntry exampleConsts s.bufMgr key rid = some b2 ∧
          ∀ p n, InTree b2 p → b2.file p = some (Page.nonLeaf n) →
            n.pageNoArray.length = n.keyArray.length + 1 ∧
            ((n.level = 1 ∧ ∀ ch ∈ n.pageNoArray, ∃ l, b2.file ch = some (Page.leaf l)) ∨
              (n.level = 0 ∧
                ∀ ch ∈ n.pageNoArray, ∃ m, b2.file ch = some (Page.nonLeaf m)))) :=
  level_invariant exampleConsts (by decide) (by decide) "relA" 0 Datatype.INTEGER
    exampleRelation (by decide)

/-- C15: in every index built from a relation with pairwise distinct keys, every leaf
of the tree has at most `INTARRAYLEAFSIZE` keys and every internal node at most
`INTARRAYNONLEAFSIZE`, and every node other than the root has at least half of the
capacity (rounded down). A split of a full leaf leaves `MIDDLELEAF + 1` keys on the
left page and `INTARRAYLEAFSIZE - MIDDLELEAF` on the new right page; a split of a
full internal node leaves `MIDDLENONLEAF` keys on the left page and
`INTARRAYNONLEAFSIZE - MIDDLENONLEAF` on the new right page; all four are at least
half of the capacity. -/
theorem capacity_invariant (c : Consts) (hL : 1 ≤ c.INTARRAYLEAFSIZE)
    (hN : 1 ≤ c.INTARRAYNONLEAFSIZE) (name : String) (off : Int) (ty : Datatype)
    (rel : List (Int × RecordId)) (hnd : (rel.map Prod.fst).Nodup) :
    (∃ s h, buildIndex c name off ty rel = some s ∧
      s.bufMgr.file headerPageNum = some (Page.header h) ∧
      (∀ p, InTree s.bufMgr p →
        (∀ l, s.bufMgr.file p = some (Page.leaf l) →
          l.keyArray.length ≤ c.INTARRAYLEAFSIZE) ∧
        (∀ n, s.bufMgr.file p = some (Page.nonLeaf n) →
          n.keyArray.length ≤ c.INTARRAYNONLEAFSIZE)) ∧
      (∀ p, p ≠ h.rootPageNo →
        (∀ l, s.bufMgr.file p = some (Page.leaf l) →
          c.INTARRAYLEAFSIZE / 2 ≤ l.keyArray.length) ∧
        (∀ n, s.bufMgr.file p = some (Page.nonLeaf n) →
          c.INTARRAYNONLEAFSIZE / 2 ≤ n.keyArray.length))) ∧
    (∀ (b : BufMgr) (q : Nat) (l : LeafNodeInt) (key : Int) (rid : RecordId) (pos : Nat),
      b.file q = some (Page.leaf l) → l.keyArray.length = c.INTARRAYLEAFSIZE →
      l.ridArray.length = c.INTARRAYLEAFSIZE → q ≠ b.numPages + 1 →
      ∃ push b2 lL lR,
        modifyLeafNode c b q key rid pos l.keyArray.length =
          some ((q, b.numPages + 1, push), b2) ∧
        b2.file q = some (Page.leaf lL) ∧ b2.file (b.numPages + 1) = some (Page.leaf lR) ∧
        lL.keyArray.length = c.MIDDLELEAF + 1 ∧
        lR.keyArray.length = c.INTARRAYLEAFSIZE - c.MIDDLELEAF ∧
        c.INTARRAYLEAFSIZE / 2 ≤ min lL.keyArray.length lR.keyArray.length) ∧
    (∀ (b : BufMgr) (p : Nat) (n : NonLeafNodeInt) (key : Int) (left right pos : Nat),
      b.file p = some (Page.nonLeaf n) → n.keyArray.length = c.INTARRAYNONLEAFSIZE →
      n.pageNoArray.length = c.INTARRAYNONLEAFSIZE + 1 → pos < n.pageNoArray.length →
      p ≠ b.numPages + 1 →
      ∃ push b2 nL nR,
        modifyNonLeafNode c b p key left right pos n.keyArray.length =
          some ((p, b.numPages + 1, push), b2) ∧
        b2.file p = some (Page.nonLeaf nL) ∧
        b2.file (b.numPages + 1) = some (Page.nonLeaf nR) ∧
        nL.keyArray.length = c.MIDDLENONLEAF ∧
        nR.keyArray.length = c.INTARRAYNONLEAFSIZE - c.MIDDLENONLEAF ∧
        c.INTARRAYNONLEAFSIZE / 2 ≤ min nL.keyArray.length nR.keyArray.length) := by
  refine ⟨?_, ?_, ?_⟩
  · obtain ⟨b, G, kvs, hbuild, hg, -⟩ := buildIndex_grown hL hN name off ty rel hnd
    obtain ⟨-, -, -, h, hf, -, -⟩ := hg.inv.level
    refine ⟨mkIndex b, h, hbuild, hf, ?_, ?_⟩
    · intro p hp
      exact ⟨fun l hl => (hg.inv.leaf_node hp hl).2.1,
        fun n hn => (hg.inv.internal_node hp hn).2.1⟩
    · intro p hp
      exact hg.fill h hf p hp
  · intro b q l key rid pos hq hk hr hqn
    have hTlen : (insertAt l.keyArray pos key).length = c.INTARRAYLEAFSIZE + 1 := by
      rw [insertAt_length, hk]
    have hM : c.MIDDLELEAF < (insertAt l.keyArray pos key).length := by
      rw [hTlen]
      unfold Consts.MIDDLELEAF
      omega
    have hmod := @modifyLeafNode_split_full c _ _ _ key rid pos l.keyArray.length _ hq
      (by omega) hqn hk hr (List.getElem?_eq_getElem hM)
    refine ⟨_, _,
      { keyArray := (insertAt l.keyArray pos key).take (c.MIDDLELEAF + 1)
        ridArray := (insertAt l.ridArray pos rid).take (c.MIDDLELEAF + 1)
        rightSibPageNo := b.numPages + 1 },
      { keyArray := (insertAt l.keyArray pos key).drop (c.MIDDLELEAF + 1)
        ridArray := (insertAt l.ridArray pos rid).drop (c.MIDDLELEAF + 1)
        rightSibPageNo := l.rightSibPageNo }, hmod, ?_, ?_, ?_, ?_, ?_⟩
    · show Function.update (Function.update b.file q _) (b.numPages + 1) _ q = _
      rw [Function.update_noteq hqn, Function.update_same]
    · show Function.update (Function.update b.file q _) (b.numPages + 1) _ _ = _
      rw [Function.update_same]
    · show ((insertAt l.keyArray pos key).take (c.MIDDLELEAF + 1)).length = _
      rw [List.length_take, hTlen]
      unfold Consts.MIDDLELEAF
      omega
    · show ((insertAt l.keyArray pos key).drop (c.MIDDLELEAF + 1)).length = _
      rw [List.length_drop, hTlen]
      omega
    · show _ ≤ min ((insertAt l.keyArray pos key).take (c.MIDDLELEAF + 1)).length
        ((insertAt l.keyArray pos key).drop (c.MIDDLELEAF + 1)).length
      rw [List.length_take, List.length_drop, hTlen]
      unfold Consts.MIDDLELEAF
      omega
  · intro b p n key left right pos hp hk hc hpos hpn
    have hTlen : (insertAt n.keyArray pos key).length = c.INTARRAYNONLEAFSIZE + 1 := by
      rw [insertAt_length, hk]
    have hM : c.MIDDLENONLEAF < (insertAt n.keyArray pos key).length := by
      rw [hTlen]
      unfold Consts.MIDDLENONLEAF
      omega
    have hmod := @modifyNonLeafNode_split c _ _ _ key left right pos n.keyArray.length _
      hp (by omega) hpn hk hc hpos (List.getElem?_eq_getElem hM)
    refine ⟨_, _,
      { level := n.level
        keyArray := (insertAt n.keyArray pos key).take c.MIDDLENONLEAF
        pageNoArray := (insertChildren n.pageNoArray pos left right).take (c.MIDDLENONLEAF + 1) },
      { level := n.level
        keyArray := (insertAt n.keyArray pos key).drop (c.MIDDLENONLEAF + 1)
        pageNoArray := (insertChildren n.pageNoArray pos left right).drop
          (c.MIDDLENONLEAF + 1) }, hmod, ?_, ?_, ?_, ?_, ?_⟩
    · show Function.update (Function.update b.file p _) (b.numPages + 1) _ p = _
      rw [Function.update_noteq hpn, Function.update_same]
    · show Function.update (Function.update b.file p _) (b.numPages + 1) _ _ = _
      rw [Function.update_same]
    · show ((insertAt n.keyArray pos key).take c.MIDDLENONLEAF).length = _
      rw [List.length_take, hTlen]
      unfold Consts.MIDDLENONLEAF
      omega
    · show ((insertAt n.keyArray pos key).drop (c.MIDDLENONLEAF + 1)).length = _
      rw [List.length_drop, hTlen]
      omega
    · show _ ≤ min ((insertAt n.keyArray pos key).take c.MIDDLENONLEAF).length
        ((insertAt n.keyArray pos key).drop (c.MIDDLENONLEAF + 1)).length
      rw [List.length_take, List.length_drop, hTlen]
      unfold Consts.MIDDLENONLEAF
      omega

/-- Witness for C15: the index over `exampleRelation` with capacities 2 and 2. -/
theorem capacity_invariant_witness :
    ∃ s h, buildIndex exampleConsts "relA" 0 Datatype.INTEGER exampleRelation = some s ∧
      s.bufMgr.file headerPageNum = some (Page.header h) ∧
      (∀ p, InTree s.bufMgr p →
        (∀ l, s.bufMgr.file p = some (Page.leaf l) →
          l.keyArray.length ≤ exampleConsts.INTARRAYLEAFSIZE) ∧
        (∀ n, s.bufMgr.file p = some (Page.nonLeaf n) →
          n.keyArray.length ≤ exampleConsts.INTARRAYNONLEAFSIZE)) ∧
      (∀ p, p ≠ h.rootPageNo →
        (∀ l, s.bufMgr.file p = some (Page.leaf l) →
          exampleConsts.INTARRAYLEAFSIZE / 2 ≤ l.keyArray.length) ∧
        (∀ n, s.bufMgr.file p = some (Page.nonLeaf n) →
          exampleConsts.INTARRAYNONLEAFSIZE / 2 ≤ n.keyArray.length)) :=
  (capacity_invariant exampleConsts (by decide) (by decide) "relA" 0 Datatype.INTEGER
    exampleRelation (by decide)).1

/-- C18: root discovery. A newly created index has its header on page 1, naming page 2
as the root, and an empty leaf with the sentinel as right sibling on page 2. In the
index built from `n` records with pairwise distinct keys, `rootPageNo = 2` holds
exactly when the root is a leaf, and exactly when `n ≤ INTARRAYLEAFSIZE`; with
`n > INTARRAYLEAFSIZE` the root is an internal node on a page id greater than 2 (so it
does not return to 2, whatever is inserted later). -/
theorem root_discovery (c : Consts) (hL : 1 ≤ c.INTARRAYLEAFSIZE)
    (hN : 1 ≤ c.INTARRAYNONLEAFSIZE) (name : String) (off : Int) (ty : Datatype)
    (rel : List (Int × RecordId)) (hnd : (rel.map Prod.fst).Nodup) :
    (∃ b h l, createIndex name off ty = some b ∧
      b.file 1 = some (Page.header h) ∧ h.rootPageNo = 2 ∧
      b.file 2 = some (Page.leaf l) ∧ l.keyArray = [] ∧ l.rightSibPageNo = INVALID_NUMBER) ∧
    (∃ s h, buildIndex c name off ty rel = some s ∧
      s.bufMgr.file headerPageNum = some (Page.header h) ∧
      (h.rootPageNo = 2 ↔ ∃ l, s.bufMgr.file h.rootPageNo = some (Page.leaf l)) ∧
      (h.rootPageNo = 2 ↔ rel.length ≤ c.INTARRAYLEAFSIZE) ∧
      (c.INTARRAYLEAFSIZE < rel.length →
        2 < h.rootPageNo ∧ ∃ n, s.bufMgr.file h.rootPageNo = some (Page.nonLeaf n))) := by
  constructor
  · obtain ⟨b, hcreate, -, hf1, hf2, -, -⟩ := createIndex_spec c name off ty
    exact ⟨b, _, _, hcreate, hf1, rfl, hf2, rfl, rfl⟩
  · obtain ⟨b, G, kvs, hbuild, hg, hperm⟩ := buildIndex_grown hL hN name off ty rel hnd
    have hinv := hg.inv
    obtain ⟨⟨lv0, h0, hchain⟩, -, -, h, hf, hroot, hiff⟩ := hinv.level
    have hlen : kvs.length = rel.length := hperm.length_eq
    have hpos := hinv.length_pos
    -- the root as an entry of the top level
    have hrootE : G[G.length - 1]? = some ([] ++ (h.rootPageNo, none) :: []) := by
      simpa using hroot
    have hleafcase : G.length = 1 →
        (∃ l, b.file h.rootPageNo = some (Page.leaf l)) ∧ rel.length ≤ c.INTARRAYLEAFSIZE := by
      intro h1
      rw [h1] at hrootE hroot
      obtain ⟨l, hl, hok, -⟩ := hinv.leaf_at hrootE
      refine ⟨⟨l, hl⟩, ?_⟩
      have hlv : lv0 = [(h.rootPageNo, none)] := by
        simp only [Nat.sub_self] at hroot
        rw [h0] at hroot
        injection hroot
      rw [hlv] at hchain
      obtain ⟨l2, hl2, hok2, -, -, rest, hk, hrest⟩ := hchain
      have hr : rest = [] := hrest
      have hll : l2 = l := by
        have : b.file h.rootPageNo = some (Page.leaf l2) := hl2
        rw [hl] at this
        injection this with this
        injection this with this
        exact this.symm
      subst hll
      rw [← hlen, hk, hr, List.append_nil]
      unfold LeafNodeInt.entries
      rw [List.length_zip, hok2.1]
      simp only [min_self]
      exact hok2.2.1
    have hnodecase : G.length ≠ 1 →
        (∃ n, b.file h.rootPageNo = some (Page.nonLeaf n)) ∧ c.INTARRAYLEAFSIZE < rel.length ∧
          2 < h.rootPageNo := by
      intro h1
      obtain ⟨j, hj⟩ : ∃ j, G.length - 1 = j + 1 := ⟨G.length - 2, by omega⟩
      rw [hj] at hrootE
      obtain ⟨_, _, _, -, -, ⟨n, hn, -⟩, -⟩ := hinv.node_at hrootE
      refine ⟨⟨n, hn⟩, by rw [← hlen]; exact hg.tall h1, ?_⟩
      have hne2 : (h.rootPageNo : Nat) ≠ (2 : Nat) := fun e => h1 (hiff.mp e)
      obtain ⟨lvx, upsx, hGx, hsx⟩ := id hinv
      subst hGx
      have hmem : h.rootPageNo ∈ pagesOf ([] ++ lvx :: upsx) := by
        have := List.getElem?_mem hrootE
        simp only [List.nil_append]
        exact @mem_pagesOf _ _ (h.rootPageNo, none) this (by simp)
      have hge := (hsx.range _ hmem).1
      have key : ∀ r : Nat, r ≠ 2 → 2 ≤ r → 2 < r := by
        intro r h1 h2
        omega
      exact key _ hne2 hge
    refine ⟨mkIndex b, h, hbuild, hf, ?_, ?_, ?_⟩
    · constructor
      · intro e
        exact (hleafcase (hiff.mp e)).1
      · rintro ⟨l, hl⟩
        have hl2 : b.file h.rootPageNo = some (Page.leaf l) := hl
        by_contra hne
        obtain ⟨⟨n, hn⟩, -⟩ := hnodecase (fun e => hne (hiff.mpr e))
        rw [hl2] at hn
        cases hn
    · constructor
      · intro e
        exact (hleafcase (hiff.mp e)).2
      · intro hle
        by_contra hne
        obtain ⟨-, hlt, -⟩ := hnodecase (fun e => hne (hiff.mpr e))
        omega
    · intro hlt
      have hG : G.length ≠ 1 := by
        intro e
        have := (hleafcase e).2
        omega
      obtain ⟨hn, -, h2⟩ := hnodecase hG
      exact ⟨h2, hn⟩

/-- Witness for C18: the index over `exampleRelation` (seven records, leaf
capacity 2). -/
theorem root_discovery_witness :
    ∃ s h, buildIndex exampleConsts "relA" 0 Datatype.INTEGER exampleRelation = some s ∧
      s.bufMgr.file headerPageNum = some (Page.header h) ∧
      (h.rootPageNo = 2 ↔ ∃ l, s.bufMgr.file h.rootPageNo = some (Page.leaf l)) ∧
      (h.rootPageNo = 2 ↔ exampleRelation.length ≤ exampleConsts.INTARRAYLEAFSIZE) ∧
      (exampleConsts.INTARRAYLEAFSIZE < exampleRelation.length →
        2 < h.rootPageNo ∧ ∃ n, s.bufMgr.file h.rootPageNo = some (Page.nonLeaf n)) :=
  (root_discovery exampleConsts (by decide) (by decide) "relA" 0 Datatype.INTEGER
    exampleRelation (by decide)).2

/-- C16: for every `n`, in the index built from the keys `0 .. n - 1` in ascending
order, the walk along the leaf chain from the leaf of key 0 meets the leaves that
`test7` expects: while more than `INTARRAYLEAFSIZE` keys are left, a leaf with exactly
the next `INTARRAYLEAFSIZE / 2 + 1` keys at the positions `0 .. INTARRAYLEAFSIZE / 2`;
then a last leaf with all keys that are left. For every key `j` at position `i` of a
leaf of the walk, `findLeafNode(j)` returns that leaf, `i` and the key count of the
leaf. -/
theorem ascending_layout (c : Consts) (hL : 1 ≤ c.INTARRAYLEAFSIZE)
    (hN : 1 ≤ c.INTARRAYNONLEAFSIZE) (name : String) (off : Int) (ty : Datatype)
    (rids : Nat → RecordId) (n : Nat) :
    ∃ s p0 pos0 tot0 leaves,
      buildIndex c name off ty (ascendingRelation n rids) = some s ∧
      findLeafNode s.bufMgr 0 = some ((p0, pos0, tot0), s.bufMgr) ∧
      leafWalkNodes (s.bufMgr.numPages + 1) s.bufMgr p0 = some leaves ∧
      leaves.map (fun x => x.2.keyArray) = expectedLeaves c.INTARRAYLEAFSIZE n 0 n ∧
      ∀ (idx pg : Nat) (l : LeafNodeInt) (i : Nat) (j : Int),
        leaves[idx]? = some (pg, l) → l.keyArray[i]? = some j →
        findLeafNode s.bufMgr j = some ((pg, i, l.keyArray.length), s.bufMgr) := by
  obtain ⟨b, p0, pos0, tot0, leaves, m, r, hbuild, hfind, hwalk, hkeys, hn, hr, hm, hloc⟩ :=
    ascending_leaves hL hN name off ty rids n
  refine ⟨mkIndex b, p0, pos0, tot0, leaves, hbuild, hfind, hwalk, ?_, hloc⟩
  rw [hkeys]
  have hmn : m ≤ n := by
    have : m ≤ m * (c.INTARRAYLEAFSIZE / 2 + 1) := Nat.le_mul_of_pos_right m (by omega)
    omega
  have := expectedLeaves_eq c.INTARRAYLEAFSIZE m n 0 r hmn hr hm
  rw [← hn] at this
  rw [this]
  simp [ascLayout]

/-- Witness for C16: the keys 0..6 with leaf capacity 2. -/
theorem ascending_layout_witness :
    ∃ s p0 pos0 tot0 leaves,
      buildIndex exampleConsts "relA" 0 Datatype.INTEGER
        (ascendingRelation 7 fun i => { page_number := 1, slot_number := i }) = some s ∧
      findLeafNode s.bufMgr 0 = some ((p0, pos0, tot0), s.bufMgr) ∧
      leafWalkNodes (s.bufMgr.numPages + 1) s.bufMgr p0 = some leaves ∧
      leaves.map (fun x => x.2.keyArray) = expectedLeaves exampleConsts.INTARRAYLEAFSIZE 7 0 7 ∧
      ∀ (idx pg : Nat) (l : LeafNodeInt) (i : Nat) (j : Int),
        leaves[idx]? = some (pg, l) → l.keyArray[i]? = some j →
        findLeafNode s.bufMgr j = some ((pg, i, l.keyArray.length), s.bufMgr) :=
  ascending_layout exampleConsts (by decide) (by decide) "relA" 0 Datatype.INTEGER
    (fun i => { page_number := 1, slot_number := i }) 7

/-- C17 (as the code has it): after inserting the keys 0..19999 in ascending order
into a fresh index with leaf capacity `L`, the leaf chain consists of `m + 1` leaves,
where `m = (20000 - L + L / 2) / (L / 2 + 1)` is the least number of leaves of
`L / 2 + 1` keys after which at most `L` keys are left. Each of the first `m` leaves
holds exactly `L / 2 + 1` keys, and the last leaf holds the `20000 - m * (L / 2 + 1)`
keys that are left, which are at most `L` and, when `m > 0`, at least `L - L / 2`. -/
theorem ascending_20000_leaves (c : Consts) (hL : 1 ≤ c.INTARRAYLEAFSIZE)
    (hN : 1 ≤ c.INTARRAYNONLEAFSIZE) (name : String) (off : Int) (ty : Datatype)
    (rids : Nat → RecordId) :
    ∃ s p0 pos0 tot0 leaves m,
      buildIndex c name off ty (ascendingRelation 20000 rids) = some s ∧
      findLeafNode s.bufMgr 0 = some ((p0, pos0, tot0), s.bufMgr) ∧
      leafWalkNodes (s.bufMgr.numPages + 1) s.bufMgr p0 = some leaves ∧
      m = (20000 - c.INTARRAYLEAFSIZE + c.INTARRAYLEAFSIZE / 2) /
        (c.INTARRAYLEAFSIZE / 2 + 1) ∧
      leaves.length = m + 1 ∧
      (∀ (i pg : Nat) (l : LeafNodeInt), i < m → leaves[i]? = some (pg, l) →
        l.keyArray.length = c.INTARRAYLEAFSIZE / 2 + 1) ∧
      (∀ (pg : Nat) (l : LeafNodeInt), leaves[m]? = some (pg, l) →
        l.keyArray.length = 20000 - m * (c.INTARRAYLEAFSIZE / 2 + 1)) ∧
      m * (c.INTARRAYLEAFSIZE / 2 + 1) ≤ 20000 ∧
      20000 - m * (c.INTARRAYLEAFSIZE / 2 + 1) ≤ c.INTARRAYLEAFSIZE ∧
      (m ≠ 0 → c.INTARRAYLEAFSIZE - c.INTARRAYLEAFSIZE / 2 ≤
        20000 - m * (c.INTARRAYLEAFSIZE / 2 + 1)) := by
  obtain ⟨b, p0, pos0, tot0, leaves, m, r, hbuild, hfind, hwalk, hkeys, hn, hr, hm, -⟩ :=
    ascending_leaves hL hN name off ty rids 20000
  have hle : c.INTARRAYLEAFSIZE / 2 ≤ c.INTARRAYLEAFSIZE := Nat.div_le_self _ _
  have hget : ∀ (i pg : Nat) (l : LeafNodeInt), leaves[i]? = some (pg, l) →
      (ascLayout (c.INTARRAYLEAFSIZE / 2) m r)[i]? = some l.keyArray := by
    intro i pg l h
    rw [← hkeys, List.getElem?_map, h]
    rfl
  refine ⟨mkIndex b, p0, pos0, tot0, leaves, m, hbuild, hfind, hwalk, ?_, ?_, ?_, ?_, by omega,
    by omega, fun h => by
      have := hm h
      omega⟩
  · exact (full_leaves_count hle hn hr hm).symm
  · have := congrArg List.length hkeys
    rw [List.length_map, ascLayout_length] at this
    exact this
  · intro i pg l hi h
    have := hget i pg l h
    rw [ascLayout_get_lt hi] at this
    rw [← Option.some.inj this, keyRun_length]
  · intro pg l h
    have := hget m pg l h
    rw [ascLayout_get_last] at this
    rw [← Option.some.inj this, keyRun_length]
    omega

/-- Witness for C17: capacities 2 and 2. -/
theorem ascending_20000_leaves_witness :
    ∃ s p0 pos0 tot0 leaves m,
      buildIndex exampleConsts "relA" 0 Datatype.INTEGER
        (ascendingRelation 20000 fun i => { page_number := 1, slot_number := i }) = some s ∧
      findLeafNode s.bufMgr 0 = some ((p0, pos0, tot0), s.bufMgr) ∧
      leafWalkNodes (s.bufMgr.numPages + 1) s.bufMgr p0 = some leaves ∧
      m = (20000 - exampleConsts.INTARRAYLEAFSIZE + exampleConsts.INTARRAYLEAFSIZE / 2) /
        (exampleConsts.INTARRAYLEAFSIZE / 2 + 1) ∧
      leaves.length = m + 1 ∧
      (∀ (i pg : Nat) (l : LeafNodeInt), i < m → leaves[i]? = some (pg, l) →
        l.keyArray.length = exampleConsts.INTARRAYLEAFSIZE / 2 + 1) ∧
      (∀ (pg : Nat) (l : LeafNodeInt), leaves[m]? = some (pg, l) →
        l.keyArray.length = 20000 - m * (exampleConsts.INTARRAYLEAFSIZE / 2 + 1)) ∧
      m * (exampleConsts.INTARRAYLEAFSIZE / 2 + 1) ≤ 20000 ∧
      20000 - m * (exampleConsts.INTARRAYLEAFSIZE / 2 + 1) ≤ exampleConsts.INTARRAYLEAFSIZE ∧
      (m ≠ 0 → exampleConsts.INTARRAYLEAFSIZE - exampleConsts.INTARRAYLEAFSIZE / 2 ≤
        20000 - m * (exampleConsts.INTARRAYLEAFSIZE / 2 + 1)) :=
  ascending_20000_leaves exampleConsts (by decide) (by decide) "relA" 0 Datatype.INTEGER
    (fun i => { page_number := 1, slot_number := i })

/-- Counterexample for C17 as the spec states it: leaf capacity 5, so that
`MIDDLELEAF + 1 = 3`. The chain built from the keys 0..19999 has 6666 leaves, not
`ceil(20000 / 3) = 6667`: the first 6665 leaves hold 3 keys each and the last leaf
holds the 5 keys 19995..19999, not the remainder 2 of the division. -/
theorem ascending_20000_ceil_fails :
    ∃ s p0 pos0 tot0 leaves pg l,
      buildIndex { INTARRAYLEAFSIZE := 5, INTARRAYNONLEAFSIZE := 5 } "relA" 0 Datatype.INTEGER
        (ascendingRelation 20000 fun i => { page_number := 1, slot_number := i }) = some s ∧
      findLeafNode s.bufMgr 0 = some ((p0, pos0, tot0), s.bufMgr) ∧
      leafWalkNodes (s.bufMgr.numPages + 1) s.bufMgr p0 = some leaves ∧
      leaves.length = 6666 ∧ leaves[6665]? = some (pg, l) ∧ l.keyArray.length = 5 ∧
      (20000 + (5 / 2 + 1) - 1) / (5 / 2 + 1) = 6667 ∧ 20000 % (5 / 2 + 1) = 2 := by
  obtain ⟨b, p0, pos0, tot0, leaves, m, r, hbuild, hfind, hwalk, hkeys, hn, hr, hm, -⟩ :=
    ascending_leaves (c := { INTARRAYLEAFSIZE := 5, INTARRAYNONLEAFSIZE := 5 }) (by decide)
      (by decide) "relA" 0 Datatype.INTEGER (fun i => { page_number := 1, slot_number := i })
      20000
  have hn2 : 20000 = m * 3 + r := hn
  have hr2 : r ≤ 5 := hr
  have hm2 : m ≠ 0 → 3 ≤ r := hm
  have hmv : m = 6665 := by omega
  have hrv : r = 5 := by omega
  subst hmv hrv
  have hlen : leaves.length = 6666 := by
    have := congrArg List.length hkeys
    rw [List.length_map, ascLayout_length] at this
    exact this
  obtain ⟨x, hx⟩ : ∃ x, leaves[6665]? = some x :=
    ⟨_, List.getElem?_eq_getElem (by rw [hlen]; exact Nat.lt_succ_self _)⟩
  obtain ⟨pg, l⟩ := x
  refine ⟨mkIndex b, p0, pos0, tot0, leaves, pg, l, hbuild, hfind, hwalk, hlen, hx, ?_,
    by decide, by decide⟩
  have hkeys2 : leaves.map (fun x => x.2.keyArray) = ascLayout 2 6665 5 := hkeys
  have hget : (ascLayout 2 6665 5)[6665]? = some l.keyArray := by
    rw [← hkeys2, List.getElem?_map, hx]
    rfl
  rw [ascLayout_get_last] at hget
  rw [← Option.some.inj hget, keyRun_length]

/-! ## Claims on `modifyLeafNode` and `modifyNonLeafNode` -/

/-- C24: leaf insert without split. For every leaf with fewer than `INTARRAYLEAFSIZE`
entries and every position up to its key count, `modifyLeafNode` returns, reports no
split (`right_node_num` is the sentinel, `push_up_key` is -1) and changes only the page
of the leaf: the entries before `position` stay, `(key, rid)` is stored at `position`,
every old entry `i ≥ position` is at `i + 1`, the key count grows by exactly one and
`rightSibPageNo` is unchanged. -/
theorem modifyLeafNode_room (c : Consts) (b : BufMgr) (q : Nat) (l : LeafNodeInt) (key : Int)
    (rid : RecordId) (pos : Nat) (hq : b.file q = some (Page.leaf l))
    (hr : l.ridArray.length = l.keyArray.length)
    (ht : l.keyArray.length < c.INTARRAYLEAFSIZE) (hpos : pos ≤ l.keyArray.length) :
    ∃ b2 l2,
      modifyLeafNode c b q key rid pos l.keyArray.length =
        some ((q, INVALID_NUMBER, -1), b2) ∧
      b2.file q = some (Page.leaf l2) ∧ (∀ p, p ≠ q → b2.file p = b.file p) ∧
      b2.numPages = b.numPages ∧
      l2.keyArray.length = l.keyArray.length + 1 ∧
      l2.ridArray.length = l.ridArray.length + 1 ∧
      l2.rightSibPageNo = l.rightSibPageNo ∧
      l2.keyArray[pos]? = some key ∧ l2.ridArray[pos]? = some rid ∧
      (∀ i, i < pos → l2.keyArray[i]? = l.keyArray[i]? ∧ l2.ridArray[i]? = l.ridArray[i]?) ∧
      (∀ i, pos ≤ i →
        l2.keyArray[i + 1]? = l.keyArray[i]? ∧ l2.ridArray[i + 1]? = l.ridArray[i]?) := by
  have hmod := modifyLeafNode_nosplit (c := c) key rid pos hq ht
  have hposr : pos ≤ l.ridArray.length := by omega
  refine ⟨_, { keyArray := insertAt l.keyArray pos key
               ridArray := insertAt l.ridArray pos rid
               rightSibPageNo := l.rightSibPageNo }, hmod, ?_, ?_, rfl, ?_, ?_, rfl, ?_, ?_, ?_, ?_⟩
  · show Function.update b.file q _ q = _
    rw [Function.update_same]
  · intro p hp
    show Function.update b.file q _ p = _
    rw [Function.update_noteq hp]
  · exact insertAt_length _ _ _
  · exact insertAt_length _ _ _
  · exact insertAt_get_eq _ _ _ hpos
  · exact insertAt_get_eq _ _ _ hposr
  · intro i hi
    exact ⟨insertAt_get_lt _ _ _ hi hpos, insertAt_get_lt _ _ _ hi hposr⟩
  · intro i hi
    exact ⟨insertAt_get_gt _ _ _ hi hpos, insertAt_get_gt _ _ _ hi hposr⟩

/-- Witness for C24: the leaf with the keys 0, 1, 2 on page 2 of `sampleIndex` (leaf
capacity 4); a key stored at position 1. -/
theorem modifyLeafNode_room_witness :
    ∃ b2 l2,
      modifyLeafNode sampleConsts sampleIndex.bufMgr 2 1 { page_number := 7, slot_number := 7 } 1
          3 = some ((2, INVALID_NUMBER, -1), b2) ∧
      b2.file 2 = some (Page.leaf l2) ∧ (∀ p, p ≠ 2 → b2.file p = sampleIndex.bufMgr.file p) ∧
      b2.numPages = sampleIndex.bufMgr.numPages ∧
      l2.keyArray.length = 3 + 1 ∧ l2.ridArray.length = 3 + 1 ∧ l2.rightSibPageNo = 3 ∧
      l2.keyArray[1]? = some 1 ∧ l2.ridArray[1]? = some { page_number := 7, slot_number := 7 } ∧
      (∀ i, i < 1 → l2.keyArray[i]? = [(0 : Int), 1, 2][i]? ∧
        l2.ridArray[i]? = ([{ page_number := 1, slot_number := 0 },
          { page_number := 1, slot_number := 1 },
          { page_number := 1, slot_number := 2 }] : List RecordId)[i]?) ∧
      (∀ i, 1 ≤ i → l2.keyArray[i + 1]? = [(0 : Int), 1, 2][i]? ∧
        l2.ridArray[i + 1]? = ([{ page_number := 1, slot_number := 0 },
          { page_number := 1, slot_number := 1 },
          { page_number := 1, slot_number := 2 }] : List RecordId)[i]?) :=
  modifyLeafNode_room sampleConsts sampleIndex.bufMgr 2
    { keyArray := [0, 1, 2]
      ridArray := [{ page_number := 1, slot_number := 0 }, { page_number := 1, slot_number := 1 },
        { page_number := 1, slot_number := 2 }]
      rightSibPageNo := 3 } 1 { page_number := 7, slot_number := 7 } 1 rfl rfl (by decide)
    (by decide)

/-- C25: leaf split. For every full leaf (`INTARRAYLEAFSIZE` entries) on an allocated
page and every position up to `INTARRAYLEAFSIZE`, `modifyLeafNode` returns with the
leaf split over its own page (left) and the newly allocated page (right): the left
leaf has exactly `MIDDLELEAF + 1` entries and the right leaf exactly
`INTARRAYLEAFSIZE - MIDDLELEAF`, their concatenation is the old entries with
`(key, rid)` inserted at `position`, the right leaf takes over the old right sibling,
the left leaf points to the right leaf, and the push-up key `temp[MIDDLELEAF]` is
still stored, at index `MIDDLELEAF` of the left leaf. -/
theorem modifyLeafNode_full (c : Consts) (b : BufMgr) (q : Nat) (l : LeafNodeInt) (key : Int)
    (rid : RecordId) (pos : Nat) (hq : b.file q = some (Page.leaf l))
    (hk : l.keyArray.length = c.INTARRAYLEAFSIZE) (hr : l.ridArray.length = c.INTARRAYLEAFSIZE)
    (hpos : pos ≤ c.INTARRAYLEAFSIZE) (hqn : q ≤ b.numPages) :
    ∃ push b2 lL lR,
      modifyLeafNode c b q key rid pos l.keyArray.length =
        some ((q, b.numPages + 1, push), b2) ∧
      b2.numPages = b.numPages + 1 ∧
      b2.file q = some (Page.leaf lL) ∧ b2.file (b.numPages + 1) = some (Page.leaf lR) ∧
      (∀ p, p ≠ q → p ≠ b.numPages + 1 → b2.file p = b.file p) ∧
      lL.keyArray.length = c.MIDDLELEAF + 1 ∧ lL.ridArray.length = c.MIDDLELEAF + 1 ∧
      lR.keyArray.length = c.INTARRAYLEAFSIZE - c.MIDDLELEAF ∧
      lR.ridArray.length = c.INTARRAYLEAFSIZE - c.MIDDLELEAF ∧
      lL.keyArray ++ lR.keyArray = insertAt l.keyArray pos key ∧
      lL.ridArray ++ lR.ridArray = insertAt l.ridArray pos rid ∧
      lL.entries ++ lR.entries = insertAt l.entries pos (key, rid) ∧
      (insertAt l.entries pos (key, rid))[pos]? = some (key, rid) ∧
      lR.rightSibPageNo = l.rightSibPageNo ∧ lL.rightSibPageNo = b.numPages + 1 ∧
      (insertAt l.keyArray pos key)[c.MIDDLELEAF]? = some push ∧
      lL.keyArray[c.MIDDLELEAF]? = some push ∧ push ∈ lL.keyArray := by
  have hTlen : (insertAt l.keyArray pos key).length = c.INTARRAYLEAFSIZE + 1 := by
    rw [insertAt_length, hk]
  have hRlen : (insertAt l.ridArray pos rid).length = c.INTARRAYLEAFSIZE + 1 := by
    rw [insertAt_length, hr]
  have hMle : c.MIDDLELEAF ≤ c.INTARRAYLEAFSIZE := by
    unfold Consts.MIDDLELEAF
    omega
  have hM : c.MIDDLELEAF < (insertAt l.keyArray pos key).length := by
    rw [hTlen]
    omega
  have hget : (insertAt l.keyArray pos key)[c.MIDDLELEAF]? =
      some ((insertAt l.keyArray pos key).get ⟨c.MIDDLELEAF, hM⟩) :=
    List.getElem?_eq_getElem hM
  have hqne : q ≠ b.numPages + 1 := by omega
  have hmod := @modifyLeafNode_split_full c b q l key rid pos l.keyArray.length _ hq
    (by omega) hqne hk hr hget
  have hLget : ((insertAt l.keyArray pos key).take (c.MIDDLELEAF + 1))[c.MIDDLELEAF]? =
      some ((insertAt l.keyArray pos key).get ⟨c.MIDDLELEAF, hM⟩) := by
    rw [List.getElem?_take_of_lt (Nat.lt_succ_self _)]
    exact hget
  refine ⟨_, _,
    { keyArray := (insertAt l.keyArray pos key).take (c.MIDDLELEAF + 1)
      ridArray := (insertAt l.ridArray pos rid).take (c.MIDDLELEAF + 1)
      rightSibPageNo := b.numPages + 1 },
    { keyArray := (insertAt l.keyArray pos key).drop (c.MIDDLELEAF + 1)
      ridArray := (insertAt l.ridArray pos rid).drop (c.MIDDLELEAF + 1)
      rightSibPageNo := l.rightSibPageNo }, hmod, rfl, ?_, ?_, ?_, ?_, ?_, ?_, ?_, ?_, ?_, ?_,
    ?_, rfl, rfl, hget, hLget, List.getElem?_mem hLget⟩
  · show Function.update (Function.update b.file q _) (b.numPages + 1) _ q = _
    rw [Function.update_noteq hqne, Function.update_same]
  · show Function.update (Function.update b.file q _) (b.numPages + 1) _ _ = _
    rw [Function.update_same]
  · intro p hp hpn
    show Function.update (Function.update b.file q _) (b.numPages + 1) _ p = _
    rw [Function.update_noteq hpn, Function.update_noteq hp]
  · show ((insertAt l.keyArray pos key).take (c.MIDDLELEAF + 1)).length = _
    rw [List.length_take, hTlen]
    omega
  · show ((insertAt l.ridArray pos rid).take (c.MIDDLELEAF + 1)).length = _
    rw [List.length_take, hRlen]
    omega
  · show ((insertAt l.keyArray pos key).drop (c.MIDDLELEAF + 1)).length = _
    rw [List.length_drop, hTlen]
    omega
  · show ((insertAt l.ridArray pos rid).drop (c.MIDDLELEAF + 1)).length = _
    rw [List.length_drop, hRlen]
    omega
  · exact List.take_append_drop _ _
  · exact List.take_append_drop _ _
  · show ((insertAt l.keyArray pos key).take (c.MIDDLELEAF + 1)).zip
        ((insertAt l.ridArray pos rid).take (c.MIDDLELEAF + 1)) ++
      ((insertAt l.keyArray pos key).drop (c.MIDDLELEAF + 1)).zip
        ((insertAt l.ridArray pos rid).drop (c.MIDDLELEAF + 1)) = _
    rw [← List.zip_append (by
      rw [List.length_take, List.length_take, hTlen, hRlen]), List.take_append_drop,
      List.take_append_drop, insertAt_zip _ _ _ _ _ (by rw [hr, hk])]
    rfl
  · refine insertAt_get_eq _ _ _ ?_
    unfold LeafNodeInt.entries
    rw [List.length_zip, hk, hr, Nat.min_self]
    exact hpos

/-- Witness for C25: the full leaf with the keys 6, 7, 8, 9 on page 5 of
`sampleIndex` (leaf capacity 4); the key 10 at position 4. -/
theorem modifyLeafNode_full_witness :
    ∃ push b2 lL lR,
      modifyLeafNode sampleConsts sampleIndex.bufMgr 5 10 { page_number := 1, slot_number := 10 }
          4 4 = some ((5, 5 + 1, push), b2) ∧
      b2.numPages = 5 + 1 ∧
      b2.file 5 = some (Page.leaf lL) ∧ b2.file (5 + 1) = some (Page.leaf lR) ∧
      (∀ p, p ≠ 5 → p ≠ 5 + 1 → b2.file p = sampleIndex.bufMgr.file p) ∧
      lL.keyArray.length = 2 + 1 ∧ lL.ridArray.length = 2 + 1 ∧
      lR.keyArray.length = 4 - 2 ∧ lR.ridArray.length = 4 - 2 ∧
      lL.keyArray ++ lR.keyArray = [6, 7, 8, 9, 10] ∧
      lR.rightSibPageNo = 0 ∧ lL.rightSibPageNo = 5 + 1 ∧
      lL.keyArray[2]? = some push ∧ push ∈ lL.keyArray := by
  obtain ⟨push, b2, lL, lR, h1, h2, h3, h4, h5, h6, h7, h8, h9, h10, -, -, -, h13, h14, -, h16,
      h17⟩ :=
    modifyLeafNode_full sampleConsts sampleIndex.bufMgr 5
      { keyArray := [6, 7, 8, 9]
        ridArray := [{ page_number := 1, slot_number := 6 },
          { page_number := 1, slot_number := 7 }, { page_number := 1, slot_number := 8 },
          { page_number := 1, slot_number := 9 }]
        rightSibPageNo := 0 } 10 { page_number := 1, slot_number := 10 } 4 rfl rfl rfl
      (by decide) (by decide)
  exact ⟨push, b2, lL, lR, h1, h2, h3, h4, h5, h6, h7, h8, h9, h10, h13, h14, h16, h17⟩

/-- C26 (as the code has it): for every leaf split performed by `modifyLeafNode` (a
full leaf on an allocated page, a position up to `INTARRAYLEAFSIZE`), the emitted
`push_up_key` is `temp[MIDDLELEAF]`, which is the last key of the left leaf (index
`MIDDLELEAF` of the `MIDDLELEAF + 1` keys it keeps); the first key of the new right
leaf is `temp[MIDDLELEAF + 1]`. When the keys with the new key in place ascend
strictly, no key of the left leaf is above the push-up key and every key of the
right leaf is strictly above it. -/
theorem leafSplit_pushUp_left_last (c : Consts) (b : BufMgr) (q : Nat) (l : LeafNodeInt)
    (key : Int) (rid : RecordId) (pos : Nat) (hq : b.file q = some (Page.leaf l))
    (hk : l.keyArray.length = c.INTARRAYLEAFSIZE) (hr : l.ridArray.length = c.INTARRAYLEAFSIZE)
    (hpos : pos ≤ c.INTARRAYLEAFSIZE) (hqn : q ≤ b.numPages) :
    ∃ push b2 lL lR,
      modifyLeafNode c b q key rid pos l.keyArray.length =
        some ((q, b.numPages + 1, push), b2) ∧
      b2.file q = some (Page.leaf lL) ∧ b2.file (b.numPages + 1) = some (Page.leaf lR) ∧
      (insertAt l.keyArray pos key)[pos]? = some key ∧
      (insertAt l.keyArray pos key)[c.MIDDLELEAF]? = some push ∧
      lL.keyArray[c.MIDDLELEAF]? = some push ∧ lL.keyArray.getLast? = some push ∧
      lR.keyArray[0]? = (insertAt l.keyArray pos key)[c.MIDDLELEAF + 1]? ∧
      ((insertAt l.keyArray pos key).Pairwise (· < ·) →
        (∀ k ∈ lL.keyArray, k ≤ push) ∧ (∀ k ∈ lR.keyArray, push < k) ∧
        lR.keyArray[0]? ≠ some push) := by
  have hTlen : (insertAt l.keyArray pos key).length = c.INTARRAYLEAFSIZE + 1 := by
    rw [insertAt_length, hk]
  have hMle : c.MIDDLELEAF ≤ c.INTARRAYLEAFSIZE := by
    unfold Consts.MIDDLELEAF
    omega
  have hM : c.MIDDLELEAF < (insertAt l.keyArray pos key).length := by
    rw [hTlen]
    omega
  have hget : (insertAt l.keyArray pos key)[c.MIDDLELEAF]? =
      some ((insertAt l.keyArray pos key).get ⟨c.MIDDLELEAF, hM⟩) :=
    List.getElem?_eq_getElem hM
  have hqne : q ≠ b.numPages + 1 := by omega
  have hmod := @modifyLeafNode_split_full c b q l key rid pos l.keyArray.length _ hq
    (by omega) hqne hk hr hget
  have hLget : ((insertAt l.keyArray pos key).take (c.MIDDLELEAF + 1))[c.MIDDLELEAF]? =
      some ((insertAt l.keyArray pos key).get ⟨c.MIDDLELEAF, hM⟩) := by
    rw [List.getElem?_take_of_lt (Nat.lt_succ_self _)]
    exact hget
  have hLlen : ((insertAt l.keyArray pos key).take (c.MIDDLELEAF + 1)).length =
      c.MIDDLELEAF + 1 := by
    rw [List.length_take, hTlen]
    omega
  refine ⟨_, _,
    { keyArray := (insertAt l.keyArray pos key).take (c.MIDDLELEAF + 1)
      ridArray := (insertAt l.ridArray pos rid).take (c.MIDDLELEAF + 1)
      rightSibPageNo := b.numPages + 1 },
    { keyArray := (insertAt l.keyArray pos key).drop (c.MIDDLELEAF + 1)
      ridArray := (insertAt l.ridArray pos rid).drop (c.MIDDLELEAF + 1)
      rightSibPageNo := l.rightSibPageNo }, hmod, ?_, ?_,
    insertAt_get_eq _ _ _ (by rw [hk]; exact hpos), hget, hLget, ?_, ?_, ?_⟩
  · show Function.update (Function.update b.file q _) (b.numPages + 1) _ q = _
    rw [Function.update_noteq hqne, Function.update_same]
  · show Function.update (Function.update b.file q _) (b.numPages + 1) _ _ = _
    rw [Function.update_same]
  · show ((insertAt l.keyArray pos key).take (c.MIDDLELEAF + 1)).getLast? = _
    rw [List.getLast?_eq_getElem?, hLlen]
    exact hLget
  · show ((insertAt l.keyArray pos key).drop (c.MIDDLELEAF + 1))[0]? = _
    rw [List.getElem?_drop]
  · intro hs
    have hright : ∀ k ∈ (insertAt l.keyArray pos key).drop (c.MIDDLELEAF + 1),
        (insertAt l.keyArray pos key).get ⟨c.MIDDLELEAF, hM⟩ < k := fun k hkm =>
      sorted_take_lt_drop _ hs (c.MIDDLELEAF + 1) _ (List.getElem?_mem hLget) k hkm
    refine ⟨sorted_take_le_get _ hs _ _ hget, hright, ?_⟩
    intro h0
    have := hright _ (List.getElem?_mem h0)
    omega

/-- Witness for C26: the full leaf with the keys 6, 7, 8, 9 on page 5 of
`sampleIndex` (leaf capacity 4) and the key 10 at position 4: the push-up key is 8,
the last key of the left leaf. -/
theorem leafSplit_pushUp_left_last_witness :
    ∃ push b2 lL lR,
      modifyLeafNode sampleConsts sampleIndex.bufMgr 5 10 { page_number := 1, slot_number := 10 }
          4 4 = some ((5, 5 + 1, push), b2) ∧
      b2.file 5 = some (Page.leaf lL) ∧ b2.file (5 + 1) = some (Page.leaf lR) ∧
      ([6, 7, 8, 9, 10] : List Int)[2]? = some push ∧
      lL.keyArray[2]? = some push ∧ lL.keyArray.getLast? = some push ∧
      lR.keyArray[0]? = ([6, 7, 8, 9, 10] : List Int)[2 + 1]? := by
  obtain ⟨push, b2, lL, lR, h1, h2, h3, -, h5, h6, h7, h8, -⟩ :=
    leafSplit_pushUp_left_last sampleConsts sampleIndex.bufMgr 5
      { keyArray := [6, 7, 8, 9]
        ridArray := [{ page_number := 1, slot_number := 6 },
          { page_number := 1, slot_number := 7 }, { page_number := 1, slot_number := 8 },
          { page_number := 1, slot_number := 9 }]
        rightSibPageNo := 0 } 10 { page_number := 1, slot_number := 10 } 4 rfl rfl rfl
      (by decide) (by decide)
  exact ⟨push, b2, lL, lR, h1, h2, h3, h5, h6, h7, h8⟩

/-- Counterexample for C26 as the spec states it: leaf capacity 4, the full leaf with
the keys 6, 7, 8, 9 on page 5 of `sampleIndex`, and the key 10 inserted at position 4.
`modifyLeafNode` splits the leaf into 6, 7, 8 (page 5) and 9, 10 (the new page 6) and
emits the push-up key 8, while the smallest key of the new right leaf is 9. -/
theorem leafSplit_pushUp_not_right_first :
    ∃ b2 lL lR,
      modifyLeafNode sampleConsts sampleIndex.bufMgr 5 10 { page_number := 1, slot_number := 10 }
          4 4 = some ((5, 6, 8), b2) ∧
      b2.file 5 = some (Page.leaf lL) ∧ lL.keyArray = [6, 7, 8] ∧
      b2.file 6 = some (Page.leaf lR) ∧ lR.keyArray = [9, 10] ∧
      lR.keyArray[0]? = some 9 ∧ (8 : Int) ≠ 9 :=
  ⟨_, _, _, rfl, rfl, rfl, rfl, rfl, rfl, by decide⟩

/-- C27: internal split. For every full internal node (`INTARRAYNONLEAFSIZE` keys,
one child more) on an allocated page and every position up to `INTARRAYNONLEAFSIZE`,
the temporary sequences are the keys with `key` at index `position` (one key more)
and the children with the left and right child at the indices `position` and
`position + 1` (one child more). `modifyNonLeafNode` returns, leaves the node with the
first `MIDDLENONLEAF` keys and the first `MIDDLENONLEAF + 1` children, gives the newly
allocated right node the last `INTARRAYNONLEAFSIZE - MIDDLENONLEAF` keys, the last
`INTARRAYNONLEAFSIZE - MIDDLENONLEAF + 1` children and the level of the split node,
and returns `temp[MIDDLENONLEAF]` as push-up key. That key is moved up: the left keys,
the push-up key and the right keys make up the temporary key sequence, and with
pairwise distinct keys it occurs in neither node. -/
theorem modifyNonLeafNode_full (c : Consts) (b : BufMgr) (p : Nat) (n : NonLeafNodeInt)
    (key : Int) (left right pos : Nat) (hp : b.file p = some (Page.nonLeaf n))
    (hk : n.keyArray.length = c.INTARRAYNONLEAFSIZE)
    (hc : n.pageNoArray.length = c.INTARRAYNONLEAFSIZE + 1)
    (hpos : pos ≤ c.INTARRAYNONLEAFSIZE) (hpn : p ≤ b.numPages) :
    ∃ push b2 nL nR,
      modifyNonLeafNode c b p key left right pos n.keyArray.length =
        some ((p, b.numPages + 1, push), b2) ∧
      b2.numPages = b.numPages + 1 ∧
      b2.file p = some (Page.nonLeaf nL) ∧ b2.file (b.numPages + 1) = some (Page.nonLeaf nR) ∧
      (∀ x, x ≠ p → x ≠ b.numPages + 1 → b2.file x = b.file x) ∧
      (insertAt n.keyArray pos key).length = c.INTARRAYNONLEAFSIZE + 1 ∧
      (insertChildren n.pageNoArray pos left right).length = c.INTARRAYNONLEAFSIZE + 2 ∧
      (insertAt n.keyArray pos key)[pos]? = some key ∧
      (insertChildren n.pageNoArray pos left right)[pos]? = some left ∧
      (insertChildren n.pageNoArray pos left right)[pos + 1]? = some right ∧
      nL.keyArray = (insertAt n.keyArray pos key).take c.MIDDLENONLEAF ∧
      nL.pageNoArray = (insertChildren n.pageNoArray pos left right).take (c.MIDDLENONLEAF + 1) ∧
      nL.keyArray.length = c.MIDDLENONLEAF ∧ nL.pageNoArray.length = c.MIDDLENONLEAF + 1 ∧
      nR.keyArray = (insertAt n.keyArray pos key).drop (c.MIDDLENONLEAF + 1) ∧
      nR.pageNoArray = (insertChildren n.pageNoArray pos left right).drop (c.MIDDLENONLEAF + 1) ∧
      nR.keyArray.length = c.INTARRAYNONLEAFSIZE - c.MIDDLENONLEAF ∧
      nR.pageNoArray.length = c.INTARRAYNONLEAFSIZE - c.MIDDLENONLEAF + 1 ∧
      nL.level = n.level ∧ nR.level = n.level ∧
      (insertAt n.keyArray pos key)[c.MIDDLENONLEAF]? = some push ∧
      nL.keyArray ++ [push] ++ nR.keyArray = insertAt n.keyArray pos key ∧
      nL.pageNoArray ++ nR.pageNoArray = insertChildren n.pageNoArray pos left right ∧
      ((insertAt n.keyArray pos key).Nodup → push ∉ nL.keyArray ∧ push ∉ nR.keyArray) := by
  have hposc : pos < n.pageNoArray.length := by omega
  have hTlen : (insertAt n.keyArray pos key).length = c.INTARRAYNONLEAFSIZE + 1 := by
    rw [insertAt_length, hk]
  have hClen : (insertChildren n.pageNoArray pos left right).length =
      c.INTARRAYNONLEAFSIZE + 2 := by
    rw [insertChildren_length _ _ _ _ hposc, hc]
  have hMle : c.MIDDLENONLEAF ≤ c.INTARRAYNONLEAFSIZE := by
    unfold Consts.MIDDLENONLEAF
    omega
  have hM : c.MIDDLENONLEAF < (insertAt n.keyArray pos key).length := by
    rw [hTlen]
    omega
  have hget : (insertAt n.keyArray pos key)[c.MIDDLENONLEAF]? =
      some ((insertAt n.keyArray pos key).get ⟨c.MIDDLENONLEAF, hM⟩) :=
    List.getElem?_eq_getElem hM
  have hpne : p ≠ b.numPages + 1 := by omega
  have hmod := @modifyNonLeafNode_split c b p n key left right pos n.keyArray.length _ hp
    (by omega) hpne hk hc hposc hget
  have hsplit : (insertAt n.keyArray pos key).take c.MIDDLENONLEAF ++
      [(insertAt n.keyArray pos key).get ⟨c.MIDDLENONLEAF, hM⟩] ++
      (insertAt n.keyArray pos key).drop (c.MIDDLENONLEAF + 1) = insertAt n.keyArray pos key := by
    rw [List.append_assoc, List.singleton_append]
    have := List.drop_eq_getElem_cons hM
    rw [List.get_eq_getElem, ← this, List.take_append_drop]
  refine ⟨_, _,
    { level := n.level
      keyArray := (insertAt n.keyArray pos key).take c.MIDDLENONLEAF
      pageNoArray := (insertChildren n.pageNoArray pos left right).take (c.MIDDLENONLEAF + 1) },
    { level := n.level
      keyArray := (insertAt n.keyArray pos key).drop (c.MIDDLENONLEAF + 1)
      pageNoArray := (insertChildren n.pageNoArray pos left right).drop (c.MIDDLENONLEAF + 1) },
    hmod, rfl, ?_, ?_, ?_, hTlen, hClen, insertAt_get_eq _ _ _ (by rw [hk]; exact hpos),
    insertChildren_get_left _ _ _ _ hposc, insertChildren_get_right _ _ _ _ hposc, rfl, rfl,
    ?_, ?_, rfl, rfl, ?_, ?_, rfl, rfl, hget, hsplit, List.take_append_drop _ _, ?_⟩
  · show Function.update (Function.update b.file p _) (b.numPages + 1) _ p = _
    rw [Function.update_noteq hpne, Function.update_same]
  · show Function.update (Function.update b.file p _) (b.numPages + 1) _ _ = _
    rw [Function.update_same]
  · intro x hx hxn
    show Function.update (Function.update b.file p _) (b.numPages + 1) _ x = _
    rw [Function.update_noteq hxn, Function.update_noteq hx]
  · show ((insertAt n.keyArray pos key).take c.MIDDLENONLEAF).length = _
    rw [List.length_take, hTlen]
    omega
  · show ((insertChildren n.pageNoArray pos left right).take (c.MIDDLENONLEAF + 1)).length = _
    rw [List.length_take, hClen]
    omega
  · show ((insertAt n.keyArray pos key).drop (c.MIDDLENONLEAF + 1)).length = _
    rw [List.length_drop, hTlen]
    omega
  · show ((insertChildren n.pageNoArray pos left right).drop (c.MIDDLENONLEAF + 1)).length = _
    rw [List.length_drop, hClen]
    omega
  · intro hnd
    rw [← hsplit] at hnd
    show _ ∉ (insertAt n.keyArray pos key).take c.MIDDLENONLEAF ∧
      _ ∉ (insertAt n.keyArray pos key).drop (c.MIDDLENONLEAF + 1)
    rw [List.append_assoc, List.singleton_append] at hnd
    have h1 := List.nodup_append.mp hnd
    have h2 := List.nodup_cons.mp h1.2.1
    constructor
    · intro hmem
      exact h1.2.2 hmem (List.mem_cons_self _ _)
    · exact h2.1


/-- Witness for C27: the full root of `fullIndex` (capacities 2 and 2, keys 1 and 3,
children 2, 3, 5) after its last leaf was split into the pages 5 and 6 with the
push-up key 5. -/
theorem modifyNonLeafNode_full_witness :
    ∃ push b2 nL nR,
      modifyNonLeafNode exampleConsts fullIndexSplit 4 5 5 6 2 2 =
        some ((4, fullIndexSplit.numPages + 1, push), b2) ∧
      b2.file 4 = some (Page.nonLeaf nL) ∧
      b2.file (fullIndexSplit.numPages + 1) = some (Page.nonLeaf nR) ∧
      nL.keyArray = [1] ∧ nL.pageNoArray = [2, 3] ∧ nR.keyArray = [5] ∧
      nR.pageNoArray = [5, 6] ∧ nL.level = 1 ∧ nR.level = 1 ∧ push = 3 ∧
      push ∉ nL.keyArray ∧ push ∉ nR.keyArray := by
  obtain ⟨push, b2, nL, nR, h1, -, h3, h4, -, -, -, -, -, -, h11, h12, -, -, h15, h16, -, -,
      h19, h20, h21, -, -, h24⟩ :=
    modifyNonLeafNode_full exampleConsts fullIndexSplit 4
      { level := 1, keyArray := [1, 3], pageNoArray := [2, 3, 5] } 5 5 6 2 rfl rfl rfl
      (by decide) (by decide)
  have hp : push = 3 := (Option.some.inj h21).symm
  exact ⟨push, b2, nL, nR, h1, h3, h4, h11, h12, h15, h16, h19, h20, hp,
    (h24 (by decide)).1, (h24 (by decide)).2⟩

/-- C28: internal insert without split. Whenever `findParentNode`, called for a
freshly split left child and its push-up key, names a parent (not the sentinel), that
parent is an internal node, the position returned is the one the search with `>`
gives and the left child stands at that position of the child array. If the parent
has fewer than `INTARRAYNONLEAFSIZE` keys, `modifyNonLeafNode` returns, reports no
split and changes only the page of the parent: the key count grows by one,
`keyArray[position]` is the promoted separator, `pageNoArray[position]` is the left
child and `pageNoArray[position + 1]` the new right child, the keys and children
before `position` stay, every old key `i ≥ position` and every old child
`i > position` is at `i + 1`, and the level is unchanged. -/
theorem modifyNonLeafNode_room (c : Consts) (s : BufMgr) (left : Nat) (key : Int) (right : Nat)
    (par pos tot : Nat)
    (hfind : (findParentNode s left key).map Prod.fst = some (par, pos, tot))
    (hpar : par ≠ INVALID_NUMBER) :
    ∃ n, findParentNode s left key = some ((par, pos, tot), s) ∧
      s.file par = some (Page.nonLeaf n) ∧ tot = n.keyArray.length ∧
      pos = searchGT n.keyArray key ∧ pos ≤ n.keyArray.length ∧
      n.pageNoArray[pos]? = some left ∧
      (n.keyArray.length < c.INTARRAYNONLEAFSIZE →
        ∃ b2 n2,
          modifyNonLeafNode c s par key left right pos tot =
            some ((par, INVALID_NUMBER, -1), b2) ∧
          b2.file par = some (Page.nonLeaf n2) ∧ (∀ x, x ≠ par → b2.file x = s.file x) ∧
          b2.numPages = s.numPages ∧ n2.level = n.level ∧
          n2.keyArray.length = n.keyArray.length + 1 ∧
          n2.pageNoArray.length = n.pageNoArray.length + 1 ∧
          n2.keyArray[pos]? = some key ∧ n2.pageNoArray[pos]? = some left ∧
          n2.pageNoArray[pos + 1]? = some right ∧
          (∀ i, i < pos →
            n2.keyArray[i]? = n.keyArray[i]? ∧ n2.pageNoArray[i]? = n.pageNoArray[i]?) ∧
          (∀ i, pos ≤ i → n2.keyArray[i + 1]? = n.keyArray[i]?) ∧
          (∀ i, pos < i → n2.pageNoArray[i + 1]? = n.pageNoArray[i]?)) := by
  obtain ⟨⟨r, s1⟩, hfind1, hr1⟩ := Option.map_eq_some'.mp hfind
  simp only [] at hr1
  subst hr1
  obtain ⟨e, hres⟩ := findParentNode_result hfind1
  subst e
  rcases hres with ⟨hr, -⟩ | ⟨n, hfile, hpos, htot, hchild⟩
  · exact absurd (congrArg Prod.fst hr) hpar
  · simp only [] at hfile hpos htot hchild
    have hle : pos ≤ n.keyArray.length := by
      rw [hpos]
      exact searchGT_le _ _
    have hposc : pos < n.pageNoArray.length := (List.getElem?_eq_some_iff.mp hchild).1
    refine ⟨n, hfind1, hfile, htot, hpos, hle, hchild, ?_⟩
    intro hlen
    have hmod := @modifyNonLeafNode_nosplit c s1 par n key left right pos tot hfile
      (by rw [htot]; exact hlen)
    refine ⟨_, { level := n.level
                 keyArray := insertAt n.keyArray pos key
                 pageNoArray := insertChildren n.pageNoArray pos left right }, hmod, ?_, ?_, rfl,
      rfl, insertAt_length _ _ _, insertChildren_length _ _ _ _ hposc,
      insertAt_get_eq _ _ _ hle, insertChildren_get_left _ _ _ _ hposc,
      insertChildren_get_right _ _ _ _ hposc, ?_, ?_, ?_⟩
    · show Function.update s1.file par _ par = _
      rw [Function.update_same]
    · intro x hx
      show Function.update s1.file par _ x = _
      rw [Function.update_noteq hx]
    · intro i hi
      exact ⟨insertAt_get_lt _ _ _ hi hle, insertChildren_get_lt _ _ _ _ hi hposc⟩
    · intro i hi
      exact insertAt_get_gt _ _ _ hi hle
    · intro i hi
      exact insertChildren_get_gt _ _ _ _ hi hposc

/-- Witness for C28: `sampleIndex` (capacities 4 and 4) after its last leaf was split
into the pages 5 and 6 with the push-up key 8; `findParentNode(5, 8)` names the root
on page 4 (keys 2 and 5, children 2, 3, 5) and the position 2. -/
theorem modifyNonLeafNode_room_witness :
    ∃ n, findParentNode sampleSplit 5 8 = some ((4, 2, 2), sampleSplit) ∧
      sampleSplit.file 4 = some (Page.nonLeaf n) ∧
      2 = n.keyArray.length ∧ 2 = searchGT n.keyArray 8 ∧ 2 ≤ n.keyArray.length ∧
      n.pageNoArray[2]? = some 5 ∧
      (n.keyArray.length < sampleConsts.INTARRAYNONLEAFSIZE →
        ∃ b2 n2,
          modifyNonLeafNode sampleConsts sampleSplit 4 8 5 6 2 2 =
            some ((4, INVALID_NUMBER, -1), b2) ∧
          b2.file 4 = some (Page.nonLeaf n2) ∧ (∀ x, x ≠ 4 → b2.file x = sampleSplit.file x) ∧
          b2.numPages = sampleSplit.numPages ∧ n2.level = n.level ∧
          n2.keyArray.length = n.keyArray.length + 1 ∧
          n2.pageNoArray.length = n.pageNoArray.length + 1 ∧
          n2.keyArray[2]? = some 8 ∧ n2.pageNoArray[2]? = some 5 ∧
          n2.pageNoArray[2 + 1]? = some 6 ∧
          (∀ i, i < 2 →
            n2.keyArray[i]? = n.keyArray[i]? ∧ n2.pageNoArray[i]? = n.pageNoArray[i]?) ∧
          (∀ i, 2 ≤ i → n2.keyArray[i + 1]? = n.keyArray[i]?) ∧
          (∀ i, 2 < i → n2.pageNoArray[i + 1]? = n.pageNoArray[i]?)) :=
  modifyNonLeafNode_room sampleConsts sampleSplit 5 8 6 4 2 2 rfl (by decide)

/-! ## Claims on the descent -/

/-- C30 (as the code has it): in every index built from a relation with pairwise
distinct keys, for every internal node of the tree and every search key equal to one
of its separators `keyArray[i]`, the search loop of `findLeafNode` stops at `i`, so
the descent proceeds to the left-hand child `pageNoArray[i]` of that separator (it is
the leaf returned when the level flag is 1, and the node of the next round
otherwise); `findLeafNode` returns a leaf below `pageNoArray[i]` that holds the key,
and that leaf is not below the right-hand child `pageNoArray[i + 1]`. -/
theorem descent_tie_goes_left (c : Consts) (hL : 1 ≤ c.INTARRAYLEAFSIZE)
    (hN : 1 ≤ c.INTARRAYNONLEAFSIZE) (name : String) (off : Int) (ty : Datatype)
    (rel : List (Int × RecordId)) (hnd : (rel.map Prod.fst).Nodup) :
    ∃ s, buildIndex c name off ty rel = some s ∧
      ∀ (p : Nat) (n : NonLeafNodeInt) (i : Nat) (k : Int) (chL chR : Nat),
        InTree s.bufMgr p → s.bufMgr.file p = some (Page.nonLeaf n) →
        n.keyArray[i]? = some k → n.pageNoArray[i]? = some chL →
        n.pageNoArray[i + 1]? = some chR →
        searchGE n.keyArray k = i ∧
        (n.level ≠ 1 → ∀ fuel,
          findLeafNodeLoop (fuel + 1) s.bufMgr p k = findLeafNodeLoop fuel s.bufMgr chL k) ∧
        (n.level = 1 → ∃ l, s.bufMgr.file chL = some (Page.leaf l) ∧ ∀ fuel,
          findLeafNodeLoop (fuel + 1) s.bufMgr p k =
            some ((chL, searchGE l.keyArray k, l.keyArray.length), s.bufMgr)) ∧
        ∃ q pos tot l, findLeafNode s.bufMgr k = some ((q, pos, tot), s.bufMgr) ∧
          s.bufMgr.file q = some (Page.leaf l) ∧ l.keyArray[pos]? = some k ∧
          Reach s.bufMgr chL q ∧ ¬ Reach s.bufMgr chR q := by
  obtain ⟨b, G, kvs, hbuild, hinv, -⟩ := buildIndex_spec hL hN name off ty rel hnd
  refine ⟨mkIndex b, hbuild, ?_⟩
  intro p n i k chL chR hp hfile hk hl hr
  exact hinv.descent_at_separator hp hfile hk hl hr

/-- Witness for C30: the index over `exampleRelation` with capacities 2 and 2. -/
theorem descent_tie_goes_left_witness :
    ∃ s, buildIndex exampleConsts "relA" 0 Datatype.INTEGER exampleRelation = some s ∧
      ∀ (p : Nat) (n : NonLeafNodeInt) (i : Nat) (k : Int) (chL chR : Nat),
        InTree s.bufMgr p → s.bufMgr.file p = some (Page.nonLeaf n) →
        n.keyArray[i]? = some k → n.pageNoArray[i]? = some chL →
        n.pageNoArray[i + 1]? = some chR →
        searchGE n.keyArray k = i ∧
        (n.level ≠ 1 → ∀ fuel,
          findLeafNodeLoop (fuel + 1) s.bufMgr p k = findLeafNodeLoop fuel s.bufMgr chL k) ∧
        (n.level = 1 → ∃ l, s.bufMgr.file chL = some (Page.leaf l) ∧ ∀ fuel,
          findLeafNodeLoop (fuel + 1) s.bufMgr p k =
            some ((chL, searchGE l.keyArray k, l.keyArray.length), s.bufMgr)) ∧
        ∃ q pos tot l, findLeafNode s.bufMgr k = some ((q, pos, tot), s.bufMgr) ∧
          s.bufMgr.file q = some (Page.leaf l) ∧ l.keyArray[pos]? = some k ∧
          Reach s.bufMgr chL q ∧ ¬ Reach s.bufMgr chR q :=
  descent_tie_goes_left exampleConsts (by decide) (by decide) "relA" 0 Datatype.INTEGER
    exampleRelation (by decide)

/-- Counterexample for C30 as the spec states it: `sampleIndex` (capacities 4 and 4,
keys 0..9). Its root on page 4 has the separators 2 and 5 and the children 2, 3, 5.
For the search key 5, equal to `keyArray[1]`, the search loop stops at 1 and
`findLeafNode` returns page 3, which is `pageNoArray[1]`, the left-hand child of the
separator; the right-hand child `pageNoArray[2]` is page 5. -/
theorem descent_tie_not_right :
    ∃ n, sampleIndex.bufMgr.file headerPageNum =
        some (Page.header
          { relationName := "relA", attrByteOffset := 0, attrType := Datatype.INTEGER
            rootPageNo := 4 }) ∧
      sampleIndex.bufMgr.file 4 = some (Page.nonLeaf n) ∧ n.level = 1 ∧
      n.keyArray[1]? = some 5 ∧ n.pageNoArray[1]? = some 3 ∧ n.pageNoArray[1 + 1]? = some 5 ∧
      searchGE n.keyArray 5 = 1 ∧
      (findLeafNode sampleIndex.bufMgr 5).map Prod.fst = some (3, 2, 3) ∧ (3 : Nat) ≠ 5 :=
  ⟨_, rfl, rfl, rfl, rfl, rfl, rfl, rfl, rfl, by decide⟩

/-! ## Claims on the bounds of a scan -/

/-- C23: the bounds a call of `startScan` that gets past the validation (it returns
or raises `NoSuchKeyFound`, so the operators are admissible) stores for 32-bit bounds
`low` and `high` are `lowValInt = low + 1` under `GT` (else `low`) and `highValInt = high - 1`
under `LT` (else `high`), computed in 32-bit arithmetic. Membership of every 32-bit
key in `[lowValInt, highValInt]` agrees with the scan predicate exactly when neither
step overflows, that is, unless `low` is `INT_MAX` under `GT` or `high` is `INT_MIN`
under `LT`; in those two cases the interval admits a key the predicate rejects. -/
theorem scanBounds_exact_iff (s : BTreeIndex) (lo hi : Int) (lop hop : Operator)
    (hlo : -2147483648 ≤ lo ∧ lo ≤ 2147483647) (hhi : -2147483648 ≤ hi ∧ hi ≤ 2147483647)
    (s1 : BTreeIndex)
    (hrun : startScan s lo lop hi hop = Res.ok () s1 ∨
      startScan s lo lop hi hop = Res.throw Exn.NoSuchKeyFound s1) :
    s1.lowValInt = (if lop = Operator.GT then wrapInt (lo + 1) else lo) ∧
    s1.highValInt = (if hop = Operator.LT then wrapInt (hi - 1) else hi) ∧
    ((∀ k : Int, -2147483648 ≤ k → k ≤ 2147483647 →
        ((s1.lowValInt ≤ k ∧ k ≤ s1.highValInt) ↔ inScan lo lop hi hop k = true)) ↔
      ¬ (lop = Operator.GT ∧ lo = 2147483647) ∧ ¬ (hop = Operator.LT ∧ hi = -2147483648)) := by
  obtain ⟨hL, hH⟩ := startScan_bounds hrun
  refine ⟨hL, hH, ?_⟩
  have hLr : -2147483648 ≤ s1.lowValInt ∧ s1.lowValInt ≤ 2147483647 := by
    rw [hL]
    split
    · exact wrapInt_range _
    · exact hlo
  have hHr : -2147483648 ≤ s1.highValInt ∧ s1.highValInt ≤ 2147483647 := by
    rw [hH]
    split
    · exact wrapInt_range _
    · exact hhi
  constructor
  · intro hall
    constructor
    · rintro ⟨hgt, hmax⟩
      have hk := (hall (-2147483648) (by omega) (by omega)).mp ⟨by
        rw [hL, if_pos hgt, hmax]
        unfold wrapInt
        omega, hHr.1⟩
      unfold inScan at hk
      rw [if_pos hgt] at hk
      simp only [Bool.and_eq_true, decide_eq_true_eq] at hk
      omega
    · rintro ⟨hlt, hmin⟩
      have hk := (hall 2147483647 (by omega) (by omega)).mp ⟨hLr.2, by
        rw [hH, if_pos hlt, hmin]
        unfold wrapInt
        omega⟩
      unfold inScan at hk
      rw [if_pos hlt] at hk
      simp only [Bool.and_eq_true, decide_eq_true_eq] at hk
      omega
  · rintro ⟨h1, h2⟩ k _ _
    have hn := inScan_normalised lo hi lop hop hlo hhi
      (fun e => by
        have : lo ≠ 2147483647 := fun e2 => h1 ⟨e, e2⟩
        omega)
      (fun e => by
        have : hi ≠ -2147483648 := fun e2 => h2 ⟨e, e2⟩
        omega) k
    rw [← hn, hL, hH]
    simp only [Bool.and_eq_true, decide_eq_true_eq]

/-- Witness for C23, at the input where the normalisation fails: on `sampleIndex`
(keys 0..9) the call `startScan(INT_MAX, GT, INT_MAX, LTE)` returns; it has stored
`lowValInt = INT_MIN` and `highValInt = INT_MAX`, the interval does not agree with the
scan predicate, and the scan returns the rids of all ten keys although no key is above
`INT_MAX`. -/
theorem scanBounds_exact_iff_witness :
    startScan sampleIndex 2147483647 Operator.GT 2147483647 Operator.LTE =
      Res.ok () overflowScan ∧
    overflowScan.lowValInt = -2147483648 ∧ overflowScan.highValInt = 2147483647 ∧
    ¬ (∀ k : Int, -2147483648 ≤ k → k ≤ 2147483647 →
      ((overflowScan.lowValInt ≤ k ∧ k ≤ overflowScan.highValInt) ↔
        inScan 2147483647 Operator.GT 2147483647 Operator.LTE k = true)) ∧
    scanRids 11 sampleIndex 2147483647 Operator.GT 2147483647 Operator.LTE =
      some (sampleRelation.map Prod.snd) ∧
    sampleRelation.filter
      (fun kv => inScan 2147483647 Operator.GT 2147483647 Operator.LTE kv.1) = [] :=
  ⟨rfl, rfl, rfl,
   fun h => ((scanBounds_exact_iff sampleIndex 2147483647 2147483647 Operator.GT Operator.LTE
      (by decide) (by decide) overflowScan (Or.inl rfl)).2.2.mp h).1
      ⟨rfl, rfl⟩,
   rfl, by decide⟩

/-! ## Claims on pin counts -/

/-- C21: pin balance of insert. On any file, a call of `insertEntry` that returns
leaves the pin count of every page as it was at entry, whichever path it takes (no
split, leaf split, internal splits, root replacement): every `readPage` and
`allocPage` is matched by one `unPinPage`. On every index built from a relation with
pairwise distinct keys no page is pinned, `insertEntry` of a key that is not yet
present returns, and afterwards no page is pinned, the pages it allocated
included. -/
theorem insertEntry_pin_balance (c : Consts) (hL : 1 ≤ c.INTARRAYLEAFSIZE)
    (hN : 1 ≤ c.INTARRAYNONLEAFSIZE) (name : String) (off : Int) (ty : Datatype)
    (rel : List (Int × RecordId)) (hnd : (rel.map Prod.fst).Nodup) :
    (∀ (s : BufMgr) (key : Int) (rid : RecordId) (s2 : BufMgr),
      insertEntry c s key rid = some s2 → ∀ p, s2.pinCnt p = s.pinCnt p) ∧
    ∃ s, buildIndex c name off ty rel = some s ∧ (∀ p, s.bufMgr.pinCnt p = 0) ∧
      ∀ key rid, key ∉ rel.map Prod.fst →
        ∃ b2, insertEntry c s.bufMgr key rid = some b2 ∧ ∀ p, b2.pinCnt p = 0 := by
  refine ⟨fun s key rid s2 h p => congrFun (insertEntry_pins h) p, ?_⟩
  obtain ⟨b, G, kvs, hbuild, hinv, hperm⟩ := buildIndex_spec hL hN name off ty rel hnd
  have hpins := buildIndex_pins hbuild
  refine ⟨mkIndex b, hbuild, hpins, ?_⟩
  intro key rid hkey
  obtain ⟨b2, G2, kvs2, hins, -, -⟩ := insertEntry_spec hL hN hinv key rid
    (fun h => hkey ((hperm.map Prod.fst).mem_iff.mp h))
  refine ⟨b2, hins, ?_⟩
  intro p
  have e := congrFun (insertEntry_pins hins) p
  have h0 : b.pinCnt p = 0 := hpins p
  rw [e, h0]

/-- Witness for C21: the index over `exampleRelation` with capacities 2 and 2. -/
theorem insertEntry_pin_balance_witness :
    (∀ (s : BufMgr) (key : Int) (rid : RecordId) (s2 : BufMgr),
      insertEntry exampleConsts s key rid = some s2 → ∀ p, s2.pinCnt p = s.pinCnt p) ∧
    ∃ s, buildIndex exampleConsts "relA" 0 Datatype.INTEGER exampleRelation = some s ∧
      (∀ p, s.bufMgr.pinCnt p = 0) ∧
      ∀ key rid, key ∉ exampleRelation.map Prod.fst →
        ∃ b2, insertEntry exampleConsts s.bufMgr key rid = some b2 ∧ ∀ p, b2.pinCnt p = 0 :=
  insertEntry_pin_balance exampleConsts (by decide) (by decide) "relA" 0 Datatype.INTEGER
    exampleRelation (by decide)

/-- C22: pin balance of a scan. Take any index state with no scan active and a
`startScan` that returns: the leaf of the cursor is the one page recorded. After any
number of `scanNext` calls, each returning or raising `IndexScanCompleted`, the scan is
active, the leaf of the cursor is the page recorded last, every page is pinned once
more than before `startScan` for each time it is recorded in `page_nums`; a further
`scanNext` that returns either leaves pins and `page_nums` alone or enters a leaf,
pins it once and records it; and `endScan` returns with every pin count, and the
whole file, as before `startScan`. A `startScan` that raises `NoSuchKeyFound` leaves
no scan active and the pin counts as they were. On every index built from a relation
with pairwise distinct keys (no page pinned) the recorded leaves are pairwise
distinct, so each is pinned exactly once and no other page is pinned, and after
`NoSuchKeyFound` no page is pinned. -/
theorem scan_pin_balance (c : Consts) (hL : 1 ≤ c.INTARRAYLEAFSIZE)
    (hN : 1 ≤ c.INTARRAYNONLEAFSIZE) (name : String) (off : Int) (ty : Datatype)
    (rel : List (Int × RecordId)) (hnd : (rel.map Prod.fst).Nodup)
    (lo : Int) (lop : Operator) (hi : Int) (hop : Operator) :
    (∀ s0 : BTreeIndex, s0.scanExecuting = false →
      (∀ s1, startScan s0 lo lop hi hop = Res.ok () s1 →
        recordedPages s1 = [s1.currentPageData] ∧
        ∀ n s2, scanCalls n s1 = some s2 →
          s2.scanExecuting = true ∧
          (recordedPages s2).getLast? = some s2.currentPageData ∧
          (∀ p, s2.bufMgr.pinCnt p = s0.bufMgr.pinCnt p + (recordedPages s2).count p) ∧
          (∀ r s3, scanNext s2 = Res.ok r s3 →
            (s3.bufMgr = s2.bufMgr ∧ recordedPages s3 = recordedPages s2 ∧
              s3.currentPageData = s2.currentPageData) ∨
            (recordedPages s3 = recordedPages s2 ++ [s3.currentPageData] ∧
              s3.bufMgr.pinCnt = Function.update s2.bufMgr.pinCnt s3.currentPageData
                (s2.bufMgr.pinCnt s3.currentPageData + 1))) ∧
          ∃ s3, endScan s2 = Res.ok () s3 ∧ s3.scanExecuting = false ∧
            s3.bufMgr = s0.bufMgr) ∧
      (∀ s1, startScan s0 lo lop hi hop = Res.throw Exn.NoSuchKeyFound s1 →
        s1.scanExecuting = false ∧ s1.bufMgr = s0.bufMgr)) ∧
    ∃ s, buildIndex c name off ty rel = some s ∧ (∀ p, s.bufMgr.pinCnt p = 0) ∧
      (∀ s1 n s2, startScan s lo lop hi hop = Res.ok () s1 → scanCalls n s1 = some s2 →
        (recordedPages s2).Nodup ∧
        ∀ p, s2.bufMgr.pinCnt p = if p ∈ recordedPages s2 then 1 else 0) ∧
      (∀ s1, startScan s lo lop hi hop = Res.throw Exn.NoSuchKeyFound s1 →
        ∀ p, s1.bufMgr.pinCnt p = 0) := by
  have hgen : ∀ s0 : BTreeIndex, s0.scanExecuting = false →
      startScan s0 lo lop hi hop = startScanBody s0 lo lop hi hop := by
    intro s0 hx
    unfold startScan
    simp [hx]
  constructor
  · intro s0 hx
    constructor
    · intro s1 hstart
      rw [hgen s0 hx] at hstart
      obtain ⟨hx1, hp1, hrec1, -, -, -⟩ := startScanBody_ok_pins hstart
      have hl1 : (recordedPages s1).getLast? = some s1.currentPageData := by
        rw [hrec1]
        rfl
      refine ⟨hrec1, ?_⟩
      intro n s2 hcalls
      obtain ⟨hx2, hp2, hl2⟩ := scanCalls_pins n s1 s2 hcalls hx1 hp1 hl1
      refine ⟨hx2, hl2, hp2.2.2, ?_, endScan_pins hx2 hp2⟩
      intro r s3 hnext
      obtain ⟨-, -, -, hstep⟩ := scanNext_ok_pins hnext hp2 hl2
      rcases hstep with h | ⟨h1, -, -, h2, -⟩
      · exact Or.inl h
      · exact Or.inr ⟨h1, h2⟩
    · intro s1 hthrow
      rw [hgen s0 hx] at hthrow
      obtain ⟨-, h1, h2⟩ := startScanBody_throw_state hthrow
      exact ⟨h1.trans hx, h2⟩
  · obtain ⟨b, G, kvs, hbuild, hinv, -⟩ := buildIndex_spec hL hN name off ty rel hnd
    have hpins := buildIndex_pins hbuild
    obtain ⟨lv0, ups, hG, hs⟩ := id hinv
    subst hG
    refine ⟨mkIndex b, hbuild, hpins, ?_, ?_⟩
    · intro s1 n s2 hstart hcalls
      exact hinv.scan_pins_once hpins rfl rfl hstart hcalls
    · intro s1 hthrow p
      rw [hgen (mkIndex b) rfl] at hthrow
      obtain ⟨-, -, h2⟩ := startScanBody_throw_state hthrow
      rw [h2]
      exact hpins p

/-- Witness for C22: the scan `[2, 5]`, for the general part and for the index over
`exampleRelation` (capacities 2 and 2), and a run of it over `sampleIndex`
(capacities 4 and 4, keys 0..9): after six calls of `scanNext` (four return, two raise
`IndexScanCompleted`) the scan has recorded and pinned the leaves 2, 3 and 5, once
each. -/
theorem scan_pin_balance_witness :
    ((∀ s0 : BTreeIndex, s0.scanExecuting = false →
      (∀ s1, startScan s0 2 Operator.GTE 5 Operator.LTE = Res.ok () s1 →
        recordedPages s1 = [s1.currentPageData] ∧
        ∀ n s2, scanCalls n s1 = some s2 →
          s2.scanExecuting = true ∧
          (recordedPages s2).getLast? = some s2.currentPageData ∧
          (∀ p, s2.bufMgr.pinCnt p = s0.bufMgr.pinCnt p + (recordedPages s2).count p) ∧
          (∀ r s3, scanNext s2 = Res.ok r s3 →
            (s3.bufMgr = s2.bufMgr ∧ recordedPages s3 = recordedPages s2 ∧
              s3.currentPageData = s2.currentPageData) ∨
            (recordedPages s3 = recordedPages s2 ++ [s3.currentPageData] ∧
              s3.bufMgr.pinCnt = Function.update s2.bufMgr.pinCnt s3.currentPageData
                (s2.bufMgr.pinCnt s3.currentPageData + 1))) ∧
          ∃ s3, endScan s2 = Res.ok () s3 ∧ s3.scanExecuting = false ∧
            s3.bufMgr = s0.bufMgr) ∧
      (∀ s1, startScan s0 2 Operator.GTE 5 Operator.LTE = Res.throw Exn.NoSuchKeyFound s1 →
        s1.scanExecuting = false ∧ s1.bufMgr = s0.bufMgr)) ∧
    ∃ s, buildIndex exampleConsts "relA" 0 Datatype.INTEGER exampleRelation = some s ∧
      (∀ p, s.bufMgr.pinCnt p = 0) ∧
      (∀ s1 n s2, startScan s 2 Operator.GTE 5 Operator.LTE = Res.ok () s1 →
        scanCalls n s1 = some s2 →
        (recordedPages s2).Nodup ∧
        ∀ p, s2.bufMgr.pinCnt p = if p ∈ recordedPages s2 then 1 else 0) ∧
      (∀ s1, startScan s 2 Operator.GTE 5 Operator.LTE = Res.throw Exn.NoSuchKeyFound s1 →
        ∀ p, s1.bufMgr.pinCnt p = 0)) ∧
    startScan sampleIndex 2 Operator.GTE 5 Operator.LTE = Res.ok () sampleScan ∧
    ∃ s2, scanCalls 6 sampleScan = some s2 ∧ recordedPages s2 = [2, 3, 5] ∧
      s2.bufMgr.pinCnt 2 = 1 ∧ s2.bufMgr.pinCnt 3 = 1 ∧ s2.bufMgr.pinCnt 5 = 1 ∧
      s2.bufMgr.pinCnt 4 = 0 :=
  ⟨scan_pin_balance exampleConsts (by decide) (by decide) "relA" 0 Datatype.INTEGER
      exampleRelation (by decide) 2 Operator.GTE 5 Operator.LTE,
    rfl, _, rfl, rfl, rfl, rfl, rfl, rfl⟩

/-! ## Claims on the replacement of the root -/

/-- C29: root replacement. Whenever the push-up loop of `insertEntry` finds that the
node just split is the root named by the header, it allocates a fresh page, stores in
it an internal node with exactly one key (the push-up key) and the two children
(left id, right id), with the level flag 1 exactly when the left id is the leaf the
descent reached, and sets `rootPageNo` to that page. On every index built from a
relation with pairwise distinct keys, `insertEntry` of a new key returns and either
leaves the header as it is, or has split the root: the new root is on the page
allocated last, it has one key, its children are the old root (left) and the page
allocated before the new root (right), both pages are new, its level flag is 1
exactly when the old root was a leaf (otherwise 0), and the old root page still holds
a node of the same kind. In particular the insert into the full root leaf on page 2
creates a root with level 1. -/
theorem root_replacement (c : Consts) (hL : 1 ≤ c.INTARRAYLEAFSIZE)
    (hN : 1 ≤ c.INTARRAYNONLEAFSIZE) (name : String) (off : Int) (ty : Datatype)
    (rel : List (Int × RecordId)) (hnd : (rel.map Prod.fst).Nodup) :
    (∀ (b : BufMgr) (h : IndexMetaInfo) (fuel leaf_num right : Nat) (push : Int),
      b.file headerPageNum = some (Page.header h) → 1 ≤ b.numPages →
      ∃ b2, insertEntryLoop c (fuel + 1) b leaf_num h.rootPageNo right push = some b2 ∧
        b2.numPages = b.numPages + 1 ∧
        b2.file headerPageNum = some (Page.header { h with rootPageNo := b.numPages + 1 }) ∧
        b2.file (b.numPages + 1) = some (Page.nonLeaf
          { level := if h.rootPageNo = leaf_num then 1 else 0
            keyArray := [push]
            pageNoArray := [h.rootPageNo, right] }) ∧
        ∀ p, p ≠ headerPageNum → p ≠ b.numPages + 1 → b2.file p = b.file p) ∧
    ∃ s h, buildIndex c name off ty rel = some s ∧
      s.bufMgr.file headerPageNum = some (Page.header h) ∧
      ∀ key rid, key ∉ rel.map Prod.fst →
        ∃ b2 h2, insertEntry c s.bufMgr key rid = some b2 ∧
          b2.file headerPageNum = some (Page.header h2) ∧
          (h2 = h ∨
            (h2.rootPageNo = b2.numPages ∧ s.bufMgr.numPages + 1 < b2.numPages ∧
              ∃ n k, b2.file h2.rootPageNo = some (Page.nonLeaf n) ∧ n.keyArray = [k] ∧
                n.pageNoArray = [h.rootPageNo, b2.numPages - 1] ∧
                (n.level = 1 ∨ n.level = 0) ∧
                (n.level = 1 ↔ ∃ l, s.bufMgr.file h.rootPageNo = some (Page.leaf l)) ∧
                (n.level = 1 ↔ ∃ l2, b2.file h.rootPageNo = some (Page.leaf l2)) ∧
                (n.level = 0 ↔ ∃ m2, b2.file h.rootPageNo = some (Page.nonLeaf m2)))) ∧
          (rel.length = c.INTARRAYLEAFSIZE →
            h.rootPageNo = 2 ∧ h2.rootPageNo = b2.numPages ∧
            ∃ n, b2.file h2.rootPageNo = some (Page.nonLeaf n) ∧ n.level = 1 ∧
              n.pageNoArray = [2, b2.numPages - 1]) := by
  constructor
  · intro b h fuel leaf_num right push hhdr hnp
    have hn1 : headerPageNum ≠ b.numPages + 1 := header_ne_of_two_le (by omega)
    have hrun := insertEntryLoop_root (c := c) fuel leaf_num right push hhdr hn1
    refine ⟨_, hrun, rfl, ?_, ?_, ?_⟩
    · show Function.update (Function.update b.file headerPageNum _) (b.numPages + 1) _ _ = _
      rw [Function.update_noteq hn1, Function.update_same]
    · show Function.update (Function.update b.file headerPageNum _) (b.numPages + 1) _ _ = _
      rw [Function.update_same]
    · intro p hp1 hp2
      show Function.update (Function.update b.file headerPageNum _) (b.numPages + 1) _ p = _
      rw [Function.update_noteq hp2, Function.update_noteq hp1]
  · obtain ⟨b, G, kvs, hbuild, hg, hperm⟩ := buildIndex_grown hL hN name off ty rel hnd
    have hinv := hg.inv
    obtain ⟨lv0, ups, hG, hs⟩ := id hinv
    subst hG
    obtain ⟨h, hhdr, -, -⟩ := hs.hdr
    obtain ⟨hk1, hk2⟩ := hinv.root_kind hhdr
    refine ⟨mkIndex b, h, hbuild, hhdr, ?_⟩
    intro key rid hkey
    have hkey2 : key ∉ kvs.map Prod.fst := fun hm => hkey ((hperm.map Prod.fst).mem_iff.mp hm)
    obtain ⟨b2, hins, hres⟩ := hinv.insertEntry_root_effect hL hN hhdr key rid hkey2
    obtain ⟨b2', G2, kvs2, hins2, hinv2, hperm2⟩ := insertEntry_spec hL hN hinv key rid hkey2
    rw [hins] at hins2
    have hb2 : b2 = b2' := Option.some.inj hins2
    subst hb2
    have hmain : ∀ h2, b2.file headerPageNum = some (Page.header h2) →
        h2 = h ∨
          (h2.rootPageNo = b2.numPages ∧ b.numPages + 1 < b2.numPages ∧
            ∃ n k, b2.file h2.rootPageNo = some (Page.nonLeaf n) ∧ n.keyArray = [k] ∧
              n.pageNoArray = [h.rootPageNo, b2.numPages - 1] ∧
              (n.level = 1 ∨ n.level = 0) ∧
              (n.level = 1 ↔ ∃ l, b.file h.rootPageNo = some (Page.leaf l)) ∧
              (n.level = 1 ↔ ∃ l2, b2.file h.rootPageNo = some (Page.leaf l2)) ∧
              (n.level = 0 ↔ ∃ m2, b2.file h.rootPageNo = some (Page.nonLeaf m2)) ∧
              (ups = [] → n.level = 1)) := by
      intro h2 hf2
      rcases hres with hsame | ⟨n, k, hlt, hhd2, hroot2, hkeys, hch, hl1, hl0⟩
      · left
        rw [hsame] at hf2
        injection hf2 with hf2
        injection hf2 with hf2
        exact hf2.symm
      · right
        rw [hhd2] at hf2
        have hh2 : h2 = { h with rootPageNo := b2.numPages } := by
          injection hf2 with hf2
          injection hf2 with hf2
          exact hf2.symm
        subst hh2
        have hlevel : n.level = 1 ∨ n.level = 0 := by
          by_cases hu : ups = []
          · exact Or.inl (hl1 hu)
          · exact Or.inr (hl0 hu)
        have hold : n.level = 1 ↔ ∃ l, b.file h.rootPageNo = some (Page.leaf l) := by
          constructor
          · intro e
            by_cases hu : ups = []
            · exact (hk1 hu).2
            · have := hl0 hu
              omega
          · rintro ⟨l, hl⟩
            by_cases hu : ups = []
            · exact hl1 hu
            · obtain ⟨-, m, hm⟩ := hk2 hu
              rw [hl] at hm
              cases hm
        have htree : InTree b2 b2.numPages := ⟨_, hhd2, Reach.here _⟩
        obtain ⟨-, -, -, hkind⟩ := hinv2.internal_node htree hroot2
        have hmem : h.rootPageNo ∈ n.pageNoArray := by
          rw [hch]
          simp
        refine ⟨rfl, hlt, n, k, hroot2, hkeys, hch, hlevel, hold, ?_, ?_, hl1⟩
        · constructor
          · intro e
            rcases hkind with ⟨-, hleaves⟩ | ⟨h0, -⟩
            · exact hleaves _ hmem
            · omega
          · rintro ⟨l2, hl2⟩
            rcases hkind with ⟨h1, -⟩ | ⟨-, hnodes⟩
            · exact h1
            · obtain ⟨m, hm⟩ := hnodes _ hmem
              rw [hl2] at hm
              cases hm
        · constructor
          · intro e
            rcases hkind with ⟨h1, -⟩ | ⟨-, hnodes⟩
            · omega
            · exact hnodes _ hmem
          · rintro ⟨m2, hm2⟩
            rcases hkind with ⟨-, hleaves⟩ | ⟨h0, -⟩
            · obtain ⟨l, hl⟩ := hleaves _ hmem
              rw [hm2] at hl
              cases hl
            · exact h0
    obtain ⟨-, -, -, h2, hf2, -, hiff2⟩ := hinv2.level
    refine ⟨b2, h2, hins, hf2, ?_, ?_⟩
    · rcases hmain h2 hf2 with hsame | ⟨e1, e2, n, k, e3, e4, e5, e6, e7, e8, e9, -⟩
      · exact Or.inl hsame
      · exact Or.inr ⟨e1, e2, n, k, e3, e4, e5, e6, e7, e8, e9⟩
    · intro hlen
      have hklen : kvs.length = c.INTARRAYLEAFSIZE := by rw [hperm.length_eq, hlen]
      have hups : ups = [] := by
        by_contra hu
        have hne : (lv0 :: ups).length ≠ 1 := by
          cases ups with
          | nil => exact absurd rfl hu
          | cons x xs => simp
        have := hg.tall hne
        omega
      obtain ⟨hr2, -⟩ := hk1 hups
      rcases hmain h2 hf2 with hsame | ⟨e1, -, n, k, e3, -, e5, -, -, -, -, e10⟩
      · exfalso
        subst hsame
        have hG2 := hiff2.mp hr2
        have h1 := hinv2.single_leaf_le hG2
        have h2 := hperm2.length_eq
        simp only [List.length_cons] at h2
        omega
      · refine ⟨hr2, e1, n, e3, e10 hups, ?_⟩
        rw [e5, hr2]

/-- Witness for C29: capacities 2 and 2 and the index over the two keys 5 and 17,
whose root is the full leaf on page 2: every insert of a new key replaces the root by
a node with level 1 whose left child is page 2. -/
theorem root_replacement_witness :
    ∃ s h,
      buildIndex exampleConsts "relA" 0 Datatype.INTEGER
        [(5, { page_number := 1, slot_number := 0 }),
          (17, { page_number := 1, slot_number := 1 })] = some s ∧
      s.bufMgr.file headerPageNum = some (Page.header h) ∧
      ∀ key rid, key ∉ [(5 : Int), 17] →
        ∃ b2 h2, insertEntry exampleConsts s.bufMgr key rid = some b2 ∧
          b2.file headerPageNum = some (Page.header h2) ∧
          h.rootPageNo = 2 ∧ h2.rootPageNo = b2.numPages ∧
          ∃ n, b2.file h2.rootPageNo = some (Page.nonLeaf n) ∧ n.level = 1 ∧
            n.pageNoArray = [2, b2.numPages - 1] := by
  obtain ⟨s, h, hb, hh, hall⟩ :=
    (root_replacement exampleConsts (by decide) (by decide) "relA" 0 Datatype.INTEGER
      [(5, { page_number := 1, slot_number := 0 }), (17, { page_number := 1, slot_number := 1 })]
      (by decide)).2
  refine ⟨s, h, hb, hh, ?_⟩
  intro key rid hk
  obtain ⟨b2, h2, hi, hf, -, hfirst⟩ := hall key rid hk
  exact ⟨b2, h2, hi, hf, hfirst rfl⟩

/-! ## Claims on the separators, the height and the termination of the descents -/

/-- C33: the separator invariant that the code maintains. In every index built from a
relation with pairwise distinct keys, and again after every `insertEntry` of a key
that is not yet present, every separator `keyArray[i]` of every internal node of the
tree is itself a key stored in a leaf below `pageNoArray[i]` and is the largest key
stored below `pageNoArray[i]`; so every key below `pageNoArray[i]` is `≤ keyArray[i]`
and every key below `pageNoArray[i+1]` is `> keyArray[i]`. -/
theorem separator_is_subtree_max (c : Consts) (hL : 1 ≤ c.INTARRAYLEAFSIZE)
    (hN : 1 ≤ c.INTARRAYNONLEAFSIZE) (name : String) (off : Int) (ty : Datatype)
    (rel : List (Int × RecordId)) (hnd : (rel.map Prod.fst).Nodup) :
    ∃ s, buildIndex c name off ty rel = some s ∧ SeparatorsAreMax s.bufMgr ∧
      ∀ key rid, key ∉ rel.map Prod.fst →
        ∃ b2, insertEntry c s.bufMgr key rid = some b2 ∧ SeparatorsAreMax b2 := by
  obtain ⟨b, G, kvs, hbuild, hinv, hperm⟩ := buildIndex_spec hL hN name off ty rel hnd
  refine ⟨mkIndex b, hbuild, hinv.separatorsAreMax, ?_⟩
  intro key rid hkey
  have hkey2 : key ∉ kvs.map Prod.fst := by
    intro hmem
    exact hkey ((hperm.map Prod.fst).mem_iff.mp hmem)
  obtain ⟨b2, G2, kvs2, hins, hinv2, -⟩ := insertEntry_spec hL hN hinv key rid hkey2
  exact ⟨b2, hins, hinv2.separatorsAreMax⟩

/-- Witness for C33: the index over `exampleRelation` with capacities 2 and 2. -/
theorem separator_is_subtree_max_witness :
    ∃ s, buildIndex exampleConsts "relA" 0 Datatype.INTEGER exampleRelation = some s ∧
      SeparatorsAreMax s.bufMgr ∧
      ∀ key rid, key ∉ exampleRelation.map Prod.fst →
        ∃ b2, insertEntry exampleConsts s.bufMgr key rid = some b2 ∧ SeparatorsAreMax b2 :=
  separator_is_subtree_max exampleConsts (by decide) (by decide) "relA" 0 Datatype.INTEGER
    exampleRelation (by decide)

/-! ## Claims on what a scan leaves of the file -/

/-- C37: scans are read-only. For every state of the index and every argument, the
state that `startScan`, `scanNext` or `endScan` leaves behind, on a normal return as
well as on an exception, has the same content on every page of the file and the same
number of allocated pages as the state before the call; what changes are the scan
members of the object and the pin counts. -/
theorem scans_read_only (s : BTreeIndex) (lo : Int) (lop : Operator) (hi : Int) (hop : Operator) :
    (∀ s1, (startScan s lo lop hi hop).state = some s1 →
      s1.bufMgr.file = s.bufMgr.file ∧ s1.bufMgr.numPages = s.bufMgr.numPages) ∧
    (∀ s1, (scanNext s).state = some s1 →
      s1.bufMgr.file = s.bufMgr.file ∧ s1.bufMgr.numPages = s.bufMgr.numPages) ∧
    (∀ s1, (endScan s).state = some s1 →
      s1.bufMgr.file = s.bufMgr.file ∧ s1.bufMgr.numPages = s.bufMgr.numPages) :=
  ⟨fun _ h => startScan_file h, fun _ h => scanNext_file h, fun _ h => endScan_file h⟩

/-- Witness for C37: on `sampleIndex` with the scan `[2, 5]` in progress, the three
calls `startScan(3, GTE, 4, LTE)`, `scanNext` and `endScan` all return, and each
leaves the pages and the page count of the file as they were; so does
`startScan(5, GTE, 2, LTE)`, which raises `BadScanrange`. -/
theorem scans_read_only_witness :
    (∃ s1, (startScan sampleScan 3 Operator.GTE 4 Operator.LTE).state = some s1 ∧
      (startScan sampleScan 3 Operator.GTE 4 Operator.LTE).returned = true ∧
      s1.bufMgr.file = sampleScan.bufMgr.file ∧
      s1.bufMgr.numPages = sampleScan.bufMgr.numPages) ∧
    (∃ s1, (scanNext sampleScan).state = some s1 ∧ (scanNext sampleScan).returned = true ∧
      s1.bufMgr.file = sampleScan.bufMgr.file ∧
      s1.bufMgr.numPages = sampleScan.bufMgr.numPages) ∧
    (∃ s1, (endScan sampleScan).state = some s1 ∧ (endScan sampleScan).returned = true ∧
      s1.bufMgr.file = sampleScan.bufMgr.file ∧
      s1.bufMgr.numPages = sampleScan.bufMgr.numPages) ∧
    (∃ s1, (startScan sampleScan 5 Operator.GTE 2 Operator.LTE).state = some s1 ∧
      (startScan sampleScan 5 Operator.GTE 2 Operator.LTE).raised = some Exn.BadScanrange ∧
      s1.bufMgr.file = sampleScan.bufMgr.file ∧
      s1.bufMgr.numPages = sampleScan.bufMgr.numPages) :=
  ⟨⟨_, rfl, rfl,
      (scans_read_only sampleScan 3 Operator.GTE 4 Operator.LTE).1 _ rfl⟩,
    ⟨_, rfl, rfl, (scans_read_only sampleScan 3 Operator.GTE 4 Operator.LTE).2.1 _ rfl⟩,
    ⟨_, rfl, rfl, (scans_read_only sampleScan 3 Operator.GTE 4 Operator.LTE).2.2 _ rfl⟩,
    ⟨_, rfl, rfl, (scans_read_only sampleScan 5 Operator.GTE 2 Operator.LTE).1 _ rfl⟩⟩

/-- C38: the order of the checks in `startScan`. With an inadmissible operator
(`lowOp` not GT or GTE, or `highOp` not LT or LTE) and `low > high`, the call raises
`BadOpcodes` and not `BadScanrange`. With admissible operators and `low > high`, no
key satisfies the scan predicate, and the call raises `BadScanrange` and not
`NoSuchKeyFound`. This holds in every state of the index in which the pages recorded
by a scan in progress are pinned, so that the implicit `endScan` goes through. -/
theorem startScan_error_precedence (s : BTreeIndex) (lo : Int) (lop : Operator) (hi : Int)
    (hop : Operator) (hp : s.scanExecuting = true → PinsHeld s) (hlh : lo > hi) :
    ((¬ (lop = Operator.GT ∨ lop = Operator.GTE) ∨ ¬ (hop = Operator.LT ∨ hop = Operator.LTE)) →
      (startScan s lo lop hi hop).raised = some Exn.BadOpcodes ∧
      (startScan s lo lop hi hop).raised ≠ some Exn.BadScanrange) ∧
    ((lop = Operator.GT ∨ lop = Operator.GTE) → (hop = Operator.LT ∨ hop = Operator.LTE) →
      (∀ key, inScan lo lop hi hop key = false) ∧
      (startScan s lo lop hi hop).raised = some Exn.BadScanrange ∧
      (startScan s lo lop hi hop).raised ≠ some Exn.NoSuchKeyFound) := by
  obtain ⟨s1, h1⟩ := startScan_eq_body s lo lop hi hop hp
  rw [h1]
  obtain ⟨hbad, hrange, -⟩ := startScanBody_raised s1 lo lop hi hop
  refine ⟨fun hops => ?_, fun hl hh => ⟨?_, ?_⟩⟩
  · rw [hbad hops]
    exact ⟨rfl, by decide⟩
  · intro key
    simp only [inScan, Bool.and_eq_false_iff, decide_eq_false_iff_not]
    by_contra hc
    push_neg at hc
    obtain ⟨hc1, hc2⟩ := hc
    split_ifs at hc1 hc2 <;> simp only [decide_eq_true_eq, ne_eq, Bool.not_eq_false] at hc1 hc2 <;>
      omega
  · rw [hrange hl hh hlh]
    exact ⟨rfl, by decide⟩

/-- Witness for C38: `startScan(5, LTE, 2, LTE)` on `sampleIndex`, the call the claim
names, and `startScan(5, GTE, 2, LTE)`. -/
theorem startScan_error_precedence_witness :
    (sampleIndex.scanExecuting = true → PinsHeld sampleIndex) ∧ (5 : Int) > 2 ∧
    (startScan sampleIndex 5 Operator.LTE 2 Operator.LTE).raised = some Exn.BadOpcodes ∧
    (startScan sampleIndex 5 Operator.LTE 2 Operator.LTE).raised ≠ some Exn.BadScanrange ∧
    (∀ key, inScan 5 Operator.GTE 2 Operator.LTE key = false) ∧
    (startScan sampleIndex 5 Operator.GTE 2 Operator.LTE).raised = some Exn.BadScanrange ∧
    (startScan sampleIndex 5 Operator.GTE 2 Operator.LTE).raised ≠ some Exn.NoSuchKeyFound :=
  ⟨(fun h => by cases h), (by decide),
    ((startScan_error_precedence sampleIndex 5 Operator.LTE 2 Operator.LTE
      (fun h => by cases h) (by decide)).1 (Or.inl (by decide))).1,
    ((startScan_error_precedence sampleIndex 5 Operator.LTE 2 Operator.LTE
      (fun h => by cases h) (by decide)).1 (Or.inl (by decide))).2,
    (startScan_error_precedence sampleIndex 5 Operator.GTE 2 Operator.LTE
      (fun h => by cases h) (by decide)).2 (Or.inr rfl) (Or.inr rfl)⟩

/-! ## Claims on what an insert without split leaves of the file -/

/-- C36: the frame of an insert that does not split. On every file on which
`findLeafNode(key)` returns `(q, position, total_key)` with `total_key` less than
`INTARRAYLEAFSIZE`, `insertEntry(key, rid)` returns, and the file it leaves differs
from the file before in the leaf on page `q` only: the key array and the rid array of
that leaf have the new pair at `position`, so `keySize` is one more, and its
`rightSibPageNo` is as before; the header page and every other page, so every
internal node and every other leaf, have the content they had, no page was allocated,
and the pin counts are as before. -/
theorem insertEntry_nosplit_frame (c : Consts) (s : BufMgr) (key : Int) (rid : RecordId)
    (q pos tot : Nat) (hfind : (findLeafNode s key).map Prod.fst = some (q, pos, tot))
    (hlt : tot < c.INTARRAYLEAFSIZE) :
    ∃ l s2, s.file q = some (Page.leaf l) ∧ tot = l.keyArray.length ∧
      insertEntry c s key rid = some s2 ∧
      s2.file q = some (Page.leaf
        { keyArray := insertAt l.keyArray pos key
          ridArray := insertAt l.ridArray pos rid
          rightSibPageNo := l.rightSibPageNo }) ∧
      (insertAt l.keyArray pos key).length = l.keyArray.length + 1 ∧
      s2.file headerPageNum = s.file headerPageNum ∧
      (∀ p, p ≠ q → s2.file p = s.file p) ∧
      s2.numPages = s.numPages ∧ s2.pinCnt = s.pinCnt := by
  obtain ⟨hd, l, hh, hq, -, htot, hins⟩ := @insertEntry_room c s key rid q pos tot hfind hlt
  have hqh : headerPageNum ≠ q := by
    intro he
    rw [← he, hh] at hq
    cases hq
  refine ⟨l, _, hq, htot, hins, ?_, insertAt_length _ _ _, ?_, ?_, rfl, rfl⟩
  · simp only [Function.update_same]
  · simp only [Function.update_noteq hqh]
  · intro p hp
    simp only [Function.update_noteq hp]

/-- Witness for C36: the key -1 on `sampleIndex` (capacities 4 and 4, keys 0..9); the
descent ends at the leaf on page 2, which holds the three keys 0, 1, 2. -/
theorem insertEntry_nosplit_frame_witness :
    (findLeafNode sampleIndex.bufMgr (-1)).map Prod.fst = some (2, 0, 3) ∧
    3 < sampleConsts.INTARRAYLEAFSIZE ∧
    ∃ l s2, sampleIndex.bufMgr.file 2 = some (Page.leaf l) ∧ 3 = l.keyArray.length ∧
      insertEntry sampleConsts sampleIndex.bufMgr (-1) { page_number := 1, slot_number := 10 } =
        some s2 ∧
      s2.file 2 = some (Page.leaf
        { keyArray := insertAt l.keyArray 0 (-1)
          ridArray := insertAt l.ridArray 0 { page_number := 1, slot_number := 10 }
          rightSibPageNo := l.rightSibPageNo }) ∧
      (insertAt l.keyArray 0 (-1)).length = l.keyArray.length + 1 ∧
      s2.file headerPageNum = sampleIndex.bufMgr.file headerPageNum ∧
      (∀ p, p ≠ 2 → s2.file p = sampleIndex.bufMgr.file p) ∧
      s2.numPages = sampleIndex.bufMgr.numPages ∧ s2.pinCnt = sampleIndex.bufMgr.pinCnt :=
  ⟨rfl, by decide,
    insertEntry_nosplit_frame sampleConsts sampleIndex.bufMgr (-1)
      { page_number := 1, slot_number := 10 } 2 0 3 rfl (by decide)⟩

/-! ## Claims on the cursor of a scan -/

/-- C39: the cursor of a scan stays in bounds. On every index built from a relation
with pairwise distinct keys, with no scan in progress, if `startScan` returns
normally then no leaf of the tree is empty, and after any number of calls of
`scanNext` (each of which returns a rid or raises `IndexScanCompleted`; none fails)
the scan is still active and, whenever `currentPageNum` is not the sentinel, the
current page is a leaf of the unchanged file and `0 ≤ nextEntry < keySize` of that
leaf, so that the reads `keyArray[nextEntry]` and `ridArray[nextEntry]` of the next
`scanNext` lie in the filled part of the arrays and that call returns or raises. -/
theorem scan_cursor_in_bounds (c : Consts) (hL : 1 ≤ c.INTARRAYLEAFSIZE)
    (hN : 1 ≤ c.INTARRAYNONLEAFSIZE) (name : String) (off : Int) (ty : Datatype)
    (rel : List (Int × RecordId)) (hnd : (rel.map Prod.fst).Nodup) :
    ∃ s, buildIndex c name off ty rel = some s ∧
      ∀ (s0 : BTreeIndex) (lo : Int) (lop : Operator) (hi : Int) (hop : Operator)
        (s1 : BTreeIndex),
        s0.bufMgr = s.bufMgr → s0.scanExecuting = false →
        startScan s0 lo lop hi hop = Res.ok () s1 →
        (∀ p l, InTree s.bufMgr p → s.bufMgr.file p = some (Page.leaf l) → l.keyArray ≠ []) ∧
        ∀ n, ∃ s2, scanCalls n s1 = some s2 ∧ s2.scanExecuting = true ∧
          s2.bufMgr.file = s.bufMgr.file ∧ (scanNext s2).state ≠ none ∧
          (s2.currentPageNum ≠ INVALID_NUMBER →
            ∃ l, s2.bufMgr.file s2.currentPageNum = some (Page.leaf l) ∧
              s2.currentPageData = s2.currentPageNum ∧
              0 ≤ s2.nextEntry ∧ s2.nextEntry < (l.keyArray.length : Int) ∧
              (getAt l.keyArray s2.nextEntry).isSome = true ∧
              (getAt l.ridArray s2.nextEntry).isSome = true) := by
  obtain ⟨b, G, kvs, hbuild, hinv, -⟩ := buildIndex_spec hL hN name off ty rel hnd
  refine ⟨mkIndex b, hbuild, ?_⟩
  intro s0 lo lop hi hop s1 hb hx hstart
  have hb2 : s0.bufMgr = b := hb
  obtain ⟨hlop, hhop, hle, hcur⟩ := startScan_ok_ops hx hstart
  obtain ⟨lv0, ups, hG, -⟩ := id hinv
  subst hG
  have hfile1 : s1.bufMgr.file = b.file := by
    have := (startScan_file (show (startScan s0 lo lop hi hop).state = some s1 by
      rw [hstart]; rfl)).1
    rw [this, hb2]
  rcases hinv.startScan_spec s0 hb2 hx lo hi lop hop hlop hhop hle _ _ rfl rfl with
    ⟨s1', hthrow, -⟩ | ⟨s1', rem, hok, hc, -, hlen, -⟩
  · rw [hstart] at hthrow
    cases hthrow
  · rw [hstart] at hok
    injection hok with _ hok
    subst hok
    obtain ⟨_, -, -, -, -, -, -, hrem⟩ := hc.bounds hcur
    have hkvs : kvs ≠ [] := by
      intro hk
      rw [hk] at hlen
      exact hrem (List.length_eq_zero.mp (by simpa using hlen))
    refine ⟨fun p l hp hf => hinv.leaves_nonempty hkvs hp hf, ?_⟩
    intro n
    obtain ⟨s2, rem2, hs2, hc2, hf2⟩ := Cursor.scanCalls n s1 rem hc
    refine ⟨s2, hs2, hc2.1, hf2.trans hfile1, hc2.scanNext_returns, ?_⟩
    intro hne
    obtain ⟨l, h1, h2, h3, h4, h5, h6, -⟩ := hc2.bounds hne
    exact ⟨l, h1, h2, h3, h4, h5, h6⟩

/-- Witness for C39: the index over `exampleRelation` with capacities 2 and 2. -/
theorem scan_cursor_in_bounds_witness :
    ∃ s, buildIndex exampleConsts "relA" 0 Datatype.INTEGER exampleRelation = some s ∧
      ∀ (s0 : BTreeIndex) (lo : Int) (lop : Operator) (hi : Int) (hop : Operator)
        (s1 : BTreeIndex),
        s0.bufMgr = s.bufMgr → s0.scanExecuting = false →
        startScan s0 lo lop hi hop = Res.ok () s1 →
        (∀ p l, InTree s.bufMgr p → s.bufMgr.file p = some (Page.leaf l) → l.keyArray ≠ []) ∧
        ∀ n, ∃ s2, scanCalls n s1 = some s2 ∧ s2.scanExecuting = true ∧
          s2.bufMgr.file = s.bufMgr.file ∧ (scanNext s2).state ≠ none ∧
          (s2.currentPageNum ≠ INVALID_NUMBER →
            ∃ l, s2.bufMgr.file s2.currentPageNum = some (Page.leaf l) ∧
              s2.currentPageData = s2.currentPageNum ∧
              0 ≤ s2.nextEntry ∧ s2.nextEntry < (l.keyArray.length : Int) ∧
              (getAt l.keyArray s2.nextEntry).isSome = true ∧
              (getAt l.ridArray s2.nextEntry).isSome = true) :=
  scan_cursor_in_bounds exampleConsts (by decide) (by decide) "relA" 0 Datatype.INTEGER
    exampleRelation (by decide)

/-! ## Claims on the push-up loop of `insertEntry` -/

/-- C31: parent relocation. On every index built from a relation with pairwise
distinct keys, every call `findParentNode(left, push)` that `insertEntry` of a new key
makes in its push-up loop returns, and leaves the buffer manager as it found it. The
parent it returns is the sentinel exactly when `left` is the root that the header
page names at the time of the call (position and key count are then 0). Otherwise the
parent is an internal node of the tree, `left` stands at the returned position of its
child array, and the returned key count is the number of its keys. -/
theorem findParentNode_relocates (c : Consts) (hL : 1 ≤ c.INTARRAYLEAFSIZE)
    (hN : 1 ≤ c.INTARRAYNONLEAFSIZE) (name : String) (off : Int) (ty : Datatype)
    (rel : List (Int × RecordId)) (hnd : (rel.map Prod.fst).Nodup) :
    ∃ s, buildIndex c name off ty rel = some s ∧
      ∀ key rid, key ∉ rel.map Prod.fst →
        ∀ (t : BufMgr) (left : Nat) (push : Int),
          (t, left, push) ∈ findParentCalls c s.bufMgr key rid →
          ∃ hd par pos tot, t.file headerPageNum = some (Page.header hd) ∧
            findParentNode t left push = some ((par, pos, tot), t) ∧
            (par = INVALID_NUMBER ↔ left = hd.rootPageNo) ∧
            (left = hd.rootPageNo → pos = 0 ∧ tot = 0) ∧
            (left ≠ hd.rootPageNo →
              ∃ n, InTree t par ∧ t.file par = some (Page.nonLeaf n) ∧
                n.pageNoArray[pos]? = some left ∧ tot = n.keyArray.length) := by
  obtain ⟨b, hbuild, hcalls⟩ := buildIndex_calls hL hN name off ty rel hnd
  refine ⟨mkIndex b, hbuild, ?_⟩
  intro key rid hkey t left push hmem
  obtain ⟨hd, hhd, hcase⟩ := hcalls key rid hkey (t, left, push) hmem
  rcases hcase with ⟨hroot, hfind, -⟩ | ⟨hne, P, n, hP, htree, hfile, hplace, -, hfind, -⟩
  · exact ⟨hd, INVALID_NUMBER, 0, 0, hhd, hfind, ⟨fun _ => hroot, fun _ => rfl⟩,
      fun _ => ⟨rfl, rfl⟩, fun hne => absurd hroot hne⟩
  · exact ⟨hd, P, _, _, hhd, hfind, ⟨fun e => absurd e hP, fun e => absurd e hne⟩,
      fun e => absurd e hne, fun _ => ⟨n, htree, hfile, hplace, rfl⟩⟩

/-- Witness for C31: the index with capacities 2 and 2 over the keys 0..5 in ascending
order (`fullIndex`). The insert of the key 6 makes two calls of `findParentNode`: for
the split leaf on page 5 with the key 5, which returns the root on page 4, position 2
and key count 2, and for the split root on page 4 with the key 3, which returns the
sentinel. -/
theorem findParentNode_relocates_witness :
    (∃ s, buildIndex exampleConsts "relA" 0 Datatype.INTEGER
        (ascendingRelation 6 fun i => { page_number := 1, slot_number := i }) = some s ∧
      ∀ key rid, key ∉ (ascendingRelation 6 fun i =>
          ({ page_number := 1, slot_number := i } : RecordId)).map Prod.fst →
        ∀ (t : BufMgr) (left : Nat) (push : Int),
          (t, left, push) ∈ findParentCalls exampleConsts s.bufMgr key rid →
          ∃ hd par pos tot, t.file headerPageNum = some (Page.header hd) ∧
            findParentNode t left push = some ((par, pos, tot), t) ∧
            (par = INVALID_NUMBER ↔ left = hd.rootPageNo) ∧
            (left = hd.rootPageNo → pos = 0 ∧ tot = 0) ∧
            (left ≠ hd.rootPageNo →
              ∃ n, InTree t par ∧ t.file par = some (Page.nonLeaf n) ∧
                n.pageNoArray[pos]? = some left ∧ tot = n.keyArray.length)) ∧
    (findParentCalls exampleConsts fullIndex.bufMgr 6 { page_number := 1, slot_number := 6 }).map
        (fun call => (call.2.1, call.2.2,
          (findParentNode call.1 call.2.1 call.2.2).map Prod.fst)) =
      [(5, 5, some (4, 2, 2)), (4, 3, some (0, 0, 0))] :=
  ⟨findParentNode_relocates exampleConsts (by decide) (by decide) "relA" 0 Datatype.INTEGER
    (ascendingRelation 6 fun i => { page_number := 1, slot_number := i }) (by decide), rfl⟩

/-- C32 (as the code has it): on inputs with pairwise distinct keys the strict
comparison in `findParentNode` does not matter. On every index built from a relation
with pairwise distinct keys, every call of `findParentNode` that `insertEntry` of a
new key makes returns, and the search with `keyArray[i] >= key` in place of
`keyArray[i] > key` returns the same parent, position and key count: the key pushed up
is not a key of the parent. -/
theorem findParentNode_strictness_not_needed (c : Consts) (hL : 1 ≤ c.INTARRAYLEAFSIZE)
    (hN : 1 ≤ c.INTARRAYNONLEAFSIZE) (name : String) (off : Int) (ty : Datatype)
    (rel : List (Int × RecordId)) (hnd : (rel.map Prod.fst).Nodup) :
    ∃ s, buildIndex c name off ty rel = some s ∧
      ∀ key rid, key ∉ rel.map Prod.fst →
        ∀ (t : BufMgr) (left : Nat) (push : Int),
          (t, left, push) ∈ findParentCalls c s.bufMgr key rid →
          ∃ r, findParentNode t left push = some (r, t) ∧
            findParentNodeGE t left push = some (r, t) ∧
            ∀ n, t.file r.1 = some (Page.nonLeaf n) → r.1 ≠ INVALID_NUMBER →
              push ∉ n.keyArray := by
  obtain ⟨b, hbuild, hcalls⟩ := buildIndex_calls hL hN name off ty rel hnd
  refine ⟨mkIndex b, hbuild, ?_⟩
  intro key rid hkey t left push hmem
  obtain ⟨hd, hhd, hcase⟩ := hcalls key rid hkey (t, left, push) hmem
  rcases hcase with ⟨-, hfind, hGE⟩ | ⟨-, P, n, -, -, hfile, -, hnotin, hfind, hGE⟩
  · exact ⟨_, hfind, hGE, fun _ _ h0 => absurd rfl h0⟩
  · refine ⟨_, hfind, hGE, ?_⟩
    intro n2 hn2 _
    have hn2' : t.file P = some (Page.nonLeaf n2) := hn2
    rw [hfile] at hn2'
    injection hn2' with hn2'
    injection hn2' with hn2'
    subst hn2'
    exact hnotin

/-- Witness for C32: the index with capacities 2 and 2 over the keys 0..5 in ascending
order (`fullIndex`) and the two calls of `findParentNode` that the insert of the key 6
makes: both searches return page 4, position 2, key count 2 for the first call and the
sentinel for the second. -/
theorem findParentNode_strictness_not_needed_witness :
    (∃ s, buildIndex exampleConsts "relA" 0 Datatype.INTEGER
        (ascendingRelation 6 fun i => { page_number := 1, slot_number := i }) = some s ∧
      ∀ key rid, key ∉ (ascendingRelation 6 fun i =>
          ({ page_number := 1, slot_number := i } : RecordId)).map Prod.fst →
        ∀ (t : BufMgr) (left : Nat) (push : Int),
          (t, left, push) ∈ findParentCalls exampleConsts s.bufMgr key rid →
          ∃ r, findParentNode t left push = some (r, t) ∧
            findParentNodeGE t left push = some (r, t) ∧
            ∀ n, t.file r.1 = some (Page.nonLeaf n) → r.1 ≠ INVALID_NUMBER →
              push ∉ n.keyArray) ∧
    (findParentCalls exampleConsts fullIndex.bufMgr 6 { page_number := 1, slot_number := 6 }).map
        (fun call => ((findParentNode call.1 call.2.1 call.2.2).map Prod.fst,
          (findParentNodeGE call.1 call.2.1 call.2.2).map Prod.fst)) =
      [(some (4, 2, 2), some (4, 2, 2)), (some (0, 0, 0), some (0, 0, 0))] :=
  ⟨findParentNode_strictness_not_needed exampleConsts (by decide) (by decide) "relA" 0
    Datatype.INTEGER (ascendingRelation 6 fun i => { page_number := 1, slot_number := i })
    (by decide), rfl⟩

/-- Counterexample for C32 as the spec states it: there is no sequence of inserts of
pairwise distinct keys, given as a relation from which the index is built followed by
the insert of one more key, during which a call of `findParentNode` made by
`insertEntry` returns a parent or a position that the search with `>=` does not
return. -/
theorem findParentNode_no_distinguishing_insert :
    ¬ ∃ (c : Consts) (name : String) (off : Int) (ty : Datatype) (rel : List (Int × RecordId))
        (s : BTreeIndex) (key : Int) (rid : RecordId) (t : BufMgr) (left : Nat) (push : Int),
      1 ≤ c.INTARRAYLEAFSIZE ∧ 1 ≤ c.INTARRAYNONLEAFSIZE ∧ (rel.map Prod.fst).Nodup ∧
      key ∉ rel.map Prod.fst ∧ buildIndex c name off ty rel = some s ∧
      (t, left, push) ∈ findParentCalls c s.bufMgr key rid ∧
      (findParentNodeGE t left push).map (fun r => (r.1.1, r.1.2.1)) ≠
        (findParentNode t left push).map (fun r => (r.1.1, r.1.2.1)) := by
  rintro ⟨c, name, off, ty, rel, s, key, rid, t, left, push, hL, hN, hnd, hkey, hbuild, hmem,
    hdiff⟩
  obtain ⟨b, hbuild2, hcalls⟩ := buildIndex_calls hL hN name off ty rel hnd
  rw [hbuild] at hbuild2
  injection hbuild2 with hs
  subst hs
  obtain ⟨hd, hhd, hcase⟩ := hcalls key rid hkey (t, left, push) hmem
  rcases hcase with ⟨-, hfind, hGE⟩ | ⟨-, P, n, -, -, -, -, -, hfind, hGE⟩
  · exact hdiff (by
      have h1 : findParentNodeGE t left push = some ((INVALID_NUMBER, 0, 0), t) := hGE
      have h2 : findParentNode t left push = some ((INVALID_NUMBER, 0, 0), t) := hfind
      rw [h1, h2])
  · exact hdiff (by
      have h1 : findParentNodeGE t left push =
          some ((P, searchGT n.keyArray push, n.keyArray.length), t) := hGE
      have h2 : findParentNode t left push =
          some ((P, searchGT n.keyArray push, n.keyArray.length), t) := hfind
      rw [h1, h2])

/-! ## Claims on the height of the tree and on termination -/

/-- C34: balance. Every index built from a relation with pairwise distinct keys has a
height `H`: all leaves below the root lie exactly `H` levels below it. An
`insertEntry` of a new key returns and leaves a tree that again has a height: the
height is `H` when the header page still names the same root, and `H + 1` when the
root was replaced; it changes in no other way. -/
theorem height_balance (c : Consts) (hL : 1 ≤ c.INTARRAYLEAFSIZE)
    (hN : 1 ≤ c.INTARRAYNONLEAFSIZE) (name : String) (off : Int) (ty : Datatype)
    (rel : List (Int × RecordId)) (hnd : (rel.map Prod.fst).Nodup) :
    ∃ s H hd, buildIndex c name off ty rel = some s ∧ Height s.bufMgr H ∧
      s.bufMgr.file headerPageNum = some (Page.header hd) ∧
      ∀ key rid, key ∉ rel.map Prod.fst →
        ∃ b2 hd2, insertEntry c s.bufMgr key rid = some b2 ∧
          b2.file headerPageNum = some (Page.header hd2) ∧
          ((hd2.rootPageNo = hd.rootPageNo ∧ Height b2 H) ∨
            (hd2.rootPageNo ≠ hd.rootPageNo ∧ Height b2 (H + 1))) := by
  obtain ⟨b, G, kvs, hbuild, hinv, hperm⟩ := buildIndex_spec hL hN name off ty rel hnd
  obtain ⟨lv0, ups, hG, -⟩ := id hinv
  subst hG
  have hH := hinv.height
  obtain ⟨hd, hhd, -⟩ := id hH
  refine ⟨mkIndex b, ups.length, hd, hbuild, hH, hhd, ?_⟩
  intro key rid hkey
  have hkey2 : key ∉ kvs.map Prod.fst := by
    intro hmem
    exact hkey ((hperm.map Prod.fst).mem_iff.mp hmem)
  obtain ⟨b2, lv2, ups2, kvs2, hins, hinv2, -, hlev, -⟩ :=
    hinv.insertEntry_trace hL hN key rid hkey2
  have hH2 := hinv2.height
  rcases hlev with ⟨h1, h2⟩ | ⟨h1, hd0, h2, h3, h4⟩
  · refine ⟨b2, hd, hins, ?_, Or.inl ⟨rfl, ?_⟩⟩
    · rw [h2]
      exact hhd
    · rw [← h1]
      exact hH2
  · have hb : b.file headerPageNum = some (Page.header hd) := hhd
    rw [hb] at h2
    injection h2 with h2
    injection h2 with h2
    subst h2
    refine ⟨b2, _, hins, h3, Or.inr ⟨?_, ?_⟩⟩
    · show b2.numPages ≠ hd.rootPageNo
      exact Nat.ne_of_gt h4
    · rw [← h1]
      exact hH2

/-- Witness for C34: the index over `exampleRelation` with capacities 2 and 2. -/
theorem height_balance_witness :
    ∃ s H hd, buildIndex exampleConsts "relA" 0 Datatype.INTEGER exampleRelation = some s ∧
      Height s.bufMgr H ∧ s.bufMgr.file headerPageNum = some (Page.header hd) ∧
      ∀ key rid, key ∉ exampleRelation.map Prod.fst →
        ∃ b2 hd2, insertEntry exampleConsts s.bufMgr key rid = some b2 ∧
          b2.file headerPageNum = some (Page.header hd2) ∧
          ((hd2.rootPageNo = hd.rootPageNo ∧ Height b2 H) ∨
            (hd2.rootPageNo ≠ hd.rootPageNo ∧ Height b2 (H + 1))) :=
  height_balance exampleConsts (by decide) (by decide) "relA" 0 Datatype.INTEGER
    exampleRelation (by decide)

/-- C35: termination. On every index built from a relation with pairwise distinct
keys, with `H` the height of the tree: `findLeafNode` returns for every key and
`findScanPage` for every pair of bounds, and when the root is an internal node their
loops return within `H` rounds, each of which reads one internal node, the last one
the leaf as well, so that one node per level is read. `insertEntry` of a new key
returns; its push-up loop makes at most `H + 1` calls of `findParentNode`, one per
round, and each of them returns. -/
theorem descents_terminate (c : Consts) (hL : 1 ≤ c.INTARRAYLEAFSIZE)
    (hN : 1 ≤ c.INTARRAYNONLEAFSIZE) (name : String) (off : Int) (ty : Datatype)
    (rel : List (Int × RecordId)) (hnd : (rel.map Prod.fst).Nodup) :
    ∃ s H hd, buildIndex c name off ty rel = some s ∧ Height s.bufMgr H ∧
      s.bufMgr.file headerPageNum = some (Page.header hd) ∧
      (∀ key, ∃ r, findLeafNode s.bufMgr key = some (r, s.bufMgr) ∧
        (hd.rootPageNo ≠ 2 →
          findLeafNodeLoop H s.bufMgr hd.rootPageNo key = some (r, s.bufMgr))) ∧
      (∀ lo hi, ∃ r, findScanPage s.bufMgr lo hi = some (r, s.bufMgr) ∧
        (lo ≤ hi → hd.rootPageNo ≠ 2 →
          findScanPageLoop H s.bufMgr hd.rootPageNo lo hi = some (r, s.bufMgr))) ∧
      ∀ key rid, key ∉ rel.map Prod.fst →
        (∃ b2, insertEntry c s.bufMgr key rid = some b2) ∧
        (findParentCalls c s.bufMgr key rid).length ≤ H + 1 ∧
        ∀ (t : BufMgr) (left : Nat) (push : Int),
          (t, left, push) ∈ findParentCalls c s.bufMgr key rid →
          ∃ r, findParentNode t left push = some (r, t) := by
  obtain ⟨b, G, kvs, hbuild, hinv, hperm⟩ := buildIndex_spec hL hN name off ty rel hnd
  obtain ⟨lv0, ups, hG, -⟩ := id hinv
  subst hG
  have hH := hinv.height
  obtain ⟨hd, hhd, -⟩ := id hH
  obtain ⟨hleaf, hscan⟩ := hinv.descents_return hhd
  refine ⟨mkIndex b, ups.length, hd, hbuild, hH, hhd, hleaf, hscan, ?_⟩
  intro key rid hkey
  have hkey2 : key ∉ kvs.map Prod.fst := by
    intro hmem
    exact hkey ((hperm.map Prod.fst).mem_iff.mp hmem)
  obtain ⟨b2, lv2, ups2, kvs2, hins, -, -, -, hlen, hcok, -⟩ :=
    hinv.insertEntry_trace hL hN key rid hkey2
  refine ⟨⟨b2, hins⟩, hlen, ?_⟩
  intro t left push hmem
  obtain ⟨hd2, -, hcase⟩ := hcok (t, left, push) hmem
  rcases hcase with ⟨-, hfind, -⟩ | ⟨-, P, n, -, -, -, -, -, hfind, -⟩
  · exact ⟨_, hfind⟩
  · exact ⟨_, hfind⟩

/-- Witness for C35: the index over `exampleRelation` with capacities 2 and 2. -/
theorem descents_terminate_witness :
    ∃ s H hd, buildIndex exampleConsts "relA" 0 Datatype.INTEGER exampleRelation = some s ∧
      Height s.bufMgr H ∧ s.bufMgr.file headerPageNum = some (Page.header hd) ∧
      (∀ key, ∃ r, findLeafNode s.bufMgr key = some (r, s.bufMgr) ∧
        (hd.rootPageNo ≠ 2 →
          findLeafNodeLoop H s.bufMgr hd.rootPageNo key = some (r, s.bufMgr))) ∧
      (∀ lo hi, ∃ r, findScanPage s.bufMgr lo hi = some (r, s.bufMgr) ∧
        (lo ≤ hi → hd.rootPageNo ≠ 2 →
          findScanPageLoop H s.bufMgr hd.rootPageNo lo hi = some (r, s.bufMgr))) ∧
      ∀ key rid, key ∉ exampleRelation.map Prod.fst →
        (∃ b2, insertEntry exampleConsts s.bufMgr key rid = some b2) ∧
        (findParentCalls exampleConsts s.bufMgr key rid).length ≤ H + 1 ∧
        ∀ (t : BufMgr) (left : Nat) (push : Int),
          (t, left, push) ∈ findParentCalls exampleConsts s.bufMgr key rid →
          ∃ r, findParentNode t left push = some (r, t) :=
  descents_terminate exampleConsts (by decide) (by decide) "relA" 0 Datatype.INTEGER
    exampleRelation (by decide)

end BTree
